import Mathlib

/-! # ProFTPD resource pools (`src/pool.c`)

A shallow embedding of the pool allocator of `src/pool.c` and theorems about it.

Conventions of the embedding.

* Pointers are natural numbers, `0` is `NULL`.
* Every C structure type has its own store, indexed by address: `blk` for
  `union block_hdr`, `pl` for `struct pool`, `cl` for `cleanup_t`, `ah` for
  `array_header`; `mem` holds the bytes that the program reads and writes as
  characters or array elements.
* C `int`, `size_t` and `unsigned` quantities are unbounded integers or naturals:
  the development is about runs in which no such quantity leaves its machine range.
* The system heap never runs out: `malloc` hands out the memory at `brk` and moves
  `brk` past it.
* Loops and the `clear_pool`/`destroy_pool` recursion are driven by a fuel argument;
  `Fault.fuel` reports that it ran out, `Fault.exit` is a call of `exit(1)` and
  `Fault.segv` a write through a null pointer.
* Calling a cleanup callback appends the pair (callback, data) to `log`; callbacks
  are assumed not to call back into the allocator.
-/

namespace Pool

/-- Sizes that `pool.c` takes from the platform and from headers outside the file. -/
structure Cfg where
  /-- The size of `union align`. -/
  CLICK_SZ : Nat
  /-- The size of `union block_hdr`. -/
  BLOCK_HDR_SZ : Nat
  /-- The size of `struct pool`. -/
  POOL_SZ : Nat
  /-- The block grain, a macro of `pool.h`. -/
  BLOCK_MINFREE : Nat
  /-- The size of `cleanup_t`. -/
  CLEANUP_SZ : Nat
  /-- The size of `array_header`. -/
  ARRAY_HDR_SZ : Nat

/-- The macro `POOL_HDR_CLICKS`. -/
def POOL_HDR_CLICKS (c : Cfg) : Nat := 1 + ((c.POOL_SZ - 1) / c.CLICK_SZ)

/-- The macro `POOL_HDR_BYTES`. -/
def POOL_HDR_BYTES (c : Cfg) : Nat := POOL_HDR_CLICKS c * c.CLICK_SZ

/-- The header `h` of `union block_hdr`. -/
structure block_hdr where
  endp : Nat
  next : Nat
  first_avail : Nat
deriving DecidableEq, Repr

/-- The record `struct pool`. -/
structure pool where
  first : Nat
  last : Nat
  cleanups : Nat
  sub_pools : Nat
  sub_next : Nat
  sub_prev : Nat
  parent : Nat
  free_first_avail : Nat
deriving DecidableEq, Repr

/-- The record `cleanup_t`. -/
structure cleanup_t where
  data : Nat
  plain_cleanup_cb : Nat
  child_cleanup_cb : Nat
  next : Nat
deriving DecidableEq, Repr

/-- The record `array_header` (declared in `pool.h`). -/
structure array_header where
  pool : Nat
  elt_size : Int
  nelts : Int
  nalloc : Int
  elts : Nat
deriving DecidableEq, Repr

/-- Ways in which a run does not return. -/
inductive Fault where
  | exit
  | fuel
  | segv
deriving DecidableEq, Repr

/-- The memory and the global variables of `pool.c`. -/
structure State where
  blk : Nat → block_hdr
  pl : Nat → pool
  cl : Nat → cleanup_t
  ah : Nat → array_header
  mem : Nat → Nat
  block_freelist : Nat
  stat_malloc : Nat
  stat_freehit : Nat
  permanent_pool : Nat
  brk : Nat
  log : List (Nat × Nat)

/-- A store with the entry at `a` replaced by `v`. -/
def upd {β : Type} (f : Nat → β) (a : Nat) (v : β) : Nat → β :=
  fun x => if x = a then v else f x

/-- The library call `memset(dst, v, n)`. -/
def memset (m : Nat → Nat) (dst v n : Nat) : Nat → Nat :=
  fun x => if dst ≤ x ∧ x < dst + n then v else m x

/-- The library call `memcpy(dst, src, n)`. -/
def memcpy (m : Nat → Nat) (dst src n : Nat) : Nat → Nat :=
  fun x => if dst ≤ x ∧ x < dst + n then m (src + (x - dst)) else m x

/-- Storing the bytes `bs` from address `dst` on. -/
def store_bytes (m : Nat → Nat) (dst : Nat) (bs : List Nat) : Nat → Nat :=
  fun x => if dst ≤ x ∧ x < dst + bs.length then bs.getD (x - dst) 0 else m x

/-- The `n` bytes found from address `a` on. -/
def load_bytes (m : Nat → Nat) (a n : Nat) : List Nat :=
  (List.range n).map (fun i => m (a + i))

/-- The assignment of a whole block header, `*b = h`. -/
def State.set_blk (s : State) (b : Nat) (h : block_hdr) : State :=
  { s with blk := upd s.blk b h }

/-- The assignment `b->h.next = v`. -/
def State.set_next (s : State) (b v : Nat) : State :=
  s.set_blk b { s.blk b with next := v }

/-- The assignment `b->h.first_avail = v`. -/
def State.set_first_avail (s : State) (b v : Nat) : State :=
  s.set_blk b { s.blk b with first_avail := v }

/-- The assignment of a whole pool record, `*p = r`. -/
def State.set_pl (s : State) (p : Nat) (r : pool) : State :=
  { s with pl := upd s.pl p r }

/-- The assignment of a whole array header, `*a = h`. -/
def State.set_ah (s : State) (a : Nat) (h : array_header) : State :=
  { s with ah := upd s.ah a h }

/-- The assignment of a whole cleanup record, `*cp = r`. -/
def State.set_cl (s : State) (cp : Nat) (r : cleanup_t) : State :=
  { s with cl := upd s.cl cp r }

/-- The replacement of the bytes of the memory. -/
def State.set_mem (s : State) (m : Nat → Nat) : State :=
  { s with mem := m }

/-- The C function `xmalloc`: the system heap serves the request at `brk`; a
negative `int` size is an enormous `size_t`, which `malloc` refuses, and
`null_alloc` then exits. -/
def xmalloc (s : State) (size : Int) : Except Fault (Nat × State) :=
  if size < 0 then .error .exit
  else .ok (s.brk, { s with brk := s.brk + size.toNat })

/-- The C function `malloc_block`. -/
def malloc_block (c : Cfg) (s : State) (size : Int) : Except Fault (Nat × State) :=
  match xmalloc s (size + c.BLOCK_HDR_SZ) with
  | .error e => .error e
  | .ok (blok, s1) =>
    let first_avail := blok + c.BLOCK_HDR_SZ
    .ok (blok, s1.set_blk blok
      { endp := (size + (first_avail : Int)).toNat, next := 0, first_avail := first_avail })

/-- The C function `chk_on_blk_list`. -/
def chk_on_blk_list (s : State) (blok : Nat) : Nat → Nat → Except Fault Unit
  | 0, _ => .error .fuel
  | fuel + 1, free_blk =>
    if free_blk = 0 then .ok ()
    else if free_blk = blok then .error .exit
    else chk_on_blk_list s blok fuel (s.blk free_blk).next

/-- The loop of `free_blocks` with its closing statements. -/
def free_blocks_loop (c : Cfg) (old_free_list : Nat) : Nat → State → Nat → Except Fault State
  | 0, _, _ => .error .fuel
  | fuel + 1, s, blok =>
    if (s.blk blok).next ≠ 0 then
      match chk_on_blk_list s blok fuel old_free_list with
      | .error e => .error e
      | .ok _ =>
        free_blocks_loop c old_free_list fuel
          (s.set_first_avail blok (blok + c.BLOCK_HDR_SZ)) (s.blk blok).next
    else
      match chk_on_blk_list s blok fuel old_free_list with
      | .error e => .error e
      | .ok _ =>
        .ok ((s.set_first_avail blok (blok + c.BLOCK_HDR_SZ)).set_next blok old_free_list)

/-- The C function `free_blocks`. -/
def free_blocks (c : Cfg) (fuel : Nat) (s : State) (blok : Nat) : Except Fault State :=
  if blok = 0 then .ok s
  else free_blocks_loop c s.block_freelist fuel { s with block_freelist := blok } blok

/-- The assignment `*lastptr = v` of `new_block`: `lastptr` is `&block_freelist`
(`none`) or `&b->h.next` (`some b`). -/
def store_lastptr (s : State) (lastptr : Option Nat) (v : Nat) : State :=
  match lastptr with
  | none => { s with block_freelist := v }
  | some b => s.set_next b v

/-- The rounding of `min_size` at the head of `new_block`, in `int` arithmetic. -/
def round_min_size (c : Cfg) (min_size : Int) : Int :=
  (1 + Int.tdiv (min_size - 1) c.BLOCK_MINFREE) * c.BLOCK_MINFREE

/-- The loop of `new_block` and the `malloc` that follows it; `min_size` is
already rounded. -/
def new_block_scan (c : Cfg) (min_size : Int) (s : State) :
    Nat → Option Nat → Nat → Except Fault (Nat × State)
  | 0, _, _ => .error .fuel
  | fuel + 1, lastptr, blok =>
    if blok = 0 then
      malloc_block c { s with stat_malloc := s.stat_malloc + 1 } min_size
    else if min_size ≤ ((s.blk blok).endp : Int) - ((s.blk blok).first_avail : Int) then
      let s1 := store_lastptr s lastptr (s.blk blok).next
      let s2 := s1.set_next blok 0
      .ok (blok, { s2 with stat_freehit := s2.stat_freehit + 1 })
    else new_block_scan c min_size s fuel (some blok) (s.blk blok).next

/-- The C function `new_block`. -/
def new_block (c : Cfg) (fuel : Nat) (s : State) (min_size : Int) : Except Fault (Nat × State) :=
  new_block_scan c (round_min_size c min_size) s fuel none s.block_freelist

/-- The C function `bytes_in_block_list`. -/
def bytes_in_block_list (c : Cfg) (s : State) : Nat → Nat → Nat → Except Fault Nat
  | 0, _, _ => .error .fuel
  | fuel + 1, blok, size =>
    if blok = 0 then .ok size
    else bytes_in_block_list c s fuel (s.blk blok).next
      (size + ((s.blk blok).endp - (blok + c.BLOCK_HDR_SZ)))

/-- The C function `__walk_pools`, returning the per-pool figures it logs, in the
order in which it logs them, and its total. -/
def walk_pools (c : Cfg) (s : State) : Nat → Nat → Except Fault (List Nat × Nat)
  | 0, _ => .error .fuel
  | fuel + 1, p =>
    if p = 0 then .ok ([], 0)
    else
      match bytes_in_block_list c s fuel (s.pl p).first 0 with
      | .error e => .error e
      | .ok b =>
        match walk_pools c s fuel (s.pl p).sub_pools with
        | .error e => .error e
        | .ok (l1, t1) =>
          match walk_pools c s fuel (s.pl p).sub_next with
          | .error e => .error e
          | .ok (l2, t2) => .ok (b :: (l1 ++ l2), b + t1 + t2)

/-- The C function `make_sub_pool`. -/
def make_sub_pool (c : Cfg) (fuel : Nat) (s : State) (p : Nat) : Except Fault (Nat × State) :=
  match new_block c fuel s 0 with
  | .error e => .error e
  | .ok (blok, s1) =>
    let new_pool := (s1.blk blok).first_avail
    let s2 := s1.set_first_avail blok ((s1.blk blok).first_avail + POOL_HDR_BYTES c)
    let s3 := s2.set_pl new_pool
      { first := blok, last := blok, cleanups := 0, sub_pools := 0, sub_next := 0, sub_prev := 0,
        parent := 0, free_first_avail := (s2.blk blok).first_avail }
    if p ≠ 0 then
      let s4 := s3.set_pl new_pool
        { s3.pl new_pool with parent := p, sub_next := (s3.pl p).sub_pools }
      let nxt := (s4.pl new_pool).sub_next
      let s5 := if nxt ≠ 0 then s4.set_pl nxt { s4.pl nxt with sub_prev := new_pool } else s4
      .ok (new_pool, s5.set_pl p { s5.pl p with sub_pools := new_pool })
    else .ok (new_pool, s3)

/-- The C function `pr_init_pools`. -/
def pr_init_pools (c : Cfg) (fuel : Nat) (s : State) : Except Fault State :=
  if s.permanent_pool = 0 then
    match make_sub_pool c fuel s 0 with
    | .error e => .error e
    | .ok (p, s1) => .ok { s1 with permanent_pool := p }
  else .ok s

/-- The C function `run_cleanups`. -/
def run_cleanups : Nat → State → Nat → Except Fault State
  | 0, _, _ => .error .fuel
  | fuel + 1, s, cp =>
    if cp = 0 then .ok s
    else run_cleanups fuel
      { s with log := s.log ++ [((s.cl cp).plain_cleanup_cb, (s.cl cp).data)] } (s.cl cp).next

/-- The unlinking of `p` from its parent at the head of `destroy_pool`. -/
def unlink_pool (s : State) (p : Nat) : State :=
  if (s.pl p).parent ≠ 0 then
    let par := (s.pl p).parent
    let s1 :=
      if (s.pl par).sub_pools = p then s.set_pl par { s.pl par with sub_pools := (s.pl p).sub_next }
      else s
    let prv := (s1.pl p).sub_prev
    let s2 :=
      if prv ≠ 0 then s1.set_pl prv { s1.pl prv with sub_next := (s1.pl p).sub_next } else s1
    let nxt := (s2.pl p).sub_next
    if nxt ≠ 0 then s2.set_pl nxt { s2.pl nxt with sub_prev := (s2.pl p).sub_prev } else s2
  else s

mutual
/-- The C function `clear_pool`. -/
def clear_pool (c : Cfg) : Nat → State → Nat → Except Fault State
  | 0, _, _ => .error .fuel
  | fuel + 1, s, p =>
    if p = 0 then .ok s
    else
      match run_cleanups fuel s (s.pl p).cleanups with
      | .error e => .error e
      | .ok s1 =>
        let s2 := s1.set_pl p { s1.pl p with cleanups := 0 }
        match destroy_sub_pools c fuel s2 p with
        | .error e => .error e
        | .ok s3 =>
          let s4 := s3.set_pl p { s3.pl p with sub_pools := 0 }
          match free_blocks c fuel s4 (s4.blk (s4.pl p).first).next with
          | .error e => .error e
          | .ok s5 =>
            let s6 := s5.set_next (s5.pl p).first 0
            let s7 := s6.set_pl p { s6.pl p with last := (s6.pl p).first }
            .ok (s7.set_first_avail (s7.pl p).first (s7.pl p).free_first_avail)
/-- The loop `while (p->sub_pools) destroy_pool(p->sub_pools)` of `clear_pool`. -/
def destroy_sub_pools (c : Cfg) : Nat → State → Nat → Except Fault State
  | 0, _, _ => .error .fuel
  | fuel + 1, s, p =>
    if (s.pl p).sub_pools ≠ 0 then
      match destroy_pool c fuel s (s.pl p).sub_pools with
      | .error e => .error e
      | .ok s1 => destroy_sub_pools c fuel s1 p
    else .ok s
/-- The C function `destroy_pool`. -/
def destroy_pool (c : Cfg) : Nat → State → Nat → Except Fault State
  | 0, _, _ => .error .fuel
  | fuel + 1, s, p =>
    match clear_pool c fuel (unlink_pool s p) p with
    | .error e => .error e
    | .ok s1 => free_blocks c fuel s1 (s1.pl p).first
end

/-- The C function `palloc`. -/
def palloc (c : Cfg) (fuel : Nat) (s : State) (p : Nat) (reqsize : Int) :
    Except Fault (Nat × State) :=
  let nclicks : Nat := 1 + ((reqsize - 1).toNat / c.CLICK_SZ)
  let size : Nat := nclicks * c.CLICK_SZ
  let blok := (s.pl p).last
  let first_avail := (s.blk blok).first_avail
  if reqsize ≤ 0 then .ok (0, s)
  else
    let new_first_avail := first_avail + size
    if new_first_avail ≤ (s.blk blok).endp then
      .ok (first_avail, s.set_first_avail blok new_first_avail)
    else
      match new_block c fuel s size with
      | .error e => .error e
      | .ok (blok, s1) =>
        let s2 := s1.set_next (s1.pl p).last blok
        let s3 := s2.set_pl p { s2.pl p with last := blok }
        let first_avail := (s3.blk blok).first_avail
        .ok (first_avail, s3.set_first_avail blok ((s3.blk blok).first_avail + size))

/-- The C function `pcalloc`. -/
def pcalloc (c : Cfg) (fuel : Nat) (s : State) (p : Nat) (size : Int) :
    Except Fault (Nat × State) :=
  match palloc c fuel s p size with
  | .error e => .error e
  | .ok (res, s1) =>
    if size < 0 then .error .segv
    else .ok (res, s1.set_mem (memset s1.mem res 0 size.toNat))

/-- Modelled from the spec: `sstrcat(dest, src, n)` is declared in `support.c`, which
is not among the sources at hand; it is the bounded append with which `pstrcat` and
`pdircat` fill their buffer: the characters of `src` are appended to the string in
`dest` for as long as the string stays shorter than `n`. Strings are given by their
characters, the closing NUL left out. -/
def sstrcat (dest src : List Nat) (n : Nat) : List Nat :=
  dest ++ src.take (n - 1 - dest.length)

/-- The character `*s` of a C string: its first character, or the closing NUL. -/
def first_char (s : List Nat) : Nat := s.headD 0

/-- The expression `(*s ? s[strlen(s) - 1] : 0)`. -/
def last_char (s : List Nat) : Nat := if first_char s ≠ 0 then s.getLastD 0 else 0

/-- The character `'/'`. -/
def SLASH : Nat := 47

/-- The first loop of `pstrcat`, from the value `len` on. -/
def pstrcat_len : List (List Nat) → Nat → Nat
  | [], len => len
  | res :: rest, len => pstrcat_len rest (len + res.length)

/-- The second loop of `pstrcat`: `res` is the string in the buffer, `n` is `len + 1`. -/
def pstrcat_fill (n : Nat) : List (List Nat) → List Nat → List Nat
  | [], res => res
  | argp :: rest, res => pstrcat_fill n rest (sstrcat res argp n)

/-- The C function `pstrcat`, called with the strings `args` and a closing `NULL`. The
string built by the second loop is stored, with its NUL, in the zeroed buffer. -/
def pstrcat (c : Cfg) (fuel : Nat) (s : State) (p : Nat) (args : List (List Nat)) :
    Except Fault (Nat × State) :=
  let len := pstrcat_len args 0
  match pcalloc c fuel s p ((len : Int) + 1) with
  | .error e => .error e
  | .ok (res, s1) =>
    let str := pstrcat_fill (len + 1) args []
    .ok (res, s1.set_mem (store_bytes s1.mem res (str ++ [0])))

/-- The first loop of `pdircat`, from the values `len`, `count` and `last` on. -/
def pdircat_len : List (List Nat) → Int → Nat → Nat → Int
  | [], len, _, _ => len
  | res :: rest, len, count, last =>
    let len1 :=
      if count = 0 ∧ first_char res = 0 then len + 1
      else if last ≠ 0 ∧ last ≠ SLASH ∧ first_char res ≠ SLASH then len + 1
      else if last ≠ 0 ∧ last = SLASH ∧ first_char res = SLASH then len - 1
      else len
    pdircat_len rest (len1 + res.length) (count + 1) (last_char res)

/-- The second loop of `pdircat`: `res` is the string in the buffer, `n` is `len + 1`. -/
def pdircat_fill (n : Nat) : List (List Nat) → List Nat → Nat → List Nat
  | [], res, _ => res
  | argp :: rest, res, last =>
    let res2 :=
      if last ≠ 0 ∧ last = SLASH ∧ first_char argp = SLASH then sstrcat res argp.tail n
      else if last ≠ 0 ∧ last ≠ SLASH ∧ first_char argp ≠ SLASH then
        sstrcat (sstrcat res [SLASH] n) argp n
      else sstrcat res argp n
    pdircat_fill n rest res2 (last_char res2)

/-- The C function `pdircat`, called with the strings `args` and a closing `NULL`. The
string built by the second loop is stored, with its NUL, in the zeroed buffer. -/
def pdircat (c : Cfg) (fuel : Nat) (s : State) (p : Nat) (args : List (List Nat)) :
    Except Fault (Nat × State) :=
  let len := pdircat_len args 0 0 0
  match pcalloc c fuel s p (len + 1) with
  | .error e => .error e
  | .ok (res, s1) =>
    let str := pdircat_fill (len + 1).toNat args [] 0
    .ok (res, s1.set_mem (store_bytes s1.mem res (str ++ [0])))

/-- The characters of a string literal. -/
def bytes (s : String) : List Nat := s.toList.map Char.toNat

/-- The C string found at `a`: at most `n` characters, up to the first NUL. -/
def cstr_at (m : Nat → Nat) (a : Nat) : Nat → List Nat
  | 0 => []
  | n + 1 => if m a = 0 then [] else m a :: cstr_at m (a + 1) n

/-- The C function `make_array`. -/
def make_array (c : Cfg) (fuel : Nat) (s : State) (p : Nat) (nelts elt_size : Int) :
    Except Fault (Nat × State) :=
  match palloc c fuel s p c.ARRAY_HDR_SZ with
  | .error e => .error e
  | .ok (res, s1) =>
    let nelts := if nelts < 1 then 1 else nelts
    match pcalloc c fuel s1 p (nelts * elt_size) with
    | .error e => .error e
    | .ok (elts, s2) =>
      if res = 0 then .error .segv
      else .ok (res, s2.set_ah res
        { elts := elts, pool := p, elt_size := elt_size, nelts := 0, nalloc := nelts })

/-- The C function `push_array`. -/
def push_array (c : Cfg) (fuel : Nat) (s : State) (arr : Nat) : Except Fault (Nat × State) :=
  let grown : Except Fault State :=
    if (s.ah arr).nelts = (s.ah arr).nalloc then
      match pcalloc c fuel s (s.ah arr).pool ((s.ah arr).nalloc * (s.ah arr).elt_size * 2) with
      | .error e => .error e
      | .ok (new_data, s1) =>
        let s2 := s1.set_mem (memcpy s1.mem new_data (s1.ah arr).elts
          ((s1.ah arr).nalloc * (s1.ah arr).elt_size).toNat)
        let s3 := s2.set_ah arr { s2.ah arr with elts := new_data }
        .ok (s3.set_ah arr { s3.ah arr with nalloc := (s3.ah arr).nalloc * 2 })
    else .ok s
  match grown with
  | .error e => .error e
  | .ok s4 =>
    let s5 := s4.set_ah arr { s4.ah arr with nelts := (s4.ah arr).nelts + 1 }
    .ok ((((s5.ah arr).elts : Int) + (s5.ah arr).elt_size * ((s5.ah arr).nelts - 1)).toNat, s5)

/-- The C function `register_cleanup`. -/
def register_cleanup (c : Cfg) (fuel : Nat) (s : State) (p data plain_cleanup_cb
    child_cleanup_cb : Nat) : Except Fault State :=
  match pcalloc c fuel s p c.CLEANUP_SZ with
  | .error e => .error e
  | .ok (cp, s1) =>
    if cp = 0 then .error .segv
    else
      let s2 := s1.set_cl cp
        { data := data, plain_cleanup_cb := plain_cleanup_cb,
          child_cleanup_cb := child_cleanup_cb, next := (s1.pl p).cleanups }
      .ok (s2.set_pl p { s2.pl p with cleanups := cp })

/-- The list `l` is the chain of nodes met from `h` on by following `nx` up to `NULL`. -/
def Chain (nx : Nat → Nat) : Nat → List Nat → Prop
  | h, [] => h = 0
  | h, a :: l => h = a ∧ a ≠ 0 ∧ Chain nx (nx a) l

/-- Whether a list is the chain from a node is decided by walking it. -/
instance Chain.decide (nx : Nat → Nat) : (h : Nat) → (l : List Nat) → Decidable (Chain nx h l)
  | h, [] => inferInstanceAs (Decidable (h = 0))
  | h, a :: l =>
    have := Chain.decide nx (nx a) l
    inferInstanceAs (Decidable (h = a ∧ a ≠ 0 ∧ Chain nx (nx a) l))

/-- The field `h.next` of the block at `b`. -/
def State.nxt (s : State) (b : Nat) : Nat := (s.blk b).next

/-- The payload capacity `endp - first_avail` that `new_block` compares with `min_size`. -/
def State.room (s : State) (b : Nat) : Int := ((s.blk b).endp : Int) - ((s.blk b).first_avail : Int)

/-- The walk of `new_block` along the free list `l`, told abstractly: the first block
with room for `min_size`, together with the `lastptr` in force when it is met. -/
def scan_ptr (s : State) (min_size : Int) : Option Nat → List Nat → Option (Option Nat × Nat)
  | _, [] => none
  | lp, a :: l => if min_size ≤ s.room a then some (lp, a) else scan_ptr s min_size (some a) l

/-- The statements of `new_block` that take the block `b` off the free list, `lp`
being the value of `lastptr`. -/
def take_free (s : State) (lp : Option Nat) (b : Nat) : State :=
  { (store_lastptr s lp (s.blk b).next).set_next b 0 with stat_freehit := s.stat_freehit + 1 }

/-- The value of `lastptr` after the loop of `new_block` has gone past the blocks `l`. -/
def lastptr_after (l : List Nat) : Option Nat :=
  match l.getLast? with
  | none => none
  | some a => some a

/-- The size that `palloc` allots for a request of `reqsize` bytes: `nclicks * CLICK_SZ`. -/
def click_size (c : Cfg) (reqsize : Int) : Nat :=
  (1 + ((reqsize - 1).toNat / c.CLICK_SZ)) * c.CLICK_SZ

/-- The size that `new_block` looks for when asked for `n > 0` bytes. -/
def block_size (c : Cfg) (n : Nat) : Nat :=
  (1 + (n - 1) / c.BLOCK_MINFREE) * c.BLOCK_MINFREE

/-- The state in which `malloc_block` hands out a fresh block of capacity `R`, counted
in `stat_malloc`. -/
def fresh_block (c : Cfg) (s : State) (R : Nat) : State :=
  { s with stat_malloc := s.stat_malloc + 1, brk := s.brk + (R + c.BLOCK_HDR_SZ),
           blk := upd s.blk s.brk
             { endp := s.brk + c.BLOCK_HDR_SZ + R, next := 0,
               first_avail := s.brk + c.BLOCK_HDR_SZ } }

/-- The outcome of `new_block` for the rounded size `R` in a state whose free list is `L`:
the first block of `L` with room for `R` is taken off the list, or no block of `L` has
room and a fresh block is allotted. -/
def NewBlock (c : Cfg) (s : State) (L : List Nat) (R : Nat) (b : Nat) (s1 : State) : Prop :=
  (∃ L1 L2, L = L1 ++ b :: L2 ∧ (∀ x ∈ L1, ¬ (R : Int) ≤ s.room x) ∧ (R : Int) ≤ s.room b ∧
      s1 = take_free s (lastptr_after L1) b) ∨
  ((∀ x ∈ L, ¬ (R : Int) ≤ s.room x) ∧ b = s.brk ∧ s1 = fresh_block c s R)

/-- The statements of `palloc` that follow `new_block`: the block `blok` is linked after
the tail of `p` and `size` bytes are carved from it. -/
def link_block (s1 : State) (p blok size : Nat) : State :=
  let s2 := s1.set_next (s1.pl p).last blok
  let s3 := s2.set_pl p { s2.pl p with last := blok }
  s3.set_first_avail blok ((s3.blk blok).first_avail + size)

/-- What a caller of `new_block` can rely on, the free list `L` being made of empty
blocks: `b` is the block returned and `s1` the state left. -/
structure Got (c : Cfg) (s s1 : State) (L : List Nat) (R b : Nat) : Prop where
  ne_zero : b ≠ 0
  origin : (b ∈ L ∧ s1.brk = s.brk ∧ s1.stat_malloc = s.stat_malloc ∧
              s1.stat_freehit = s.stat_freehit + 1) ∨
           (b = s.brk ∧ s1.brk = s.brk + (R + c.BLOCK_HDR_SZ) ∧
              s1.stat_malloc = s.stat_malloc + 1 ∧ s1.stat_freehit = s.stat_freehit ∧
              s1.block_freelist = s.block_freelist)
  free : Chain s1.nxt s1.block_freelist (L.erase b)
  pl_eq : s1.pl = s.pl
  cl_eq : s1.cl = s.cl
  ah_eq : s1.ah = s.ah
  mem_eq : s1.mem = s.mem
  log_eq : s1.log = s.log
  perm_eq : s1.permanent_pool = s.permanent_pool
  next_eq : (s1.blk b).next = 0
  avail_eq : (s1.blk b).first_avail = b + c.BLOCK_HDR_SZ
  room : b + c.BLOCK_HDR_SZ + R ≤ (s1.blk b).endp
  endp_eq : ∀ x, x ≠ s.brk → (s1.blk x).endp = (s.blk x).endp
  first_avail_eq : ∀ x, x ≠ s.brk → (s1.blk x).first_avail = (s.blk x).first_avail
  frame : ∀ x, x ∉ L → x ≠ s.brk → s1.blk x = s.blk x

/-- The sizes of an LP64 platform, with a block grain of 512 bytes. -/
def lp64 : Cfg :=
  { CLICK_SZ := 8, BLOCK_HDR_SZ := 24, POOL_SZ := 64, BLOCK_MINFREE := 512, CLEANUP_SZ := 32,
    ARRAY_HDR_SZ := 32 }

/-- A process before `pr_init_pools`: no pool, no block, the system heap starting at 4096. -/
def boot : State :=
  { blk := fun _ => ⟨0, 0, 0⟩, pl := fun _ => ⟨0, 0, 0, 0, 0, 0, 0, 0⟩, cl := fun _ => ⟨0, 0, 0, 0⟩,
    ah := fun _ => ⟨0, 0, 0, 0, 0⟩, mem := fun _ => 0, block_freelist := 0, stat_malloc := 0,
    stat_freehit := 0, permanent_pool := 0, brk := 4096, log := [] }

/-- The state of a run that returned, `boot` when it did not. -/
def state_of (r : Except Fault State) : State :=
  match r with
  | .ok s => s
  | .error _ => boot

/-- The state of the second component of a run that returned, `boot` when it did not. -/
def state_of2 (r : Except Fault (Nat × State)) : State :=
  match r with
  | .ok (_, s) => s
  | .error _ => boot

/-- The process after `pr_init_pools`: the permanent pool is at 4120, in the block at 4096. -/
def world : State := state_of (pr_init_pools lp64 1 boot)

/-- The pool `p` is ready to serve `palloc`: `L` is the free list, made of empty blocks
that lie below `brk`; `C` is the chain of `p` from `p->first` to `p->last`, made of
blocks that are not on the free list, lie below `brk` and have their `first_avail` past
their header. -/
structure Ready (c : Cfg) (s : State) (p : Nat) (L C : List Nat) : Prop where
  free : Chain s.nxt s.block_freelist L
  empty : ∀ x ∈ L, (s.blk x).first_avail = x + c.BLOCK_HDR_SZ
  below : ∀ x ∈ L, x < s.brk
  chain : Chain s.nxt (s.pl p).first C
  last : C.getLast? = some (s.pl p).last
  sep : ∀ x ∈ C, x ∉ L ∧ x < s.brk
  avail : ∀ x ∈ C, x + c.BLOCK_HDR_SZ ≤ (s.blk x).first_avail

/-- The bytes at `a` hold the string `str` and its closing NUL. -/
def IsCStr (m : Nat → Nat) (a : Nat) (str : List Nat) : Prop :=
  load_bytes m a (str.length + 1) = str ++ [0]

/-- The text that the spec gives for `pdircat`, one step: the argument `a` is appended
to the text `acc` built so far; it loses its leading slash when `acc` ends with a
slash, and a slash is put before it when `acc` does not end with a slash and `a` does not
begin with one. -/
def dircat_step (acc a : List Nat) : List Nat :=
  if acc.getLast? = some SLASH ∧ a.head? = some SLASH then acc ++ a.tail
  else if acc.getLast? ≠ some SLASH ∧ a.head? ≠ some SLASH then acc ++ SLASH :: a
  else acc ++ a

/-- The text that the spec gives for `pdircat`: the arguments after the first are appended
to the first, left to right, by `dircat_step`. -/
def dircat_text : List (List Nat) → List Nat
  | [] => []
  | a :: rest => rest.foldl dircat_step a

/-- The byte at `a` is memory that `palloc(p, ...)` may hand out next: it lies in the
unused part of the tail of `p`, in the payload of a block of the free list `L`, or in
the system heap past `brk`. -/
def Unused (c : Cfg) (s : State) (p : Nat) (L : List Nat) (a : Nat) : Prop :=
  ((s.blk (s.pl p).last).first_avail ≤ a ∧ a < (s.blk (s.pl p).last).endp) ∨
  (∃ b ∈ L, b + c.BLOCK_HDR_SZ ≤ a ∧ a < (s.blk b).endp) ∨
  s.brk ≤ a

/-- The statement `*(int *) push_array(arr) = v` for a value below 256, on a platform
with four-byte little-endian `int`s. -/
def push_int (c : Cfg) (fuel : Nat) (s : State) (arr v : Nat) : Except Fault State :=
  match push_array c fuel s arr with
  | .error e => .error e
  | .ok (slot, s1) => .ok (s1.set_mem (store_bytes s1.mem slot [v, 0, 0, 0]))

/-- The statements `arr = make_array(p, 2, sizeof(int))` and five pushes, of the values
11, 22, 33, 44 and 55, on the permanent pool of `world`. -/
def five_pushes : Except Fault (Nat × State) :=
  match make_array lp64 1 world 4120 2 4 with
  | .error e => .error e
  | .ok (arr, s0) =>
    match push_int lp64 1 s0 arr 11 with
    | .error e => .error e
    | .ok s1 =>
      match push_int lp64 1 s1 arr 22 with
      | .error e => .error e
      | .ok s2 =>
        match push_int lp64 1 s2 arr 33 with
        | .error e => .error e
        | .ok s3 =>
          match push_int lp64 1 s3 arr 44 with
          | .error e => .error e
          | .ok s4 =>
            match push_int lp64 1 s4 arr 55 with
            | .error e => .error e
            | .ok s5 => .ok (arr, s5)

/-- The state after `arr = make_array(p, 2, sizeof(int))` and the pushes of 11 and 22 on
the permanent pool of `world`: the array at 4184 is full. -/
def full_array : State :=
  state_of (push_int lp64 1 (state_of (push_int lp64 1
    (state_of2 (make_array lp64 1 world 4120 2 4)) 4184 11)) 4184 22)

/-- The field `next` of the cleanup record at `a`. -/
def State.cnxt (s : State) (a : Nat) : Nat := (s.cl a).next

/-- The call that `run_cleanups` makes for the cleanup record at `a`: the plain callback
and its data argument. -/
def State.call (s : State) (a : Nat) : Nat × Nat := ((s.cl a).plain_cleanup_cb, (s.cl a).data)

/-- The parts of the state that neither `clear_pool` nor `destroy_pool` touches. -/
def Kept (s s1 : State) : Prop :=
  s1.cl = s.cl ∧ s1.ah = s.ah ∧ s1.mem = s.mem ∧ s1.brk = s.brk ∧
  s1.stat_malloc = s.stat_malloc ∧ s1.stat_freehit = s.stat_freehit ∧
  s1.permanent_pool = s.permanent_pool

/-- A list of sibling pools with their descendants, as `sub_pools` and `sub_next` lay it
out: `node p chain cln kids sibs` is the pool `p`, its chain of blocks, its list of
cleanup records, the list of its sub-pools (from `p->sub_pools`) and the siblings that
follow it (from `p->sub_next`). -/
inductive PT where
  | nil : PT
  | node (p : Nat) (chain : List Nat) (cln : List Nat) (kids : PT) (sibs : PT) : PT

/-- The pools of a list of siblings and of their descendants, a pool before its sub-pools
and these before its later siblings. -/
def PT.pools : PT → List Nat
  | .nil => []
  | .node p _ _ kids sibs => p :: (kids.pools ++ sibs.pools)

/-- The blocks on the chains of the pools of `t`. -/
def PT.blocks : PT → List Nat
  | .nil => []
  | .node _ chain _ kids sibs => chain ++ (kids.blocks ++ sibs.blocks)

/-- The cleanup records of the pools of `t`: those of a pool, head of its list first,
then those of its sub-pools, then those of its later siblings. -/
def PT.records : PT → List Nat
  | .nil => []
  | .node _ _ cln kids sibs => cln ++ (kids.records ++ sibs.records)

/-- The free list after the pools of `t` have been destroyed one after the other, `L`
being the free list before. -/
def PT.freed : PT → List Nat → List Nat
  | .nil, L => L
  | .node _ chain _ kids sibs, L => sibs.freed (chain ++ kids.freed L)

/-- The records of `s` lay out the list of siblings `t` from the pool at `a` on: `par` is
the parent of these pools and `prev` the sibling before the first of them. -/
def Rep (s : State) : PT → Nat → Nat → Nat → Prop
  | .nil, a, _, _ => a = 0
  | .node p chain cln kids sibs, a, par, prev =>
    a = p ∧ p ≠ 0 ∧ (s.pl p).parent = par ∧ (s.pl p).sub_prev = prev ∧
    Chain s.nxt (s.pl p).first chain ∧ chain.getLast? = some (s.pl p).last ∧
    Chain s.cnxt (s.pl p).cleanups cln ∧
    Rep s kids (s.pl p).sub_pools p 0 ∧ Rep s sibs (s.pl p).sub_next par p

/-- The state `s1` left by the loop of `clear_pool` that destroys the sub-pools `t` of
`par`, in terms of the state `s` before it, `L` being the free list of `s`. -/
structure Destroyed (c : Cfg) (s s1 : State) (par : Nat) (t : PT) (L : List Nat) : Prop where
  free : Chain s1.nxt s1.block_freelist (t.freed L)
  reset : ∀ b ∈ t.blocks,
    (s1.blk b).first_avail = b + c.BLOCK_HDR_SZ ∧ (s1.blk b).endp = (s.blk b).endp
  blk_frame : ∀ b, b ∉ t.blocks → s1.blk b = s.blk b
  par_eq : s1.pl par = { s.pl par with sub_pools := 0 }
  pl_frame : ∀ x, x ∉ t.pools → x ≠ par → s1.pl x = s.pl x
  log_eq : s1.log = s.log ++ t.records.map s.call
  kept : Kept s s1

/-- The loop of `clear_pool` that destroys the sub-pools returns, on every well-formed
state that lays out `t` as the sub-pools of a pool, and leaves a state as `Destroyed`
tells. -/
def ForestSpec (c : Cfg) (t : PT) : Prop :=
  ∀ (s : State) (par : Nat) (L : List Nat), par ≠ 0 →
    Rep s t (s.pl par).sub_pools par 0 → Chain s.nxt s.block_freelist L →
    (t.blocks ++ L).Nodup → (par :: t.pools).Nodup →
    ∃ N s1, (∀ fuel, N ≤ fuel → destroy_sub_pools c fuel s par = .ok s1) ∧
      Destroyed c s s1 par t L

/-- The pool `p` of the state `s` is well formed, with its descendants: `chain` is its
chain of blocks, `cln` its list of cleanup records, `kids` lays out its sub-pools, `L` is
the free list, no block is on two of these lists or twice on one, and no pool occurs
twice. -/
structure Owns (s : State) (p : Nat) (chain cln : List Nat) (kids : PT) (L : List Nat) :
    Prop where
  ne_zero : p ≠ 0
  is_chain : Chain s.nxt (s.pl p).first chain
  has_last : chain.getLast? = some (s.pl p).last
  is_cln : Chain s.cnxt (s.pl p).cleanups cln
  is_kids : Rep s kids (s.pl p).sub_pools p 0
  is_free : Chain s.nxt s.block_freelist L
  nodup_blocks : (chain ++ (kids.blocks ++ L)).Nodup
  nodup_pools : (p :: kids.pools).Nodup

/-- The state `s1` left by `clear_pool(p)`, in terms of the state `s` before it. -/
structure Cleared (c : Cfg) (s s1 : State) (p : Nat) (chain cln : List Nat) (kids : PT)
    (L : List Nat) : Prop where
  free : Chain s1.nxt s1.block_freelist (chain.tail ++ kids.freed L)
  reset : ∀ b ∈ chain.tail ++ kids.blocks,
    (s1.blk b).first_avail = b + c.BLOCK_HDR_SZ ∧ (s1.blk b).endp = (s.blk b).endp
  first_blk : s1.blk (s.pl p).first =
    { s.blk (s.pl p).first with next := 0, first_avail := (s.pl p).free_first_avail }
  blk_frame : ∀ b, b ∉ chain ++ kids.blocks → s1.blk b = s.blk b
  p_eq : s1.pl p = { s.pl p with cleanups := 0, sub_pools := 0, last := (s.pl p).first }
  pl_frame : ∀ x, x ∉ kids.pools → x ≠ p → s1.pl x = s.pl x
  log_eq : s1.log = s.log ++ (cln ++ kids.records).map s.call
  kept : Kept s s1

/-- The state `s1` left by `destroy_pool(p)`, in terms of the state `su` in which `p` has
just been unlinked from its parent. -/
structure Gone (c : Cfg) (su s1 : State) (p : Nat) (chain cln : List Nat) (kids : PT)
    (L : List Nat) : Prop where
  free : Chain s1.nxt s1.block_freelist (chain ++ kids.freed L)
  reset : ∀ b ∈ chain ++ kids.blocks,
    (s1.blk b).first_avail = b + c.BLOCK_HDR_SZ ∧ (s1.blk b).endp = (su.blk b).endp
  blk_frame : ∀ b, b ∉ chain ++ kids.blocks → s1.blk b = su.blk b
  p_eq : s1.pl p = { su.pl p with cleanups := 0, sub_pools := 0, last := (su.pl p).first }
  pl_frame : ∀ x, x ∉ kids.pools → x ≠ p → s1.pl x = su.pl x
  log_eq : s1.log = su.log ++ (cln ++ kids.records).map su.call
  kept : Kept su s1

/-- Whether the records lay out a list of siblings is decided by walking it. -/
instance Rep.decide (s : State) : (t : PT) → (a par prev : Nat) → Decidable (Rep s t a par prev)
  | .nil, a, _, _ => inferInstanceAs (Decidable (a = 0))
  | .node p chain cln kids sibs, a, par, prev =>
    have := Rep.decide s kids (s.pl p).sub_pools p 0
    have := Rep.decide s sibs (s.pl p).sub_next par p
    inferInstanceAs (Decidable (a = p ∧ p ≠ 0 ∧ (s.pl p).parent = par ∧ (s.pl p).sub_prev = prev ∧
      Chain s.nxt (s.pl p).first chain ∧ chain.getLast? = some (s.pl p).last ∧
      Chain s.cnxt (s.pl p).cleanups cln ∧
      Rep s kids (s.pl p).sub_pools p 0 ∧ Rep s sibs (s.pl p).sub_next par p))

/-- A process with three pools: after `pr_init_pools`, the pool `A` (at 4656) is made
under the permanent pool, 10 and then 4000 bytes are allotted from `A`, the pool `B` (at
9312) is made under `A`, the cleanups (callback 1, data 111) and (callback 2, data 222)
are registered on `A` in this order and the cleanup (callback 3, data 333) on `B`. -/
def town : State :=
  let s1 := state_of2 (make_sub_pool lp64 1 world 4120)
  let s2 := state_of2 (palloc lp64 1 s1 4656 10)
  let s3 := state_of2 (palloc lp64 1 s2 4656 4000)
  let s4 := state_of2 (make_sub_pool lp64 1 s3 4656)
  let s5 := state_of (register_cleanup lp64 1 s4 4656 111 1 1)
  let s6 := state_of (register_cleanup lp64 1 s5 4656 222 2 2)
  state_of (register_cleanup lp64 1 s6 9312 333 3 3)

/-- The sum that `bytes_in_block_list` makes over the chain `l`: the capacities
`endp - (blok + 1)` of its blocks. -/
def chain_bytes (c : Cfg) (s : State) (l : List Nat) : Nat :=
  (l.map (fun b => (s.blk b).endp - (b + c.BLOCK_HDR_SZ))).sum

/-- The figures and the total of `__walk_pools` on the list of siblings `t`. -/
def PT.walk (c : Cfg) (s : State) : PT → List Nat × Nat
  | .nil => ([], 0)
  | .node _ chain _ kids sibs =>
    (chain_bytes c s chain :: ((PT.walk c s kids).1 ++ (PT.walk c s sibs).1),
      chain_bytes c s chain + (PT.walk c s kids).2 + (PT.walk c s sibs).2)

/-- The state in which `make_sub_pool(p)` has set up the pool record in the block `blok`
that `new_block` returned in the state `s1`, and linked it at the head of the sub-pools
of `p`. -/
def link_pool (c : Cfg) (s1 : State) (p blok : Nat) : State :=
  let new_pool := (s1.blk blok).first_avail
  let s2 := s1.set_first_avail blok ((s1.blk blok).first_avail + POOL_HDR_BYTES c)
  let s3 := s2.set_pl new_pool
    { first := blok, last := blok, cleanups := 0, sub_pools := 0, sub_next := 0, sub_prev := 0,
      parent := 0, free_first_avail := (s2.blk blok).first_avail }
  if p ≠ 0 then
    let s4 := s3.set_pl new_pool
      { s3.pl new_pool with parent := p, sub_next := (s3.pl p).sub_pools }
    let nxt := (s4.pl new_pool).sub_next
    let s5 := if nxt ≠ 0 then s4.set_pl nxt { s4.pl nxt with sub_prev := new_pool } else s4
    s5.set_pl p { s5.pl p with sub_pools := new_pool }
  else s3

/-- The region `r = (ptr, n)` lies in the allotted part of the payload of a block of the
chain `C` of the pool `p`, past the pool header when the block is the first of the pool,
and starts a multiple of `CLICK_SZ` past the payload start. -/
def Placed (c : Cfg) (s : State) (p : Nat) (C : List Nat) (r : Nat × Nat) : Prop :=
  ∃ x ∈ C,
    (if x = (s.pl p).first then x + c.BLOCK_HDR_SZ + POOL_HDR_BYTES c else x + c.BLOCK_HDR_SZ)
      ≤ r.1 ∧
    r.1 + r.2 ≤ (s.blk x).first_avail ∧ (s.blk x).first_avail ≤ (s.blk x).endp ∧
    c.CLICK_SZ ∣ r.1 - (x + c.BLOCK_HDR_SZ)

/-- Two regions `(ptr, n)` do not overlap. -/
def Apart (r1 r2 : Nat × Nat) : Prop := r1.1 + r1.2 ≤ r2.1 ∨ r2.1 + r2.2 ≤ r1.1

/-- The blocks at `x` and `y`, from their headers to their `endp`, do not overlap. -/
def BlocksApart (s : State) (x y : Nat) : Prop := (s.blk x).endp ≤ y ∨ (s.blk y).endp ≤ x

/-- The pool `p` with the chain `C`, in a state with the free list `L`, has served the
regions `used` and is ready to serve more: the blocks of `C` and `L` lie below `brk` and
do not overlap, the bump pointers of `C` are within their blocks and a multiple of
`CLICK_SZ` past the payload start, the first block holds the pool header, and the regions
served lie in the allotted parts of the blocks of `C` without overlapping. -/
structure Arena (c : Cfg) (s : State) (p : Nat) (L C : List Nat) (used : List (Nat × Nat)) :
    Prop where
  ready : Ready c s p L C
  head : C.head? = some (s.pl p).first
  hdr : (s.pl p).first + c.BLOCK_HDR_SZ + POOL_HDR_BYTES c ≤ (s.blk (s.pl p).first).first_avail
  fits : ∀ x ∈ C, (s.blk x).first_avail ≤ (s.blk x).endp
  free_fits : ∀ x ∈ L, x + c.BLOCK_HDR_SZ ≤ (s.blk x).endp
  under : ∀ x ∈ C ++ L, (s.blk x).endp ≤ s.brk
  apart : (C ++ L).Pairwise (BlocksApart s)
  align : ∀ x ∈ C, c.CLICK_SZ ∣ (s.blk x).first_avail - (x + c.BLOCK_HDR_SZ)
  placed : ∀ r ∈ used, Placed c s p C r
  disjoint : used.Pairwise Apart

/-- A run of `palloc` calls on the pool `p`, one for each size of the list, with the
pointers returned. -/
def pallocs (c : Cfg) (fuel : Nat) : State → Nat → List Int → Except Fault (List Nat × State)
  | s, _, [] => .ok ([], s)
  | s, p, n :: rest =>
    match palloc c fuel s p n with
    | .error e => .error e
    | .ok (r, s1) =>
      match pallocs c fuel s1 p rest with
      | .error e => .error e
      | .ok (rs, s2) => .ok (r :: rs, s2)

/-- The free list `L` of the state `s` is in order before a pool is made: its blocks are
empty, end past their header and below `brk`, and no two of them overlap. -/
structure FreeHeap (c : Cfg) (s : State) (L : List Nat) : Prop where
  free : Chain s.nxt s.block_freelist L
  empty : ∀ x ∈ L, (s.blk x).first_avail = x + c.BLOCK_HDR_SZ
  fits : ∀ x ∈ L, x + c.BLOCK_HDR_SZ ≤ (s.blk x).endp
  under : ∀ x ∈ L, (s.blk x).endp ≤ s.brk
  below : ∀ x ∈ L, x < s.brk
  apart : L.Pairwise (BlocksApart s)
  brk_pos : 0 < s.brk

/-- The `town` after `clear_pool` on its pool at 4656: the blocks at 5168 and 9288 are on
the free list. -/
def cleared_town : State := state_of (clear_pool lp64 10 town 4656)

/-- The C function `copy_array_hdr`; the fields of `res` are assigned one by one. -/
def copy_array_hdr (c : Cfg) (fuel : Nat) (s : State) (p arr : Nat) :
    Except Fault (Nat × State) :=
  match palloc c fuel s p c.ARRAY_HDR_SZ with
  | .error e => .error e
  | .ok (res, s1) =>
    if res = 0 then .error .segv
    else
      let s2 := s1.set_ah res { s1.ah res with elts := (s1.ah arr).elts }
      let s3 := s2.set_ah res { s2.ah res with pool := p }
      let s4 := s3.set_ah res { s3.ah res with elt_size := (s3.ah arr).elt_size }
      let s5 := s4.set_ah res { s4.ah res with nelts := (s4.ah arr).nelts }
      .ok (res, s5.set_ah res { s5.ah res with nalloc := (s5.ah arr).nelts })

/-- The loop `while (dst->nelts + src->nelts > new_size) new_size *= 2` of `array_cat`,
`need` being the sum. -/
def array_cat_size (need : Int) : Nat → Int → Except Fault Int
  | 0, _ => .error .fuel
  | fuel + 1, new_size =>
    if need > new_size then array_cat_size need fuel (new_size * 2) else .ok new_size

/-- The library call `memcpy(dst, src, n)` with a count computed in `int`: a negative
count is an enormous `size_t`. -/
def memcpy_int (s : State) (dst src : Nat) (n : Int) : Except Fault State :=
  if n < 0 then .error .segv else .ok (s.set_mem (memcpy s.mem dst src n.toNat))

/-- The C function `array_cat`. -/
def array_cat (c : Cfg) (fuel : Nat) (s : State) (dst src : Nat) : Except Fault State :=
  let elt_size := (s.ah dst).elt_size
  let grown : Except Fault State :=
    if (s.ah dst).nelts + (s.ah src).nelts > (s.ah dst).nalloc then
      let new_size := (s.ah dst).nalloc * 2
      let new_size := if new_size = 0 then new_size + 1 else new_size
      match array_cat_size ((s.ah dst).nelts + (s.ah src).nelts) fuel new_size with
      | .error e => .error e
      | .ok new_size =>
        match pcalloc c fuel s (s.ah dst).pool (elt_size * new_size) with
        | .error e => .error e
        | .ok (new_data, s1) =>
          match memcpy_int s1 new_data (s1.ah dst).elts ((s1.ah dst).nalloc * elt_size) with
          | .error e => .error e
          | .ok s2 =>
            let s3 := s2.set_ah dst { s2.ah dst with elts := new_data }
            .ok (s3.set_ah dst { s3.ah dst with nalloc := new_size })
    else .ok s
  match grown with
  | .error e => .error e
  | .ok s4 =>
    match memcpy_int s4 (((s4.ah dst).elts : Int) + (s4.ah dst).nelts * elt_size).toNat
        (s4.ah src).elts (elt_size * (s4.ah src).nelts) with
    | .error e => .error e
    | .ok s5 => .ok (s5.set_ah dst { s5.ah dst with nelts := (s5.ah dst).nelts + (s5.ah src).nelts })

/-- The C function `append_arrays`. -/
def append_arrays (c : Cfg) (fuel : Nat) (s : State) (p first second : Nat) :
    Except Fault (Nat × State) :=
  match copy_array_hdr c fuel s p first with
  | .error e => .error e
  | .ok (res, s1) =>
    match array_cat c fuel s1 res second with
    | .error e => .error e
    | .ok s2 => .ok (res, s2)

/-- The assignments of `copy_array_hdr` to the fields of `res`, after its `palloc`. -/
def fill_hdr (s1 : State) (p res arr : Nat) : State :=
  let s2 := s1.set_ah res { s1.ah res with elts := (s1.ah arr).elts }
  let s3 := s2.set_ah res { s2.ah res with pool := p }
  let s4 := s3.set_ah res { s3.ah res with elt_size := (s3.ah arr).elt_size }
  let s5 := s4.set_ah res { s4.ah res with nelts := (s4.ah arr).nelts }
  s5.set_ah res { s5.ah res with nalloc := (s5.ah arr).nelts }

/-- The assignment `*lastp = v` of `unregister_cleanup`: `lastp` is `&p->cleanups`
(`none`) or `&c->next` (`some c`). -/
def store_lastp (s : State) (p : Nat) (lastp : Option Nat) (v : Nat) : State :=
  match lastp with
  | none => s.set_pl p { s.pl p with cleanups := v }
  | some a => s.set_cl a { s.cl a with next := v }

/-- The loop of `unregister_cleanup`. -/
def unregister_cleanup_loop (p data cleanup_cb : Nat) (s : State) :
    Nat → Option Nat → Nat → Except Fault State
  | 0, _, _ => .error .fuel
  | fuel + 1, lastp, cp =>
    if cp = 0 then .ok s
    else if (s.cl cp).data = data ∧ (s.cl cp).plain_cleanup_cb = cleanup_cb then
      .ok (store_lastp s p lastp (s.cl cp).next)
    else unregister_cleanup_loop p data cleanup_cb s fuel (some cp) (s.cl cp).next

/-- The C function `unregister_cleanup`. -/
def unregister_cleanup (fuel : Nat) (s : State) (p data cleanup_cb : Nat) : Except Fault State :=
  unregister_cleanup_loop p data cleanup_cb s fuel none (s.pl p).cleanups

/-- The size `R` that a request of `min_size >= 0` bytes stands for, in the words of the
specification: `BLOCK_MINFREE * max(1, ceil(min_size / BLOCK_MINFREE))`. -/
def rounded_size (c : Cfg) (min_size : Nat) : Nat :=
  c.BLOCK_MINFREE * max 1 ((min_size + c.BLOCK_MINFREE - 1) / c.BLOCK_MINFREE)

/-- The library calls that `pfopen` makes and the constants of `fcntl.h` and `sys/stat.h`
that it uses; `file_cleanup_cb` and `file_child_cleanup_cb` are the addresses of the two
static callbacks. A descriptor is an `int`, a stream a pointer. -/
structure Libc where
  sys_open : List Nat → Nat → Nat → Int
  fdopen : Int → List Nat → Nat
  fopen : List Nat → List Nat → Nat
  O_RDWR : Nat
  O_WRONLY : Nat
  O_APPEND : Nat
  O_CREAT : Nat
  S_IRUSR : Nat
  S_IWUSR : Nat
  S_IRGRP : Nat
  S_IWGRP : Nat
  S_IROTH : Nat
  S_IWOTH : Nat
  file_cleanup_cb : Nat
  file_child_cleanup_cb : Nat

/-- A library call made by `pfopen`, with its arguments. -/
inductive Call where
  | sys_open (name : List Nat) (flags mode : Nat)
  | fdopen (desc : Int) (mode : List Nat)
  | fopen (name mode : List Nat)
deriving DecidableEq, Repr

/-- The C function `register_file_cleanups`. -/
def register_file_cleanups (c : Cfg) (io : Libc) (fuel : Nat) (s : State) (p fp : Nat) :
    Except Fault State :=
  register_cleanup c fuel s p fp io.file_cleanup_cb io.file_child_cleanup_cb

/-- The third argument of the `open` call of `pfopen`:
`S_IRUSR|S_IWUSR|S_IRGRP|S_IWGRP|S_IROTH|S_IWOTH`. -/
def open_perm (io : Libc) : Nat :=
  io.S_IRUSR ||| io.S_IWUSR ||| io.S_IRGRP ||| io.S_IWGRP ||| io.S_IROTH ||| io.S_IWOTH

/-- The statements of `pfopen` that open the stream: the stream `fd` and the library
calls made, in order. The character `'a'` is 97 and `'+'` is 43. -/
def pfopen_open (io : Libc) (name mode : List Nat) : Nat × List Call :=
  if first_char mode = 97 then
    let base_flag := if mode.getD 1 0 = 43 then io.O_RDWR else io.O_WRONLY
    let flags := base_flag ||| io.O_APPEND ||| io.O_CREAT
    let desc := io.sys_open name flags (open_perm io)
    if desc ≥ 0 then
      (io.fdopen desc mode, [Call.sys_open name flags (open_perm io), Call.fdopen desc mode])
    else (0, [Call.sys_open name flags (open_perm io)])
  else (io.fopen name mode, [Call.fopen name mode])

/-- The C function `pfopen`, returning the stream, the library calls made and the state. -/
def pfopen (c : Cfg) (io : Libc) (fuel : Nat) (s : State) (p : Nat) (name mode : List Nat) :
    Except Fault (Nat × List Call × State) :=
  let r := pfopen_open io name mode
  if r.1 ≠ 0 then
    match register_file_cleanups c io fuel s p r.1 with
    | .error e => .error e
    | .ok s1 => .ok (r.1, r.2, s1)
  else .ok (r.1, r.2, s)

/-- The access flags that the specification gives for a mode that begins with `'a'`:
`O_RDWR` when the mode ends with `'+'`, `O_WRONLY` when it does not, with `O_APPEND` and
`O_CREAT`. -/
def spec_flags (io : Libc) (mode : List Nat) : Nat :=
  (if mode.getLast? = some 43 then io.O_RDWR else io.O_WRONLY) ||| io.O_APPEND ||| io.O_CREAT

/-- A library for examples: the constants of Linux, an `open` that yields descriptor 3
and streams at address 700000. -/
def linux : Libc :=
  { sys_open := fun _ _ _ => 3, fdopen := fun _ _ => 700000, fopen := fun _ _ => 700000,
    O_RDWR := 2, O_WRONLY := 1, O_APPEND := 1024, O_CREAT := 64, S_IRUSR := 256,
    S_IWUSR := 128, S_IRGRP := 32, S_IWGRP := 16, S_IROTH := 4, S_IWOTH := 2,
    file_cleanup_cb := 7, file_child_cleanup_cb := 8 }

/-- The state after `arr = make_array(p, 2, sizeof(int))` on the permanent pool of `world`:
the array at 4184 has no element yet. -/
def empty_array : State := state_of2 (make_array lp64 1 world 4120 2 4)

/-- The state after `dst = copy_array_hdr(p, arr)` in `empty_array`: the header `dst` is
at 4224. -/
def empty_copy : State := state_of2 (copy_array_hdr lp64 1 empty_array 4120 4184)

/-- The part of the layout `t` that hangs from the pool `p`: the node of `p`, with its
descendants and its later siblings. -/
def PT.sub : PT → Nat → PT
  | .nil, _ => .nil
  | .node q chain cln kids sibs, p =>
    if q = p then .node q chain cln kids sibs
    else if p ∈ kids.pools then kids.sub p else sibs.sub p

/-- The layout `t` with the part that hangs from the pool `p` replaced by `t1`. -/
def PT.replace : PT → Nat → PT → PT
  | .nil, _, _ => .nil
  | .node q chain cln kids sibs, p, t1 =>
    if q = p then t1 else .node q chain cln (kids.replace p t1) (sibs.replace p t1)

/-- The pool record `r` with its links to the pool `p` turned to `a1`. -/
def relink (r : pool) (p a1 : Nat) : pool :=
  { r with sub_pools := if r.sub_pools = p then a1 else r.sub_pools,
           sub_next := if r.sub_next = p then a1 else r.sub_next }

/-- The allocator state `s` is well formed: the pools that can be reached from the root
`r` are laid out as `t` (`t` is empty and `r` null when the root has been destroyed), `L`
is the free list, no block is on two lists or twice on one, no pool occurs twice, the
blocks of the free list are empty, every block lies below the heap top, every pool sits
at the payload start of its first block, and the root has no sibling. -/
structure Heap (c : Cfg) (s : State) (t : PT) (L : List Nat) (r : Nat) : Prop where
  rep : Rep s t r 0 0
  free : Chain s.nxt s.block_freelist L
  nodup_blocks : (t.blocks ++ L).Nodup
  nodup_pools : t.pools.Nodup
  empty : ∀ x ∈ L, (s.blk x).first_avail = x + c.BLOCK_HDR_SZ
  below : ∀ x ∈ t.blocks ++ L, x < s.brk
  home : ∀ x ∈ t.pools, (s.pl x).first + c.BLOCK_HDR_SZ = x
  alone : r ≠ 0 → (s.pl r).sub_next = 0
  brk_pos : 0 < s.brk

/-- The call `f` returns `r`: it does so with every amount of fuel from some amount on. -/
def Returns {α : Type} (f : Nat → Except Fault α) (r : α) : Prop :=
  ∃ N, ∀ fuel, N ≤ fuel → f fuel = .ok r

/-- The field `sub_next` of the pool at `x`. -/
def State.snxt (s : State) (x : Nat) : Nat := (s.pl x).sub_next

/-- The pools that can be reached from the root `r` by the links `sub_pools` and
`sub_next`: the live pools, `r` being null when the root has been destroyed. -/
inductive Live (s : State) (r : Nat) : Nat → Prop
  | root : r ≠ 0 → Live s r r
  | kid {p : Nat} : Live s r p → (s.pl p).sub_pools ≠ 0 → Live s r (s.pl p).sub_pools
  | sib {p : Nat} : Live s r p → (s.pl p).sub_next ≠ 0 → Live s r (s.pl p).sub_next

/-- The states that a process reaches from `pr_init_pools` by calls of `make_sub_pool`,
`palloc`, `clear_pool` and `destroy_pool` on live pools, with the root of the live pools:
the permanent pool, or null once it has been destroyed. -/
inductive Reach (c : Cfg) : State → Nat → Prop
  | init {s0 s : State} : s0.permanent_pool = 0 → s0.block_freelist = 0 → 0 < s0.brk →
      Returns (fun fuel => pr_init_pools c fuel s0) s → Reach c s s.permanent_pool
  | make {s s1 : State} {r p np : Nat} : Reach c s r → Live s r p →
      Returns (fun fuel => make_sub_pool c fuel s p) (np, s1) → Reach c s1 r
  | alloc {s s1 : State} {r p x : Nat} {n : Int} : Reach c s r → Live s r p →
      Returns (fun fuel => palloc c fuel s p n) (x, s1) → Reach c s1 r
  | clear {s s1 : State} {r p : Nat} : Reach c s r → Live s r p →
      Returns (fun fuel => clear_pool c fuel s p) s1 → Reach c s1 r
  | destroy {s s1 : State} {r p : Nat} : Reach c s r → Live s r p →
      Returns (fun fuel => destroy_pool c fuel s p) s1 → Reach c s1 (if r = p then 0 else r)

/-- The pools of a list of siblings, without their descendants. -/
def PT.tops : PT → List Nat
  | .nil => []
  | .node p _ _ _ sibs => p :: sibs.tops

/-- The chain of blocks of the pool `p` in the layout `t`. -/
def PT.chain_of (t : PT) (p : Nat) : List Nat :=
  match t.sub p with
  | .nil => []
  | .node _ chain _ _ _ => chain

/-- The sub-pools of the pool `p` in the layout `t`. -/
def PT.kids_of (t : PT) (p : Nat) : PT :=
  match t.sub p with
  | .nil => .nil
  | .node _ _ _ kids _ => kids

/-- The process after `pr_init_pools` and one `make_sub_pool` on the permanent pool: the
pool at 4656 is the one sub-pool of the permanent pool. -/
def hamlet : State := state_of2 (make_sub_pool lp64 1 world 4120)

/-- The course of a run of `palloc` calls on a pool, one for each size of the list: `a`
and `e` are the `first_avail` and the `endp` of the last block of the pool before the run,
`D` lists the blocks that the calls get from `new_block`, each with its `endp`, and `ptrs`
the pointers returned. A call is served from the last block when the rounded size fits
there; otherwise the next block of `D` becomes the last block, having room for the size
that `new_block` looks for. -/
inductive Play (c : Cfg) : Nat → Nat → List Int → List (Nat × Nat) → List Nat → Prop
  | done (a e : Nat) : Play c a e [] [] []
  | fast {a e : Nat} {n : Int} {rest : List Int} {D : List (Nat × Nat)} {ptrs : List Nat} :
      a + click_size c n ≤ e → Play c (a + click_size c n) e rest D ptrs →
      Play c a e (n :: rest) D (a :: ptrs)
  | slow {a e d ed : Nat} {n : Int} {rest : List Int} {D : List (Nat × Nat)} {ptrs : List Nat} :
      ¬ a + click_size c n ≤ e →
      d + c.BLOCK_HDR_SZ + block_size c (click_size c n) ≤ ed →
      Play c (d + c.BLOCK_HDR_SZ + click_size c n) ed rest D ptrs →
      Play c a e (n :: rest) ((d, ed) :: D) ((d + c.BLOCK_HDR_SZ) :: ptrs)

/-! ## Theorems -/

@[simp] theorem upd_same {β : Type} (f : Nat → β) (a : Nat) (v : β) : upd f a v a = v := by
  simp [upd]

theorem upd_ne {β : Type} (f : Nat → β) {a x : Nat} (v : β) (h : x ≠ a) : upd f a v x = f x := by
  simp [upd, h]

theorem upd_apply {β : Type} (f : Nat → β) (a x : Nat) (v : β) :
    upd f a v x = if x = a then v else f x := rfl

@[simp] theorem chain_nil (nx : Nat → Nat) (h : Nat) : Chain nx h [] ↔ h = 0 := Iff.rfl

@[simp] theorem chain_cons (nx : Nat → Nat) (h a : Nat) (l : List Nat) :
    Chain nx h (a :: l) ↔ h = a ∧ a ≠ 0 ∧ Chain nx (nx a) l := Iff.rfl

theorem Chain.congr {nx nx2 : Nat → Nat} : ∀ {l : List Nat} {h : Nat},
    (∀ x ∈ l, nx x = nx2 x) → Chain nx h l → Chain nx2 h l
  | [], _, _, hc => hc
  | a :: l, h, hx, hc => by
    obtain ⟨h1, h2, h3⟩ := hc
    refine ⟨h1, h2, ?_⟩
    rw [← hx a (List.mem_cons_self a l)]
    exact Chain.congr (fun x hxl => hx x (List.mem_cons_of_mem a hxl)) h3

theorem Chain.unique {nx : Nat → Nat} : ∀ {l1 l2 : List Nat} {h : Nat},
    Chain nx h l1 → Chain nx h l2 → l1 = l2
  | [], [], _, _, _ => rfl
  | [], b :: l2, h, h1, h2 => by
    simp at h1 h2; omega
  | a :: l1, [], h, h1, h2 => by
    simp at h1 h2; omega
  | a :: l1, b :: l2, h, h1, h2 => by
    obtain ⟨e1, _, c1⟩ := h1
    obtain ⟨e2, _, c2⟩ := h2
    have hab : a = b := by omega
    subst hab
    rw [Chain.unique c1 c2]

theorem Chain.not_mem_zero {nx : Nat → Nat} : ∀ {l : List Nat} {h : Nat},
    Chain nx h l → 0 ∉ l
  | [], _, _ => by simp
  | a :: l, h, hc => by
    obtain ⟨_, h2, h3⟩ := hc
    have := Chain.not_mem_zero h3
    simp only [List.mem_cons, not_or]
    exact ⟨fun e => h2 e.symm, this⟩

theorem Chain.append {nx : Nat → Nat} : ∀ {l1 l2 : List Nat} {h : Nat},
    Chain nx h (l1 ++ l2) → ∃ m, Chain nx m l2 ∧ (l1 = [] → m = h) ∧
      (∀ a, l1.getLast? = some a → m = nx a)
  | [], l2, h, hc => ⟨h, hc, fun _ => rfl, by simp⟩
  | a :: l1, l2, h, hc => by
    obtain ⟨_, _, h3⟩ := hc
    obtain ⟨m, hm, h0, hl⟩ := Chain.append h3
    refine ⟨m, hm, by simp, ?_⟩
    intro b hb
    cases l1 with
    | nil =>
      simp at hb; subst hb; exact h0 rfl
    | cons x l =>
      apply hl
      simpa [List.getLast?_cons_cons] using hb

theorem Chain.nodup {nx : Nat → Nat} : ∀ {l : List Nat} {h : Nat}, Chain nx h l → l.Nodup
  | [], _, _ => List.nodup_nil
  | a :: l, h, hc => by
    obtain ⟨h1, h2, h3⟩ := hc
    refine List.nodup_cons.mpr ⟨?_, Chain.nodup h3⟩
    intro hmem
    obtain ⟨l1, l2, rfl⟩ := List.append_of_mem hmem
    obtain ⟨m, hm, _, _⟩ := Chain.append h3
    obtain ⟨e, _, c2⟩ := hm
    have := Chain.unique h3 c2
    have hlen := congrArg List.length this
    simp at hlen
    omega

@[simp] theorem set_blk_eq (s : State) (b : Nat) (h : block_hdr) :
    s.set_blk b h = { s with blk := upd s.blk b h } := rfl

@[simp] theorem set_next_eq (s : State) (b v : Nat) :
    s.set_next b v = { s with blk := upd s.blk b { s.blk b with next := v } } := rfl

@[simp] theorem set_first_avail_eq (s : State) (b v : Nat) :
    s.set_first_avail b v = { s with blk := upd s.blk b { s.blk b with first_avail := v } } := rfl

@[simp] theorem set_pl_eq (s : State) (p : Nat) (r : pool) :
    s.set_pl p r = { s with pl := upd s.pl p r } := rfl

@[simp] theorem set_ah_eq (s : State) (a : Nat) (h : array_header) :
    s.set_ah a h = { s with ah := upd s.ah a h } := rfl

@[simp] theorem set_cl_eq (s : State) (cp : Nat) (r : cleanup_t) :
    s.set_cl cp r = { s with cl := upd s.cl cp r } := rfl

@[simp] theorem set_mem_eq (s : State) (m : Nat → Nat) :
    s.set_mem m = { s with mem := m } := rfl

theorem new_block_scan_eq (c : Cfg) (R : Int) (s : State) :
    ∀ (L : List Nat) (fuel : Nat) (lastptr : Option Nat) (blok : Nat),
      Chain s.nxt blok L → L.length < fuel →
      new_block_scan c R s fuel lastptr blok =
        match scan_ptr s R lastptr L with
        | none => malloc_block c { s with stat_malloc := s.stat_malloc + 1 } R
        | some (lp, b) =>
          .ok (b, { (store_lastptr s lp (s.blk b).next).set_next b 0 with
            stat_freehit := s.stat_freehit + 1 })
  | [], fuel, lastptr, blok, hc, hf => by
    obtain ⟨f, rfl⟩ : ∃ f, fuel = f + 1 := ⟨fuel - 1, by simp at hf; omega⟩
    simp at hc
    simp [new_block_scan, scan_ptr, hc]
  | a :: L, fuel, lastptr, blok, hc, hf => by
    obtain ⟨f, rfl⟩ : ∃ f, fuel = f + 1 := ⟨fuel - 1, by simp at hf; omega⟩
    obtain ⟨rfl, ha, hc2⟩ := hc
    simp only [List.length_cons, Nat.add_lt_add_iff_right] at hf
    by_cases hfit : R ≤ s.room blok
    · have hfit2 := hfit
      simp only [State.room] at hfit2
      simp [new_block_scan, scan_ptr, ha, hfit, hfit2, store_lastptr]
      cases lastptr <;> simp [store_lastptr]
    · have hfit2 := hfit
      simp only [State.room] at hfit2
      simp only [new_block_scan, scan_ptr, ha, hfit, hfit2, if_false]
      exact new_block_scan_eq c R s L f (some blok) (s.blk blok).next hc2 hf

/-- What `scan_ptr` finds: the list splits around the first block with room. -/
theorem scan_ptr_some (s : State) (R : Int) : ∀ (L : List Nat) (lp lp2 : Option Nat) (b : Nat),
    scan_ptr s R lp L = some (lp2, b) →
    ∃ L1 L2, L = L1 ++ b :: L2 ∧ (∀ x ∈ L1, ¬ R ≤ s.room x) ∧ R ≤ s.room b ∧
      lp2 = (match L1.getLast? with | none => lp | some a => some a)
  | [], lp, lp2, b, h => by simp [scan_ptr] at h
  | a :: L, lp, lp2, b, h => by
    by_cases hfit : R ≤ s.room a
    · simp [scan_ptr, hfit] at h
      obtain ⟨rfl, rfl⟩ := h
      exact ⟨[], L, rfl, by simp, hfit, rfl⟩
    · simp [scan_ptr, hfit] at h
      obtain ⟨L1, L2, rfl, h1, h2, h3⟩ := scan_ptr_some s R L (some a) lp2 b h
      refine ⟨a :: L1, L2, rfl, ?_, h2, ?_⟩
      · intro x hx
        rcases List.mem_cons.mp hx with rfl | hx
        · exact hfit
        · exact h1 x hx
      · rw [h3]
        cases L1 with
        | nil => rfl
        | cons y l => simp [List.getLast?_eq_getLast]

theorem scan_ptr_none (s : State) (R : Int) : ∀ (L : List Nat) (lp : Option Nat),
    scan_ptr s R lp L = none → ∀ x ∈ L, ¬ R ≤ s.room x
  | [], _, _ => by simp
  | a :: L, lp, h => by
    by_cases hfit : R ≤ s.room a
    · simp [scan_ptr, hfit] at h
    · simp [scan_ptr, hfit] at h
      intro x hx
      rcases List.mem_cons.mp hx with rfl | hx
      · exact hfit
      · exact scan_ptr_none s R L (some a) h x hx

theorem chain_unlink_aux {nx nx2 : Nat → Nat} {b : Nat} {L2 : List Nat}
    (hL2 : ∀ x ∈ L2, nx x = nx2 x) :
    ∀ (L1 : List Nat) (h : Nat), Chain nx h (L1 ++ b :: L2) → L1 ≠ [] →
      (∀ x ∈ L1.dropLast, nx2 x = nx x) → (∀ a, L1.getLast? = some a → nx2 a = nx b) →
      Chain nx2 h (L1 ++ L2)
  | [], _, _, hne, _, _ => absurd rfl hne
  | [a], h, hc, _, _, hlast => by
    obtain ⟨h1, h2, h3⟩ := hc
    obtain ⟨_, _, h4⟩ := h3
    refine ⟨h1, h2, ?_⟩
    rw [hlast a rfl]
    exact Chain.congr hL2 h4
  | a :: a2 :: L1, h, hc, _, hinit, hlast => by
    obtain ⟨h1, h2, h3⟩ := hc
    refine ⟨h1, h2, ?_⟩
    rw [hinit a (by simp [List.dropLast])]
    refine chain_unlink_aux hL2 (a2 :: L1) (nx a) h3 (by simp) ?_ ?_
    · intro x hx
      apply hinit
      simp only [List.dropLast_cons₂, List.mem_cons]
      exact Or.inr hx
    · intro x hx
      apply hlast
      simpa [List.getLast?_cons_cons] using hx

/-- Taking the block `b` out of the free list `L1 ++ b :: L2` the way `new_block` does
leaves the free list `L1 ++ L2`. -/
theorem chain_unlink (s : State) (L1 L2 : List Nat) (b : Nat)
    (hc : Chain s.nxt s.block_freelist (L1 ++ b :: L2)) :
    Chain
      ((store_lastptr s (match L1.getLast? with | none => none | some a => some a)
        (s.blk b).next).set_next b 0).nxt
      ((store_lastptr s (match L1.getLast? with | none => none | some a => some a)
        (s.blk b).next).set_next b 0).block_freelist
      (L1 ++ L2) := by
  have hnd := Chain.nodup hc
  have hb1 : b ∉ L1 := fun hm => by
    have := List.nodup_append.mp hnd
    exact this.2.2 hm (List.mem_cons_self b L2)
  have hb2 : b ∉ L2 := by
    have := (List.nodup_append.mp hnd).2.1
    exact (List.nodup_cons.mp this).1
  rcases List.eq_nil_or_concat L1 with rfl | ⟨L0, a, rfl⟩
  · obtain ⟨_, _, h3⟩ := hc
    simp only [List.getLast?_nil, store_lastptr, set_next_eq, List.nil_append]
    refine Chain.congr ?_ h3
    intro x hx
    have : x ≠ b := fun e => hb2 (e ▸ hx)
    simp [State.nxt, upd_ne _ _ this]
  · have ha2 : a ∉ L2 := fun hm => by
      have := List.nodup_append.mp hnd
      exact this.2.2 (by simp) (List.mem_cons_of_mem b hm)
    have hab : a ≠ b := fun e => hb1 (by simp [e])
    have ha0 : a ∉ L0 := by
      have := (List.nodup_append.mp hnd).1
      rw [List.concat_eq_append] at this
      have := List.nodup_append.mp this
      intro hm
      exact this.2.2 hm (by simp)
    have hlast : (L0.concat a).getLast? = some a := by simp
    rw [hlast]
    simp only [List.concat_eq_append, store_lastptr, set_next_eq]
    refine chain_unlink_aux ?_ (L0 ++ [a]) _ (by simpa using hc) (by simp) ?_ ?_
    · intro x hx
      have h1 : x ≠ b := fun e => hb2 (e ▸ hx)
      have h2 : x ≠ a := fun e => ha2 (e ▸ hx)
      simp [State.nxt, upd_ne _ _ h1, upd_ne _ _ h2]
    · intro x hx
      simp only [List.dropLast_concat] at hx
      have h1 : x ≠ b := fun e => hb1 (by simp [← e, hx])
      have h2 : x ≠ a := fun e => ha0 (e ▸ hx)
      simp [State.nxt, upd_ne _ _ h1, upd_ne _ _ h2]
    · intro x hx
      simp at hx
      subst hx
      simp [State.nxt, upd_ne _ _ hab]

/-- The two ways out of `new_block`: the first block of the free list with room for the
rounded size is taken off the list, or no block has room and a block is allotted. -/
theorem new_block_cases (c : Cfg) (s : State) (m : Int) (fuel : Nat) (L : List Nat)
    (hc : Chain s.nxt s.block_freelist L) (hf : L.length < fuel) :
    (∃ L1 b L2, L = L1 ++ b :: L2 ∧ (∀ x ∈ L1, ¬ round_min_size c m ≤ s.room x) ∧
        round_min_size c m ≤ s.room b ∧
        new_block c fuel s m = .ok (b, take_free s (lastptr_after L1) b)) ∨
    ((∀ x ∈ L, ¬ round_min_size c m ≤ s.room x) ∧
        new_block c fuel s m =
          malloc_block c { s with stat_malloc := s.stat_malloc + 1 } (round_min_size c m)) := by
  have h := new_block_scan_eq c (round_min_size c m) s L fuel none s.block_freelist hc hf
  cases hs : scan_ptr s (round_min_size c m) none L with
  | none =>
    right
    rw [hs] at h
    exact ⟨scan_ptr_none s _ L none hs, h⟩
  | some r =>
    obtain ⟨lp, b⟩ := r
    left
    rw [hs] at h
    obtain ⟨L1, L2, h1, h2, h3, h4⟩ := scan_ptr_some s _ L none lp b hs
    refine ⟨L1, b, L2, h1, h2, h3, ?_⟩
    rw [new_block, h, h4]
    rfl

theorem take_free_chain (s : State) (L1 L2 : List Nat) (b : Nat)
    (hc : Chain s.nxt s.block_freelist (L1 ++ b :: L2)) :
    Chain (take_free s (lastptr_after L1) b).nxt (take_free s (lastptr_after L1) b).block_freelist
      (L1 ++ L2) :=
  chain_unlink s L1 L2 b hc

theorem take_free_blk_self (s : State) (L1 L2 : List Nat) (b : Nat)
    (hc : Chain s.nxt s.block_freelist (L1 ++ b :: L2)) :
    (take_free s (lastptr_after L1) b).blk b = { s.blk b with next := 0 } := by
  have hnd := Chain.nodup hc
  rcases List.eq_nil_or_concat L1 with rfl | ⟨L0, a, rfl⟩
  · simp [take_free, lastptr_after, store_lastptr]
  · have hab : b ≠ a := fun e => by
      have := (List.nodup_append.mp hnd).2.2
      exact @this b (by simp [e]) (by simp)
    have hlast : (L0.concat a).getLast? = some a := by simp
    simp [take_free, lastptr_after, store_lastptr, hlast, upd_ne _ _ hab]

theorem take_free_blk_other (s : State) (L1 : List Nat) (b x : Nat) (hb : x ≠ b)
    (hx : x ∉ L1) :
    (take_free s (lastptr_after L1) b).blk x = s.blk x := by
  rcases List.eq_nil_or_concat L1 with rfl | ⟨L0, a, rfl⟩
  · simp [take_free, lastptr_after, store_lastptr, upd_ne _ _ hb]
  · have hxa : x ≠ a := fun e => hx (by simp [e])
    have hlast : (L0.concat a).getLast? = some a := by simp
    simp [take_free, lastptr_after, store_lastptr, hlast, upd_ne _ _ hb, upd_ne _ _ hxa]

theorem take_free_geom (s : State) (lp : Option Nat) (b x : Nat) :
    ((take_free s lp b).blk x).endp = (s.blk x).endp ∧
    ((take_free s lp b).blk x).first_avail = (s.blk x).first_avail := by
  cases lp with
  | none => simp only [take_free, store_lastptr, set_next_eq, upd_apply]; split <;> simp_all
  | some a =>
    simp only [take_free, store_lastptr, set_next_eq, upd_apply]
    split <;> split <;> simp_all

@[simp] theorem take_free_pl (s : State) (lp : Option Nat) (b : Nat) :
    (take_free s lp b).pl = s.pl := by cases lp <;> rfl

@[simp] theorem take_free_cl (s : State) (lp : Option Nat) (b : Nat) :
    (take_free s lp b).cl = s.cl := by cases lp <;> rfl

@[simp] theorem take_free_ah (s : State) (lp : Option Nat) (b : Nat) :
    (take_free s lp b).ah = s.ah := by cases lp <;> rfl

@[simp] theorem take_free_mem (s : State) (lp : Option Nat) (b : Nat) :
    (take_free s lp b).mem = s.mem := by cases lp <;> rfl

@[simp] theorem take_free_log (s : State) (lp : Option Nat) (b : Nat) :
    (take_free s lp b).log = s.log := by cases lp <;> rfl

@[simp] theorem take_free_brk (s : State) (lp : Option Nat) (b : Nat) :
    (take_free s lp b).brk = s.brk := by cases lp <;> rfl

@[simp] theorem take_free_stat_malloc (s : State) (lp : Option Nat) (b : Nat) :
    (take_free s lp b).stat_malloc = s.stat_malloc := by cases lp <;> rfl

@[simp] theorem take_free_stat_freehit (s : State) (lp : Option Nat) (b : Nat) :
    (take_free s lp b).stat_freehit = s.stat_freehit + 1 := by cases lp <;> rfl

@[simp] theorem take_free_permanent_pool (s : State) (lp : Option Nat) (b : Nat) :
    (take_free s lp b).permanent_pool = s.permanent_pool := by cases lp <;> rfl

/-- The rounding of `new_block` on a positive size. -/
theorem round_min_size_pos (c : Cfg) (n : Nat) (hn : 0 < n) :
    round_min_size c (n : Int) = (((1 + (n - 1) / c.BLOCK_MINFREE) * c.BLOCK_MINFREE : Nat) : Int) := by
  unfold round_min_size
  have h1 : ((n : Int) - 1) = ((n - 1 : Nat) : Int) := by omega
  rw [h1, ← Int.ofNat_tdiv]
  push_cast
  rfl

/-- The rounding of `new_block` on the size `0`. -/
theorem round_min_size_zero (c : Cfg) (hB : 1 < c.BLOCK_MINFREE) :
    round_min_size c 0 = (c.BLOCK_MINFREE : Int) := by
  unfold round_min_size
  have : (0 - 1 : Int) = -1 := by omega
  rw [this, Int.neg_tdiv, Int.tdiv_eq_zero_of_lt (by omega) (by omega)]
  simp

theorem round_up_ge (B n : Nat) (hB : 0 < B) : n ≤ (1 + (n - 1) / B) * B := by
  have h := Nat.div_add_mod (n - 1) B
  have h2 := Nat.mod_lt (n - 1) hB
  have h3 : (1 + (n - 1) / B) * B = B + B * ((n - 1) / B) := by ring
  omega

theorem malloc_block_eq (c : Cfg) (s : State) (R : Nat) :
    malloc_block c s (R : Int) = .ok (s.brk,
      { s with brk := s.brk + (R + c.BLOCK_HDR_SZ),
               blk := upd s.blk s.brk
                 { endp := s.brk + c.BLOCK_HDR_SZ + R, next := 0,
                   first_avail := s.brk + c.BLOCK_HDR_SZ } }) := by
  have h1 : ¬ ((R : Int) + (c.BLOCK_HDR_SZ : Int) < 0) := by omega
  have h2 : ((R : Int) + (c.BLOCK_HDR_SZ : Int)).toNat = R + c.BLOCK_HDR_SZ := by omega
  have h3 : ((R : Int) + ((s.brk + c.BLOCK_HDR_SZ : Nat) : Int)).toNat
      = s.brk + c.BLOCK_HDR_SZ + R := by omega
  simp only [malloc_block, xmalloc, h1, if_false, h2, set_blk_eq, h3]

/-- Appending a node after the last node of a chain. -/
theorem chain_snoc {nx nx2 : Nat → Nat} {b last : Nat} (hb : b ≠ 0) (hnb : nx2 b = 0)
    (hnl : nx2 last = b) :
    ∀ (C : List Nat) (h : Nat), Chain nx h C → C.getLast? = some last →
      (∀ x ∈ C, x ≠ last → nx2 x = nx x) → Chain nx2 h (C ++ [b])
  | [], _, _, hl, _ => by simp at hl
  | [a], h, hc, hl, _ => by
    obtain ⟨h1, h2, _⟩ := hc
    simp at hl
    subst hl
    exact ⟨h1, h2, by rw [hnl]; exact ⟨rfl, hb, hnb⟩⟩
  | a :: a2 :: C, h, hc, hl, hx => by
    obtain ⟨h1, h2, h3⟩ := hc
    have hnd := Chain.nodup (show Chain nx h (a :: a2 :: C) from ⟨h1, h2, h3⟩)
    have hal : a ≠ last := by
      intro e
      have hmem : last ∈ a2 :: C := by
        rw [List.getLast?_cons_cons] at hl
        exact List.mem_of_getLast?_eq_some hl
      exact (List.nodup_cons.mp hnd).1 (e ▸ hmem)
    refine ⟨h1, h2, ?_⟩
    rw [hx a (List.mem_cons_self _ _) hal]
    refine chain_snoc hb hnb hnl (a2 :: C) (nx a) h3 ?_ ?_
    · simpa [List.getLast?_cons_cons] using hl
    · intro x hxm hxl
      exact hx x (List.mem_cons_of_mem _ hxm) hxl

theorem click_round (K n : Nat) (hK : 0 < K) (hn : 0 < n) :
    n ≤ (1 + (n - 1) / K) * K ∧ (1 + (n - 1) / K) * K < n + K ∧ K ∣ (1 + (n - 1) / K) * K := by
  have h := Nat.div_add_mod (n - 1) K
  have h2 := Nat.mod_lt (n - 1) hK
  have h3 : (1 + (n - 1) / K) * K = K + K * ((n - 1) / K) := by ring
  refine ⟨by omega, by omega, Dvd.intro_left _ rfl⟩

theorem new_block_pos (c : Cfg) (s : State) (n : Nat) (hn : 0 < n) (fuel : Nat) (L : List Nat)
    (hc : Chain s.nxt s.block_freelist L) (hf : L.length < fuel) :
    ∃ b s1, new_block c fuel s (n : Int) = .ok (b, s1) ∧ NewBlock c s L (block_size c n) b s1 := by
  have hR := round_min_size_pos c n hn
  rcases new_block_cases c s (n : Int) fuel L hc hf with ⟨L1, b, L2, h1, h2, h3, h4⟩ | ⟨h1, h2⟩
  · rw [hR] at h2 h3
    exact ⟨b, _, h4, Or.inl ⟨L1, L2, h1, h2, h3, rfl⟩⟩
  · rw [hR] at h1 h2
    rw [malloc_block_eq] at h2
    exact ⟨s.brk, _, h2, Or.inr ⟨h1, rfl, rfl⟩⟩

theorem new_block_zero (c : Cfg) (hB : 1 < c.BLOCK_MINFREE) (s : State) (fuel : Nat)
    (L : List Nat) (hc : Chain s.nxt s.block_freelist L) (hf : L.length < fuel) :
    ∃ b s1, new_block c fuel s 0 = .ok (b, s1) ∧ NewBlock c s L c.BLOCK_MINFREE b s1 := by
  have hR := round_min_size_zero c hB
  rcases new_block_cases c s 0 fuel L hc hf with ⟨L1, b, L2, h1, h2, h3, h4⟩ | ⟨h1, h2⟩
  · rw [hR] at h2 h3
    exact ⟨b, _, h4, Or.inl ⟨L1, L2, h1, h2, h3, rfl⟩⟩
  · rw [hR] at h1 h2
    rw [malloc_block_eq] at h2
    exact ⟨s.brk, _, h2, Or.inr ⟨h1, rfl, rfl⟩⟩

theorem palloc_nonpos (c : Cfg) (fuel : Nat) (s : State) (p : Nat) (reqsize : Int)
    (h : reqsize ≤ 0) : palloc c fuel s p reqsize = .ok (0, s) := by
  simp [palloc, h]

theorem palloc_fast (c : Cfg) (fuel : Nat) (s : State) (p : Nat) (reqsize : Int)
    (h : 0 < reqsize)
    (hroom : (s.blk (s.pl p).last).first_avail + click_size c reqsize ≤ (s.blk (s.pl p).last).endp) :
    palloc c fuel s p reqsize = .ok ((s.blk (s.pl p).last).first_avail,
      s.set_first_avail (s.pl p).last ((s.blk (s.pl p).last).first_avail + click_size c reqsize)) := by
  have h2 : ¬ reqsize ≤ 0 := by omega
  simp only [click_size] at hroom
  simp only [palloc, h2, if_false, hroom, if_true, click_size]

theorem palloc_slow (c : Cfg) (fuel : Nat) (s : State) (p : Nat) (reqsize : Int)
    (h : 0 < reqsize)
    (hroom : ¬ (s.blk (s.pl p).last).first_avail + click_size c reqsize ≤ (s.blk (s.pl p).last).endp)
    (b : Nat) (s1 : State) (hnb : new_block c fuel s (click_size c reqsize) = .ok (b, s1)) :
    palloc c fuel s p reqsize =
      .ok (((s1.set_next (s1.pl p).last b).blk b).first_avail,
        link_block s1 p b (click_size c reqsize)) := by
  have h2 : ¬ reqsize ≤ 0 := by omega
  simp only [click_size] at hroom hnb
  simp only [palloc, h2, if_false, hroom]
  rw [hnb]
  simp [link_block, click_size]

theorem NewBlock.got {c : Cfg} {s s1 : State} {L : List Nat} {R b : Nat}
    (h : NewBlock c s L R b s1) (hc : Chain s.nxt s.block_freelist L)
    (hempty : ∀ x ∈ L, (s.blk x).first_avail = x + c.BLOCK_HDR_SZ)
    (hbelow : ∀ x ∈ L, x < s.brk) (hbrk : 0 < s.brk) : Got c s s1 L R b := by
  rcases h with ⟨L1, L2, rfl, h1, h2, rfl⟩ | ⟨h1, rfl, rfl⟩
  · have hnd := Chain.nodup hc
    have hbL : b ∈ L1 ++ b :: L2 := by simp
    have hb1 : b ∉ L1 := fun hm => (List.nodup_append.mp hnd).2.2 hm (List.mem_cons_self b L2)
    have herase : (L1 ++ b :: L2).erase b = L1 ++ L2 := by
      rw [List.erase_append_right _ hb1]; simp
    have hself := take_free_blk_self s L1 L2 b hc
    have hfa := hempty b hbL
    refine
      { ne_zero := fun e => Chain.not_mem_zero hc (e ▸ hbL)
        origin := Or.inl ⟨hbL, by simp, by simp, by simp⟩
        free := by rw [herase]; exact take_free_chain s L1 L2 b hc
        pl_eq := by simp
        cl_eq := by simp
        ah_eq := by simp
        mem_eq := by simp
        log_eq := by simp
        perm_eq := by simp
        next_eq := by rw [hself]
        avail_eq := by rw [hself]; exact hfa
        room := ?_
        endp_eq := fun x _ => (take_free_geom s _ b x).1
        first_avail_eq := fun x _ => (take_free_geom s _ b x).2
        frame := ?_ }
    · rw [hself]
      simp only [State.room, hfa] at h2
      show b + c.BLOCK_HDR_SZ + R ≤ (s.blk b).endp
      omega
    · intro x hx _
      have hxb : x ≠ b := fun e => hx (e ▸ hbL)
      have hx1 : x ∉ L1 := fun hm => hx (by simp [hm])
      exact take_free_blk_other s L1 b x hxb hx1
  · have hnL : s.brk ∉ L := fun hm => by have := hbelow _ hm; omega
    refine
      { ne_zero := by omega
        origin := Or.inr ⟨rfl, rfl, rfl, rfl, rfl⟩
        free := ?_
        pl_eq := rfl
        cl_eq := rfl
        ah_eq := rfl
        mem_eq := rfl
        log_eq := rfl
        perm_eq := rfl
        next_eq := by simp [fresh_block]
        avail_eq := by simp [fresh_block]
        room := by simp [fresh_block]
        endp_eq := fun x hx => by simp [fresh_block, upd_ne _ _ hx]
        first_avail_eq := fun x hx => by simp [fresh_block, upd_ne _ _ hx]
        frame := fun x _ hx => by simp [fresh_block, upd_ne _ _ hx] }
    rw [List.erase_of_not_mem hnL]
    refine Chain.congr ?_ hc
    intro x hx
    have : x ≠ s.brk := fun e => hnL (e ▸ hx)
    simp [State.nxt, fresh_block, upd_ne _ _ this]

theorem click_size_pos (c : Cfg) (reqsize : Int) (hK : 0 < c.CLICK_SZ) : 0 < click_size c reqsize := by
  unfold click_size
  positivity

theorem link_block_blk (s1 : State) (p b size : Nat) (hb : b ≠ (s1.pl p).last) :
    (link_block s1 p b size).blk =
      upd (upd s1.blk (s1.pl p).last { s1.blk (s1.pl p).last with next := b }) b
        { s1.blk b with first_avail := (s1.blk b).first_avail + size } := by
  simp [link_block, upd_ne _ _ hb]

@[simp] theorem link_block_pl (s1 : State) (p b size : Nat) :
    (link_block s1 p b size).pl = upd s1.pl p { s1.pl p with last := b } := by
  simp [link_block]

/-- The slow path of `palloc` on a pool whose chain is `C`, in a state whose free list
`L` is made of empty blocks. -/
theorem palloc_slow_spec (c : Cfg) (s : State) (p : Nat) (reqsize : Int) (fuel : Nat)
    (L C : List Nat) (hK : 0 < c.CLICK_SZ) (hreq : 0 < reqsize)
    (hfree : Chain s.nxt s.block_freelist L) (hfuel : L.length < fuel)
    (hempty : ∀ x ∈ L, (s.blk x).first_avail = x + c.BLOCK_HDR_SZ)
    (hLbrk : ∀ x ∈ L, x < s.brk)
    (hchain : Chain s.nxt (s.pl p).first C) (hlast : C.getLast? = some (s.pl p).last)
    (hsep : ∀ x ∈ C, x ∉ L ∧ x < s.brk)
    (hroom : ¬ (s.blk (s.pl p).last).first_avail + click_size c reqsize
      ≤ (s.blk (s.pl p).last).endp) :
    ∃ b s1, new_block c fuel s (click_size c reqsize) = .ok (b, s1) ∧
      Got c s s1 L (block_size c (click_size c reqsize)) b ∧
      palloc c fuel s p reqsize = .ok (b + c.BLOCK_HDR_SZ, link_block s1 p b (click_size c reqsize)) ∧
      b ∉ C ∧
      Chain (link_block s1 p b (click_size c reqsize)).nxt
        ((link_block s1 p b (click_size c reqsize)).pl p).first (C ++ [b]) ∧
      (link_block s1 p b (click_size c reqsize)).blk b =
        { s1.blk b with first_avail := b + c.BLOCK_HDR_SZ + click_size c reqsize } ∧
      (link_block s1 p b (click_size c reqsize)).blk (s.pl p).last =
        { s.blk (s.pl p).last with next := b } ∧
      (∀ x ∈ C, x ≠ (s.pl p).last →
        (link_block s1 p b (click_size c reqsize)).blk x = s.blk x) := by
  have hsz := click_size_pos c reqsize hK
  obtain ⟨b, s1, hnb, hNB⟩ := new_block_pos c s (click_size c reqsize) hsz fuel L hfree hfuel
  have hlastC : (s.pl p).last ∈ C := List.mem_of_getLast?_eq_some hlast
  have hbrk : 0 < s.brk := by have := (hsep _ hlastC).2; omega
  have g := hNB.got hfree hempty hLbrk hbrk
  have hbC : b ∉ C := by
    intro hm
    rcases g.origin with ⟨h1, _⟩ | ⟨h1, _⟩
    · exact (hsep b hm).1 h1
    · have := (hsep b hm).2; omega
  have hbl : b ≠ (s.pl p).last := fun e => hbC (e ▸ hlastC)
  have hbl1 : b ≠ (s1.pl p).last := by rw [g.pl_eq]; exact hbl
  have hframe : ∀ x ∈ C, s1.blk x = s.blk x := fun x hx =>
    g.frame x (hsep x hx).1 (by have := (hsep x hx).2; omega)
  have hblk := link_block_blk s1 p b (click_size c reqsize) hbl1
  have hp := palloc_slow c fuel s p reqsize hreq hroom b s1 hnb
  refine ⟨b, s1, hnb, g, ?_, hbC, ?_, ?_, ?_, ?_⟩
  · rw [hp]
    simp [upd_ne _ _ hbl1, g.avail_eq]
  · rw [link_block_pl, upd_same]
    show Chain _ (s1.pl p).first (C ++ [b])
    rw [g.pl_eq]
    refine chain_snoc g.ne_zero ?_ ?_ C _ hchain hlast ?_
    · simp [State.nxt, hblk, g.next_eq]
    · simp [State.nxt, hblk, g.pl_eq, upd_ne _ _ hbl.symm]
    · intro x hx hxl
      have hxb : x ≠ b := fun e => hbC (e ▸ hx)
      simp [State.nxt, hblk, g.pl_eq, upd_ne _ _ hxl, upd_ne _ _ hxb, hframe x hx]
  · rw [hblk, upd_same, g.avail_eq]
  · rw [hblk, upd_ne _ _ hbl.symm, g.pl_eq, upd_same, hframe _ hlastC]
  · intro x hx hxl
    have hxb : x ≠ b := fun e => hbC (e ▸ hx)
    rw [hblk, upd_ne _ _ hxb, g.pl_eq, upd_ne _ _ hxl, hframe x hx]

/-- A positive request on a ready pool is served, with a non-null pointer, and the
bytes of the memory are left as they are. -/
theorem palloc_ok (c : Cfg) (s : State) (p : Nat) (reqsize : Int) (fuel : Nat)
    (L C : List Nat) (hK : 0 < c.CLICK_SZ) (hreq : 0 < reqsize) (hr : Ready c s p L C)
    (hfuel : L.length < fuel) :
    ∃ r s1, palloc c fuel s p reqsize = .ok (r, s1) ∧ r ≠ 0 ∧ s1.mem = s.mem ∧ s1.ah = s.ah ∧
      s1.cl = s.cl ∧ s1.log = s.log := by
  have hlastC : (s.pl p).last ∈ C := List.mem_of_getLast?_eq_some hr.last
  by_cases hroom : (s.blk (s.pl p).last).first_avail + click_size c reqsize
      ≤ (s.blk (s.pl p).last).endp
  · refine ⟨_, _, palloc_fast c fuel s p reqsize hreq hroom, ?_, rfl, rfl, rfl, rfl⟩
    have h1 := hr.avail _ hlastC
    have h2 : (s.pl p).last ≠ 0 := fun e => Chain.not_mem_zero hr.chain (e ▸ hlastC)
    omega
  · obtain ⟨b, s1, _, g, hp, _⟩ :=
      palloc_slow_spec c s p reqsize fuel L C hK hreq hr.free hfuel hr.empty hr.below hr.chain
        hr.last hr.sep hroom
    refine ⟨_, _, hp, ?_, ?_, ?_, ?_, ?_⟩
    · have := g.ne_zero; omega
    · simp [link_block, g.mem_eq]
    · simp [link_block, g.ah_eq]
    · simp [link_block, g.cl_eq]
    · simp [link_block, g.log_eq]

theorem pcalloc_ok (c : Cfg) (s : State) (p : Nat) (size : Int) (fuel : Nat)
    (L C : List Nat) (hK : 0 < c.CLICK_SZ) (hreq : 0 < size) (hr : Ready c s p L C)
    (hfuel : L.length < fuel) :
    ∃ r s1, pcalloc c fuel s p size = .ok (r, s1) ∧ r ≠ 0 ∧
      s1.mem = memset s.mem r 0 size.toNat ∧ s1.ah = s.ah ∧ s1.cl = s.cl ∧ s1.log = s.log := by
  obtain ⟨r, s1, h1, h2, h3, h4, h5, h6⟩ := palloc_ok c s p size fuel L C hK hreq hr hfuel
  have hn : ¬ size < 0 := by omega
  refine ⟨r, s1.set_mem (memset s1.mem r 0 size.toNat),
    by simp only [pcalloc, h1, hn, if_false], h2, ?_, ?_, ?_, ?_⟩
  · simp [h3]
  · simp [h4]
  · simp [h5]
  · simp [h6]

theorem load_store_bytes (m : Nat → Nat) (a : Nat) (bs : List Nat) :
    load_bytes (store_bytes m a bs) a bs.length = bs := by
  apply List.ext_getElem
  · simp [load_bytes]
  · intro i h1 h2
    simp [load_bytes, store_bytes, h2, List.getD_eq_getElem _ _ h2]

theorem pstrcat_len_eq : ∀ (args : List (List Nat)) (len : Nat),
    pstrcat_len args len = len + args.flatten.length
  | [], len => by simp [pstrcat_len]
  | a :: rest, len => by
    simp [pstrcat_len, pstrcat_len_eq rest, Nat.add_assoc]

theorem sstrcat_fits (dest src : List Nat) (n : Nat) (h : dest.length + src.length + 1 ≤ n) :
    sstrcat dest src n = dest ++ src := by
  unfold sstrcat
  rw [List.take_of_length_le (by omega)]

theorem pstrcat_fill_eq (n : Nat) : ∀ (args : List (List Nat)) (res : List Nat),
    res.length + args.flatten.length + 1 ≤ n → pstrcat_fill n args res = res ++ args.flatten
  | [], res, _ => by simp [pstrcat_fill]
  | a :: rest, res, h => by
    simp only [List.flatten_cons, List.length_append] at h
    rw [pstrcat_fill, sstrcat_fits _ _ _ (by omega), pstrcat_fill_eq n rest]
    · simp
    · simp only [List.length_append]; omega

theorem cstr_at_load (m : Nat → Nat) : ∀ (str : List Nat) (a k : Nat), 0 ∉ str →
    load_bytes m a (str.length + 1) = str ++ [0] → str.length < k → cstr_at m a k = str
  | [], a, k, _, h, hk => by
    obtain ⟨k, rfl⟩ : ∃ j, k = j + 1 := ⟨k - 1, by simp at hk; omega⟩
    simp [load_bytes, List.range_succ] at h
    simp [cstr_at, h]
  | x :: str, a, k, h0, h, hk => by
    obtain ⟨k, rfl⟩ : ∃ j, k = j + 1 := ⟨k - 1, by simp at hk; omega⟩
    simp only [List.mem_cons, not_or] at h0
    have hx : m a = x := by
      have := congrArg (fun l => l.head?) h
      simpa [load_bytes, List.range_succ_eq_map] using this
    have ht : load_bytes m (a + 1) (str.length + 1) = str ++ [0] := by
      have := congrArg (fun l => l.tail) h
      simp only [load_bytes, List.length_cons, List.range_succ_eq_map (str.length + 1),
        List.map_cons, List.tail_cons, List.cons_append, List.map_map] at this
      rw [← this]
      simp only [load_bytes]
      apply List.map_congr_left
      intro i _
      simp only [Function.comp, Nat.succ_eq_add_one]
      congr 1
      omega
    have hx0 : ¬ x = 0 := fun e => h0.1 e.symm
    have ih := cstr_at_load m str (a + 1) k h0.2 ht (by simp at hk; omega)
    simp [cstr_at, hx, hx0, ih]

theorem isCStr_store (m : Nat → Nat) (a : Nat) (str : List Nat) :
    IsCStr (store_bytes m a (str ++ [0])) a str := by
  have h := load_store_bytes m a (str ++ [0])
  simpa [IsCStr] using h

theorem first_char_ne_zero {a : List Nat} (hne : a ≠ []) (h0 : 0 ∉ a) : first_char a ≠ 0 := by
  cases a with
  | nil => exact absurd rfl hne
  | cons x l =>
    simp only [List.mem_cons, not_or] at h0
    simpa [first_char] using fun e => h0.1 e.symm

theorem first_char_slash (a : List Nat) : first_char a = SLASH ↔ a.head? = some SLASH := by
  cases a with
  | nil => simp [first_char, SLASH]
  | cons x l => simp [first_char]

theorem last_char_eq {a : List Nat} (hne : a ≠ []) (h0 : 0 ∉ a) :
    a.getLast? = some (last_char a) ∧ last_char a ≠ 0 := by
  have h1 := first_char_ne_zero hne h0
  have h2 : a.getLast? = some (a.getLast hne) := List.getLast?_eq_getLast a hne
  have h4 : last_char a = a.getLast hne := by simp [last_char, h1, h2]
  refine ⟨by rw [h4, h2], ?_⟩
  rw [h4]
  intro e
  exact h0 (e ▸ List.getLast_mem hne)

theorem last_char_slash {a : List Nat} (hne : a ≠ []) (h0 : 0 ∉ a) :
    last_char a = SLASH ↔ a.getLast? = some SLASH := by
  have h := (last_char_eq hne h0).1
  rw [h]
  simp

theorem dircat_step_length (acc a : List Nat) : acc.length ≤ (dircat_step acc a).length := by
  unfold dircat_step
  split
  · simp
  · split <;> simp

theorem dircat_foldl_length : ∀ (rest : List (List Nat)) (acc : List Nat),
    acc.length ≤ (rest.foldl dircat_step acc).length
  | [], _ => by simp
  | a :: rest, acc => by
    simp only [List.foldl_cons]
    exact Nat.le_trans (dircat_step_length acc a) (dircat_foldl_length rest _)

theorem dircat_step_ok {acc a : List Nat} (hne : acc ≠ []) (h0 : 0 ∉ acc) (ha : 0 ∉ a) :
    dircat_step acc a ≠ [] ∧ 0 ∉ dircat_step acc a := by
  have hs : (0 : Nat) ≠ SLASH := by decide
  have hat : 0 ∉ a.tail := fun h => ha (List.mem_of_mem_tail h)
  unfold dircat_step
  split
  · exact ⟨by simp [hne], by simp [h0, hat]⟩
  · split
    · exact ⟨by simp, by simp [h0, ha, hs]⟩
    · exact ⟨by simp [hne], by simp [h0, ha]⟩

/-- One turn of the second loop of `pdircat`, with room in the buffer: the step of the spec. -/
theorem pdircat_fill_step (n : Nat) (res a : List Nat) (hne : res ≠ []) (h0 : 0 ∉ res)
    (hfit : (dircat_step res a).length + 1 ≤ n) :
    (if last_char res ≠ 0 ∧ last_char res = SLASH ∧ first_char a = SLASH then
        sstrcat res a.tail n
      else if last_char res ≠ 0 ∧ last_char res ≠ SLASH ∧ first_char a ≠ SLASH then
        sstrcat (sstrcat res [SLASH] n) a n
      else sstrcat res a n) = dircat_step res a := by
  have hl := (last_char_eq hne h0).2
  have hls := last_char_slash hne h0
  have hfs := first_char_slash a
  unfold dircat_step at hfit ⊢
  by_cases c1 : res.getLast? = some SLASH ∧ a.head? = some SLASH
  · have c1b : last_char res ≠ 0 ∧ last_char res = SLASH ∧ first_char a = SLASH :=
      ⟨hl, hls.mpr c1.1, hfs.mpr c1.2⟩
    rw [if_pos c1] at hfit ⊢
    rw [if_pos c1b]
    simp only [List.length_append] at hfit
    exact sstrcat_fits _ _ _ hfit
  · have c1b : ¬ (last_char res ≠ 0 ∧ last_char res = SLASH ∧ first_char a = SLASH) :=
      fun h => c1 ⟨hls.mp h.2.1, hfs.mp h.2.2⟩
    rw [if_neg c1] at hfit ⊢
    rw [if_neg c1b]
    by_cases c2 : res.getLast? ≠ some SLASH ∧ a.head? ≠ some SLASH
    · have c2b : last_char res ≠ 0 ∧ last_char res ≠ SLASH ∧ first_char a ≠ SLASH :=
        ⟨hl, fun h => c2.1 (hls.mp h), fun h => c2.2 (hfs.mp h)⟩
      rw [if_pos c2] at hfit ⊢
      rw [if_pos c2b]
      simp only [List.length_append, List.length_cons] at hfit
      rw [sstrcat_fits res [SLASH] n (by simp; omega), sstrcat_fits _ a n (by simp; omega)]
      simp
    · have c2b : ¬ (last_char res ≠ 0 ∧ last_char res ≠ SLASH ∧ first_char a ≠ SLASH) :=
        fun h => c2 ⟨fun e => h.2.1 (hls.mpr e), fun e => h.2.2 (hfs.mpr e)⟩
      rw [if_neg c2] at hfit ⊢
      rw [if_neg c2b]
      simp only [List.length_append] at hfit
      exact sstrcat_fits _ _ _ hfit

theorem pdircat_fill_eq (n : Nat) : ∀ (rest : List (List Nat)) (res : List Nat),
    res ≠ [] → 0 ∉ res → (∀ a ∈ rest, 0 ∉ a) → (rest.foldl dircat_step res).length + 1 ≤ n →
    pdircat_fill n rest res (last_char res) = rest.foldl dircat_step res
  | [], _, _, _, _, _ => by simp [pdircat_fill]
  | a :: rest, res, hne, h0, hargs, hfit => by
    simp only [List.foldl_cons] at hfit ⊢
    have hstep := pdircat_fill_step n res a hne h0
      (by have := dircat_foldl_length rest (dircat_step res a); omega)
    have hok := dircat_step_ok hne h0 (hargs a (List.mem_cons_self _ _))
    simp only [pdircat_fill]
    rw [hstep]
    exact pdircat_fill_eq n rest _ hok.1 hok.2
      (fun x hx => hargs x (List.mem_cons_of_mem _ hx)) hfit

theorem last_char_nil : last_char [] = 0 := by simp [last_char, first_char]

theorem getLast?_append_ne (acc l : List Nat) (h : l ≠ []) :
    (acc ++ l).getLast? = l.getLast? := by
  rw [List.getLast?_append, List.getLast?_eq_getLast l h]
  rfl

theorem dircat_step_getLast {res a : List Nat} (hne : res ≠ []) (h0 : 0 ∉ res) (ha : 0 ∉ a) :
    (a = [] → last_char (dircat_step res a) = SLASH) ∧
    (a ≠ [] → last_char (dircat_step res a) = last_char a) := by
  have hok := dircat_step_ok hne h0 ha
  constructor
  · intro e
    subst e
    rw [last_char_slash hok.1 hok.2]
    unfold dircat_step
    by_cases c : res.getLast? = some SLASH
    · simp [c]
    · simp [c]
  · intro hane
    have h1 := (last_char_eq hok.1 hok.2).1
    have h2 := (last_char_eq hane ha).1
    have key : (dircat_step res a).getLast? = a.getLast? := by
      unfold dircat_step
      split
      · rename_i c
        cases a with
        | nil => exact absurd rfl hane
        | cons x l =>
          simp only [List.head?_cons, Option.some.injEq] at c
          cases l with
          | nil => simp [c.1, c.2]
          | cons y l2 =>
            simp only [List.tail_cons]
            rw [getLast?_append_ne _ _ (by simp), List.getLast?_cons_cons]
      · split
        · cases a with
          | nil => exact absurd rfl hane
          | cons x l =>
            rw [getLast?_append_ne _ _ (by simp), List.getLast?_cons_cons]
        · cases a with
          | nil => exact absurd rfl hane
          | cons x l => rw [getLast?_append_ne _ _ (by simp)]
    rw [key, h2] at h1
    exact (Option.some.inj h1).symm

/-- One turn of the first loop of `pdircat`, after the first: the length counted stays
ahead of the length of the text, and `last` stays in step with the end of the text. -/
theorem pdircat_len_step (res a : List Nat) (len : Int) (last1 : Nat) (hne : res ≠ [])
    (h0 : 0 ∉ res) (ha : 0 ∉ a) (hlen : (res.length : Int) ≤ len)
    (hlast : last1 = last_char res ∨ (last1 = 0 ∧ last_char res = SLASH)) :
    ((dircat_step res a).length : Int) ≤
      (if last1 ≠ 0 ∧ last1 ≠ SLASH ∧ first_char a ≠ SLASH then len + 1
       else if last1 ≠ 0 ∧ last1 = SLASH ∧ first_char a = SLASH then len - 1
       else len) + a.length ∧
    (last_char a = last_char (dircat_step res a) ∨
      (last_char a = 0 ∧ last_char (dircat_step res a) = SLASH)) := by
  have hl := (last_char_eq hne h0).2
  have hls := last_char_slash hne h0
  have hfs := first_char_slash a
  have hg := dircat_step_getLast hne h0 ha
  constructor
  · have htail : a.head? = some SLASH → (a.tail.length : Int) = a.length - 1 := by
      intro h
      cases a with
      | nil => simp at h
      | cons x l => simp
    rcases hlast with rfl | ⟨rfl, hs⟩
    · unfold dircat_step
      by_cases c1 : res.getLast? = some SLASH ∧ a.head? = some SLASH
      · have c1b : last_char res ≠ 0 ∧ last_char res = SLASH ∧ first_char a = SLASH :=
          ⟨hl, hls.mpr c1.1, hfs.mpr c1.2⟩
        have c2b : ¬ (last_char res ≠ 0 ∧ last_char res ≠ SLASH ∧ first_char a ≠ SLASH) :=
          fun h => h.2.1 c1b.2.1
        rw [if_pos c1, if_neg c2b, if_pos c1b]
        have := htail c1.2
        simp only [List.length_append]
        push_cast
        omega
      · have c1b : ¬ (last_char res ≠ 0 ∧ last_char res = SLASH ∧ first_char a = SLASH) :=
          fun h => c1 ⟨hls.mp h.2.1, hfs.mp h.2.2⟩
        rw [if_neg c1]
        by_cases c2 : res.getLast? ≠ some SLASH ∧ a.head? ≠ some SLASH
        · have c2b : last_char res ≠ 0 ∧ last_char res ≠ SLASH ∧ first_char a ≠ SLASH :=
            ⟨hl, fun h => c2.1 (hls.mp h), fun h => c2.2 (hfs.mp h)⟩
          rw [if_pos c2, if_pos c2b]
          simp only [List.length_append, List.length_cons]
          push_cast
          omega
        · have c2b : ¬ (last_char res ≠ 0 ∧ last_char res ≠ SLASH ∧ first_char a ≠ SLASH) :=
            fun h => c2 ⟨fun e => h.2.1 (hls.mpr e), fun e => h.2.2 (hfs.mpr e)⟩
          rw [if_neg c2, if_neg c2b, if_neg c1b]
          simp only [List.length_append]
          push_cast
          omega
    · have hz1 : ¬ ((0 : Nat) ≠ 0 ∧ (0 : Nat) ≠ SLASH ∧ first_char a ≠ SLASH) := fun h => h.1 rfl
      have hz2 : ¬ ((0 : Nat) ≠ 0 ∧ (0 : Nat) = SLASH ∧ first_char a = SLASH) := fun h => h.1 rfl
      rw [if_neg hz1, if_neg hz2]
      have hres := hls.mp hs
      unfold dircat_step
      by_cases c1 : a.head? = some SLASH
      · have := htail c1
        rw [if_pos ⟨hres, c1⟩]
        simp only [List.length_append]
        push_cast
        omega
      · have n1 : ¬ (res.getLast? = some SLASH ∧ a.head? = some SLASH) := fun h => c1 h.2
        have n2 : ¬ (res.getLast? ≠ some SLASH ∧ a.head? ≠ some SLASH) := fun h => h.1 hres
        rw [if_neg n1, if_neg n2]
        simp only [List.length_append]
        push_cast
        omega
  · by_cases hane : a = []
    · right
      exact ⟨by rw [hane]; exact last_char_nil, hg.1 hane⟩
    · left
      exact (hg.2 hane).symm

theorem pdircat_len_ge : ∀ (rest : List (List Nat)) (res : List Nat) (len : Int)
    (count last1 : Nat), count ≠ 0 → res ≠ [] → 0 ∉ res → (∀ a ∈ rest, 0 ∉ a) →
    (res.length : Int) ≤ len →
    (last1 = last_char res ∨ (last1 = 0 ∧ last_char res = SLASH)) →
    ((rest.foldl dircat_step res).length : Int) ≤ pdircat_len rest len count last1
  | [], _, _, _, _, _, _, _, _, hlen, _ => by simpa [pdircat_len] using hlen
  | a :: rest, res, len, count, last1, hc, hne, h0, hargs, hlen, hlast => by
    have ha := hargs a (List.mem_cons_self _ _)
    have hstep := pdircat_len_step res a len last1 hne h0 ha hlen hlast
    have hok := dircat_step_ok hne h0 ha
    have hcnt : ¬ (count = 0 ∧ first_char a = 0) := fun h => hc h.1
    simp only [pdircat_len, List.foldl_cons, hcnt, if_false]
    exact pdircat_len_ge rest _ _ (count + 1) _ (by omega) hok.1 hok.2
      (fun x hx => hargs x (List.mem_cons_of_mem _ hx)) hstep.1 hstep.2

theorem pdircat_len_first (a0 : List Nat) (rest : List (List Nat)) (hne : a0 ≠ [])
    (h0 : 0 ∉ a0) :
    pdircat_len (a0 :: rest) 0 0 0 = pdircat_len rest (a0.length : Int) 1 (last_char a0) := by
  have h1 := first_char_ne_zero hne h0
  simp [pdircat_len, h1]

theorem pdircat_fill_first (n : Nat) (a0 : List Nat) (rest : List (List Nat))
    (hfit : a0.length + 1 ≤ n) :
    pdircat_fill n (a0 :: rest) [] 0 = pdircat_fill n rest a0 (last_char a0) := by
  have h := sstrcat_fits [] a0 n (by simpa using hfit)
  simp only [List.nil_append] at h
  simp [pdircat_fill, h]

/-- The two loops of `pdircat` on arguments of which the first is not empty: the second
loop builds the text of the spec, and the first loop has counted at least its length. -/
theorem pdircat_loops (a0 : List Nat) (rest : List (List Nat)) (hne : a0 ≠ [])
    (hnul : ∀ a ∈ a0 :: rest, 0 ∉ a) :
    ((dircat_text (a0 :: rest)).length : Int) ≤ pdircat_len (a0 :: rest) 0 0 0 ∧
    pdircat_fill (pdircat_len (a0 :: rest) 0 0 0 + 1).toNat (a0 :: rest) [] 0
      = dircat_text (a0 :: rest) := by
  have h0 := hnul a0 (List.mem_cons_self _ _)
  have hrest : ∀ a ∈ rest, 0 ∉ a := fun a ha => hnul a (List.mem_cons_of_mem _ ha)
  have hge := pdircat_len_ge rest a0 (a0.length : Int) 1 (last_char a0) (by decide) hne h0 hrest
    (le_refl _) (Or.inl rfl)
  rw [← pdircat_len_first a0 rest hne h0] at hge
  have hmono := dircat_foldl_length rest a0
  refine ⟨hge, ?_⟩
  simp only [dircat_text] at hge ⊢
  rw [pdircat_fill_first _ a0 rest (by omega)]
  exact pdircat_fill_eq _ rest a0 hne h0 hrest (by omega)

/-- The second loop of `pdircat` after an empty first argument: the leading slash that
the first loop has counted is not added. -/
theorem pdircat_fill_empty_first (b : List Nat) (n : Nat) (hn : b.length + 1 ≤ n) :
    pdircat_fill n [[], b] [] 0 = b ∧ pdircat_len [[], b] 0 0 0 = b.length + 1 := by
  have h1 := sstrcat_fits [] b n (by simpa using hn)
  have h2 : sstrcat [] [] n = [] := by simp [sstrcat]
  simp only [List.nil_append] at h1
  constructor
  · simp [pdircat_fill, h1, h2, last_char_nil, first_char]
  · simp [pdircat_len, first_char, last_char_nil]
    omega

/-- C8. The code at the input of the claim: `pdircat(p, "", "b", NULL)` on the permanent
pool. The first loop counts a leading slash (the length is 2), but the second loop never
adds it: the string returned, at 4184, is "b", not "/b". -/
theorem pdircat_empty_first :
    pdircat_len [bytes "", bytes "b"] 0 0 0 = 2 ∧
    pdircat_fill 3 [bytes "", bytes "b"] [] 0 = bytes "b" ∧
    (pdircat lp64 1 world 4120 [bytes "", bytes "b"]).toOption.map Prod.fst = some 4184 ∧
    cstr_at (state_of2 (pdircat lp64 1 world 4120 [bytes "", bytes "b"])).mem 4184 3
      = bytes "b" := by
  refine ⟨by decide, by decide, by decide, by decide⟩

/-- The bytes that `palloc` hands out were unused. -/
theorem palloc_unused (c : Cfg) (s : State) (p : Nat) (reqsize : Int) (fuel : Nat)
    (L C : List Nat) (hK : 0 < c.CLICK_SZ) (hB : 0 < c.BLOCK_MINFREE) (hreq : 0 < reqsize)
    (hr : Ready c s p L C) (hfuel : L.length < fuel) (r : Nat) (s1 : State)
    (hp : palloc c fuel s p reqsize = .ok (r, s1)) (a : Nat) (h1 : r ≤ a)
    (h2 : a < r + click_size c reqsize) : Unused c s p L a := by
  by_cases hroom : (s.blk (s.pl p).last).first_avail + click_size c reqsize
      ≤ (s.blk (s.pl p).last).endp
  · rw [palloc_fast c fuel s p reqsize hreq hroom] at hp
    injection hp with hp
    injection hp with hp1 hp2
    left
    omega
  · obtain ⟨b, s2, _, g, hp2, _⟩ :=
      palloc_slow_spec c s p reqsize fuel L C hK hreq hr.free hfuel hr.empty hr.below hr.chain
        hr.last hr.sep hroom
    rw [hp2] at hp
    injection hp with hp
    injection hp with hp1 hp3
    have hge : click_size c reqsize ≤ block_size c (click_size c reqsize) := round_up_ge _ _ hB
    have hroom2 := g.room
    right
    rcases g.origin with ⟨hbL, _⟩ | ⟨hb, _⟩
    · left
      have hne : b ≠ s.brk := by have := hr.below b hbL; omega
      rw [g.endp_eq b hne] at hroom2
      exact ⟨b, hbL, by omega, by omega⟩
    · right
      omega

theorem click_size_ge (c : Cfg) (reqsize : Int) (hK : 0 < c.CLICK_SZ) (hreq : 0 < reqsize) :
    reqsize.toNat ≤ click_size c reqsize := by
  have h := click_round c.CLICK_SZ reqsize.toNat hK (by omega)
  have e : (reqsize - 1).toNat = reqsize.toNat - 1 := by omega
  unfold click_size
  rw [e]
  exact h.1

/-- A zeroed allocation on a ready pool: the pointer is not null, the bytes allotted were
unused, and the memory changes by the zeroing of the bytes asked for. -/
theorem pcalloc_spec (c : Cfg) (s : State) (p : Nat) (size : Int) (fuel : Nat)
    (L C : List Nat) (hK : 0 < c.CLICK_SZ) (hB : 0 < c.BLOCK_MINFREE) (hreq : 0 < size)
    (hr : Ready c s p L C) (hfuel : L.length < fuel) :
    ∃ r s1, pcalloc c fuel s p size = .ok (r, s1) ∧ r ≠ 0 ∧
      s1.mem = memset s.mem r 0 size.toNat ∧ s1.ah = s.ah ∧ s1.cl = s.cl ∧ s1.log = s.log ∧
      (∀ a, r ≤ a → a < r + size.toNat → Unused c s p L a) := by
  obtain ⟨r, s1, h1, h2, h3, h4, h5, h6⟩ := palloc_ok c s p size fuel L C hK hreq hr hfuel
  have hn : ¬ size < 0 := by omega
  have hu := palloc_unused c s p size fuel L C hK hB hreq hr hfuel r s1 h1
  have hge := click_size_ge c size hK hreq
  refine ⟨r, s1.set_mem (memset s1.mem r 0 size.toNat),
    by simp only [pcalloc, h1, hn, if_false], h2, ?_, ?_, ?_, ?_, ?_⟩
  · simp [h3]
  · simp [h4]
  · simp [h5]
  · simp [h6]
  · intro a ha1 ha2
    exact hu a ha1 (by omega)

@[simp] theorem upd_upd {β : Type} (f : Nat → β) (a : Nat) (v w : β) :
    upd (upd f a v) a w = upd f a w := by
  funext x
  simp only [upd]
  split <;> rfl

theorem Kept.refl (s : State) : Kept s s := ⟨rfl, rfl, rfl, rfl, rfl, rfl, rfl⟩

theorem Kept.trans {s s1 s2 : State} (h1 : Kept s s1) (h2 : Kept s1 s2) : Kept s s2 := by
  obtain ⟨a1, a2, a3, a4, a5, a6, a7⟩ := h1
  obtain ⟨b1, b2, b3, b4, b5, b6, b7⟩ := h2
  exact ⟨b1.trans a1, b2.trans a2, b3.trans a3, b4.trans a4, b5.trans a5, b6.trans a6,
    b7.trans a7⟩

/-- The loop of `run_cleanups` calls the records of the list in order, head first. -/
theorem run_cleanups_spec : ∀ (cln : List Nat) (fuel : Nat) (s : State) (cp : Nat),
    Chain s.cnxt cp cln → cln.length < fuel →
    run_cleanups fuel s cp = .ok { s with log := s.log ++ cln.map s.call }
  | [], fuel, s, cp, hc, hf => by
    obtain ⟨f, rfl⟩ : ∃ f, fuel = f + 1 := ⟨fuel - 1, by simp at hf; omega⟩
    simp at hc
    simp [run_cleanups, hc]
  | a :: cln, fuel, s, cp, hc, hf => by
    obtain ⟨f, rfl⟩ : ∃ f, fuel = f + 1 := ⟨fuel - 1, by simp at hf; omega⟩
    obtain ⟨rfl, ha, hc2⟩ := hc
    simp only [List.length_cons, Nat.add_lt_add_iff_right] at hf
    simp only [run_cleanups, ha, if_false]
    have ih := run_cleanups_spec cln f
      { s with log := s.log ++ [((s.cl cp).plain_cleanup_cb, (s.cl cp).data)] } (s.cl cp).next
      hc2 hf
    rw [ih]
    simp [State.call]

/-- The debug check of `free_blocks` passes on a block that is not on the free list. -/
theorem chk_on_blk_list_ok (s : State) (blok : Nat) : ∀ (L : List Nat) (fuel free_blk : Nat),
    Chain s.nxt free_blk L → blok ∉ L → L.length < fuel →
    chk_on_blk_list s blok fuel free_blk = .ok ()
  | [], fuel, free_blk, hc, _, hf => by
    obtain ⟨f, rfl⟩ : ∃ f, fuel = f + 1 := ⟨fuel - 1, by simp at hf; omega⟩
    simp at hc
    simp [chk_on_blk_list, hc]
  | a :: L, fuel, free_blk, hc, hb, hf => by
    obtain ⟨f, rfl⟩ : ∃ f, fuel = f + 1 := ⟨fuel - 1, by simp at hf; omega⟩
    obtain ⟨rfl, ha, hc2⟩ := hc
    simp only [List.mem_cons, not_or] at hb
    simp only [List.length_cons, Nat.add_lt_add_iff_right] at hf
    have hne : ¬ free_blk = blok := fun e => hb.1 e.symm
    simp only [chk_on_blk_list, ha, hne, if_false]
    exact chk_on_blk_list_ok s blok L f _ hc2 hb.2 hf

/-- The debug check of `free_blocks` exits on a block that is on the free list. -/
theorem chk_on_blk_list_exit (s : State) (blok : Nat) : ∀ (L : List Nat) (fuel free_blk : Nat),
    Chain s.nxt free_blk L → blok ∈ L → L.length < fuel →
    chk_on_blk_list s blok fuel free_blk = .error .exit
  | [], _, _, _, hb, _ => by simp at hb
  | a :: L, fuel, free_blk, hc, hb, hf => by
    obtain ⟨f, rfl⟩ : ∃ f, fuel = f + 1 := ⟨fuel - 1, by simp at hf; omega⟩
    obtain ⟨rfl, ha, hc2⟩ := hc
    simp only [List.length_cons, Nat.add_lt_add_iff_right] at hf
    by_cases hne : free_blk = blok
    · simp [chk_on_blk_list, ha, hne]
      subst hne
      exact ha
    · have hb2 : blok ∈ L := by
        rcases List.mem_cons.mp hb with e | h
        · exact absurd e.symm hne
        · exact h
      simp only [chk_on_blk_list, ha, hne, if_false]
      exact chk_on_blk_list_exit s blok L f _ hc2 hb2 hf

theorem free_blocks_loop_spec (c : Cfg) (old : Nat) (L : List Nat) :
    ∀ (rest : List Nat) (s : State) (blok : Nat),
      Chain s.nxt blok (blok :: rest) → Chain s.nxt old L → (∀ x ∈ blok :: rest, x ∉ L) →
      ∃ s1, (∀ fuel, rest.length + L.length + 1 < fuel →
          free_blocks_loop c old fuel s blok = .ok s1) ∧
        Chain s1.nxt blok (blok :: rest ++ L) ∧
        (∀ x ∈ blok :: rest, (s1.blk x).first_avail = x + c.BLOCK_HDR_SZ ∧
          (s1.blk x).endp = (s.blk x).endp) ∧
        (∀ x, x ∉ blok :: rest → s1.blk x = s.blk x) ∧
        s1.pl = s.pl ∧ s1.log = s.log ∧ s1.block_freelist = s.block_freelist ∧ Kept s s1
  | [], s, blok, hX, hL, hsep => by
    obtain ⟨_, hb0, hnil⟩ := hX
    simp only [chain_nil] at hnil
    have hbL : blok ∉ L := hsep blok (List.mem_cons_self _ _)
    have hn : (s.blk blok).next = 0 := hnil
    refine ⟨(s.set_first_avail blok (blok + c.BLOCK_HDR_SZ)).set_next blok old, ?_, ?_, ?_, ?_,
      rfl, rfl, rfl, ⟨rfl, rfl, rfl, rfl, rfl, rfl, rfl⟩⟩
    · intro fuel hf
      obtain ⟨f, rfl⟩ : ∃ f, fuel = f + 1 := ⟨fuel - 1, by omega⟩
      have hchk := chk_on_blk_list_ok s blok L f old hL hbL (by simp at hf; omega)
      simp only [free_blocks_loop, hn, ne_eq, not_true, if_false, hchk]
    · refine ⟨rfl, hb0, ?_⟩
      have e : ((s.set_first_avail blok (blok + c.BLOCK_HDR_SZ)).set_next blok old).nxt blok
          = old := by simp [State.nxt]
      rw [e]
      refine Chain.congr ?_ hL
      intro x hx
      have : x ≠ blok := fun e => hbL (e ▸ hx)
      simp [State.nxt, upd_ne _ _ this]
    · intro x hx
      simp only [List.mem_singleton] at hx
      subst hx
      simp
    · intro x hx
      have : x ≠ blok := fun e => hx (by simp [e])
      simp [upd_ne _ _ this]
  | b2 :: rest, s, blok, hX, hL, hsep => by
    have hnd := Chain.nodup hX
    obtain ⟨_, hb0, hX2⟩ := hX
    have hnb : s.nxt blok = b2 := hX2.1
    have hb2 : b2 ≠ 0 := hX2.2.1
    have hbL : blok ∉ L := hsep blok (List.mem_cons_self _ _)
    have hbrest : blok ∉ b2 :: rest := (List.nodup_cons.mp hnd).1
    have hnx : (s.set_first_avail blok (blok + c.BLOCK_HDR_SZ)).nxt = s.nxt := by
      funext x
      simp only [State.nxt, set_first_avail_eq, upd_apply]
      split
      · rename_i e; subst e; rfl
      · rfl
    have hX3 : Chain (s.set_first_avail blok (blok + c.BLOCK_HDR_SZ)).nxt b2 (b2 :: rest) := by
      rw [hnx]
      exact ⟨rfl, hX2.2.1, hX2.2.2⟩
    have hnb' : (s.blk blok).next = b2 := hnb
    obtain ⟨s1, h1, h2, h3, h4, h5, h6, h7, h8⟩ :=
      free_blocks_loop_spec c old L rest (s.set_first_avail blok (blok + c.BLOCK_HDR_SZ)) b2
        hX3 (by rw [hnx]; exact hL) (fun x hx => hsep x (List.mem_cons_of_mem _ hx))
    have hself : s1.blk blok = { s.blk blok with first_avail := blok + c.BLOCK_HDR_SZ } := by
      rw [h4 blok hbrest]; simp
    refine ⟨s1, ?_, ?_, ?_, ?_, h5, h6, h7, ?_⟩
    · intro fuel hf
      obtain ⟨f, rfl⟩ : ∃ f, fuel = f + 1 := ⟨fuel - 1, by omega⟩
      have hchk := chk_on_blk_list_ok s blok L f old hL hbL (by simp at hf; omega)
      simp only [free_blocks_loop, hnb', hb2, ne_eq, not_false_eq_true, if_true, hchk]
      exact h1 f (by simp at hf; omega)
    · refine ⟨rfl, hb0, ?_⟩
      have : s1.nxt blok = b2 := by simp [State.nxt, hself, hnb']
      rw [this]
      exact h2
    · intro x hx
      rcases List.mem_cons.mp hx with rfl | hx
      · rw [hself]; exact ⟨rfl, rfl⟩
      · have := h3 x hx
        have hxb : x ≠ blok := fun e => hbrest (e ▸ hx)
        simpa [upd_ne _ _ hxb] using this
    · intro x hx
      have hxb : x ≠ blok := fun e => hx (by simp [e])
      have hx2 : x ∉ b2 :: rest := fun h => hx (List.mem_cons_of_mem _ h)
      rw [h4 x hx2]
      simp [upd_ne _ _ hxb]
    · exact Kept.trans ⟨rfl, rfl, rfl, rfl, rfl, rfl, rfl⟩ h8

/-- The effect of `free_blocks` on a chain `X` of blocks that are not on the free list
`L`: the free list becomes `X ++ L`, the blocks of `X` are emptied, and nothing else
changes. -/
theorem free_blocks_spec (c : Cfg) (s : State) (b0 : Nat) (X L : List Nat)
    (hX : Chain s.nxt b0 X) (hL : Chain s.nxt s.block_freelist L) (hsep : ∀ x ∈ X, x ∉ L) :
    ∃ s1, (∀ fuel, X.length + L.length + 1 < fuel → free_blocks c fuel s b0 = .ok s1) ∧
      Chain s1.nxt s1.block_freelist (X ++ L) ∧
      (∀ x ∈ X, (s1.blk x).first_avail = x + c.BLOCK_HDR_SZ ∧ (s1.blk x).endp = (s.blk x).endp) ∧
      (∀ x, x ∉ X → s1.blk x = s.blk x) ∧
      s1.pl = s.pl ∧ s1.log = s.log ∧ Kept s s1 := by
  cases X with
  | nil =>
    simp only [chain_nil] at hX
    subst hX
    exact ⟨s, fun _ _ => by simp [free_blocks], by simpa using hL, by simp, by simp, rfl, rfl,
      Kept.refl _⟩
  | cons a rest =>
    obtain ⟨rfl, ha, hX2⟩ := hX
    obtain ⟨s1, h1, h2, h3, h4, h5, h6, h7, h8⟩ :=
      free_blocks_loop_spec c s.block_freelist L rest { s with block_freelist := b0 } b0
        ⟨rfl, ha, hX2⟩ hL hsep
    refine ⟨s1, ?_, ?_, h3, h4, h5, h6, ?_⟩
    · intro fuel hf
      simp only [free_blocks, ha, if_false]
      exact h1 fuel (by simp at hf; omega)
    · rw [h7]; exact h2
    · exact Kept.trans ⟨rfl, rfl, rfl, rfl, rfl, rfl, rfl⟩ h8

/-- The layout of `t` is read from the pool records of `t.pools`, the `next` fields of
`t.blocks` and the cleanup records. -/
theorem Rep.frame {s s1 : State} : ∀ {t : PT} {a par prev : Nat},
    (∀ x ∈ t.pools, s1.pl x = s.pl x) → (∀ b ∈ t.blocks, s1.nxt b = s.nxt b) →
    s1.cl = s.cl → Rep s t a par prev → Rep s1 t a par prev
  | .nil, _, _, _, _, _, _, h => h
  | .node p chain cln kids sibs, a, par, prev, hp, hb, hc, h => by
    obtain ⟨h1, h2, h3, h4, h5, h6, h7, h8, h9⟩ := h
    have hpp : s1.pl p = s.pl p := hp p (by simp [PT.pools])
    have hcn : s1.cnxt = s.cnxt := by funext x; simp [State.cnxt, hc]
    refine ⟨h1, h2, by rw [hpp]; exact h3, by rw [hpp]; exact h4, ?_, by rw [hpp]; exact h6,
      by rw [hpp, hcn]; exact h7, ?_, ?_⟩
    · rw [hpp]
      exact Chain.congr (fun x hx => (hb x (by simp [PT.blocks, hx])).symm) h5
    · rw [hpp]
      exact Rep.frame (fun x hx => hp x (by simp [PT.pools, hx]))
        (fun x hx => hb x (by simp [PT.blocks, hx])) hc h8
    · rw [hpp]
      exact Rep.frame (fun x hx => hp x (by simp [PT.pools, hx]))
        (fun x hx => hb x (by simp [PT.blocks, hx])) hc h9

/-- The same, when the first pool of the list has been given a new `sub_prev`. -/
theorem Rep.reprev {s s1 : State} {t : PT} {a par prev prev1 : Nat}
    (hroot : ∀ p chain cln kids sibs, t = .node p chain cln kids sibs →
      s1.pl p = { s.pl p with sub_prev := prev1 })
    (hp : ∀ x ∈ t.pools, x ≠ a → s1.pl x = s.pl x) (hnd : t.pools.Nodup)
    (hb : ∀ b ∈ t.blocks, s1.nxt b = s.nxt b) (hc : s1.cl = s.cl)
    (h : Rep s t a par prev) : Rep s1 t a par prev1 := by
  cases t with
  | nil => exact h
  | node p chain cln kids sibs =>
    obtain ⟨h1, h2, h3, h4, h5, h6, h7, h8, h9⟩ := h
    subst h1
    have hpp := hroot a chain cln kids sibs rfl
    have hcn : s1.cnxt = s.cnxt := by funext x; simp [State.cnxt, hc]
    simp only [PT.pools, List.nodup_cons, List.mem_append, not_or] at hnd
    have hk : ∀ x ∈ kids.pools, x ≠ a := fun x hx e => hnd.1.1 (e ▸ hx)
    have hs : ∀ x ∈ sibs.pools, x ≠ a := fun x hx e => hnd.1.2 (e ▸ hx)
    refine ⟨rfl, h2, by rw [hpp]; exact h3, by rw [hpp], ?_, by rw [hpp]; exact h6,
      by rw [hpp, hcn]; exact h7, ?_, ?_⟩
    · rw [hpp]
      exact Chain.congr (fun x hx => (hb x (by simp [PT.blocks, hx])).symm) h5
    · rw [hpp]
      exact Rep.frame (fun x hx => hp x (by simp [PT.pools, hx]) (hk x hx))
        (fun x hx => hb x (by simp [PT.blocks, hx])) hc h8
    · rw [hpp]
      exact Rep.frame (fun x hx => hp x (by simp [PT.pools, hx]) (hs x hx))
        (fun x hx => hb x (by simp [PT.blocks, hx])) hc h9

theorem PT.freed_perm : ∀ (t : PT) (L : List Nat), (t.freed L).Perm (t.blocks ++ L)
  | .nil, L => by simp [PT.freed, PT.blocks]
  | .node p chain cln kids sibs, L => by
    simp only [PT.freed, PT.blocks]
    have h1 := PT.freed_perm sibs (chain ++ kids.freed L)
    have h2 := PT.freed_perm kids L
    refine h1.trans ?_
    have h3 : (sibs.blocks ++ (chain ++ kids.freed L)).Perm
        (sibs.blocks ++ (chain ++ (kids.blocks ++ L))) :=
      List.Perm.append_left _ (List.Perm.append_left _ h2)
    refine h3.trans ?_
    have h4 : (sibs.blocks ++ (chain ++ (kids.blocks ++ L))).Perm
        ((chain ++ (kids.blocks ++ L)) ++ sibs.blocks) := List.perm_append_comm
    refine h4.trans ?_
    simp only [List.append_assoc]
    refine List.Perm.append_left _ (List.Perm.append_left _ ?_)
    exact List.perm_append_comm

theorem chain_head_tail {nx : Nat → Nat} {h : Nat} {l : List Nat} (hc : Chain nx h l)
    (hne : l ≠ []) : l = h :: l.tail ∧ h ≠ 0 ∧ Chain nx (nx h) l.tail := by
  cases l with
  | nil => exact absurd rfl hne
  | cons a l =>
    obtain ⟨rfl, h2, h3⟩ := hc
    exact ⟨rfl, h2, h3⟩

/-- The body of `clear_pool`, its three calls having returned. -/
theorem clear_pool_succ (c : Cfg) (f : Nat) (s : State) (p : Nat) (hp : p ≠ 0) (s1 s3 s5 : State)
    (h1 : run_cleanups f s (s.pl p).cleanups = .ok s1)
    (h3 : destroy_sub_pools c f (s1.set_pl p { s1.pl p with cleanups := 0 }) p = .ok s3)
    (h5 : free_blocks c f (s3.set_pl p { s3.pl p with sub_pools := 0 })
      ((s3.set_pl p { s3.pl p with sub_pools := 0 }).blk
        ((s3.set_pl p { s3.pl p with sub_pools := 0 }).pl p).first).next = .ok s5) :
    clear_pool c (f + 1) s p = .ok
      ((((s5.set_next (s5.pl p).first 0).set_pl p
          { (s5.set_next (s5.pl p).first 0).pl p with
            last := ((s5.set_next (s5.pl p).first 0).pl p).first }).set_first_avail
        (((s5.set_next (s5.pl p).first 0).set_pl p
          { (s5.set_next (s5.pl p).first 0).pl p with
            last := ((s5.set_next (s5.pl p).first 0).pl p).first }).pl p).first
        (((s5.set_next (s5.pl p).first 0).set_pl p
          { (s5.set_next (s5.pl p).first 0).pl p with
            last := ((s5.set_next (s5.pl p).first 0).pl p).first }).pl p).free_first_avail)) := by
  simp only [clear_pool, hp, if_false, h1, h3, h5]

/-- `clear_pool(p)` on a well-formed pool whose sub-pools the loop can destroy. -/
theorem clear_pool_of_forest (c : Cfg) (s : State) (p : Nat) (chain cln : List Nat) (kids : PT)
    (L : List Nat) (hk : ForestSpec c kids) (ho : Owns s p chain cln kids L) :
    ∃ N s1, (∀ fuel, N ≤ fuel → clear_pool c fuel s p = .ok s1) ∧
      Cleared c s s1 p chain cln kids L := by
  have hne : chain ≠ [] := by
    intro e
    have := ho.has_last
    rw [e] at this
    simp at this
  obtain ⟨hch, hf0, htail⟩ := chain_head_tail ho.is_chain hne
  have hnd := ho.nodup_blocks
  rw [hch] at hnd
  simp only [List.cons_append, List.nodup_cons, List.mem_append, not_or] at hnd
  obtain ⟨⟨hft, hfk, hfL⟩, hnd2⟩ := hnd
  have hnd3 := List.nodup_append.mp hnd2
  have hnd4 := List.nodup_append.mp hnd3.2.1
  have hpools := List.nodup_cons.mp ho.nodup_pools
  -- the state after the cleanups have run and the list has been dropped
  let sa : State := { s with log := s.log ++ cln.map s.call }
  let s2 : State := sa.set_pl p { sa.pl p with cleanups := 0 }
  have hs2p : s2.pl p = { s.pl p with cleanups := 0 } := by simp [s2, sa]
  have hs2x : ∀ x, x ≠ p → s2.pl x = s.pl x := fun x hx => by simp [s2, sa, upd_ne _ _ hx]
  have hrep2 : Rep s2 kids (s2.pl p).sub_pools p 0 := by
    rw [hs2p]
    exact Rep.frame (fun x hx => hs2x x (fun e => hpools.1 (e ▸ hx))) (fun _ _ => rfl) rfl ho.is_kids
  obtain ⟨N1, s3, hrun3, hd⟩ := hk s2 p L ho.ne_zero hrep2 ho.is_free hnd3.2.1 ho.nodup_pools
  let s4 : State := s3.set_pl p { s3.pl p with sub_pools := 0 }
  have hs4p : s4.pl p = { s.pl p with cleanups := 0, sub_pools := 0 } := by
    simp [s4, hd.par_eq, hs2p]
  have hfirst3 : s3.blk (s.pl p).first = s.blk (s.pl p).first := hd.blk_frame _ hfk
  have hperm := PT.freed_perm kids L
  have hsep : ∀ x ∈ chain.tail, x ∉ kids.freed L := by
    intro x hx hm
    have := hperm.subset hm
    exact hnd3.2.2 hx this
  have htail4 : Chain s4.nxt (s4.blk (s4.pl p).first).next chain.tail := by
    rw [hs4p]
    show Chain s3.nxt (s3.blk (s.pl p).first).next chain.tail
    rw [hfirst3]
    refine Chain.congr ?_ htail
    intro x hx
    have : x ∉ kids.blocks := fun hm => hnd3.2.2 hx (List.mem_append_left _ hm)
    have e3 : s3.blk x = s.blk x := hd.blk_frame x this
    show (s.blk x).next = (s3.blk x).next
    rw [e3]
  obtain ⟨s5, hrun5, h5free, h5reset, h5frame, h5pl, h5log, h5kept⟩ :=
    free_blocks_spec c s4 (s4.blk (s4.pl p).first).next chain.tail (kids.freed L) htail4
      hd.free hsep
  let s6 : State := s5.set_next (s5.pl p).first 0
  let s7 : State := s6.set_pl p { s6.pl p with last := (s6.pl p).first }
  let s8 : State := s7.set_first_avail (s7.pl p).first (s7.pl p).free_first_avail
  have hs5p : s5.pl p = { s.pl p with cleanups := 0, sub_pools := 0 } := by rw [h5pl, hs4p]
  have hs8blk : s8.blk = upd s5.blk (s.pl p).first
      { s5.blk (s.pl p).first with next := 0, first_avail := (s.pl p).free_first_avail } := by
    simp [s8, s7, s6, hs5p]
  have hfirst5 : s5.blk (s.pl p).first = s.blk (s.pl p).first := by
    rw [h5frame _ hft]
    exact hfirst3
  refine ⟨max (max (cln.length + 1) N1) (chain.tail.length + (kids.freed L).length + 2) + 1, s8,
    ?_, ?_⟩
  · intro fuel hfuel
    obtain ⟨f, rfl⟩ : ∃ f, fuel = f + 1 := ⟨fuel - 1, by omega⟩
    have h1 := run_cleanups_spec cln f s (s.pl p).cleanups ho.is_cln (by omega)
    have h3 := hrun3 f (by omega)
    have h5 := hrun5 f (by omega)
    exact clear_pool_succ c f s p ho.ne_zero sa s3 s5 h1 h3 h5
  · refine
      { free := ?_
        reset := ?_
        first_blk := by rw [hs8blk, upd_same, hfirst5]
        blk_frame := ?_
        p_eq := by simp [s8, s7, s6, hs5p]
        pl_frame := ?_
        log_eq := ?_
        kept := ?_ }
    · have e : s8.block_freelist = s5.block_freelist := rfl
      rw [e]
      refine Chain.congr ?_ h5free
      intro x hx
      have hxf : x ≠ (s.pl p).first := by
        intro e
        subst e
        rcases List.mem_append.mp hx with h | h
        · exact hft h
        · have := hperm.subset h
          rcases List.mem_append.mp this with h | h
          · exact hfk h
          · exact hfL h
      simp [State.nxt, hs8blk, upd_ne _ _ hxf]
    · intro b hb
      have hbf : b ≠ (s.pl p).first := by
        intro e
        subst e
        rcases List.mem_append.mp hb with h | h
        · exact hft h
        · exact hfk h
      rw [hs8blk, upd_ne _ _ hbf]
      rcases List.mem_append.mp hb with h | h
      · have := h5reset b h
        have hbk : b ∉ kids.blocks := fun hm => hnd3.2.2 h (List.mem_append_left _ hm)
        rw [this.1, this.2]
        exact ⟨rfl, by show (s3.blk b).endp = _; rw [hd.blk_frame b hbk]; rfl⟩
      · have hbt : b ∉ chain.tail := fun hm => hnd3.2.2 hm (List.mem_append_left _ h)
        rw [h5frame b hbt]
        exact hd.reset b h
    · intro b hb
      rw [hch] at hb
      simp only [List.cons_append, List.mem_cons, List.mem_append, not_or] at hb
      rw [hs8blk, upd_ne _ _ hb.1, h5frame b hb.2.1]
      exact hd.blk_frame b hb.2.2
    · intro x hx hxp
      have e : s8.pl x = s5.pl x := by
        show upd s5.pl p _ x = s5.pl x
        exact upd_ne _ _ hxp
      rw [e, h5pl]
      show upd s3.pl p _ x = _
      rw [upd_ne _ _ hxp, hd.pl_frame x hx hxp]
      exact hs2x x hxp
    · have e : s8.log = s5.log := rfl
      rw [e, h5log]
      show s3.log = _
      rw [hd.log_eq]
      show s.log ++ cln.map s.call ++ kids.records.map s2.call = _
      have : s2.call = s.call := rfl
      rw [this]
      simp
    · have k1 : Kept s s2 := ⟨rfl, rfl, rfl, rfl, rfl, rfl, rfl⟩
      have k2 : Kept s3 s4 := ⟨rfl, rfl, rfl, rfl, rfl, rfl, rfl⟩
      have k3 : Kept s5 s8 := ⟨rfl, rfl, rfl, rfl, rfl, rfl, rfl⟩
      exact ((k1.trans hd.kept).trans (k2.trans h5kept)).trans k3

/-- The unlinking of the first sub-pool `p` of `par`, `n` being the sibling after it. -/
theorem unlink_pool_head (s : State) (p par n : Nat) (hpar : (s.pl p).parent = par)
    (hpar0 : par ≠ 0) (hhead : (s.pl par).sub_pools = p) (hprev : (s.pl p).sub_prev = 0)
    (hn : (s.pl p).sub_next = n) (hpp : p ≠ par) (hnpar : n ≠ par) :
    ∃ P, unlink_pool s p = { s with pl := P } ∧
      P par = { s.pl par with sub_pools := n } ∧
      (n ≠ 0 → n ≠ p → P n = { s.pl n with sub_prev := 0 }) ∧
      (∀ x, x ≠ par → (n = 0 ∨ x ≠ n) → P x = s.pl x) := by
  by_cases hn0 : n = 0
  · refine ⟨upd s.pl par { s.pl par with sub_pools := n }, ?_, by simp, fun h => absurd hn0 h, ?_⟩
    · simp [unlink_pool, hpar, hpar0, hhead, upd_ne _ _ hpp, hprev, hn, hn0]
    · intro x hx _
      exact upd_ne _ _ hx
  · refine ⟨upd (upd s.pl par { s.pl par with sub_pools := n }) n { s.pl n with sub_prev := 0 },
      ?_, ?_, ?_, ?_⟩
    · simp [unlink_pool, hpar, hpar0, hhead, upd_ne _ _ hpp, hprev, hn, hn0, upd_ne _ _ hnpar]
    · rw [upd_ne _ _ (Ne.symm hnpar), upd_same]
    · intro _ _
      rw [upd_same]
    · intro x hx hxn
      rcases hxn with h | h
      · exact absurd h hn0
      · rw [upd_ne _ _ h, upd_ne _ _ hx]

theorem pool_eta_sub_pools (r : pool) (h : r.sub_pools = 0) : r = { r with sub_pools := 0 } := by
  cases r
  simp at h
  simp [h]

theorem Rep.first_mem {s : State} {t : PT} {a par prev : Nat} (h : Rep s t a par prev)
    (ha : a ≠ 0) : a ∈ t.pools := by
  cases t with
  | nil => exact absurd h ha
  | node p chain cln kids sibs => simp [PT.pools, h.1]

theorem Rep.zero_or_mem {s : State} {t : PT} {a par prev : Nat} (h : Rep s t a par prev) :
    a = 0 ∨ a ∈ t.pools := by
  by_cases ha : a = 0
  · exact Or.inl ha
  · exact Or.inr (h.first_mem ha)

theorem forest_nil (c : Cfg) : ForestSpec c .nil := by
  intro s par L hpar hrep hfree _ _
  have h0 : (s.pl par).sub_pools = 0 := hrep
  refine ⟨1, s, ?_, ?_⟩
  · intro fuel hf
    obtain ⟨f, rfl⟩ : ∃ f, fuel = f + 1 := ⟨fuel - 1, by omega⟩
    simp [destroy_sub_pools, h0]
  · exact
      { free := hfree
        reset := by simp [PT.blocks]
        blk_frame := fun _ _ => rfl
        par_eq := pool_eta_sub_pools _ h0
        pl_frame := fun _ _ _ => rfl
        log_eq := by simp [PT.records]
        kept := Kept.refl _ }

theorem destroy_pool_succ (c : Cfg) (f : Nat) (s : State) (p : Nat) (s1 s2 : State)
    (h1 : clear_pool c f (unlink_pool s p) p = .ok s1)
    (h2 : free_blocks c f s1 (s1.pl p).first = .ok s2) :
    destroy_pool c (f + 1) s p = .ok s2 := by
  simp only [destroy_pool, h1, h2]

theorem destroy_sub_pools_succ (c : Cfg) (f : Nat) (s : State) (p : Nat) (s1 s2 : State)
    (h0 : (s.pl p).sub_pools ≠ 0)
    (h1 : destroy_pool c f s (s.pl p).sub_pools = .ok s1)
    (h2 : destroy_sub_pools c f s1 p = .ok s2) :
    destroy_sub_pools c (f + 1) s p = .ok s2 := by
  simp only [destroy_sub_pools, h0, ne_eq, not_false_eq_true, if_true, h1, h2]

theorem Kept.call_eq {s s1 : State} (h : Kept s s1) : s1.call = s.call := by
  funext a
  simp [State.call, h.1]

theorem forest_node (c : Cfg) (p : Nat) (chain cln : List Nat) (kids sibs : PT)
    (hk : ForestSpec c kids) (hs : ForestSpec c sibs) :
    ForestSpec c (.node p chain cln kids sibs) := by
  intro s par L hpar hrep hfree hnd hpools
  obtain ⟨h1, hp0, hparent, hprev, hchain, hlast, hcln, hkids, hsibs⟩ := hrep
  -- distinctness of the pools
  simp only [PT.pools, List.nodup_cons, List.mem_cons, List.mem_append, not_or,
    List.nodup_append] at hpools
  obtain ⟨⟨hparp, hpark, hpars⟩, ⟨hpk, hps⟩, hkn, hsn, hks⟩ := hpools
  -- distinctness of the blocks
  simp only [PT.blocks, List.append_assoc] at hnd
  have hnd1 := List.nodup_append.mp hnd
  have hnd2 := List.nodup_append.mp hnd1.2.1
  have hnd3 := List.nodup_append.mp hnd2.2.1
  have hn := hsibs.zero_or_mem
  have hnpar : (s.pl p).sub_next ≠ par := by
    rcases hn with h | h
    · rw [h]; exact Ne.symm hpar
    · exact fun e => hpars (e ▸ h)
  have hnp : (s.pl p).sub_next ≠ 0 → (s.pl p).sub_next ≠ p := by
    intro h0 e
    rcases hn with h | h
    · exact h0 h
    · exact hps (e ▸ h)
  have hnk : (s.pl p).sub_next = 0 ∨ (s.pl p).sub_next ∉ kids.pools := by
    rcases hn with h | h
    · exact Or.inl h
    · exact Or.inr (fun hm => hks hm h)
  obtain ⟨P, hU, hPpar, hPn, hPx⟩ :=
    unlink_pool_head s p par (s.pl p).sub_next hparent hpar h1 hprev rfl
      (Ne.symm hparp) hnpar
  have hPp : P p = s.pl p := by
    refine hPx p (Ne.symm hparp) ?_
    by_cases h0 : (s.pl p).sub_next = 0
    · exact Or.inl h0
    · exact Or.inr (Ne.symm (hnp h0))
  have hPk : ∀ x ∈ kids.pools, P x = s.pl x := by
    intro x hx
    refine hPx x (fun e => hpark (e ▸ hx)) ?_
    rcases hnk with h | h
    · exact Or.inl h
    · exact Or.inr (fun e => h (e ▸ hx))
  let su : State := { s with pl := P }
  have hchain_nodup : (chain ++ (kids.blocks ++ L)).Nodup := by
    refine List.nodup_append.mpr ⟨hnd1.1, ?_, ?_⟩
    · exact List.nodup_append.mpr ⟨hnd2.1, hnd3.2.1, fun x hx hL => hnd2.2.2 hx
        (List.mem_append_right _ hL)⟩
    · intro x hx hm
      rcases List.mem_append.mp hm with h | h
      · exact hnd1.2.2 hx (List.mem_append_left _ h)
      · exact hnd1.2.2 hx (List.mem_append_right _ (List.mem_append_right _ h))
  have howns : Owns su p chain cln kids L :=
    { ne_zero := hp0
      is_chain := by show Chain s.nxt (P p).first chain; rw [hPp]; exact hchain
      has_last := by show chain.getLast? = some (P p).last; rw [hPp]; exact hlast
      is_cln := by show Chain s.cnxt (P p).cleanups cln; rw [hPp]; exact hcln
      is_kids := by
        show Rep su kids (P p).sub_pools p 0
        rw [hPp]
        exact Rep.frame hPk (fun _ _ => rfl) rfl hkids
      is_free := hfree
      nodup_blocks := hchain_nodup
      nodup_pools := List.nodup_cons.mpr ⟨hpk, hkn⟩ }
  obtain ⟨N1, sc, hrunc, hC⟩ := clear_pool_of_forest c su p chain cln kids L hk howns
  have hne : chain ≠ [] := by
    intro e
    rw [e] at hlast
    simp at hlast
  obtain ⟨hch, hf0, _⟩ := chain_head_tail hchain hne
  have hcn := hchain_nodup
  rw [hch] at hcn
  simp only [List.cons_append, List.nodup_cons, List.mem_append, not_or] at hcn
  obtain ⟨⟨hft, hfk, hfL⟩, _⟩ := hcn
  have hfs : (s.pl p).first ∉ sibs.blocks := fun hm =>
    hnd1.2.2 (by rw [hch]; exact List.mem_cons_self _ _)
      (List.mem_append_right _ (List.mem_append_left _ hm))
  have hperm := PT.freed_perm kids L
  have hscp : (sc.pl p).first = (s.pl p).first := by
    rw [hC.p_eq]
    show (P p).first = _
    rw [hPp]
  have hscf : sc.blk (s.pl p).first =
      { s.blk (s.pl p).first with next := 0, first_avail := (s.pl p).free_first_avail } := by
    have := hC.first_blk
    have e : su.pl p = s.pl p := hPp
    rw [e] at this
    exact this
  have hX : Chain sc.nxt (sc.pl p).first [(s.pl p).first] := by
    rw [hscp]
    refine ⟨rfl, hf0, ?_⟩
    show (sc.blk (s.pl p).first).next = 0
    rw [hscf]
  have hsep : ∀ x ∈ [(s.pl p).first], x ∉ chain.tail ++ kids.freed L := by
    intro x hx hm
    simp only [List.mem_singleton] at hx
    subst hx
    rcases List.mem_append.mp hm with h | h
    · exact hft h
    · rcases List.mem_append.mp (hperm.subset h) with h | h
      · exact hfk h
      · exact hfL h
  obtain ⟨sd, hrund, hdfree, hdreset, hdframe, hdpl, hdlog, hdkept⟩ :=
    free_blocks_spec c sc (sc.pl p).first [(s.pl p).first] (chain.tail ++ kids.freed L) hX
      hC.free hsep
  have hdfree2 : Chain sd.nxt sd.block_freelist (chain ++ kids.freed L) := by
    have e : chain ++ kids.freed L = [(s.pl p).first] ++ (chain.tail ++ kids.freed L) := by
      conv_lhs => rw [hch]
      simp
    rw [e]
    exact hdfree
  -- the blocks outside the pool destroyed are as they were
  have hblk_out : ∀ b, b ∉ chain → b ∉ kids.blocks → sd.blk b = s.blk b := by
    intro b hb1 hb2
    have hbf : b ∉ [(s.pl p).first] := by
      simp only [List.mem_singleton]
      intro e
      apply hb1
      rw [hch, e]
      exact List.mem_cons_self _ _
    rw [hdframe b hbf]
    exact hC.blk_frame b (by simp [hb1, hb2])
  -- the pool records outside the pool destroyed
  have hpl_out : ∀ x, x ∉ kids.pools → x ≠ p → sd.pl x = P x := by
    intro x hx1 hx2
    rw [hdpl]
    exact hC.pl_frame x hx1 hx2
  have hsdpar : sd.pl par = { s.pl par with sub_pools := (s.pl p).sub_next } := by
    rw [hpl_out par hpark hparp, hPpar]
  have hkept : Kept s sd := by
    have k0 : Kept s su := ⟨rfl, rfl, rfl, rfl, rfl, rfl, rfl⟩
    exact (k0.trans hC.kept).trans hdkept
  have hrepd : Rep sd sibs (sd.pl par).sub_pools par 0 := by
    rw [hsdpar]
    refine Rep.reprev ?_ ?_ hsn ?_ hkept.1 hsibs
    · intro q ch cl ks sb e
      subst e
      have hq : (s.pl p).sub_next = q := hsibs.1
      have hqm : q ∈ (PT.node q ch cl ks sb).pools := by simp [PT.pools]
      have hq0 : q ≠ 0 := hsibs.2.1
      rw [hpl_out q (fun hm => hks hm hqm) (fun e => hps (e ▸ hqm))]
      rw [← hq]
      exact hPn (by rw [hq]; exact hq0) (hnp (by rw [hq]; exact hq0))
    · intro x hx hxn
      rw [hpl_out x (fun hm => hks hm hx) (fun e => hps (e ▸ hx))]
      exact hPx x (fun e => hpars (e ▸ hx)) (Or.inr hxn)
    · intro b hb
      have hb1 : b ∉ chain := fun hm =>
        hnd1.2.2 hm (List.mem_append_right _ (List.mem_append_left _ hb))
      have hb2 : b ∉ kids.blocks := fun hm => hnd2.2.2 hm (List.mem_append_left _ hb)
      show (sd.blk b).next = (s.blk b).next
      rw [hblk_out b hb1 hb2]
  have hnd_s : (sibs.blocks ++ (chain ++ kids.freed L)).Nodup := by
    have hp1 : (sibs.blocks ++ (chain ++ kids.freed L)).Perm
        (chain ++ (kids.blocks ++ (sibs.blocks ++ L))) := by
      have a1 : (sibs.blocks ++ (chain ++ kids.freed L)).Perm
          (sibs.blocks ++ (chain ++ (kids.blocks ++ L))) :=
        List.Perm.append_left _ (List.Perm.append_left _ hperm)
      refine a1.trans ?_
      have a2 : (sibs.blocks ++ (chain ++ (kids.blocks ++ L))).Perm
          ((chain ++ kids.blocks) ++ (sibs.blocks ++ L)) := by
        have e1 : sibs.blocks ++ (chain ++ (kids.blocks ++ L))
            = (sibs.blocks ++ (chain ++ kids.blocks)) ++ L := by simp
        have e2 : (chain ++ kids.blocks) ++ (sibs.blocks ++ L)
            = ((chain ++ kids.blocks) ++ sibs.blocks) ++ L := by simp
        rw [e1, e2]
        exact List.Perm.append_right _ List.perm_append_comm
      refine a2.trans ?_
      simp
    exact hp1.nodup_iff.mpr hnd
  obtain ⟨N2, sf, hrunf, hF⟩ :=
    hs sd par (chain ++ kids.freed L) hpar hrepd hdfree2 hnd_s
      (List.nodup_cons.mpr ⟨hpars, hsn⟩)
  refine ⟨max (max N1 N2) ((chain.tail ++ kids.freed L).length + 3) + 2, sf, ?_, ?_⟩
  · intro fuel hfuel
    obtain ⟨f, rfl⟩ : ∃ f, fuel = f + 2 := ⟨fuel - 2, by omega⟩
    have e1 : clear_pool c f (unlink_pool s p) p = .ok sc := by
      rw [hU]
      exact hrunc f (by omega)
    have e2 : free_blocks c f sc (sc.pl p).first = .ok sd :=
      hrund f (by simp only [List.length_singleton]; omega)
    have e3 := destroy_pool_succ c f s p sc sd e1 e2
    have e4 := hrunf (f + 1) (by omega)
    have h0 : (s.pl par).sub_pools ≠ 0 := by rw [h1]; exact hp0
    refine destroy_sub_pools_succ c (f + 1) s par sd sf h0 ?_ e4
    rw [h1]
    exact e3
  · have hcall : sd.call = s.call := hkept.call_eq
    refine
      { free := hF.free
        reset := ?_
        blk_frame := ?_
        par_eq := by rw [hF.par_eq, hsdpar]
        pl_frame := ?_
        log_eq := ?_
        kept := hkept.trans hF.kept }
    · intro b hb
      simp only [PT.blocks, List.mem_append] at hb
      rcases hb with hb | hb | hb
      · have hbs : b ∉ sibs.blocks := fun hm =>
          hnd1.2.2 hb (List.mem_append_right _ (List.mem_append_left _ hm))
        rw [hF.blk_frame b hbs]
        by_cases hbf : b = (s.pl p).first
        · subst hbf
          have := hdreset _ (List.mem_singleton_self _)
          rw [this.1, this.2, hscf]
          exact ⟨rfl, rfl⟩
        · have hbt : b ∈ chain.tail := by
            rw [hch] at hb
            rcases List.mem_cons.mp hb with h | h
            · exact absurd h hbf
            · exact h
          rw [hdframe b (by simpa using hbf)]
          exact hC.reset b (List.mem_append_left _ hbt)
      · have hbs : b ∉ sibs.blocks := fun hm => hnd2.2.2 hb (List.mem_append_left _ hm)
        have hbf : b ≠ (s.pl p).first := fun e => hfk (e ▸ hb)
        rw [hF.blk_frame b hbs, hdframe b (by simpa using hbf)]
        exact hC.reset b (List.mem_append_right _ hb)
      · have hb1 : b ∉ chain := fun hm =>
          hnd1.2.2 hm (List.mem_append_right _ (List.mem_append_left _ hb))
        have hb2 : b ∉ kids.blocks := fun hm => hnd2.2.2 hm (List.mem_append_left _ hb)
        have := hF.reset b hb
        rw [this.1, this.2, hblk_out b hb1 hb2]
        exact ⟨rfl, rfl⟩
    · intro b hb
      simp only [PT.blocks, List.mem_append, not_or] at hb
      rw [hF.blk_frame b hb.2.2]
      exact hblk_out b hb.1 hb.2.1
    · intro x hx hxpar
      simp only [PT.pools, List.mem_cons, List.mem_append, not_or] at hx
      rw [hF.pl_frame x hx.2.2 hxpar, hpl_out x hx.2.1 hx.1]
      refine hPx x hxpar ?_
      rcases hn with h | h
      · exact Or.inl h
      · exact Or.inr (fun e => hx.2.2 (e ▸ h))
    · rw [hF.log_eq, hcall, hdlog, hC.log_eq]
      have : su.call = s.call := rfl
      rw [this]
      show s.log ++ _ ++ _ = _
      simp [PT.records]

/-- The loop of `clear_pool` destroys every well-formed list of sub-pools. -/
theorem forest_spec (c : Cfg) : ∀ t : PT, ForestSpec c t
  | .nil => forest_nil c
  | .node p chain cln kids sibs =>
    forest_node c p chain cln kids sibs (forest_spec c kids) (forest_spec c sibs)

/-- `clear_pool(p)` returns on every well-formed pool and leaves a state as `Cleared`
tells. -/
theorem clear_pool_spec (c : Cfg) (s : State) (p : Nat) (chain cln : List Nat) (kids : PT)
    (L : List Nat) (ho : Owns s p chain cln kids L) :
    ∃ N s1, (∀ fuel, N ≤ fuel → clear_pool c fuel s p = .ok s1) ∧
      Cleared c s s1 p chain cln kids L :=
  clear_pool_of_forest c s p chain cln kids L (forest_spec c kids) ho

/-- `destroy_pool(p)` returns on every pool that is well formed once unlinked, and leaves
a state as `Gone` tells. -/
theorem destroy_pool_spec (c : Cfg) (s : State) (p : Nat) (chain cln : List Nat) (kids : PT)
    (L : List Nat) (ho : Owns (unlink_pool s p) p chain cln kids L) :
    ∃ N s1, (∀ fuel, N ≤ fuel → destroy_pool c fuel s p = .ok s1) ∧
      Gone c (unlink_pool s p) s1 p chain cln kids L := by
  obtain ⟨N1, sc, hrunc, hC⟩ := clear_pool_spec c (unlink_pool s p) p chain cln kids L ho
  have hne : chain ≠ [] := by
    intro e
    have := ho.has_last
    rw [e] at this
    simp at this
  obtain ⟨hch, hf0, _⟩ := chain_head_tail ho.is_chain hne
  have hcn := ho.nodup_blocks
  rw [hch] at hcn
  simp only [List.cons_append, List.nodup_cons, List.mem_append, not_or] at hcn
  obtain ⟨⟨hft, hfk, hfL⟩, hcn2⟩ := hcn
  have hcn3 := List.nodup_append.mp hcn2
  have hperm := PT.freed_perm kids L
  have hscp : (sc.pl p).first = ((unlink_pool s p).pl p).first := by rw [hC.p_eq]
  have hX : Chain sc.nxt (sc.pl p).first [((unlink_pool s p).pl p).first] := by
    rw [hscp]
    refine ⟨rfl, hf0, ?_⟩
    show (sc.blk ((unlink_pool s p).pl p).first).next = 0
    rw [hC.first_blk]
  have hsep : ∀ x ∈ [((unlink_pool s p).pl p).first], x ∉ chain.tail ++ kids.freed L := by
    intro x hx hm
    simp only [List.mem_singleton] at hx
    subst hx
    rcases List.mem_append.mp hm with h | h
    · exact hft h
    · rcases List.mem_append.mp (hperm.subset h) with h | h
      · exact hfk h
      · exact hfL h
  obtain ⟨sd, hrund, hdfree, hdreset, hdframe, hdpl, hdlog, hdkept⟩ :=
    free_blocks_spec c sc (sc.pl p).first [((unlink_pool s p).pl p).first]
      (chain.tail ++ kids.freed L) hX hC.free hsep
  refine ⟨max N1 ((chain.tail ++ kids.freed L).length + 3) + 1, sd, ?_, ?_⟩
  · intro fuel hfuel
    obtain ⟨f, rfl⟩ : ∃ f, fuel = f + 1 := ⟨fuel - 1, by omega⟩
    exact destroy_pool_succ c f s p sc sd (hrunc f (by omega))
      (hrund f (by simp only [List.length_singleton]; omega))
  · refine
      { free := ?_
        reset := ?_
        blk_frame := ?_
        p_eq := by rw [hdpl, hC.p_eq]
        pl_frame := fun x hx hxp => by rw [hdpl]; exact hC.pl_frame x hx hxp
        log_eq := by rw [hdlog, hC.log_eq]
        kept := hC.kept.trans hdkept }
    · have e : chain ++ kids.freed L
          = [((unlink_pool s p).pl p).first] ++ (chain.tail ++ kids.freed L) := by
        conv_lhs => rw [hch]
        simp
      rw [e]
      exact hdfree
    · intro b hb
      by_cases hbf : b = ((unlink_pool s p).pl p).first
      · subst hbf
        have := hdreset _ (List.mem_singleton_self _)
        rw [this.1, this.2, hC.first_blk]
        exact ⟨rfl, rfl⟩
      · rw [hdframe b (by simpa using hbf)]
        apply hC.reset b
        rcases List.mem_append.mp hb with h | h
        · rw [hch] at h
          rcases List.mem_cons.mp h with h | h
          · exact absurd h hbf
          · exact List.mem_append_left _ h
        · exact List.mem_append_right _ h
    · intro b hb
      have hbf : b ∉ [((unlink_pool s p).pl p).first] := by
        simp only [List.mem_singleton]
        intro e
        apply hb
        rw [hch, e]
        simp
      rw [hdframe b hbf]
      exact hC.blk_frame b hb

/-- The unlinking at the head of `destroy_pool` writes at most the records of the parent
of `p` and of the siblings before and after it. -/
theorem unlink_pool_frame (s : State) (p : Nat) (h1 : p ≠ (s.pl p).parent)
    (h2 : p ≠ (s.pl p).sub_prev) (h3 : p ≠ (s.pl p).sub_next) :
    ∃ P, unlink_pool s p = { s with pl := P } ∧ P p = s.pl p ∧
      ∀ y, y ≠ (s.pl p).parent → y ≠ (s.pl p).sub_prev → y ≠ (s.pl p).sub_next →
        P y = s.pl y := by
  by_cases hpar : (s.pl p).parent = 0
  · exact ⟨s.pl, by simp [unlink_pool, hpar], rfl, fun _ _ _ _ => rfl⟩
  · by_cases hc1 : (s.pl (s.pl p).parent).sub_pools = p <;>
    by_cases hc2 : (s.pl p).sub_prev = 0 <;>
    by_cases hc3 : (s.pl p).sub_next = 0 <;>
    refine ⟨(unlink_pool s p).pl, ?_, ?_, ?_⟩ <;>
    first
      | (intro y y1 y2 y3
         simp [unlink_pool, hpar, hc1, hc2, hc3, upd_ne _ _ h1, upd_ne _ _ h2, upd_ne _ _ h3,
           upd_ne _ _ y1, upd_ne _ _ y2, upd_ne _ _ y3])
      | simp [unlink_pool, hpar, hc1, hc2, hc3, upd_ne _ _ h1, upd_ne _ _ h2, upd_ne _ _ h3]

theorem upd_self {β : Type} (f : Nat → β) (a : Nat) (v : β) (h : f a = v) : upd f a v = f := by
  funext x
  simp only [upd]
  split
  · rename_i e; rw [e, h]
  · rfl

theorem set_pl_self (s : State) (p : Nat) (r : pool) (h : s.pl p = r) : s.set_pl p r = s := by
  simp only [set_pl_eq, upd_self _ _ _ h]

theorem set_next_self (s : State) (b v : Nat) (h : (s.blk b).next = v) : s.set_next b v = s := by
  have e : s.blk b = { s.blk b with next := v } := by
    cases hb : s.blk b
    rw [hb] at h
    simp at h
    simp [h]
  simp only [set_next_eq, upd_self _ _ _ e]

theorem set_first_avail_self (s : State) (b v : Nat) (h : (s.blk b).first_avail = v) :
    s.set_first_avail b v = s := by
  have e : s.blk b = { s.blk b with first_avail := v } := by
    cases hb : s.blk b
    rw [hb] at h
    simp at h
    simp [h]
  simp only [set_first_avail_eq, upd_self _ _ _ e]

/-- `clear_pool(p)` changes nothing in a state in which `p` is already clear. -/
theorem clear_pool_idle (c : Cfg) (s : State) (p : Nat) (hp : p ≠ 0)
    (hcl : (s.pl p).cleanups = 0) (hsub : (s.pl p).sub_pools = 0)
    (hnext : (s.blk (s.pl p).first).next = 0) (hlast : (s.pl p).last = (s.pl p).first)
    (havail : (s.blk (s.pl p).first).first_avail = (s.pl p).free_first_avail)
    (fuel : Nat) (hfuel : 2 ≤ fuel) : clear_pool c fuel s p = .ok s := by
  obtain ⟨f, rfl⟩ : ∃ f, fuel = f + 2 := ⟨fuel - 2, by omega⟩
  have e1 : s.set_pl p { s.pl p with cleanups := 0 } = s := by
    apply set_pl_self
    cases h : s.pl p
    rw [h] at hcl
    simp at hcl
    simp [hcl]
  have e2 : s.set_pl p { s.pl p with sub_pools := 0 } = s := by
    apply set_pl_self
    cases h : s.pl p
    rw [h] at hsub
    simp at hsub
    simp [hsub]
  have e3 : s.set_next (s.pl p).first 0 = s := set_next_self _ _ _ hnext
  have e4 : s.set_pl p { s.pl p with last := (s.pl p).first } = s := by
    apply set_pl_self
    cases h : s.pl p
    rw [h] at hlast
    simp at hlast
    simp [hlast]
  have e5 : s.set_first_avail (s.pl p).first (s.pl p).free_first_avail = s :=
    set_first_avail_self _ _ _ havail
  have h1 : run_cleanups (f + 1) s (s.pl p).cleanups = .ok s := by
    rw [hcl]; simp [run_cleanups]
  have h3 : destroy_sub_pools c (f + 1) (s.set_pl p { s.pl p with cleanups := 0 }) p = .ok s := by
    rw [e1]; simp [destroy_sub_pools, hsub]
  have h5 : free_blocks c (f + 1) (s.set_pl p { s.pl p with sub_pools := 0 })
      ((s.set_pl p { s.pl p with sub_pools := 0 }).blk
        ((s.set_pl p { s.pl p with sub_pools := 0 }).pl p).first).next = .ok s := by
    rw [e2, hnext]; simp [free_blocks]
  have h := clear_pool_succ c (f + 1) s p hp s s s h1 h3 h5
  rw [h, e3, e4, e5]

/-- C4. `clear_pool(p)` on a well-formed pool returns, and then: `p->cleanups` and
`p->sub_pools` are nil, `p->first == p->last`, the first block has no successor and its
`first_avail` is `p->free_first_avail`; the first block, the snapshot and the links of `p`
to its parent and siblings are as before, and so is every pool record other than those
of `p` and of its former descendants, so that `p` stays linked in the sub-pool list of
its parent; the blocks after the first of the chain of `p` and the blocks of all former
descendants are on the free list, each with `first_avail` at its payload start. -/
theorem clear_pool_contract (c : Cfg) (s : State) (p : Nat) (chain cln : List Nat) (kids : PT)
    (L : List Nat) (ho : Owns s p chain cln kids L) :
    ∃ N s1, (∀ fuel, N ≤ fuel → clear_pool c fuel s p = .ok s1) ∧
      (s1.pl p).cleanups = 0 ∧ (s1.pl p).sub_pools = 0 ∧ (s1.pl p).first = (s1.pl p).last ∧
      (s1.blk (s1.pl p).first).next = 0 ∧
      (s1.blk (s1.pl p).first).first_avail = (s1.pl p).free_first_avail ∧
      (s1.pl p).first = (s.pl p).first ∧
      (s1.pl p).free_first_avail = (s.pl p).free_first_avail ∧
      (s1.pl p).parent = (s.pl p).parent ∧ (s1.pl p).sub_next = (s.pl p).sub_next ∧
      (s1.pl p).sub_prev = (s.pl p).sub_prev ∧
      (∀ x, x ∉ kids.pools → x ≠ p → s1.pl x = s.pl x) ∧
      Chain s1.nxt s1.block_freelist (chain.tail ++ kids.freed L) ∧
      (∀ b ∈ chain.tail ++ kids.blocks,
        b ∈ chain.tail ++ kids.freed L ∧ (s1.blk b).first_avail = b + c.BLOCK_HDR_SZ) := by
  obtain ⟨N, s1, hrun, hC⟩ := clear_pool_spec c s p chain cln kids L ho
  have hp := hC.p_eq
  have hperm := PT.freed_perm kids L
  refine ⟨N, s1, hrun, by rw [hp], by rw [hp], by rw [hp], ?_, ?_, by rw [hp], by rw [hp],
    by rw [hp], by rw [hp], by rw [hp], hC.pl_frame, hC.free, ?_⟩
  · rw [hp]
    show (s1.blk (s.pl p).first).next = 0
    rw [hC.first_blk]
  · rw [hp]
    show (s1.blk (s.pl p).first).first_avail = (s.pl p).free_first_avail
    rw [hC.first_blk]
  · intro b hb
    refine ⟨?_, (hC.reset b hb).1⟩
    rcases List.mem_append.mp hb with h | h
    · exact List.mem_append_left _ h
    · exact List.mem_append_right _ (hperm.symm.subset (List.mem_append_left _ h))

/-- C4, at an instance: `clear_pool(A)` in `town`, where `A` has two blocks, two cleanups
and the sub-pool `B`. -/
theorem clear_pool_contract_witness :
    ∃ N s1, (∀ fuel, N ≤ fuel → clear_pool lp64 fuel town 4656 = .ok s1) ∧
      (s1.pl 4656).cleanups = 0 ∧ (s1.pl 4656).sub_pools = 0 ∧
      (s1.pl 4656).first = (s1.pl 4656).last ∧
      Chain s1.nxt s1.block_freelist [5168, 9288] :=
  have h := clear_pool_contract lp64 town 4656 [4632, 5168] [9224, 9192]
    (.node 9312 [9288] [9376] .nil .nil) []
    { ne_zero := by decide, is_chain := by decide, has_last := by decide, is_cln := by decide,
      is_kids := by decide, is_free := by decide, nodup_blocks := by decide,
      nodup_pools := by decide }
  let ⟨N, s1, h1, h2, h3, h4, _, _, _, _, _, _, _, _, h5, _⟩ := h
  ⟨N, s1, h1, h2, h3, h4, h5⟩

/-- C6. `clear_pool` is idempotent on a well-formed pool: a second `clear_pool(p)` on the
state left by the first returns that very state, whole: pool records, blocks, free list,
counters and the log of the callbacks called, to which the second call adds nothing. -/
theorem clear_pool_idempotent (c : Cfg) (s : State) (p : Nat) (chain cln : List Nat) (kids : PT)
    (L : List Nat) (ho : Owns s p chain cln kids L) :
    ∃ N s1, (∀ fuel, N ≤ fuel → clear_pool c fuel s p = .ok s1) ∧
      (∀ fuel, N ≤ fuel → clear_pool c fuel s1 p = .ok s1) ∧
      (∀ fuel fuel2, N ≤ fuel → N ≤ fuel2 →
        (match clear_pool c fuel s p with
          | .ok s2 => clear_pool c fuel2 s2 p
          | .error e => .error e) = clear_pool c fuel s p) := by
  obtain ⟨N, s1, hrun, hC⟩ := clear_pool_spec c s p chain cln kids L ho
  have hp := hC.p_eq
  have hidle : ∀ fuel, 2 ≤ fuel → clear_pool c fuel s1 p = .ok s1 := by
    apply clear_pool_idle c s1 p ho.ne_zero
    · rw [hp]
    · rw [hp]
    · rw [hp]
      show (s1.blk (s.pl p).first).next = 0
      rw [hC.first_blk]
    · rw [hp]
    · rw [hp]
      show (s1.blk (s.pl p).first).first_avail = (s.pl p).free_first_avail
      rw [hC.first_blk]
  refine ⟨max N 2, s1, fun fuel hf => hrun fuel (by omega), fun fuel hf => hidle fuel (by omega), ?_⟩
  intro fuel fuel2 hf hf2
  rw [hrun fuel (by omega)]
  exact hidle fuel2 (by omega)

/-- C6, at an instance: two calls of `clear_pool(A)` in `town`. -/
theorem clear_pool_idempotent_witness :
    ∃ N s1, (∀ fuel, N ≤ fuel → clear_pool lp64 fuel town 4656 = .ok s1) ∧
      (∀ fuel, N ≤ fuel → clear_pool lp64 fuel s1 4656 = .ok s1) :=
  have h := clear_pool_idempotent lp64 town 4656 [4632, 5168] [9224, 9192]
    (.node 9312 [9288] [9376] .nil .nil) []
    { ne_zero := by decide, is_chain := by decide, has_last := by decide, is_cln := by decide,
      is_kids := by decide, is_free := by decide, nodup_blocks := by decide,
      nodup_pools := by decide }
  let ⟨N, s1, h1, h2, _⟩ := h
  ⟨N, s1, h1, h2⟩

/-- A pool that is well formed stays so when it is unlinked, its parent and the siblings
next to it being neither the pool nor one of its descendants. -/
theorem Owns.unlink {s : State} {p : Nat} {chain cln : List Nat} {kids : PT} {L : List Nat}
    (ho : Owns s p chain cln kids L)
    (h1 : (s.pl p).parent ∉ p :: kids.pools) (h2 : (s.pl p).sub_prev ∉ p :: kids.pools)
    (h3 : (s.pl p).sub_next ∉ p :: kids.pools) :
    Owns (unlink_pool s p) p chain cln kids L ∧ (unlink_pool s p).log = s.log ∧
      (unlink_pool s p).call = s.call := by
  simp only [List.mem_cons, not_or] at h1 h2 h3
  obtain ⟨P, hU, hPp, hPx⟩ := unlink_pool_frame s p (Ne.symm h1.1) (Ne.symm h2.1) (Ne.symm h3.1)
  rw [hU]
  refine ⟨?_, rfl, rfl⟩
  exact
    { ne_zero := ho.ne_zero
      is_chain := by show Chain s.nxt (P p).first chain; rw [hPp]; exact ho.is_chain
      has_last := by show chain.getLast? = some (P p).last; rw [hPp]; exact ho.has_last
      is_cln := by show Chain s.cnxt (P p).cleanups cln; rw [hPp]; exact ho.is_cln
      is_kids := by
        show Rep { s with pl := P } kids (P p).sub_pools p 0
        rw [hPp]
        refine @Rep.frame s _ _ _ _ _ ?_ (fun _ _ => rfl) rfl ho.is_kids
        intro x hx
        exact hPx x (fun e => h1.2 (e ▸ hx)) (fun e => h2.2 (e ▸ hx)) (fun e => h3.2 (e ▸ hx))
      is_free := ho.is_free
      nodup_blocks := ho.nodup_blocks
      nodup_pools := ho.nodup_pools }

/-- `register_cleanup` puts the new record at the head of the list of the pool. -/
theorem register_cleanup_spec (c : Cfg) (s : State) (p data cb ccb : Nat) (fuel : Nat)
    (L C cln : List Nat) (hK : 0 < c.CLICK_SZ) (hB : 0 < c.BLOCK_MINFREE)
    (hS : 0 < c.CLEANUP_SZ) (hr : Ready c s p L C) (hfuel : L.length < fuel)
    (hcln : Chain s.cnxt (s.pl p).cleanups cln) (hlive : ∀ a ∈ cln, ¬ Unused c s p L a) :
    ∃ cp s1, register_cleanup c fuel s p data cb ccb = .ok s1 ∧ (s1.pl p).cleanups = cp ∧
      Chain s1.cnxt cp (cp :: cln) ∧ s1.call cp = (cb, data) ∧
      (∀ a ∈ cln, s1.call a = s.call a) ∧ s1.log = s.log := by
  have hpos : 0 < ((c.CLEANUP_SZ : Nat) : Int) := by omega
  obtain ⟨r, s1, hp, hr0, _, _, hcl, hlog, hun⟩ :=
    pcalloc_spec c s p _ fuel L C hK hB hpos hr hfuel
  have hrc : r ∉ cln := fun hm => hlive r hm (hun r (le_refl _) (by omega))
  have hpl : (s1.pl p).cleanups = (s.pl p).cleanups := by
    have hroom_or := palloc_ok c s p (c.CLEANUP_SZ : Int) fuel L C hK hpos hr hfuel
    by_cases hroom : (s.blk (s.pl p).last).first_avail + click_size c (c.CLEANUP_SZ : Int)
        ≤ (s.blk (s.pl p).last).endp
    · have h1 := palloc_fast c fuel s p _ hpos hroom
      have hn : ¬ ((c.CLEANUP_SZ : Nat) : Int) < 0 := by omega
      simp only [pcalloc, h1, hn, if_false] at hp
      injection hp with hp
      injection hp with _ hp2
      rw [← hp2]
      rfl
    · obtain ⟨b, s2, _, g, h1, _⟩ :=
        palloc_slow_spec c s p _ fuel L C hK hpos hr.free hfuel hr.empty hr.below hr.chain
          hr.last hr.sep hroom
      have hn : ¬ ((c.CLEANUP_SZ : Nat) : Int) < 0 := by omega
      simp only [pcalloc, h1, hn, if_false] at hp
      injection hp with hp
      injection hp with _ hp2
      rw [← hp2]
      simp [g.pl_eq]
  refine ⟨r, (s1.set_cl r ⟨data, cb, ccb, (s1.pl p).cleanups⟩).set_pl p
    { (s1.set_cl r ⟨data, cb, ccb, (s1.pl p).cleanups⟩).pl p with cleanups := r }, ?_, ?_, ?_,
    ?_, ?_, ?_⟩
  · simp only [register_cleanup, hp, hr0, if_false]
  · simp
  · refine ⟨rfl, hr0, ?_⟩
    have e : ((s1.set_cl r ⟨data, cb, ccb, (s1.pl p).cleanups⟩).set_pl p
        { (s1.set_cl r ⟨data, cb, ccb, (s1.pl p).cleanups⟩).pl p with cleanups := r }).cnxt r
        = (s.pl p).cleanups := by
      simp [State.cnxt, hpl]
    rw [e]
    refine Chain.congr ?_ hcln
    intro x hx
    have hxr : x ≠ r := fun e => hrc (e ▸ hx)
    simp [State.cnxt, upd_ne _ _ hxr, hcl]
  · simp [State.call]
  · intro a ha
    have har : a ≠ r := fun e => hrc (e ▸ ha)
    simp [State.call, upd_ne _ _ har, hcl]
  · simp [hlog]

/-- C3. The plain cleanup callbacks called by `clear_pool(p)`, and by `destroy_pool(p)`,
on a well-formed pool: the log of calls grows by the calls for the records of the list of
`p`, head first, followed by those for the sub-pools in the order of the sub-pool list,
each sub-pool with its own records first and then its sub-pools (`PT.records`), every
call with the callback and the data of its record. `register_cleanup` puts the new record
at the head of the list, so the records of a pool are called last registered first: in
`town`, where (1, 111) and then (2, 222) were registered on `A` and (3, 333) on its
sub-pool `B`, both functions call 2 on 222, then 1 on 111, then 3 on 333. -/
theorem cleanup_order (c : Cfg) (s : State) (p : Nat) (chain cln : List Nat) (kids : PT)
    (L : List Nat) (ho : Owns s p chain cln kids L) :
    (∃ N s1, (∀ fuel, N ≤ fuel → clear_pool c fuel s p = .ok s1) ∧
      s1.log = s.log ++ (cln ++ kids.records).map s.call) ∧
    ((s.pl p).parent ∉ p :: kids.pools → (s.pl p).sub_prev ∉ p :: kids.pools →
      (s.pl p).sub_next ∉ p :: kids.pools →
      ∃ N s1, (∀ fuel, N ≤ fuel → destroy_pool c fuel s p = .ok s1) ∧
        s1.log = s.log ++ (cln ++ kids.records).map s.call) ∧
    (∀ (fuel : Nat) (C : List Nat) (data cb ccb : Nat), 0 < c.CLICK_SZ → 0 < c.BLOCK_MINFREE →
      0 < c.CLEANUP_SZ → Ready c s p L C → L.length < fuel →
      (∀ a ∈ cln, ¬ Unused c s p L a) →
      ∃ cp s1, register_cleanup c fuel s p data cb ccb = .ok s1 ∧ (s1.pl p).cleanups = cp ∧
        Chain s1.cnxt cp (cp :: cln) ∧ s1.call cp = (cb, data) ∧
        (∀ a ∈ cln, s1.call a = s.call a) ∧ s1.log = s.log) ∧
    (clear_pool lp64 9 town 4656).toOption.map (fun s1 => s1.log)
      = some [(2, 222), (1, 111), (3, 333)] ∧
    (destroy_pool lp64 9 town 4656).toOption.map (fun s1 => s1.log)
      = some [(2, 222), (1, 111), (3, 333)] := by
  refine ⟨?_, ?_, ?_, by decide, by decide⟩
  · obtain ⟨N, s1, hrun, hC⟩ := clear_pool_spec c s p chain cln kids L ho
    exact ⟨N, s1, hrun, hC.log_eq⟩
  · intro h1 h2 h3
    obtain ⟨hou, hlog, hcall⟩ := ho.unlink h1 h2 h3
    obtain ⟨N, s1, hrun, hG⟩ := destroy_pool_spec c s p chain cln kids L hou
    refine ⟨N, s1, hrun, ?_⟩
    rw [hG.log_eq, hlog, hcall]
  · intro fuel C data cb ccb hK hB hS hr hfuel hlive
    exact register_cleanup_spec c s p data cb ccb fuel L C cln hK hB hS hr hfuel ho.is_cln hlive

/-- C3, at an instance: `clear_pool(A)` in `town`. -/
theorem cleanup_order_witness :
    ∃ N s1, (∀ fuel, N ≤ fuel → clear_pool lp64 fuel town 4656 = .ok s1) ∧
      s1.log = town.log ++ ([9224, 9192] ++ [9376]).map town.call :=
  (cleanup_order lp64 town 4656 [4632, 5168] [9224, 9192]
    (.node 9312 [9288] [9376] .nil .nil) []
    { ne_zero := by decide, is_chain := by decide, has_last := by decide, is_cln := by decide,
      is_kids := by decide, is_free := by decide, nodup_blocks := by decide,
      nodup_pools := by decide }).1

theorem bytes_in_block_list_spec (c : Cfg) (s : State) : ∀ (l : List Nat) (fuel h acc : Nat),
    Chain s.nxt h l → l.length < fuel →
    bytes_in_block_list c s fuel h acc = .ok (acc + chain_bytes c s l)
  | [], fuel, h, acc, hc, hf => by
    obtain ⟨f, rfl⟩ : ∃ f, fuel = f + 1 := ⟨fuel - 1, by simp at hf; omega⟩
    simp at hc
    simp [bytes_in_block_list, hc, chain_bytes]
  | a :: l, fuel, h, acc, hc, hf => by
    obtain ⟨f, rfl⟩ : ∃ f, fuel = f + 1 := ⟨fuel - 1, by simp at hf; omega⟩
    obtain ⟨rfl, ha, hc2⟩ := hc
    simp only [List.length_cons, Nat.add_lt_add_iff_right] at hf
    simp only [bytes_in_block_list, ha, if_false]
    have ih := bytes_in_block_list_spec c s l f (s.blk h).next
      (acc + ((s.blk h).endp - (h + c.BLOCK_HDR_SZ))) hc2 hf
    rw [ih]
    simp [chain_bytes, Nat.add_assoc]

/-- `__walk_pools` returns on every laid-out list of siblings, with the figures of
`PT.walk`. -/
theorem walk_pools_spec (c : Cfg) (s : State) : ∀ (t : PT) (a par prev : Nat),
    Rep s t a par prev →
    ∃ N, ∀ fuel, N ≤ fuel → walk_pools c s fuel a = .ok (PT.walk c s t)
  | .nil, a, _, _, h => by
    refine ⟨1, fun fuel hf => ?_⟩
    obtain ⟨f, rfl⟩ : ∃ f, fuel = f + 1 := ⟨fuel - 1, by omega⟩
    have : a = 0 := h
    simp [walk_pools, this, PT.walk]
  | .node p chain cln kids sibs, a, par, prev, h => by
    obtain ⟨h1, h2, _, _, h5, _, _, h8, h9⟩ := h
    subst h1
    obtain ⟨N1, hk⟩ := walk_pools_spec c s kids _ _ _ h8
    obtain ⟨N2, hs⟩ := walk_pools_spec c s sibs _ _ _ h9
    refine ⟨max (max N1 N2) (chain.length + 1) + 1, fun fuel hf => ?_⟩
    obtain ⟨f, rfl⟩ : ∃ f, fuel = f + 1 := ⟨fuel - 1, by omega⟩
    have hb := bytes_in_block_list_spec c s chain f (s.pl a).first 0 h5 (by omega)
    simp only [walk_pools, h2, if_false, hb, hk f (by omega), hs f (by omega), PT.walk,
      Nat.zero_add]

theorem chain_bytes_congr (c : Cfg) {s s1 : State} (l : List Nat)
    (h : ∀ b ∈ l, s1.blk b = s.blk b) : chain_bytes c s1 l = chain_bytes c s l := by
  unfold chain_bytes
  congr 1
  apply List.map_congr_left
  intro b hb
  rw [h b hb]

theorem PT.walk_congr (c : Cfg) {s s1 : State} : ∀ (t : PT),
    (∀ b ∈ t.blocks, s1.blk b = s.blk b) → PT.walk c s1 t = PT.walk c s t
  | .nil, _ => rfl
  | .node p chain cln kids sibs, h => by
    have h1 := chain_bytes_congr c chain (fun b hb => h b (by simp [PT.blocks, hb]))
    have h2 := PT.walk_congr c kids (fun b hb => h b (by simp [PT.blocks, hb]))
    have h3 := PT.walk_congr c sibs (fun b hb => h b (by simp [PT.blocks, hb]))
    simp only [PT.walk, h1, h2, h3]

theorem Rep.first_blocks {s : State} : ∀ {t : PT} {a par prev : Nat}, Rep s t a par prev →
    ∀ x ∈ t.pools, (s.pl x).first ∈ t.blocks
  | .nil, _, _, _, _, x, hx => by simp [PT.pools] at hx
  | .node p chain cln kids sibs, a, par, prev, h, x, hx => by
    obtain ⟨_, _, _, _, h5, h6, _, h8, h9⟩ := h
    simp only [PT.pools, List.mem_cons, List.mem_append] at hx
    simp only [PT.blocks, List.mem_append]
    rcases hx with rfl | hx | hx
    · left
      have hne : chain ≠ [] := by
        intro e
        rw [e] at h6
        simp at h6
      have := (chain_head_tail h5 hne).1
      rw [this]
      exact List.mem_cons_self _ _
    · exact Or.inr (Or.inl (Rep.first_blocks h8 x hx))
    · exact Or.inr (Or.inr (Rep.first_blocks h9 x hx))

theorem Rep.pools_ne_zero {s : State} : ∀ {t : PT} {a par prev : Nat}, Rep s t a par prev →
    0 ∉ t.pools
  | .nil, _, _, _, _ => by simp [PT.pools]
  | .node p chain cln kids sibs, a, par, prev, h => by
    obtain ⟨_, h2, _, _, _, _, _, h8, h9⟩ := h
    simp only [PT.pools, List.mem_cons, List.mem_append, not_or]
    exact ⟨fun e => h2 e.symm, Rep.pools_ne_zero h8, Rep.pools_ne_zero h9⟩

/-- The block that `new_block(0)` returns and the state it leaves do not depend on the
fuel, once there is enough of it. -/
theorem new_block_zero_fixed (c : Cfg) (hB : 1 < c.BLOCK_MINFREE) (s : State) (L : List Nat)
    (hc : Chain s.nxt s.block_freelist L) :
    ∃ b s1, NewBlock c s L c.BLOCK_MINFREE b s1 ∧
      ∀ fuel, L.length < fuel → new_block c fuel s 0 = .ok (b, s1) := by
  have hR := round_min_size_zero c hB
  have h := fun fuel hf =>
    new_block_scan_eq c (round_min_size c 0) s L fuel none s.block_freelist hc hf
  cases hs : scan_ptr s (round_min_size c 0) none L with
  | none =>
    have hnone := scan_ptr_none s _ L none hs
    rw [hR] at hnone
    refine ⟨s.brk, fresh_block c s c.BLOCK_MINFREE, Or.inr ⟨hnone, rfl, rfl⟩, ?_⟩
    intro fuel hf
    have := h fuel hf
    rw [hs] at this
    rw [new_block, this, hR, malloc_block_eq]
    rfl
  | some r =>
    obtain ⟨lp, b⟩ := r
    obtain ⟨L1, L2, h1, h2, h3, h4⟩ := scan_ptr_some s _ L none lp b hs
    rw [hR] at h2 h3
    refine ⟨b, take_free s (lastptr_after L1) b, Or.inl ⟨L1, L2, h1, h2, h3, rfl⟩, ?_⟩
    intro fuel hf
    have := h fuel hf
    rw [hs] at this
    rw [new_block, this, h4]
    rfl

theorem make_sub_pool_eq (c : Cfg) (fuel : Nat) (s : State) (p b : Nat) (s1 : State)
    (h : new_block c fuel s 0 = .ok (b, s1)) :
    make_sub_pool c fuel s p = .ok ((s1.blk b).first_avail, link_pool c s1 p b) := by
  simp only [make_sub_pool, h, link_pool]
  split <;> rfl

/-- The pool records and the blocks after `make_sub_pool(q)` has set up and linked the
new pool, `h` being the first sub-pool of `q` before. -/
theorem link_pool_spec (c : Cfg) (s1 : State) (q b : Nat) (hq : q ≠ 0)
    (hqn : q ≠ (s1.blk b).first_avail) (hhn : (s1.pl q).sub_pools ≠ (s1.blk b).first_avail)
    (hhq : (s1.pl q).sub_pools ≠ q) :
    (link_pool c s1 q b).pl (s1.blk b).first_avail =
      ⟨b, b, 0, 0, (s1.pl q).sub_pools, 0, q, (s1.blk b).first_avail + POOL_HDR_BYTES c⟩ ∧
    (link_pool c s1 q b).pl q = { s1.pl q with sub_pools := (s1.blk b).first_avail } ∧
    ((s1.pl q).sub_pools ≠ 0 → (link_pool c s1 q b).pl (s1.pl q).sub_pools =
      { s1.pl (s1.pl q).sub_pools with sub_prev := (s1.blk b).first_avail }) ∧
    (∀ x, x ≠ (s1.blk b).first_avail → x ≠ q → (x ≠ (s1.pl q).sub_pools ∨ (s1.pl q).sub_pools = 0) →
      (link_pool c s1 q b).pl x = s1.pl x) ∧
    (link_pool c s1 q b).blk = upd s1.blk b
      { s1.blk b with first_avail := (s1.blk b).first_avail + POOL_HDR_BYTES c } ∧
    (link_pool c s1 q b).cl = s1.cl ∧ (link_pool c s1 q b).log = s1.log ∧
    (link_pool c s1 q b).block_freelist = s1.block_freelist ∧ Kept s1 (link_pool c s1 q b) := by
  by_cases h0 : (s1.pl q).sub_pools = 0
  · refine ⟨?_, ?_, fun h => absurd h0 h, ?_, ?_, ?_, ?_, ?_, ?_⟩
    · simp [link_pool, hq, h0, upd_ne _ _ hqn, upd_ne _ _ (Ne.symm hqn)]
    · simp [link_pool, hq, h0, upd_ne _ _ hqn]
    · intro x hx1 hx2 _
      simp [link_pool, hq, h0, upd_ne _ _ hqn, upd_ne _ _ hx1, upd_ne _ _ hx2]
    · simp [link_pool, hq, h0, upd_ne _ _ hqn]
    · simp [link_pool, hq, h0, upd_ne _ _ hqn]
    · simp [link_pool, hq, h0, upd_ne _ _ hqn]
    · simp [link_pool, hq, h0, upd_ne _ _ hqn]
    · simp [link_pool, hq, h0, upd_ne _ _ hqn, Kept]
  · refine ⟨?_, ?_, fun _ => ?_, ?_, ?_, ?_, ?_, ?_, ?_⟩
    · simp [link_pool, hq, h0, upd_ne _ _ hqn, upd_ne _ _ (Ne.symm hqn), upd_ne _ _ (Ne.symm hhn)]
    · simp [link_pool, hq, h0, upd_ne _ _ hqn, upd_ne _ _ (Ne.symm hhq)]
    · simp [link_pool, hq, h0, upd_ne _ _ hqn, upd_ne _ _ hhq, upd_ne _ _ hhn]
    · intro x hx1 hx2 hx3
      have hx4 : x ≠ (s1.pl q).sub_pools := by
        rcases hx3 with h | h
        · exact h
        · exact absurd h h0
      simp [link_pool, hq, h0, upd_ne _ _ hqn, upd_ne _ _ hx1, upd_ne _ _ hx2, upd_ne _ _ hx4]
    · simp [link_pool, hq, h0, upd_ne _ _ hqn]
    · simp [link_pool, hq, h0, upd_ne _ _ hqn]
    · simp [link_pool, hq, h0, upd_ne _ _ hqn]
    · simp [link_pool, hq, h0, upd_ne _ _ hqn]
    · simp [link_pool, hq, h0, upd_ne _ _ hqn, Kept]

theorem pool_eta_sub_pools_eq (r : pool) (v : Nat) (h : r.sub_pools = v) :
    { r with sub_pools := v } = r := by
  cases r
  simp at h
  simp [h]

theorem pool_eta_sub_prev_eq (r : pool) (v : Nat) (h : r.sub_prev = v) :
    { r with sub_prev := v } = r := by
  cases r
  simp at h
  simp [h]

/-- C5. `destroy_pool(make_sub_pool(q))` on a well-formed pool `q`, laid out with its
descendants and later siblings as `t`: both calls return; the new pool is put at the head
of the sub-pools of `q` and is no pool of `t`; afterwards every pool record but the dead
one of the new pool is what it was (so `q->sub_pools`, the order of the list, the
`parent`, `sub_prev` and `sub_next` links of the children, and the cleanup lists), every
block of `t` is what it was, the cleanup records and the log are what they were, the
layout `t` still holds, and `__walk_pools` from `q` returns the same figures and total. -/
theorem make_destroy_roundtrip (c : Cfg) (s : State) (q par prev : Nat) (chain cln : List Nat)
    (kids sibs : PT) (L : List Nat) (hB : 1 < c.BLOCK_MINFREE)
    (hrep : Rep s (.node q chain cln kids sibs) q par prev)
    (hhome : ∀ x ∈ (PT.node q chain cln kids sibs).pools, (s.pl x).first + c.BLOCK_HDR_SZ = x)
    (hfree : Chain s.nxt s.block_freelist L)
    (hempty : ∀ x ∈ L, (s.blk x).first_avail = x + c.BLOCK_HDR_SZ)
    (hbelow : ∀ x ∈ (PT.node q chain cln kids sibs).blocks ++ L, x < s.brk)
    (hnd : ((PT.node q chain cln kids sibs).blocks ++ L).Nodup)
    (hpools : (PT.node q chain cln kids sibs).pools.Nodup) :
    ∃ N np s1 s2,
      (∀ fuel, N ≤ fuel → make_sub_pool c fuel s q = .ok (np, s1)) ∧
      (∀ fuel, N ≤ fuel → destroy_pool c fuel s1 np = .ok s2) ∧
      (s1.pl q).sub_pools = np ∧ (s1.pl np).sub_next = (s.pl q).sub_pools ∧
      (s1.pl np).parent = q ∧
      np ∉ (PT.node q chain cln kids sibs).pools ∧
      (∀ x, x ≠ np → s2.pl x = s.pl x) ∧
      (∀ b ∈ (PT.node q chain cln kids sibs).blocks, s2.blk b = s.blk b) ∧
      s2.cl = s.cl ∧ s2.log = s.log ∧
      Rep s2 (.node q chain cln kids sibs) q par prev ∧
      PT.walk c s2 (.node q chain cln kids sibs) = PT.walk c s (.node q chain cln kids sibs) ∧
      (∀ fuel, N ≤ fuel → walk_pools c s2 fuel q = walk_pools c s fuel q ∧
        walk_pools c s fuel q = .ok (PT.walk c s (.node q chain cln kids sibs))) := by
  obtain ⟨b, s1, hNB, hnb⟩ := new_block_zero_fixed c hB s L hfree
  have hq0 : q ≠ 0 := hrep.2.1
  have hqmem : q ∈ (PT.node q chain cln kids sibs).pools := by simp [PT.pools]
  have hfirstq := Rep.first_blocks hrep q hqmem
  have hbrk : 0 < s.brk := by
    have := hbelow _ (List.mem_append_left _ hfirstq)
    omega
  have g := hNB.got hfree hempty (fun x hx => hbelow x (List.mem_append_right _ hx)) hbrk
  have hbt : b ∉ (PT.node q chain cln kids sibs).blocks := by
    intro hm
    rcases g.origin with ⟨h1, _⟩ | ⟨h1, _⟩
    · exact (List.nodup_append.mp hnd).2.2 hm h1
    · have := hbelow b (List.mem_append_left _ hm); omega
  have hnp : (s1.blk b).first_avail = b + c.BLOCK_HDR_SZ := g.avail_eq
  have hnpt : b + c.BLOCK_HDR_SZ ∉ (PT.node q chain cln kids sibs).pools := by
    intro hm
    have h1 := hhome _ hm
    have h2 := Rep.first_blocks hrep _ hm
    have : (s.pl (b + c.BLOCK_HDR_SZ)).first = b := by omega
    rw [this] at h2
    exact hbt h2
  have hnp0 : b + c.BLOCK_HDR_SZ ≠ 0 := by have := g.ne_zero; omega
  have hqn : q ≠ b + c.BLOCK_HDR_SZ := fun e => hnpt (e ▸ hqmem)
  -- the first sub-pool of `q`
  have hkids : Rep s kids (s.pl q).sub_pools q 0 := hrep.2.2.2.2.2.2.2.1
  have hhk := hkids.zero_or_mem
  have hpn := hpools
  simp only [PT.pools, List.nodup_cons, List.mem_append, not_or] at hpn
  have hhq : (s.pl q).sub_pools ≠ q := by
    rcases hhk with h | h
    · rw [h]; exact Ne.symm hq0
    · exact fun e => hpn.1.1 (e ▸ h)
  have hhn : (s.pl q).sub_pools ≠ b + c.BLOCK_HDR_SZ := by
    rcases hhk with h | h
    · rw [h]; exact Ne.symm hnp0
    · exact fun e => hnpt (by rw [← e]; simp [PT.pools, h])
  have hhprev : (s.pl q).sub_pools ≠ 0 → (s.pl (s.pl q).sub_pools).sub_prev = 0 := by
    intro h0
    cases hk : kids with
    | nil => rw [hk] at hkids; exact absurd hkids h0
    | node p2 ch2 cl2 k2 s2 =>
      rw [hk] at hkids
      have e : (s.pl q).sub_pools = p2 := hkids.1
      rw [e]
      exact hkids.2.2.2.1
  -- the state after `make_sub_pool`
  obtain ⟨m1, m2, m3, m4, m5, m6, m7, m8, m9⟩ :=
    link_pool_spec c s1 q b hq0 (by rw [hnp]; exact hqn) (by rw [hnp, g.pl_eq]; exact hhn)
      (by rw [g.pl_eq]; exact hhq)
  rw [hnp, g.pl_eq] at m1 m2 m3 m4
  rw [hnp] at m5
  have hparent : ((link_pool c s1 q b).pl (b + c.BLOCK_HDR_SZ)).parent = q := by rw [m1]
  have hsubq : ((link_pool c s1 q b).pl q).sub_pools = b + c.BLOCK_HDR_SZ := by rw [m2]
  have hprev0 : ((link_pool c s1 q b).pl (b + c.BLOCK_HDR_SZ)).sub_prev = 0 := by rw [m1]
  have hnext : ((link_pool c s1 q b).pl (b + c.BLOCK_HDR_SZ)).sub_next = (s.pl q).sub_pools := by
    rw [m1]
  obtain ⟨P, hU, hPq, hPh, hPx⟩ :=
    unlink_pool_head (link_pool c s1 q b) (b + c.BLOCK_HDR_SZ) q (s.pl q).sub_pools hparent hq0
      hsubq hprev0 hnext (Ne.symm hqn) hhq
  have hPnp : P (b + c.BLOCK_HDR_SZ) = (link_pool c s1 q b).pl (b + c.BLOCK_HDR_SZ) := by
    refine hPx _ (Ne.symm hqn) ?_
    by_cases h0 : (s.pl q).sub_pools = 0
    · exact Or.inl h0
    · exact Or.inr (Ne.symm hhn)
  have hPall : ∀ x, x ≠ b + c.BLOCK_HDR_SZ → P x = s.pl x := by
    intro x hx
    by_cases hxq : x = q
    · subst hxq
      rw [hPq, m2]
    · by_cases h0 : (s.pl q).sub_pools = 0
      · rw [hPx x hxq (Or.inl h0), m4 x hx hxq (Or.inr h0)]
      · by_cases hxh : x = (s.pl q).sub_pools
        · rw [hxh, hPh h0 hhn, m3 h0]
          exact pool_eta_sub_prev_eq _ _ (hhprev h0)
        · rw [hPx x hxq (Or.inr hxh), m4 x hx hxq (Or.inl hxh)]
  -- the new pool, unlinked, is well formed
  have hLnd : (L.erase b).Nodup := Chain.nodup g.free
  have hbL : b ∉ L.erase b := List.Nodup.not_mem_erase (Chain.nodup hfree)
  have hsmblk : ∀ x, x ≠ b → (link_pool c s1 q b).blk x = s1.blk x := by
    intro x hx
    rw [m5, upd_ne _ _ hx]
  have howns : Owns (unlink_pool (link_pool c s1 q b) (b + c.BLOCK_HDR_SZ)) (b + c.BLOCK_HDR_SZ)
      [b] [] .nil (L.erase b) := by
    rw [hU]
    exact
      { ne_zero := hnp0
        is_chain := by
          show Chain (link_pool c s1 q b).nxt (P (b + c.BLOCK_HDR_SZ)).first [b]
          rw [hPnp, m1]
          refine ⟨rfl, g.ne_zero, ?_⟩
          show ((link_pool c s1 q b).blk b).next = 0
          rw [m5, upd_same]
          exact g.next_eq
        has_last := by
          show [b].getLast? = some (P (b + c.BLOCK_HDR_SZ)).last
          rw [hPnp, m1]
          rfl
        is_cln := by
          show Chain (link_pool c s1 q b).cnxt (P (b + c.BLOCK_HDR_SZ)).cleanups []
          rw [hPnp, m1]
          rfl
        is_kids := by
          show (P (b + c.BLOCK_HDR_SZ)).sub_pools = 0
          rw [hPnp, m1]
        is_free := by
          show Chain (link_pool c s1 q b).nxt (link_pool c s1 q b).block_freelist (L.erase b)
          rw [m8]
          refine Chain.congr ?_ g.free
          intro x hx
          have hxb : x ≠ b := fun e => hbL (e ▸ hx)
          show (s1.blk x).next = ((link_pool c s1 q b).blk x).next
          rw [hsmblk x hxb]
        nodup_blocks := by
          simp only [PT.blocks, List.nil_append, List.singleton_append, List.nodup_cons]
          exact ⟨hbL, hLnd⟩
        nodup_pools := by simp [PT.pools] }
  obtain ⟨N2, s2, hrun2, hG⟩ :=
    destroy_pool_spec c (link_pool c s1 q b) (b + c.BLOCK_HDR_SZ) [b] [] .nil (L.erase b) howns
  have hsupl : (unlink_pool (link_pool c s1 q b) (b + c.BLOCK_HDR_SZ)).pl = P := by rw [hU]
  have hsublk : (unlink_pool (link_pool c s1 q b) (b + c.BLOCK_HDR_SZ)).blk
      = (link_pool c s1 q b).blk := by rw [hU]
  have hsucl : (unlink_pool (link_pool c s1 q b) (b + c.BLOCK_HDR_SZ)).cl
      = (link_pool c s1 q b).cl := by rw [hU]
  have hsulog : (unlink_pool (link_pool c s1 q b) (b + c.BLOCK_HDR_SZ)).log
      = (link_pool c s1 q b).log := by rw [hU]
  have hpl2 : ∀ x, x ≠ b + c.BLOCK_HDR_SZ → s2.pl x = s.pl x := by
    intro x hx
    rw [hG.pl_frame x (by simp [PT.pools]) hx, hsupl]
    exact hPall x hx
  have hblk2 : ∀ x ∈ (PT.node q chain cln kids sibs).blocks, s2.blk x = s.blk x := by
    intro x hx
    have hxb : x ≠ b := fun e => hbt (e ▸ hx)
    have hxL : x ∉ L := fun hm => (List.nodup_append.mp hnd).2.2 hx hm
    have hxbrk : x ≠ s.brk := by
      have := hbelow x (List.mem_append_left _ hx)
      omega
    rw [hG.blk_frame x (by simpa [PT.blocks] using hxb), hsublk, hsmblk x hxb]
    exact g.frame x hxL hxbrk
  have hcl2 : s2.cl = s.cl := by
    rw [hG.kept.1, hsucl, m6, g.cl_eq]
  have hlog2 : s2.log = s.log := by
    rw [hG.log_eq, hsulog, m7, g.log_eq]
    simp [PT.records]
  have hrep2 : Rep s2 (.node q chain cln kids sibs) q par prev := by
    refine @Rep.frame s s2 _ _ _ _ ?_ ?_ hcl2 hrep
    · intro x hx
      exact hpl2 x (fun e => hnpt (e ▸ hx))
    · intro x hx
      show (s2.blk x).next = (s.blk x).next
      rw [hblk2 x hx]
  have hwalk := @PT.walk_congr c s s2 (.node q chain cln kids sibs) hblk2
  obtain ⟨M1, hw1⟩ := walk_pools_spec c s _ q par prev hrep
  obtain ⟨M2, hw2⟩ := walk_pools_spec c s2 _ q par prev hrep2
  refine ⟨max (max (L.length + 1) N2) (max M1 M2), b + c.BLOCK_HDR_SZ, link_pool c s1 q b, s2,
    ?_, fun fuel hf => hrun2 fuel (by omega), hsubq, hnext, hparent, hnpt, hpl2, hblk2, hcl2,
    hlog2, hrep2, hwalk, ?_⟩
  · intro fuel hf
    have := make_sub_pool_eq c fuel s q b s1 (hnb fuel (by omega))
    rw [hnp] at this
    exact this
  · intro fuel hf
    rw [hw1 fuel (by omega), hw2 fuel (by omega), hwalk]
    exact ⟨rfl, rfl⟩

/-- C5, at an instance: a sub-pool of `A` made and destroyed in `town`. -/
theorem make_destroy_roundtrip_witness :
    ∃ N np s1 s2,
      (∀ fuel, N ≤ fuel → make_sub_pool lp64 fuel town 4656 = .ok (np, s1)) ∧
      (∀ fuel, N ≤ fuel → destroy_pool lp64 fuel s1 np = .ok s2) ∧
      (s1.pl 4656).sub_pools = np ∧
      (∀ x, x ≠ np → s2.pl x = town.pl x) ∧
      (∀ fuel, N ≤ fuel → walk_pools lp64 s2 fuel 4656 = walk_pools lp64 town fuel 4656) :=
  have h := make_destroy_roundtrip lp64 town 4656 4120 0 [4632, 5168] [9224, 9192]
    (.node 9312 [9288] [9376] .nil .nil) .nil [] (by decide) (by decide) (by decide) (by decide)
    (by decide) (by decide) (by decide) (by decide)
  let ⟨N, np, s1, s2, h1, h2, h3, _, _, _, h4, _, _, _, _, _, h5⟩ := h
  ⟨N, np, s1, s2, h1, h2, h3, h4, fun fuel hf => (h5 fuel hf).1⟩

theorem nxt_set_first_avail (s : State) (b v : Nat) : (s.set_first_avail b v).nxt = s.nxt := by
  funext x
  simp only [State.nxt, set_first_avail_eq, upd_apply]
  split
  · rename_i e; subst e; rfl
  · rfl

theorem endp_set_first_avail (s : State) (b v x : Nat) :
    ((s.set_first_avail b v).blk x).endp = (s.blk x).endp := by
  simp only [set_first_avail_eq, upd_apply]
  split
  · rename_i e; subst e; rfl
  · rfl

theorem BlocksApart.symm {s : State} : Symmetric (BlocksApart s) := fun _ _ h => Or.symm h

theorem blocksApart_congr {s s1 : State} (h : ∀ x, (s1.blk x).endp = (s.blk x).endp) :
    BlocksApart s1 = BlocksApart s := by
  funext x y
  simp only [BlocksApart, h]

/-- The fast path of `palloc` keeps the pool an arena and adds the region returned. -/
theorem Arena.fast {c : Cfg} {s : State} {p : Nat} {L C : List Nat} {used : List (Nat × Nat)}
    (ha : Arena c s p L C used) (hK : 0 < c.CLICK_SZ) (n : Int) (hn : 0 < n)
    (hroom : (s.blk (s.pl p).last).first_avail + click_size c n ≤ (s.blk (s.pl p).last).endp) :
    Arena c (s.set_first_avail (s.pl p).last ((s.blk (s.pl p).last).first_avail + click_size c n))
      p L C (used ++ [((s.blk (s.pl p).last).first_avail, n.toNat)]) := by
  have hlastC : (s.pl p).last ∈ C := List.mem_of_getLast?_eq_some ha.ready.last
  have hlastL : (s.pl p).last ∉ L := (ha.ready.sep _ hlastC).1
  have hge := click_size_ge c n hK hn
  have hav := ha.ready.avail _ hlastC
  have hdvd : c.CLICK_SZ ∣ click_size c n := Dvd.intro_left _ rfl
  have hblk : ∀ x, x ≠ (s.pl p).last →
      (s.set_first_avail (s.pl p).last ((s.blk (s.pl p).last).first_avail + click_size c n)).blk x
        = s.blk x := fun x hx => by simp [upd_ne _ _ hx]
  have hself :
      (s.set_first_avail (s.pl p).last ((s.blk (s.pl p).last).first_avail + click_size c n)).blk
        (s.pl p).last = { s.blk (s.pl p).last with
          first_avail := (s.blk (s.pl p).last).first_avail + click_size c n } := by simp
  have hmono : ∀ x, (s.blk x).first_avail ≤
      ((s.set_first_avail (s.pl p).last
        ((s.blk (s.pl p).last).first_avail + click_size c n)).blk x).first_avail := by
    intro x
    by_cases hx : x = (s.pl p).last
    · subst hx; rw [hself]; simp
    · rw [hblk x hx]
  have hendp := endp_set_first_avail s (s.pl p).last
    ((s.blk (s.pl p).last).first_avail + click_size c n)
  refine
    { ready :=
        { free := by rw [nxt_set_first_avail]; exact ha.ready.free
          empty := fun x hx => by
            rw [hblk x (fun e => hlastL (e ▸ hx))]; exact ha.ready.empty x hx
          below := ha.ready.below
          chain := by rw [nxt_set_first_avail]; exact ha.ready.chain
          last := ha.ready.last
          sep := ha.ready.sep
          avail := fun x hx => Nat.le_trans (ha.ready.avail x hx) (hmono x) }
      head := ha.head
      hdr := Nat.le_trans ha.hdr (hmono _)
      fits := ?_
      free_fits := fun x hx => by rw [hendp]; exact ha.free_fits x hx
      under := fun x hx => by rw [hendp]; exact ha.under x hx
      apart := by rw [blocksApart_congr hendp]; exact ha.apart
      align := ?_
      placed := ?_
      disjoint := ?_ }
  · intro x hx
    by_cases hxl : x = (s.pl p).last
    · subst hxl; rw [hself]; exact hroom
    · rw [hblk x hxl]; exact ha.fits x hx
  · intro x hx
    by_cases hxl : x = (s.pl p).last
    · subst hxl
      rw [hself]
      have h1 := ha.align _ hx
      have e : (s.blk (s.pl p).last).first_avail + click_size c n - ((s.pl p).last + c.BLOCK_HDR_SZ)
          = ((s.blk (s.pl p).last).first_avail - ((s.pl p).last + c.BLOCK_HDR_SZ))
            + click_size c n := by omega
      show c.CLICK_SZ ∣ _ + click_size c n - _
      rw [e]
      exact Dvd.dvd.add h1 hdvd
    · rw [hblk x hxl]; exact ha.align x hx
  · intro r hr
    rcases List.mem_append.mp hr with h | h
    · obtain ⟨x, hx, h1, h2, h3, h4⟩ := ha.placed r h
      refine ⟨x, hx, h1, Nat.le_trans h2 (hmono x), ?_, h4⟩
      by_cases hxl : x = (s.pl p).last
      · subst hxl; rw [hself]; exact hroom
      · rw [hblk x hxl]; exact h3
    · simp only [List.mem_singleton] at h
      subst h
      refine ⟨(s.pl p).last, hlastC, ?_, ?_, ?_, ha.align _ hlastC⟩
      · show (if (s.pl p).last = (s.pl p).first then _ else _) ≤ (s.blk (s.pl p).last).first_avail
        split
        · rename_i e
          have := ha.hdr
          rw [← e] at this
          exact this
        · exact hav
      · rw [hself]
        show (s.blk (s.pl p).last).first_avail + n.toNat ≤ _ + click_size c n
        omega
      · rw [hself]; exact hroom
  · refine List.pairwise_append.mpr ⟨ha.disjoint, List.pairwise_singleton _ _, ?_⟩
    intro a hau b hb
    simp only [List.mem_singleton] at hb
    subst hb
    obtain ⟨y, hy, h1, h2, h3, _⟩ := ha.placed a hau
    by_cases hyl : y = (s.pl p).last
    · subst hyl
      exact Or.inl h2
    · have hyC : y ∈ C ++ L := List.mem_append_left _ hy
      have hlC : (s.pl p).last ∈ C ++ L := List.mem_append_left _ hlastC
      have hap := ha.apart.forall BlocksApart.symm hyC hlC hyl
      have hylow : y + c.BLOCK_HDR_SZ ≤ a.1 := by
        split at h1 <;> omega
      rcases hap with h | h
      · left
        show a.1 + a.2 ≤ (s.blk (s.pl p).last).first_avail
        omega
      · right
        show (s.blk (s.pl p).last).first_avail + n.toNat ≤ a.1
        omega

theorem link_block_facts (s1 : State) (p b size : Nat) (hb : b ≠ (s1.pl p).last) :
    (∀ x, ((link_block s1 p b size).blk x).endp = (s1.blk x).endp) ∧
    (∀ x, x ≠ b → ((link_block s1 p b size).blk x).first_avail = (s1.blk x).first_avail) ∧
    (∀ x, x ≠ b → x ≠ (s1.pl p).last → (link_block s1 p b size).blk x = s1.blk x) ∧
    (link_block s1 p b size).brk = s1.brk ∧
    (link_block s1 p b size).block_freelist = s1.block_freelist := by
  have h := link_block_blk s1 p b size hb
  refine ⟨?_, ?_, ?_, by simp [link_block], by simp [link_block]⟩
  · intro x
    rw [h]
    simp only [upd_apply]
    split
    · rename_i e; subst e; rfl
    · split
      · rename_i e; subst e; rfl
      · rfl
  · intro x hx
    rw [h, upd_ne _ _ hx]
    simp only [upd_apply]
    split
    · rename_i e; subst e; rfl
    · rfl
  · intro x hx1 hx2
    rw [h, upd_ne _ _ hx1, upd_ne _ _ hx2]

/-- In the state left by `new_block` the block returned ends below `brk`, the blocks of
the free list doing so before. -/
theorem NewBlock.under {c : Cfg} {s s1 : State} {L : List Nat} {R b : Nat}
    (h : NewBlock c s L R b s1) (hu : ∀ x ∈ L, (s.blk x).endp ≤ s.brk) :
    (s1.blk b).endp ≤ s1.brk ∧ s.brk ≤ s1.brk := by
  rcases h with ⟨L1, L2, rfl, _, _, rfl⟩ | ⟨_, rfl, rfl⟩
  · rw [(take_free_geom s _ b b).1, take_free_brk]
    exact ⟨hu b (by simp), le_refl _⟩
  · simp only [fresh_block, upd_same]
    constructor <;> omega

theorem Arena.slow {c : Cfg} {s : State} {p : Nat} {L C : List Nat} {used : List (Nat × Nat)}
    (ha : Arena c s p L C used) (hK : 0 < c.CLICK_SZ) (hB : 0 < c.BLOCK_MINFREE) (n : Int)
    (hn : 0 < n) (fuel : Nat) (hfuel : L.length < fuel)
    (hroom : ¬ (s.blk (s.pl p).last).first_avail + click_size c n ≤ (s.blk (s.pl p).last).endp) :
    ∃ b s2, palloc c fuel s p n = .ok (b + c.BLOCK_HDR_SZ, s2) ∧
      Arena c s2 p (L.erase b) (C ++ [b]) (used ++ [(b + c.BLOCK_HDR_SZ, n.toNat)]) := by
  have hr := ha.ready
  obtain ⟨b, s1, hnb, g, hp, hbC, hch, hb, hl, hx⟩ :=
    palloc_slow_spec c s p n fuel L C hK hn hr.free hfuel hr.empty hr.below hr.chain
      hr.last hr.sep hroom
  obtain ⟨b2, s2, hnb2, hNB⟩ :=
    new_block_pos c s (click_size c n) (click_size_pos c n hK) fuel L hr.free hfuel
  rw [hnb] at hnb2
  injection hnb2 with hnb2
  injection hnb2 with e1 e2
  subst e1; subst e2
  have hund := hNB.under (fun x hx => ha.under x (List.mem_append_right _ hx))
  have hlastC : (s.pl p).last ∈ C := List.mem_of_getLast?_eq_some hr.last
  have hbl : b ≠ (s1.pl p).last := by
    rw [g.pl_eq]; exact fun e => hbC (e ▸ hlastC)
  obtain ⟨fE, fA, fB, fK, fF⟩ := link_block_facts s1 p b (click_size c n) hbl
  have hge := click_size_ge c n hK hn
  have hR := round_up_ge c.BLOCK_MINFREE (click_size c n) hB
  have hRb : click_size c n ≤ block_size c (click_size c n) := hR
  have hdvd : c.CLICK_SZ ∣ click_size c n := Dvd.intro_left _ rfl
  have hpos := click_size_pos c n hK
  have hNod : L.Nodup := Chain.nodup hr.free
  have hbE : b ∉ L.erase b := hNod.not_mem_erase
  have hlt : ∀ x ∈ C ++ L, x < s.brk := by
    intro x hx
    rcases List.mem_append.mp hx with h | h
    · exact (hr.sep x h).2
    · exact hr.below x h
  -- the geometry of old blocks is untouched
  have hE : ∀ x ∈ C ++ L, ((link_block s1 p b (click_size c n)).blk x).endp = (s.blk x).endp := by
    intro x hx
    rw [fE, g.endp_eq x (by have := hlt x hx; omega)]
  have hA : ∀ x ∈ C ++ L, x ≠ b →
      ((link_block s1 p b (click_size c n)).blk x).first_avail = (s.blk x).first_avail := by
    intro x hx hxb
    rw [fA x hxb, g.first_avail_eq x (by have := hlt x hx; omega)]
  have hplf : ((link_block s1 p b (click_size c n)).pl p).first = (s.pl p).first := by
    rw [link_block_pl, g.pl_eq]; simp
  have hpll : ((link_block s1 p b (click_size c n)).pl p).last = b := by
    rw [link_block_pl]; simp
  have hbfa : ((link_block s1 p b (click_size c n)).blk b).first_avail
      = b + c.BLOCK_HDR_SZ + click_size c n := by rw [hb]
  have hbend : ((link_block s1 p b (click_size c n)).blk b).endp = (s1.blk b).endp := fE b
  have hfirstC : (s.pl p).first ∈ C := by
    have := ha.head
    cases C with
    | nil => simp at this
    | cons a t => simp at this; simp [this]
  have hbf : b ≠ (s.pl p).first := fun e => hbC (e ▸ hfirstC)
  have hsub : ∀ x ∈ C ++ L.erase b, x ∈ C ++ L ∧ x ≠ b := by
    intro x hx
    rcases List.mem_append.mp hx with h | h
    · exact ⟨List.mem_append_left _ h, fun e => hbC (e ▸ h)⟩
    · exact ⟨List.mem_append_right _ (List.mem_of_mem_erase h), fun e => hbE (e ▸ h)⟩
  have hbLorB : b ∈ L ∨ b = s.brk := by
    rcases g.origin with h | h
    · exact Or.inl h.1
    · exact Or.inr h.1
  -- the new block is apart from every other block
  have hP2 : ∀ y ∈ C ++ L.erase b, BlocksApart (link_block s1 p b (click_size c n)) b y := by
    intro y hy
    obtain ⟨hy1, hy2⟩ := hsub y hy
    rcases hbLorB with h | h
    · have hbm : b ∈ C ++ L := List.mem_append_right _ h
      have hap : BlocksApart s b y :=
        List.Pairwise.forall (fun u v h => BlocksApart.symm h) ha.apart hbm hy1 (Ne.symm hy2)
      unfold BlocksApart at hap ⊢
      rw [hE b hbm, hE y hy1]
      exact hap
    · right
      rw [hE y hy1, h]
      exact ha.under y hy1
  have hbb : b < (link_block s1 p b (click_size c n)).brk := by
    rw [fK]
    rcases g.origin with h | h
    · have := hr.below b h.1; omega
    · have := h.1; have := h.2.1; omega
  have hroomb := g.room
  refine ⟨b, link_block s1 p b (click_size c n), hp, ?_⟩
  refine
    { ready :=
        { free := ?_
          empty := ?_
          below := ?_
          chain := hch
          last := by rw [hpll]; simp
          sep := ?_
          avail := ?_ }
      head := ?_
      hdr := ?_
      fits := ?_
      free_fits := ?_
      under := ?_
      apart := ?_
      align := ?_
      placed := ?_
      disjoint := ?_ }
  · rw [fF]
    refine Chain.congr ?_ g.free
    intro x hx
    have hxL : x ∈ L := List.mem_of_mem_erase hx
    have hxb : x ≠ b := fun e => hbE (e ▸ hx)
    have hxl : x ≠ (s1.pl p).last := by
      rw [g.pl_eq]; exact fun e => (hr.sep _ hlastC).1 (e ▸ hxL)
    show (s1.blk x).next = ((link_block s1 p b (click_size c n)).blk x).next
    rw [fB x hxb hxl]
  · intro x hx
    have hxL : x ∈ L := List.mem_of_mem_erase hx
    have hxb : x ≠ b := fun e => hbE (e ▸ hx)
    rw [hA x (List.mem_append_right _ hxL) hxb]
    exact hr.empty x hxL
  · intro x hx
    have := hr.below x (List.mem_of_mem_erase hx)
    rw [fK]; omega
  · intro x hx
    rcases List.mem_append.mp hx with h | h
    · refine ⟨fun h2 => (hr.sep x h).1 (List.mem_of_mem_erase h2), ?_⟩
      have := (hr.sep x h).2
      rw [fK]; omega
    · simp only [List.mem_singleton] at h
      subst h
      exact ⟨hbE, hbb⟩
  · intro x hx
    rcases List.mem_append.mp hx with h | h
    · rw [hA x (List.mem_append_left _ h) (fun e => hbC (e ▸ h))]
      exact hr.avail x h
    · simp only [List.mem_singleton] at h
      subst h
      rw [hbfa]; omega
  · rw [hplf]
    have := ha.head
    cases C with
    | nil => simp at this
    | cons a t => simpa using this
  · rw [hplf, hA _ (List.mem_append_left _ hfirstC) (Ne.symm hbf)]
    exact ha.hdr
  · intro x hx
    rcases List.mem_append.mp hx with h | h
    · rw [hA x (List.mem_append_left _ h) (fun e => hbC (e ▸ h)), hE x (List.mem_append_left _ h)]
      exact ha.fits x h
    · simp only [List.mem_singleton] at h
      subst h
      rw [hbfa, hbend]; omega
  · intro x hx
    rw [hE x (List.mem_append_right _ (List.mem_of_mem_erase hx))]
    exact ha.free_fits x (List.mem_of_mem_erase hx)
  · intro x hx
    have hx2 : x = b ∨ x ∈ C ++ L.erase b := by
      simp only [List.mem_append, List.mem_singleton] at hx ⊢
      tauto
    rcases hx2 with h | h
    · subst h; rw [hbend, fK]; exact hund.1
    · rw [hE x (hsub x h).1, fK]
      exact Nat.le_trans (ha.under x (hsub x h).1) hund.2
  · have hP1 : (C ++ L.erase b).Pairwise (BlocksApart (link_block s1 p b (click_size c n))) := by
      have hsl : (C ++ L.erase b).Sublist (C ++ L) :=
        List.Sublist.append_left (List.erase_sublist b L) C
      refine (ha.apart.sublist hsl).imp_of_mem ?_
      intro u v hu hv huv
      unfold BlocksApart at huv ⊢
      rw [hE u (hsub u hu).1, hE v (hsub v hv).1]
      exact huv
    have hcons : (b :: (C ++ L.erase b)).Pairwise
        (BlocksApart (link_block s1 p b (click_size c n))) :=
      List.pairwise_cons.mpr ⟨hP2, hP1⟩
    have hperm : (C ++ [b] ++ L.erase b).Perm (b :: (C ++ L.erase b)) := by
      rw [List.append_assoc]
      exact List.perm_middle
    exact (hperm.pairwise_iff (fun h => BlocksApart.symm h)).mpr hcons
  · intro x hx
    rcases List.mem_append.mp hx with h | h
    · rw [hA x (List.mem_append_left _ h) (fun e => hbC (e ▸ h))]
      exact ha.align x h
    · simp only [List.mem_singleton] at h
      subst h
      rw [hbfa]
      have e : x + c.BLOCK_HDR_SZ + click_size c n - (x + c.BLOCK_HDR_SZ) = click_size c n := by
        omega
      rw [e]
      exact hdvd
  · intro r hr2
    rcases List.mem_append.mp hr2 with h | h
    · obtain ⟨x, hxC, h1, h2, h3, h4⟩ := ha.placed r h
      refine ⟨x, List.mem_append_left _ hxC, ?_, ?_, ?_, h4⟩
      · rw [hplf]; exact h1
      · rw [hA x (List.mem_append_left _ hxC) (fun e => hbC (e ▸ hxC))]; exact h2
      · rw [hA x (List.mem_append_left _ hxC) (fun e => hbC (e ▸ hxC)),
          hE x (List.mem_append_left _ hxC)]
        exact h3
    · simp only [List.mem_singleton] at h
      subst h
      refine ⟨b, by simp, ?_, ?_, ?_, ?_⟩
      · rw [hplf, if_neg hbf]
      · rw [hbfa]; show b + c.BLOCK_HDR_SZ + n.toNat ≤ _; omega
      · rw [hbfa, hbend]; omega
      · show c.CLICK_SZ ∣ b + c.BLOCK_HDR_SZ - (b + c.BLOCK_HDR_SZ)
        simp
  · rw [List.pairwise_append]
    refine ⟨ha.disjoint, by simp, ?_⟩
    intro r hr2 r2 hr3
    simp only [List.mem_singleton] at hr3
    subst hr3
    obtain ⟨x, hxC, h1, h2, h3, h4⟩ := ha.placed r hr2
    have hlow : x + c.BLOCK_HDR_SZ ≤ r.1 := by
      split at h1 <;> omega
    have hap := hP2 x (List.mem_append_left _ hxC)
    unfold BlocksApart at hap
    rw [hbend, hE x (List.mem_append_left _ hxC)] at hap
    unfold Apart
    show r.1 + r.2 ≤ b + c.BLOCK_HDR_SZ ∨ b + c.BLOCK_HDR_SZ + n.toNat ≤ r.1
    rcases hap with h | h
    · right; omega
    · left; omega

theorem set_pl_keep (s : State) (a : Nat) (v : pool) (np b : Nat)
    (hv1 : v.first = (s.pl a).first) (hv2 : v.last = (s.pl a).last)
    (h : (s.pl np).first = b ∧ (s.pl np).last = b) :
    ((s.set_pl a v).pl np).first = b ∧ ((s.set_pl a v).pl np).last = b := by
  by_cases e : np = a
  · subst e
    simp only [set_pl_eq, upd_same]
    rw [hv1, hv2]; exact h
  · simp only [set_pl_eq, upd_ne _ _ e]
    exact h

theorem link_pool_geom (c : Cfg) (s1 : State) (q b : Nat) :
    (link_pool c s1 q b).blk = upd s1.blk b
      { s1.blk b with first_avail := (s1.blk b).first_avail + POOL_HDR_BYTES c } ∧
    (link_pool c s1 q b).brk = s1.brk ∧
    (link_pool c s1 q b).block_freelist = s1.block_freelist ∧
    ((link_pool c s1 q b).pl (s1.blk b).first_avail).first = b ∧
    ((link_pool c s1 q b).pl (s1.blk b).first_avail).last = b := by
  unfold link_pool
  by_cases hq : q = 0
  · simp [hq]
  · simp only [ne_eq, hq, not_false_eq_true, if_true]
    refine ⟨?_, ?_, ?_, ?_⟩
    · split <;> rfl
    · split <;> rfl
    · split <;> rfl
    · refine set_pl_keep _ _ _ _ _ rfl rfl ?_
      split
      · refine set_pl_keep _ _ _ _ _ rfl rfl ?_
        refine set_pl_keep _ _ _ _ _ rfl rfl ?_
        simp
      · refine set_pl_keep _ _ _ _ _ rfl rfl ?_
        simp

theorem Arena.init (c : Cfg) (s : State) (L : List Nat) (q : Nat) (hB : 1 < c.BLOCK_MINFREE)
    (hP : POOL_HDR_BYTES c ≤ c.BLOCK_MINFREE) (hh : FreeHeap c s L) :
    ∃ b s1, (∀ fuel, L.length < fuel →
        make_sub_pool c fuel s q = .ok (b + c.BLOCK_HDR_SZ, s1)) ∧
      Arena c s1 (b + c.BLOCK_HDR_SZ) (L.erase b) [b] [] := by
  obtain ⟨b, s0, hNB, hnew⟩ := new_block_zero_fixed c hB s L hh.free
  have g := hNB.got hh.free hh.empty hh.below hh.brk_pos
  have hund := hNB.under hh.under
  obtain ⟨gB, gK, gF, gfirst, glast⟩ := link_pool_geom c s0 q b
  rw [g.avail_eq] at gB gfirst glast
  have hNod : L.Nodup := Chain.nodup hh.free
  have hbE : b ∉ L.erase b := hNod.not_mem_erase
  have hEall : ∀ x, ((link_pool c s0 q b).blk x).endp = (s0.blk x).endp := by
    intro x
    rw [gB, upd_apply]
    split
    · rename_i e; subst e; rfl
    · rfl
  have hNall : ∀ x, (link_pool c s0 q b).nxt x = s0.nxt x := by
    intro x
    show ((link_pool c s0 q b).blk x).next = (s0.blk x).next
    rw [gB, upd_apply]
    split
    · rename_i e; subst e; rfl
    · rfl
  have hbfa : ((link_pool c s0 q b).blk b).first_avail
      = b + c.BLOCK_HDR_SZ + POOL_HDR_BYTES c := by rw [gB, upd_same]
  have hE : ∀ x ∈ L, ((link_pool c s0 q b).blk x).endp = (s.blk x).endp := by
    intro x hx
    rw [hEall, g.endp_eq x (by have := hh.below x hx; omega)]
  have hA : ∀ x ∈ L, x ≠ b →
      ((link_pool c s0 q b).blk x).first_avail = (s.blk x).first_avail := by
    intro x hx hxb
    rw [gB, upd_ne _ _ hxb, g.first_avail_eq x (by have := hh.below x hx; omega)]
  have hbb : b < (link_pool c s0 q b).brk := by
    rw [gK]
    rcases g.origin with h | h
    · have := hh.below b h.1; omega
    · have := h.1; have := h.2.1; omega
  have hsub : ∀ x ∈ L.erase b, x ∈ L ∧ x ≠ b := fun x hx =>
    ⟨List.mem_of_mem_erase hx, fun e => hbE (e ▸ hx)⟩
  have hroomb := g.room
  have hP2 : ∀ y ∈ L.erase b, BlocksApart (link_pool c s0 q b) b y := by
    intro y hy
    obtain ⟨hy1, hy2⟩ := hsub y hy
    rcases g.origin with h | h
    · have hap : BlocksApart s b y :=
        List.Pairwise.forall (fun u v h => BlocksApart.symm h) hh.apart h.1 hy1 (Ne.symm hy2)
      unfold BlocksApart at hap ⊢
      rw [hE b h.1, hE y hy1]
      exact hap
    · right
      rw [hE y hy1, h.1]
      exact hh.under y hy1
  refine ⟨b, link_pool c s0 q b, ?_, ?_⟩
  · intro fuel hf
    have := make_sub_pool_eq c fuel s q b s0 (hnew fuel hf)
    rw [g.avail_eq] at this
    exact this
  refine
    { ready :=
        { free := ?_
          empty := ?_
          below := ?_
          chain := ?_
          last := by rw [glast]; rfl
          sep := ?_
          avail := ?_ }
      head := by rw [gfirst]; rfl
      hdr := by rw [gfirst, hbfa]
      fits := ?_
      free_fits := ?_
      under := ?_
      apart := ?_
      align := ?_
      placed := by intro r hr; simp at hr
      disjoint := List.Pairwise.nil }
  · rw [gF]
    exact Chain.congr (fun x _ => (hNall x).symm) g.free
  · intro x hx
    rw [hA x (hsub x hx).1 (hsub x hx).2]
    exact hh.empty x (hsub x hx).1
  · intro x hx
    have := hh.below x (hsub x hx).1
    rw [gK]; omega
  · rw [gfirst]
    refine ⟨rfl, g.ne_zero, ?_⟩
    rw [hNall]
    exact g.next_eq
  · intro x hx
    simp only [List.mem_singleton] at hx
    subst hx
    exact ⟨hbE, hbb⟩
  · intro x hx
    simp only [List.mem_singleton] at hx
    subst hx
    rw [hbfa]; omega
  · intro x hx
    simp only [List.mem_singleton] at hx
    subst hx
    rw [hbfa, hEall]; omega
  · intro x hx
    rw [hE x (hsub x hx).1]
    exact hh.fits x (hsub x hx).1
  · intro x hx
    simp only [List.singleton_append, List.mem_cons] at hx
    rcases hx with h | h
    · subst h; rw [hEall, gK]; exact hund.1
    · rw [hE x (hsub x h).1, gK]
      exact Nat.le_trans (hh.under x (hsub x h).1) hund.2
  · have hP1 : (L.erase b).Pairwise (BlocksApart (link_pool c s0 q b)) := by
      refine (hh.apart.sublist (List.erase_sublist b L)).imp_of_mem ?_
      intro u v hu hv huv
      unfold BlocksApart at huv ⊢
      rw [hE u (hsub u hu).1, hE v (hsub v hv).1]
      exact huv
    exact List.pairwise_cons.mpr ⟨hP2, hP1⟩
  · intro x hx
    simp only [List.mem_singleton] at hx
    subst hx
    rw [hbfa]
    have e : x + c.BLOCK_HDR_SZ + POOL_HDR_BYTES c - (x + c.BLOCK_HDR_SZ) = POOL_HDR_BYTES c := by
      omega
    rw [e]
    exact Dvd.intro_left _ rfl

/-- One call of `palloc` with a positive size keeps the arena in order and adds the
region returned to those in use; the free list does not grow. -/
theorem Arena.step {c : Cfg} {s : State} {p : Nat} {L C : List Nat} {used : List (Nat × Nat)}
    (ha : Arena c s p L C used) (hK : 0 < c.CLICK_SZ) (hB : 0 < c.BLOCK_MINFREE) (n : Int)
    (hn : 0 < n) (fuel : Nat) (hfuel : L.length < fuel) :
    ∃ r s2 L2 C2, palloc c fuel s p n = .ok (r, s2) ∧
      Arena c s2 p L2 C2 (used ++ [(r, n.toNat)]) ∧ L2.length ≤ L.length := by
  by_cases hroom : (s.blk (s.pl p).last).first_avail + click_size c n
      ≤ (s.blk (s.pl p).last).endp
  · exact ⟨_, _, L, C, palloc_fast c fuel s p n hn hroom, ha.fast hK n hn hroom, le_refl _⟩
  · obtain ⟨b, s2, hp, ha2⟩ := ha.slow hK hB n hn fuel hfuel hroom
    refine ⟨_, _, _, _, hp, ha2, ?_⟩
    rw [List.length_erase]
    split <;> omega

theorem Arena.run {c : Cfg} (hK : 0 < c.CLICK_SZ) (hB : 0 < c.BLOCK_MINFREE) (p fuel : Nat) :
    ∀ (sizes : List Int) (s : State) (L C : List Nat) (used : List (Nat × Nat)),
      Arena c s p L C used → (∀ n ∈ sizes, 0 < n) → L.length < fuel →
      ∃ ptrs s2 L2 C2, pallocs c fuel s p sizes = .ok (ptrs, s2) ∧
        ptrs.length = sizes.length ∧
        Arena c s2 p L2 C2 (used ++ ptrs.zip (sizes.map Int.toNat))
  | [], s, L, C, used, ha, _, _ => ⟨[], s, L, C, rfl, rfl, by simpa using ha⟩
  | n :: rest, s, L, C, used, ha, hpos, hf => by
    obtain ⟨r, s1, L1, C1, hp, ha1, hl⟩ :=
      ha.step hK hB n (hpos n (List.mem_cons_self _ _)) fuel hf
    obtain ⟨ptrs, s2, L2, C2, hps, hlen, ha2⟩ :=
      Arena.run hK hB p fuel rest s1 L1 C1 _ ha1
        (fun m hm => hpos m (List.mem_cons_of_mem _ hm)) (by omega)
    refine ⟨r :: ptrs, s2, L2, C2, ?_, by simp [hlen], ?_⟩
    · simp only [pallocs, hp, hps]
    · simpa using ha2

/-- A positive `palloc` on a ready pool returns, leaves the pool ready to serve again,
hands out memory that was unused and leaves unused only memory that was. -/
theorem Ready.serve {c : Cfg} {s : State} {p : Nat} {L C : List Nat} (hr : Ready c s p L C)
    (hK : 0 < c.CLICK_SZ) (hB : 0 < c.BLOCK_MINFREE) (n : Int) (hn : 0 < n) (fuel : Nat)
    (hfuel : L.length < fuel) :
    ∃ r s1 L1 C1, palloc c fuel s p n = .ok (r, s1) ∧ Ready c s1 p L1 C1 ∧
      L1.length ≤ L.length ∧ r ≠ 0 ∧
      (∀ a, r ≤ a → a < r + click_size c n → Unused c s p L a) ∧
      (∀ a, Unused c s1 p L1 a → Unused c s p L a) ∧
      s1.mem = s.mem ∧ s1.ah = s.ah ∧ s1.cl = s.cl ∧ s1.log = s.log := by
  have hlastC : (s.pl p).last ∈ C := List.mem_of_getLast?_eq_some hr.last
  have hlastL : (s.pl p).last ∉ L := (hr.sep _ hlastC).1
  obtain ⟨r0, s0, hp0, hr0, hm0, hah0, hcl0, hlog0⟩ := palloc_ok c s p n fuel L C hK hn hr hfuel
  have hun := palloc_unused c s p n fuel L C hK hB hn hr hfuel r0 s0 hp0
  by_cases hroom : (s.blk (s.pl p).last).first_avail + click_size c n
      ≤ (s.blk (s.pl p).last).endp
  · have hp := palloc_fast c fuel s p n hn hroom
    rw [hp] at hp0
    injection hp0 with hp0
    injection hp0 with e1 e2
    subst e1; subst e2
    have hblk : ∀ x, x ≠ (s.pl p).last →
        (s.set_first_avail (s.pl p).last ((s.blk (s.pl p).last).first_avail + click_size c n)).blk x
          = s.blk x := fun x hx => by simp [upd_ne _ _ hx]
    have hself :
        (s.set_first_avail (s.pl p).last ((s.blk (s.pl p).last).first_avail + click_size c n)).blk
          (s.pl p).last = { s.blk (s.pl p).last with
            first_avail := (s.blk (s.pl p).last).first_avail + click_size c n } := by simp
    have hmono : ∀ x, (s.blk x).first_avail ≤
        ((s.set_first_avail (s.pl p).last
          ((s.blk (s.pl p).last).first_avail + click_size c n)).blk x).first_avail := by
      intro x
      by_cases hx : x = (s.pl p).last
      · subst hx; rw [hself]; simp
      · rw [hblk x hx]
    have hendp := endp_set_first_avail s (s.pl p).last
      ((s.blk (s.pl p).last).first_avail + click_size c n)
    refine ⟨_, _, L, C, hp,
      { free := by rw [nxt_set_first_avail]; exact hr.free
        empty := fun x hx => by
          rw [hblk x (fun e => hlastL (e ▸ hx))]; exact hr.empty x hx
        below := hr.below
        chain := by rw [nxt_set_first_avail]; exact hr.chain
        last := hr.last
        sep := hr.sep
        avail := fun x hx => Nat.le_trans (hr.avail x hx) (hmono x) },
      le_refl _, hr0, hun, ?_, hm0, hah0, hcl0, hlog0⟩
    intro a ha
    rcases ha with h | ⟨b, hb, h1, h2⟩ | h
    · left
      have e : ((s.set_first_avail (s.pl p).last
          ((s.blk (s.pl p).last).first_avail + click_size c n)).pl p).last = (s.pl p).last := rfl
      rw [e, hself] at h
      simp only at h
      constructor <;> omega
    · right; left
      rw [hendp] at h2
      exact ⟨b, hb, h1, h2⟩
    · right; right; exact h
  · obtain ⟨b, s1, hnb, g, hp, hbC, hch, hb, hl, hx⟩ :=
      palloc_slow_spec c s p n fuel L C hK hn hr.free hfuel hr.empty hr.below hr.chain
        hr.last hr.sep hroom
    rw [hp] at hp0
    injection hp0 with hp0
    injection hp0 with e1 e2
    subst e1; subst e2
    have hbl : b ≠ (s1.pl p).last := by
      rw [g.pl_eq]; exact fun e => hbC (e ▸ hlastC)
    obtain ⟨fE, fA, fB, fK, fF⟩ := link_block_facts s1 p b (click_size c n) hbl
    have hNod : L.Nodup := Chain.nodup hr.free
    have hbE : b ∉ L.erase b := hNod.not_mem_erase
    have hlt : ∀ x ∈ C ++ L, x < s.brk := by
      intro x hx
      rcases List.mem_append.mp hx with h | h
      · exact (hr.sep x h).2
      · exact hr.below x h
    have hE : ∀ x ∈ C ++ L,
        ((link_block s1 p b (click_size c n)).blk x).endp = (s.blk x).endp := by
      intro x hx
      rw [fE, g.endp_eq x (by have := hlt x hx; omega)]
    have hA : ∀ x ∈ C ++ L, x ≠ b →
        ((link_block s1 p b (click_size c n)).blk x).first_avail = (s.blk x).first_avail := by
      intro x hx hxb
      rw [fA x hxb, g.first_avail_eq x (by have := hlt x hx; omega)]
    have hpll : ((link_block s1 p b (click_size c n)).pl p).last = b := by
      rw [link_block_pl]; simp
    have hbfa : ((link_block s1 p b (click_size c n)).blk b).first_avail
        = b + c.BLOCK_HDR_SZ + click_size c n := by rw [hb]
    have hbend : ((link_block s1 p b (click_size c n)).blk b).endp = (s1.blk b).endp := fE b
    have hposz := click_size_pos c n hK
    have hRb : click_size c n ≤ block_size c (click_size c n) := round_up_ge _ _ hB
    have hbrk : s.brk ≤ s1.brk := by
      rcases g.origin with h | h
      · omega
      · omega
    have hbb : b < (link_block s1 p b (click_size c n)).brk := by
      rw [fK]
      rcases g.origin with h | h
      · have := hr.below b h.1; omega
      · have := h.1; have := h.2.1; omega
    refine ⟨_, _, L.erase b, C ++ [b], hp,
      { free := ?_
        empty := ?_
        below := ?_
        chain := hch
        last := by rw [hpll]; simp
        sep := ?_
        avail := ?_ },
      ?_, hr0, hun, ?_, hm0, hah0, hcl0, hlog0⟩
    · rw [fF]
      refine Chain.congr ?_ g.free
      intro x hx
      have hxL : x ∈ L := List.mem_of_mem_erase hx
      have hxb : x ≠ b := fun e => hbE (e ▸ hx)
      have hxl : x ≠ (s1.pl p).last := by
        rw [g.pl_eq]; exact fun e => (hr.sep _ hlastC).1 (e ▸ hxL)
      show (s1.blk x).next = ((link_block s1 p b (click_size c n)).blk x).next
      rw [fB x hxb hxl]
    · intro x hx
      have hxL : x ∈ L := List.mem_of_mem_erase hx
      have hxb : x ≠ b := fun e => hbE (e ▸ hx)
      rw [hA x (List.mem_append_right _ hxL) hxb]
      exact hr.empty x hxL
    · intro x hx
      have := hr.below x (List.mem_of_mem_erase hx)
      rw [fK]; omega
    · intro x hx
      rcases List.mem_append.mp hx with h | h
      · refine ⟨fun h2 => (hr.sep x h).1 (List.mem_of_mem_erase h2), ?_⟩
        have := (hr.sep x h).2
        rw [fK]; omega
      · simp only [List.mem_singleton] at h
        subst h
        exact ⟨hbE, hbb⟩
    · intro x hx
      rcases List.mem_append.mp hx with h | h
      · rw [hA x (List.mem_append_left _ h) (fun e => hbC (e ▸ h))]
        exact hr.avail x h
      · simp only [List.mem_singleton] at h
        subst h
        rw [hbfa]; omega
    · rw [List.length_erase]
      split <;> omega
    · intro a ha
      rcases ha with h | ⟨x, hxm, h1, h2⟩ | h
      · rw [hpll, hbfa, hbend] at h
        rcases g.origin with ho | ho
        · right; left
          refine ⟨b, ho.1, by omega, ?_⟩
          rw [← g.endp_eq b (by have := hr.below b ho.1; omega)]
          exact h.2
        · right; right
          have := ho.1
          omega
      · right; left
        have hxL : x ∈ L := List.mem_of_mem_erase hxm
        rw [hE x (List.mem_append_right _ hxL)] at h2
        exact ⟨x, hxL, h1, h2⟩
      · right; right
        rw [fK] at h
        omega

theorem copy_array_hdr_eq (c : Cfg) (fuel : Nat) (s : State) (p arr r : Nat) (s1 : State)
    (hp : palloc c fuel s p c.ARRAY_HDR_SZ = .ok (r, s1)) (hr0 : r ≠ 0) :
    copy_array_hdr c fuel s p arr = .ok (r, fill_hdr s1 p r arr) := by
  simp only [copy_array_hdr, hp, hr0, if_false, fill_hdr]

theorem Ready.set_ah {c : Cfg} {s : State} {p : Nat} {L C : List Nat} (hr : Ready c s p L C)
    (a : Nat) (h : array_header) : Ready c (s.set_ah a h) p L C :=
  ⟨hr.free, hr.empty, hr.below, hr.chain, hr.last, hr.sep, hr.avail⟩

theorem Ready.set_mem {c : Cfg} {s : State} {p : Nat} {L C : List Nat} (hr : Ready c s p L C)
    (m : Nat → Nat) : Ready c (s.set_mem m) p L C :=
  ⟨hr.free, hr.empty, hr.below, hr.chain, hr.last, hr.sep, hr.avail⟩

/-- The header that `copy_array_hdr` makes: a fresh one, with the storage of `arr` and
`nalloc` equal to `nelts`. -/
theorem copy_array_hdr_spec (c : Cfg) (s : State) (p arr : Nat) (fuel : Nat) (L C : List Nat)
    (hK : 0 < c.CLICK_SZ) (hB : 0 < c.BLOCK_MINFREE) (hH : 0 < c.ARRAY_HDR_SZ)
    (hr : Ready c s p L C) (hfuel : L.length < fuel) (hhdr : ¬ Unused c s p L arr) :
    ∃ res s1 L1 C1, copy_array_hdr c fuel s p arr = .ok (res, s1) ∧ Ready c s1 p L1 C1 ∧
      L1.length ≤ L.length ∧ res ≠ 0 ∧ res ≠ arr ∧ Unused c s p L res ∧
      (∀ a, Unused c s1 p L1 a → Unused c s p L a) ∧ s1.mem = s.mem ∧
      s1.ah = upd s.ah res ⟨p, (s.ah arr).elt_size, (s.ah arr).nelts, (s.ah arr).nelts,
        (s.ah arr).elts⟩ ∧
      s1.cl = s.cl ∧ s1.log = s.log := by
  have hpos : 0 < ((c.ARRAY_HDR_SZ : Nat) : Int) := by omega
  obtain ⟨r, s1, L1, C1, hp, hr1, hlen, hr0, hun, hmono, hm, hah, hcl, hlog⟩ :=
    hr.serve hK hB _ hpos fuel hfuel
  have hur : Unused c s p L r :=
    hun r (le_refl _) (by have := click_size_pos c (c.ARRAY_HDR_SZ : Int) hK; omega)
  have hne : r ≠ arr := by
    intro e
    apply hhdr
    rw [← e]
    exact hur
  have hne2 : arr ≠ r := Ne.symm hne
  have he : ∃ s5, copy_array_hdr c fuel s p arr = .ok (r, s5) ∧ s5.mem = s1.mem ∧
      s5.cl = s1.cl ∧ s5.log = s1.log ∧
      (∀ a, Unused c s5 p L1 a → Unused c s1 p L1 a) ∧ Ready c s5 p L1 C1 ∧ s5.ah = upd s.ah r ⟨p,
        (s.ah arr).elt_size, (s.ah arr).nelts, (s.ah arr).nelts, (s.ah arr).elts⟩ := by
    refine ⟨fill_hdr s1 p r arr, copy_array_hdr_eq c fuel s p arr r s1 hp hr0, rfl, rfl, rfl,
      fun _ h => h, ?_, ?_⟩
    · exact ((((hr1.set_ah _ _).set_ah _ _).set_ah _ _).set_ah _ _).set_ah _ _
    · simp only [fill_hdr, set_ah_eq, upd_upd, upd_same, upd_ne _ _ hne2, hah]
  obtain ⟨s5, h1, h2, h3, h4, h7, h5, h6⟩ := he
  exact ⟨r, s5, L1, C1, h1, h5, hlen, hr0, hne, hur, fun a h => hmono a (h7 a h), h2.trans hm, h6, h3.trans hcl,
    h4.trans hlog⟩

/-- The branch of `push_array` that doubles the storage. -/
theorem push_array_grow (c : Cfg) (fuel : Nat) (s : State) (arr nd : Nat) (s1 : State)
    (hfull : (s.ah arr).nelts = (s.ah arr).nalloc)
    (hp : pcalloc c fuel s (s.ah arr).pool ((s.ah arr).nalloc * (s.ah arr).elt_size * 2)
      = .ok (nd, s1)) (hah : s1.ah = s.ah) :
    ∃ s2, push_array c fuel s arr
        = .ok (((nd : Int) + (s.ah arr).elt_size * (s.ah arr).nelts).toNat, s2) ∧
      s2.ah = upd s.ah arr { s.ah arr with elts := nd, nalloc := (s.ah arr).nalloc * 2,
                                           nelts := (s.ah arr).nelts + 1 } ∧
      s2.mem = memcpy s1.mem nd (s.ah arr).elts ((s.ah arr).nalloc * (s.ah arr).elt_size).toNat ∧
      s2.cl = s1.cl ∧ s2.log = s1.log ∧ s2.blk = s1.blk ∧ s2.pl = s1.pl ∧
      s2.block_freelist = s1.block_freelist ∧ s2.brk = s1.brk ∧
      s2.stat_malloc = s1.stat_malloc ∧ s2.stat_freehit = s1.stat_freehit := by
  refine ⟨((s1.set_mem (memcpy s1.mem nd (s1.ah arr).elts
      ((s1.ah arr).nalloc * (s1.ah arr).elt_size).toNat)).set_ah arr
        { s.ah arr with elts := nd, nalloc := (s.ah arr).nalloc * 2,
                        nelts := (s.ah arr).nelts + 1 }), ?_, ?_, ?_, rfl, rfl, rfl, rfl, rfl,
    rfl, rfl, rfl⟩
  · simp only [push_array, hfull, if_true, hp, set_ah_eq, set_mem_eq, upd_same, upd_upd, hah]
    simp
  · simp [hah]
  · simp [hah]

theorem memset_zero (m : Nat → Nat) (d v : Nat) : memset m d v 0 = m := by
  funext x
  simp [memset]

theorem memcpy_zero (m : Nat → Nat) (d a : Nat) : memcpy m d a 0 = m := by
  funext x
  simp [memcpy]

theorem pcalloc_zero (c : Cfg) (fuel : Nat) (s : State) (p : Nat) :
    pcalloc c fuel s p 0 = .ok (0, s.set_mem s.mem) := by
  simp [pcalloc, palloc_nonpos, memset_zero]

/-- The storage of the array of `full_array` is memory in use. -/
theorem full_array_live (i : Nat)
    (hi : (i : Int) < (full_array.ah 4184).nalloc * (full_array.ah 4184).elt_size) :
    ¬ Unused lp64 full_array 4120 [] ((full_array.ah 4184).elts + i) := by
  have e1 : full_array.ah 4184 = ⟨4120, 4, 2, 2, 4216⟩ := by decide
  have e2 : full_array.blk (full_array.pl 4120).last = ⟨4632, 0, 4224⟩ := by decide
  have e3 : full_array.brk = 4632 := by decide
  rw [e1] at hi
  simp only at hi
  simp only [Unused, e1, e2, e3, List.not_mem_nil, false_and, exists_false, false_or, not_or,
    not_and, not_lt, not_le]
  constructor
  · intro h; omega
  · omega

theorem full_array_ready : Ready lp64 full_array 4120 [] [4096] :=
  { free := by decide, empty := by decide, below := by decide, chain := by decide,
    last := by decide, sep := by decide, avail := by decide }

/-- The doubling loop of `array_cat` stops, at a size that is enough. -/
theorem array_cat_size_spec (need : Int) : ∀ (fuel : Nat) (ns : Int), 1 ≤ ns →
    (need - ns).toNat < fuel →
    ∃ r, array_cat_size need fuel ns = .ok r ∧ need ≤ r ∧ ns ≤ r
  | 0, _, _, hf => absurd hf (Nat.not_lt_zero _)
  | fuel + 1, ns, h1, hf => by
    unfold array_cat_size
    by_cases h : need > ns
    · rw [if_pos h]
      obtain ⟨r, hr, h2, h3⟩ := array_cat_size_spec need fuel (ns * 2) (by omega) (by omega)
      exact ⟨r, hr, h2, by omega⟩
    · rw [if_neg h]
      exact ⟨ns, rfl, by omega, le_refl _⟩

/-- The call `array_cat(dst, src)` when `dst` has room: the elements of `src` are copied
after those of `dst`. -/
theorem array_cat_keep (c : Cfg) (fuel : Nat) (s : State) (dst src : Nat)
    (h : ¬ (s.ah dst).nelts + (s.ah src).nelts > (s.ah dst).nalloc)
    (hn : 0 ≤ (s.ah dst).elt_size * (s.ah src).nelts) :
    array_cat c fuel s dst src =
      .ok ((s.set_mem (memcpy s.mem
          (((s.ah dst).elts : Int) + (s.ah dst).nelts * (s.ah dst).elt_size).toNat
          (s.ah src).elts ((s.ah dst).elt_size * (s.ah src).nelts).toNat)).set_ah dst
        { s.ah dst with nelts := (s.ah dst).nelts + (s.ah src).nelts }) := by
  have hn2 : ¬ (s.ah dst).elt_size * (s.ah src).nelts < 0 := by omega
  simp only [array_cat, h, if_false, memcpy_int, hn2]
  rfl

/-- The call `array_cat(dst, src)` when `dst` has to grow, `dst` and `src` being two
headers. -/
theorem array_cat_grow (c : Cfg) (fuel : Nat) (s : State) (dst src : Nat) (ns : Int)
    (nd : Nat) (s1 : State) (hds : dst ≠ src)
    (h : (s.ah dst).nelts + (s.ah src).nelts > (s.ah dst).nalloc)
    (hsz : array_cat_size ((s.ah dst).nelts + (s.ah src).nelts) fuel
      (if (s.ah dst).nalloc * 2 = 0 then (s.ah dst).nalloc * 2 + 1 else (s.ah dst).nalloc * 2)
      = .ok ns)
    (hp : pcalloc c fuel s (s.ah dst).pool ((s.ah dst).elt_size * ns) = .ok (nd, s1))
    (hah : s1.ah = s.ah)
    (hn1 : 0 ≤ (s.ah dst).nalloc * (s.ah dst).elt_size)
    (hn : 0 ≤ (s.ah dst).elt_size * (s.ah src).nelts) :
    ∃ s2, array_cat c fuel s dst src = .ok s2 ∧
      s2.ah = upd s.ah dst { s.ah dst with elts := nd, nalloc := ns,
                                           nelts := (s.ah dst).nelts + (s.ah src).nelts } ∧
      s2.mem = memcpy (memcpy s1.mem nd (s.ah dst).elts
            ((s.ah dst).nalloc * (s.ah dst).elt_size).toNat)
          ((nd : Int) + (s.ah dst).nelts * (s.ah dst).elt_size).toNat
          (s.ah src).elts ((s.ah dst).elt_size * (s.ah src).nelts).toNat ∧
      s2.cl = s1.cl ∧ s2.log = s1.log := by
  have hn2 : ¬ (s.ah dst).elt_size * (s.ah src).nelts < 0 := by omega
  have hn3 : ¬ (s.ah dst).nalloc * (s.ah dst).elt_size < 0 := by omega
  have hsd : src ≠ dst := Ne.symm hds
  refine ⟨((s1.set_mem (memcpy (memcpy s1.mem nd (s.ah dst).elts
            ((s.ah dst).nalloc * (s.ah dst).elt_size).toNat)
          ((nd : Int) + (s.ah dst).nelts * (s.ah dst).elt_size).toNat
          (s.ah src).elts ((s.ah dst).elt_size * (s.ah src).nelts).toNat)).set_ah dst
        { s.ah dst with elts := nd, nalloc := ns,
                        nelts := (s.ah dst).nelts + (s.ah src).nelts }), ?_, ?_, rfl, rfl, rfl⟩
  · simp only [array_cat, h, if_true, hsz, hp, memcpy_int, hah, hn2, hn3, if_false, set_ah_eq,
      set_mem_eq, upd_same, upd_upd, upd_ne _ _ hsd]
  · simp [hah]

/-- The loop of `unregister_cleanup` on a list with no matching record changes nothing. -/
theorem unregister_loop_miss (p data cb : Nat) (s : State) :
    ∀ (l : List Nat) (fuel : Nat) (lastp : Option Nat) (cp : Nat),
      Chain s.cnxt cp l → l.length < fuel →
      (∀ x ∈ l, ¬ ((s.cl x).data = data ∧ (s.cl x).plain_cleanup_cb = cb)) →
      unregister_cleanup_loop p data cb s fuel lastp cp = .ok s
  | [], fuel, lastp, cp, hc, hf, _ => by
    obtain ⟨f, rfl⟩ : ∃ f, fuel = f + 1 := ⟨fuel - 1, by simp at hf; omega⟩
    have hc0 : cp = 0 := hc
    simp [unregister_cleanup_loop, hc0]
  | a :: l, fuel, lastp, cp, hc, hf, hm => by
    obtain ⟨f, rfl⟩ : ∃ f, fuel = f + 1 := ⟨fuel - 1, by simp at hf; omega⟩
    obtain ⟨rfl, h2, h3⟩ := hc
    have hma := hm cp (List.mem_cons_self _ _)
    unfold unregister_cleanup_loop
    rw [if_neg h2, if_neg hma]
    exact unregister_loop_miss p data cb s l f (some cp) _ h3 (by simp at hf; omega)
      (fun x hx => hm x (List.mem_cons_of_mem _ hx))

/-- The loop of `unregister_cleanup` stops at the first matching record `a` and stores
its `next` in the link that led to it. -/
theorem unregister_loop_hit (p data cb : Nat) (s : State) (a : Nat) (l2 : List Nat)
    (hma : (s.cl a).data = data ∧ (s.cl a).plain_cleanup_cb = cb) :
    ∀ (l1 : List Nat) (fuel : Nat) (lastp : Option Nat) (cp : Nat),
      Chain s.cnxt cp (l1 ++ a :: l2) → l1.length < fuel →
      (∀ x ∈ l1, ¬ ((s.cl x).data = data ∧ (s.cl x).plain_cleanup_cb = cb)) →
      unregister_cleanup_loop p data cb s fuel lastp cp =
        .ok (store_lastp s p (match l1.getLast? with | none => lastp | some z => some z)
          (s.cl a).next)
  | [], fuel, lastp, cp, hc, hf, _ => by
    obtain ⟨f, rfl⟩ : ∃ f, fuel = f + 1 := ⟨fuel - 1, by omega⟩
    obtain ⟨rfl, h2, _⟩ := hc
    unfold unregister_cleanup_loop
    rw [if_neg h2, if_pos hma]
    rfl
  | x :: l1, fuel, lastp, cp, hc, hf, hm => by
    obtain ⟨f, rfl⟩ : ∃ f, fuel = f + 1 := ⟨fuel - 1, by omega⟩
    obtain ⟨rfl, h2, h3⟩ := hc
    have hmx := hm cp (List.mem_cons_self _ _)
    unfold unregister_cleanup_loop
    rw [if_neg h2, if_neg hmx]
    have ih := unregister_loop_hit p data cb s a l2 hma l1 f (some cp) _ h3
      (by simp at hf; omega) (fun y hy => hm y (List.mem_cons_of_mem _ hy))
    show unregister_cleanup_loop p data cb s f (some cp) (s.cnxt cp) = _
    rw [ih]
    cases l1 with
    | nil => rfl
    | cons y t =>
      rw [List.getLast?_cons_cons]
      obtain ⟨z, hz⟩ : ∃ z, (y :: t).getLast? = some z :=
        ⟨_, List.getLast?_eq_getLast _ (by simp)⟩
      rw [hz]

theorem chain_head {nx : Nat → Nat} {h : Nat} {l : List Nat} (hc : Chain nx h l) :
    h = l.headD 0 := by
  cases l with
  | nil => exact hc
  | cons a t => exact hc.1

/-- The list of cleanups after the record `a` has been spliced out of `l1 ++ a :: l2`. -/
theorem cleanup_unlink (s : State) (p a : Nat) (l1 l2 : List Nat)
    (hc : Chain s.cnxt (s.pl p).cleanups (l1 ++ a :: l2)) :
    Chain (store_lastp s p (match l1.getLast? with | none => none | some z => some z)
        (s.cl a).next).cnxt
      ((store_lastp s p (match l1.getLast? with | none => none | some z => some z)
        (s.cl a).next).pl p).cleanups (l1 ++ l2) := by
  have hnd := Chain.nodup hc
  rcases List.eq_nil_or_concat l1 with rfl | ⟨L0, z, rfl⟩
  · obtain ⟨_, _, h3⟩ := hc
    simp only [List.getLast?_nil, store_lastp, set_pl_eq, upd_same, List.nil_append]
    exact h3
  · have hz2 : z ∉ l2 := fun hm => by
      have := List.nodup_append.mp hnd
      exact this.2.2 (by simp) (List.mem_cons_of_mem a hm)
    have hz0 : z ∉ L0 := by
      have := (List.nodup_append.mp hnd).1
      rw [List.concat_eq_append] at this
      have := List.nodup_append.mp this
      intro hm
      exact this.2.2 hm (by simp)
    have hlast : (L0.concat z).getLast? = some z := by simp
    rw [hlast]
    simp only [List.concat_eq_append, store_lastp, set_cl_eq]
    refine chain_unlink_aux ?_ (L0 ++ [z]) _ (by simpa using hc) (by simp) ?_ ?_
    · intro x hx
      have h2 : x ≠ z := fun e => hz2 (e ▸ hx)
      simp [State.cnxt, upd_ne _ _ h2]
    · intro x hx
      simp only [List.dropLast_concat] at hx
      have h2 : x ≠ z := fun e => hz0 (e ▸ hx)
      simp [State.cnxt, upd_ne _ _ h2]
    · intro x hx
      simp at hx
      subst hx
      simp [State.cnxt]

theorem store_lastp_fields (s : State) (p : Nat) (lastp : Option Nat) (v x : Nat) :
    ((store_lastp s p lastp v).cl x).data = (s.cl x).data ∧
    ((store_lastp s p lastp v).cl x).plain_cleanup_cb = (s.cl x).plain_cleanup_cb ∧
    ((store_lastp s p lastp v).cl x).child_cleanup_cb = (s.cl x).child_cleanup_cb := by
  cases lastp with
  | none => exact ⟨rfl, rfl, rfl⟩
  | some a =>
    simp only [store_lastp, set_cl_eq, upd_apply]
    split
    · rename_i e; subst e; exact ⟨rfl, rfl, rfl⟩
    · exact ⟨rfl, rfl, rfl⟩

/-- C13. `unregister_cleanup(p, data, cb)` on a pool whose list of cleanups is `cln`.
When `a` is the first record of the list, head first, with this data and this plain
callback, whatever its child callback, the call splices `a` out: the list becomes the
records before `a` followed by those after it, and no record changes its data or
callbacks. When no record matches, the state is left as it is. And a call that follows
`register_cleanup(p, data, cb, ccb)` with the same data and callback brings the list
back to `cln`, from the same head. -/
theorem unregister_cleanup_contract (s : State) (p data cb : Nat) (fuel : Nat) (cln : List Nat)
    (hc : Chain s.cnxt (s.pl p).cleanups cln) (hf : cln.length < fuel) :
    (∀ l1 a l2, cln = l1 ++ a :: l2 →
      ((s.cl a).data = data ∧ (s.cl a).plain_cleanup_cb = cb) →
      (∀ x ∈ l1, ¬ ((s.cl x).data = data ∧ (s.cl x).plain_cleanup_cb = cb)) →
      ∃ s1, unregister_cleanup fuel s p data cb = .ok s1 ∧
        Chain s1.cnxt (s1.pl p).cleanups (l1 ++ l2) ∧
        (∀ x, (s1.cl x).data = (s.cl x).data ∧
          (s1.cl x).plain_cleanup_cb = (s.cl x).plain_cleanup_cb ∧
          (s1.cl x).child_cleanup_cb = (s.cl x).child_cleanup_cb)) ∧
    ((∀ x ∈ cln, ¬ ((s.cl x).data = data ∧ (s.cl x).plain_cleanup_cb = cb)) →
      unregister_cleanup fuel s p data cb = .ok s) ∧
    (∀ (c : Cfg) (fuel2 : Nat) (L C : List Nat) (ccb : Nat), 0 < c.CLICK_SZ →
      0 < c.BLOCK_MINFREE → 0 < c.CLEANUP_SZ → Ready c s p L C → L.length < fuel2 →
      (∀ a ∈ cln, ¬ Unused c s p L a) →
      ∃ s1 s2, register_cleanup c fuel2 s p data cb ccb = .ok s1 ∧
        unregister_cleanup fuel s1 p data cb = .ok s2 ∧
        (s2.pl p).cleanups = (s.pl p).cleanups ∧
        Chain s2.cnxt (s2.pl p).cleanups cln ∧ (∀ a ∈ cln, s2.call a = s.call a)) := by
  refine ⟨?_, ?_, ?_⟩
  · intro l1 a l2 hl hma hm
    subst hl
    have h := unregister_loop_hit p data cb s a l2 hma l1 fuel none _ hc
      (by simp at hf; omega) hm
    exact ⟨_, h, cleanup_unlink s p a l1 l2 hc, fun x => store_lastp_fields s p _ _ x⟩
  · intro hm
    exact unregister_loop_miss p data cb s cln fuel none _ hc hf hm
  · intro c fuel2 L C ccb hK hB hS hr hf2 hlive
    obtain ⟨cp, s1, hreg, hcp, hch, hcall, hcalls, _⟩ :=
      register_cleanup_spec c s p data cb ccb fuel2 L C cln hK hB hS hr hf2 hc hlive
    have hma : (s1.cl cp).data = data ∧ (s1.cl cp).plain_cleanup_cb = cb := by
      have h1 := congrArg Prod.fst hcall
      have h2 := congrArg Prod.snd hcall
      exact ⟨h2, h1⟩
    have hch1 : Chain s1.cnxt (s1.pl p).cleanups ([] ++ cp :: cln) := by
      rw [hcp]; exact hch
    have h := unregister_loop_hit p data cb s1 cp cln hma [] fuel none _ hch1
      (by simp; omega) (by simp)
    have hu := cleanup_unlink s1 p cp [] cln hch1
    simp only [List.getLast?_nil, List.nil_append] at h hu
    refine ⟨s1, _, hreg, h, ?_, hu, ?_⟩
    · rw [chain_head hu, chain_head hc]
    · intro a ha
      rw [← hcalls a ha]
      rfl

/-- C13, at an instance: of the two cleanups of the pool at 4656 in `town`, the second is
unregistered. -/
theorem unregister_cleanup_contract_witness :
    ∃ s1, unregister_cleanup 3 town 4656 111 1 = .ok s1 ∧
      Chain s1.cnxt (s1.pl 4656).cleanups [9224] :=
  let ⟨s1, h1, h2, _⟩ :=
    (unregister_cleanup_contract town 4656 111 1 3 [9224, 9192] (by decide) (by decide)).1
      [9224] 9192 [] rfl (by decide) (by decide)
  ⟨s1, h1, h2⟩

/-- C14. `palloc(p, reqsize)` with `reqsize <= 0` returns the null pointer and the state
it was called in: the blocks, the pool records, the free list, the heap top and the two
counters are as before. -/
theorem palloc_nonpos_contract (c : Cfg) (fuel : Nat) (s : State) (p : Nat) (reqsize : Int)
    (h : reqsize ≤ 0) :
    ∃ r s1, palloc c fuel s p reqsize = .ok (r, s1) ∧ r = 0 ∧ s1 = s ∧ s1.blk = s.blk ∧
      s1.pl = s.pl ∧ s1.block_freelist = s.block_freelist ∧ s1.brk = s.brk ∧
      s1.stat_malloc = s.stat_malloc ∧ s1.stat_freehit = s.stat_freehit ∧
      (∀ C, Chain s.nxt (s.pl p).first C → Chain s1.nxt (s1.pl p).first C) ∧
      (∀ L, Chain s.nxt s.block_freelist L → Chain s1.nxt s1.block_freelist L) :=
  ⟨0, s, palloc_nonpos c fuel s p reqsize h, rfl, rfl, rfl, rfl, rfl, rfl, rfl, rfl,
    fun _ hc => hc, fun _ hc => hc⟩

/-- C14, at instances: requests of 0 and of -5 bytes on the permanent pool of `world`. -/
theorem palloc_nonpos_contract_witness :
    palloc lp64 1 world 4120 0 = .ok (0, world) ∧ palloc lp64 1 world 4120 (-5) = .ok (0, world) :=
  let ⟨_, _, h1, h2, h3, _⟩ := palloc_nonpos_contract lp64 1 world 4120 0 (by decide)
  let ⟨_, _, k1, k2, k3, _⟩ := palloc_nonpos_contract lp64 1 world 4120 (-5) (by decide)
  ⟨by rw [h1, h2, h3], by rw [k1, k2, k3]⟩

theorem rounded_size_zero (c : Cfg) (hB : 0 < c.BLOCK_MINFREE) :
    rounded_size c 0 = c.BLOCK_MINFREE := by
  unfold rounded_size
  have : (0 + c.BLOCK_MINFREE - 1) / c.BLOCK_MINFREE = 0 :=
    Nat.div_eq_of_lt (by omega)
  rw [this]
  simp

theorem rounded_size_pos (c : Cfg) (hB : 0 < c.BLOCK_MINFREE) (n : Nat) (hn : 0 < n) :
    rounded_size c n = block_size c n := by
  unfold rounded_size block_size
  have e : n + c.BLOCK_MINFREE - 1 = (n - 1) + c.BLOCK_MINFREE := by omega
  rw [e, Nat.add_div_right _ hB]
  rw [Nat.max_eq_right (Nat.le_add_left 1 _), Nat.mul_comm, Nat.add_comm]

theorem rounded_size_ge (c : Cfg) (hB : 0 < c.BLOCK_MINFREE) (n : Nat) :
    n ≤ rounded_size c n := by
  rcases Nat.eq_zero_or_pos n with rfl | hn
  · omega
  · rw [rounded_size_pos c hB n hn]
    exact round_up_ge _ _ hB

/-- For a request of `min_size >= 0` bytes `new_block` looks for the size of the
specification. -/
theorem new_block_nonneg (c : Cfg) (hB : 1 < c.BLOCK_MINFREE) (s : State) (min_size : Int)
    (hmin : 0 ≤ min_size) (fuel : Nat) (L : List Nat)
    (hc : Chain s.nxt s.block_freelist L) (hf : L.length < fuel) :
    ∃ b s1, new_block c fuel s min_size = .ok (b, s1) ∧
      NewBlock c s L (rounded_size c min_size.toNat) b s1 := by
  rcases lt_or_eq_of_le hmin with hpos | h0
  · have e : min_size = ((min_size.toNat : Nat) : Int) := by omega
    rw [rounded_size_pos c (by omega) _ (by omega)]
    have := new_block_pos c s min_size.toNat (by omega) fuel L hc hf
    rw [← e] at this
    exact this
  · subst h0
    rw [Int.toNat_zero, rounded_size_zero c (by omega)]
    exact new_block_zero c hB s fuel L hc hf

/-- The record that `register_cleanup` leaves at the head of the list. -/
theorem register_cleanup_record (c : Cfg) (fuel : Nat) (s : State) (p data cb ccb : Nat)
    (s1 : State) (h : register_cleanup c fuel s p data cb ccb = .ok s1) :
    (s1.cl (s1.pl p).cleanups).data = data ∧
    (s1.cl (s1.pl p).cleanups).plain_cleanup_cb = cb ∧
    (s1.cl (s1.pl p).cleanups).child_cleanup_cb = ccb := by
  unfold register_cleanup at h
  split at h
  · exact absurd h (by simp)
  · split at h
    · exact absurd h (by simp)
    · injection h with h
      subst h
      simp

/-- C16 as stated fails. For the mode "a+b", which does not end with `+`, the code opens
with `O_RDWR|O_APPEND|O_CREAT` (2|1024|64) where the stated rule gives `O_WRONLY`; for the
mode "ab+", which ends with `+`, the code opens with `O_WRONLY|O_APPEND|O_CREAT` where the
stated rule gives `O_RDWR`: the code looks at the character after the `a` only. -/
theorem pfopen_second_char :
    (pfopen lp64 linux 1 world 4120 (bytes "f") (bytes "a+b")).toOption.map (fun r => r.2.1)
      = some [Call.sys_open (bytes "f") (2 ||| 1024 ||| 64) 438, Call.fdopen 3 (bytes "a+b")] ∧
    (pfopen lp64 linux 1 world 4120 (bytes "f") (bytes "a+b")).toOption.map (fun r => r.2.1)
      ≠ some [Call.sys_open (bytes "f") (spec_flags linux (bytes "a+b")) 438,
        Call.fdopen 3 (bytes "a+b")] ∧
    (pfopen lp64 linux 1 world 4120 (bytes "f") (bytes "ab+")).toOption.map (fun r => r.2.1)
      = some [Call.sys_open (bytes "f") (1 ||| 1024 ||| 64) 438, Call.fdopen 3 (bytes "ab+")] ∧
    (pfopen lp64 linux 1 world 4120 (bytes "f") (bytes "ab+")).toOption.map (fun r => r.2.1)
      ≠ some [Call.sys_open (bytes "f") (spec_flags linux (bytes "ab+")) 438,
        Call.fdopen 3 (bytes "ab+")] := by
  decide

/-- C16, amended. `pfopen(p, name, mode)` on a pool ready for `palloc`. For a mode that
begins with `a` the file is opened by `open` with `O_APPEND|O_CREAT` and with `O_RDWR`
when the character after the `a` is `+`, with `O_WRONLY` when the mode has no `+`; the
descriptor, when not negative, is handed to `fdopen`. For any other mode the file is
opened by `fopen`. A cleanup with the stream, the closing callback and the child callback
is put at the head of the list of the pool when the stream is not null, and the state is
untouched when it is null. -/
theorem pfopen_contract (c : Cfg) (io : Libc) (s : State) (p : Nat) (name mode : List Nat)
    (fuel : Nat) (L C cln : List Nat) (hK : 0 < c.CLICK_SZ) (hB : 0 < c.BLOCK_MINFREE)
    (hS : 0 < c.CLEANUP_SZ) (hr : Ready c s p L C) (hfuel : L.length < fuel)
    (hcln : Chain s.cnxt (s.pl p).cleanups cln) (hlive : ∀ a ∈ cln, ¬ Unused c s p L a) :
    ∃ fd calls s1, pfopen c io fuel s p name mode = .ok (fd, calls, s1) ∧
      (first_char mode = 97 → ∃ flags,
        (mode.getD 1 0 = 43 → flags = io.O_RDWR ||| io.O_APPEND ||| io.O_CREAT) ∧
        (43 ∉ mode → flags = io.O_WRONLY ||| io.O_APPEND ||| io.O_CREAT) ∧
        (0 ≤ io.sys_open name flags (open_perm io) →
          calls = [Call.sys_open name flags (open_perm io),
            Call.fdopen (io.sys_open name flags (open_perm io)) mode] ∧
          fd = io.fdopen (io.sys_open name flags (open_perm io)) mode) ∧
        (io.sys_open name flags (open_perm io) < 0 →
          calls = [Call.sys_open name flags (open_perm io)] ∧ fd = 0)) ∧
      (first_char mode ≠ 97 → calls = [Call.fopen name mode] ∧ fd = io.fopen name mode) ∧
      (fd ≠ 0 → Chain s1.cnxt (s1.pl p).cleanups ((s1.pl p).cleanups :: cln) ∧
        (s1.cl (s1.pl p).cleanups).data = fd ∧
        (s1.cl (s1.pl p).cleanups).plain_cleanup_cb = io.file_cleanup_cb ∧
        (s1.cl (s1.pl p).cleanups).child_cleanup_cb = io.file_child_cleanup_cb ∧
        (∀ a ∈ cln, s1.call a = s.call a)) ∧
      (fd = 0 → s1 = s) := by
  -- the stream and the calls
  have hopen : (first_char mode = 97 → ∃ flags,
        (mode.getD 1 0 = 43 → flags = io.O_RDWR ||| io.O_APPEND ||| io.O_CREAT) ∧
        (43 ∉ mode → flags = io.O_WRONLY ||| io.O_APPEND ||| io.O_CREAT) ∧
        (0 ≤ io.sys_open name flags (open_perm io) →
          (pfopen_open io name mode).2 = [Call.sys_open name flags (open_perm io),
            Call.fdopen (io.sys_open name flags (open_perm io)) mode] ∧
          (pfopen_open io name mode).1 = io.fdopen (io.sys_open name flags (open_perm io)) mode) ∧
        (io.sys_open name flags (open_perm io) < 0 →
          (pfopen_open io name mode).2 = [Call.sys_open name flags (open_perm io)] ∧
          (pfopen_open io name mode).1 = 0)) ∧
      (first_char mode ≠ 97 → (pfopen_open io name mode).2 = [Call.fopen name mode] ∧
        (pfopen_open io name mode).1 = io.fopen name mode) := by
    constructor
    · intro ha
      refine ⟨(if mode.getD 1 0 = 43 then io.O_RDWR else io.O_WRONLY) ||| io.O_APPEND |||
        io.O_CREAT, ?_, ?_, ?_, ?_⟩
      · intro h; rw [if_pos h]
      · intro h
        have : ¬ mode.getD 1 0 = 43 := by
          intro e
          apply h
          cases mode with
          | nil => simp at e
          | cons x t =>
            cases t with
            | nil => simp at e
            | cons y u => simp at e; simp [e]
        rw [if_neg this]
      · intro h
        have h2 : io.sys_open name ((if mode.getD 1 0 = 43 then io.O_RDWR else io.O_WRONLY) |||
            io.O_APPEND ||| io.O_CREAT) (open_perm io) ≥ 0 := h
        simp only [pfopen_open, ha, if_true, h2]
        exact ⟨trivial, trivial⟩
      · intro h
        have h2 : ¬ io.sys_open name ((if mode.getD 1 0 = 43 then io.O_RDWR else io.O_WRONLY) |||
            io.O_APPEND ||| io.O_CREAT) (open_perm io) ≥ 0 := by omega
        simp only [pfopen_open, ha, if_true, h2, if_false]
        exact ⟨trivial, trivial⟩
    · intro ha
      simp only [pfopen_open, ha, if_false]
      exact ⟨trivial, trivial⟩
  by_cases hfd : (pfopen_open io name mode).1 = 0
  · refine ⟨(pfopen_open io name mode).1, (pfopen_open io name mode).2, s, ?_, hopen.1,
      hopen.2, fun h => absurd hfd h, fun _ => rfl⟩
    simp only [pfopen, hfd, ne_eq, not_true_eq_false, if_false]
  · obtain ⟨cp, s1, hreg, hcp, hch, _, hcalls, _⟩ :=
      register_cleanup_spec c s p (pfopen_open io name mode).1 io.file_cleanup_cb
        io.file_child_cleanup_cb fuel L C cln hK hB hS hr hfuel hcln hlive
    obtain ⟨r1, r2, r3⟩ := register_cleanup_record c fuel s p _ _ _ s1 hreg
    refine ⟨(pfopen_open io name mode).1, (pfopen_open io name mode).2, s1, ?_, hopen.1,
      hopen.2, fun _ => ⟨by rw [hcp]; exact hch, r1, r2, r3, hcalls⟩, fun h => absurd h hfd⟩
    simp only [pfopen, ne_eq, hfd, not_false_eq_true, if_true, register_file_cleanups, hreg]

/-- C16, at an instance: the mode "a+" on the permanent pool of `world`. -/
theorem pfopen_contract_witness :
    ∃ fd calls s1, pfopen lp64 linux 1 world 4120 (bytes "f") (bytes "a+") = .ok (fd, calls, s1) ∧
      (fd ≠ 0 → (s1.cl (s1.pl 4120).cleanups).data = fd ∧
        (s1.cl (s1.pl 4120).cleanups).plain_cleanup_cb = 7 ∧
        (s1.cl (s1.pl 4120).cleanups).child_cleanup_cb = 8) ∧
      (fd = 0 → s1 = world) :=
  let ⟨fd, calls, s1, h1, _, _, h4, h5⟩ :=
    pfopen_contract lp64 linux world 4120 (bytes "f") (bytes "a+") 1 [] [4096] []
      (by decide) (by decide) (by decide)
      { free := by decide, empty := by decide, below := by decide, chain := by decide,
        last := by decide, sep := by decide, avail := by decide }
      (by decide) (by decide) (fun a ha => absurd ha (List.not_mem_nil a))
  ⟨fd, calls, s1, h1, fun h => ⟨(h4 h).2.1, (h4 h).2.2.1, (h4 h).2.2.2.1⟩, h5⟩

/-- C20 fails on the code. The header that `copy_array_hdr` makes of an array without
elements has `nalloc = 0`; `push_array` on it asks `pcalloc` for `0 * elt_size * 2 = 0`
bytes, gets the null pointer, doubles `nalloc` to 0 and counts one element: the slot
returned is null and `nelts = 1 > nalloc = 0`. -/
theorem push_array_empty_copy :
    (copy_array_hdr lp64 1 empty_array 4120 4184).toOption.map
        (fun r => (r.1, (r.2.ah r.1).nelts, (r.2.ah r.1).nalloc)) = some (4224, 0, 0) ∧
    (push_array lp64 1 empty_copy 4224).toOption.map
        (fun r => (r.1, (r.2.ah 4224).nelts, (r.2.ah 4224).nalloc, (r.2.ah 4224).elts))
      = some (0, 1, 0, 0) := by
  decide

theorem relink_self (r : pool) (p : Nat) : relink r p p = r := by
  cases r
  simp only [relink]
  congr 1 <;> split <;> simp_all

theorem relink_ne (r : pool) (p a1 : Nat) (h1 : r.sub_pools ≠ p) (h2 : r.sub_next ≠ p) :
    relink r p a1 = r := by
  cases r
  simp only [relink] at *
  simp [h1, h2]

theorem PT.replace_of_not_mem : ∀ (t : PT) (p : Nat) (t1 : PT), p ∉ t.pools →
    t.replace p t1 = t
  | .nil, _, _, _ => rfl
  | .node q chain cln kids sibs, p, t1, h => by
    simp only [PT.pools, List.mem_cons, List.mem_append, not_or] at h
    have hq : q ≠ p := fun e => h.1 e.symm
    simp only [PT.replace, hq, if_false]
    rw [PT.replace_of_not_mem kids p t1 h.2.1, PT.replace_of_not_mem sibs p t1 h.2.2]

/-- The pools of a layout in which a part has been replaced. -/
theorem PT.replace_pools : ∀ (t : PT) (p : Nat) (t1 : PT), t.pools.Nodup → p ∈ t.pools →
    (t.replace p t1).pools.Perm (t1.pools ++ (t.replace p .nil).pools)
  | .nil, _, _, _, h => by simp [PT.pools] at h
  | .node q chain cln kids sibs, p, t1, hnd, h => by
    by_cases hq : q = p
    · simp [PT.replace, hq, PT.pools]
    · simp only [PT.pools, List.mem_cons, List.mem_append] at h
      simp only [PT.pools, List.nodup_cons, List.nodup_append] at hnd
      obtain ⟨_, hk, hs, hdis⟩ := hnd
      simp only [PT.replace, hq, if_false, PT.pools]
      rcases h with h | h | h
      · exact absurd h.symm hq
      · have hps : p ∉ sibs.pools := fun hm => hdis h hm
        rw [PT.replace_of_not_mem sibs p t1 hps, PT.replace_of_not_mem sibs p .nil hps]
        have ih := PT.replace_pools kids p t1 hk h
        refine (List.Perm.cons q (List.Perm.append_right _ ih)).trans ?_
        rw [List.append_assoc]
        exact (List.perm_middle).symm
      · have hpk : p ∉ kids.pools := fun hm => hdis hm h
        rw [PT.replace_of_not_mem kids p t1 hpk, PT.replace_of_not_mem kids p .nil hpk]
        have ih := PT.replace_pools sibs p t1 hs h
        refine (List.Perm.cons q (List.Perm.append_left _ ih)).trans ?_
        have : (kids.pools ++ (t1.pools ++ (sibs.replace p .nil).pools)).Perm
            (t1.pools ++ (kids.pools ++ (sibs.replace p .nil).pools)) := by
          rw [← List.append_assoc, ← List.append_assoc]
          exact List.Perm.append_right _ List.perm_append_comm
        refine (List.Perm.cons q this).trans ?_
        exact (List.perm_middle).symm

/-- The blocks of a layout in which a part has been replaced. -/
theorem PT.replace_blocks : ∀ (t : PT) (p : Nat) (t1 : PT), t.pools.Nodup → p ∈ t.pools →
    (t.replace p t1).blocks.Perm (t1.blocks ++ (t.replace p .nil).blocks)
  | .nil, _, _, _, h => by simp [PT.pools] at h
  | .node q chain cln kids sibs, p, t1, hnd, h => by
    by_cases hq : q = p
    · simp [PT.replace, hq, PT.blocks]
    · simp only [PT.pools, List.mem_cons, List.mem_append] at h
      simp only [PT.pools, List.nodup_cons, List.nodup_append] at hnd
      obtain ⟨_, hk, hs, hdis⟩ := hnd
      simp only [PT.replace, hq, if_false, PT.blocks]
      rcases h with h | h | h
      · exact absurd h.symm hq
      · have hps : p ∉ sibs.pools := fun hm => hdis h hm
        rw [PT.replace_of_not_mem sibs p t1 hps, PT.replace_of_not_mem sibs p .nil hps]
        have ih := PT.replace_blocks kids p t1 hk h
        refine (List.Perm.append_left chain (List.Perm.append_right _ ih)).trans ?_
        rw [List.append_assoc]
        exact List.perm_append_comm_assoc _ _ _
      · have hpk : p ∉ kids.pools := fun hm => hdis hm h
        rw [PT.replace_of_not_mem kids p t1 hpk, PT.replace_of_not_mem kids p .nil hpk]
        have ih := PT.replace_blocks sibs p t1 hs h
        refine (List.Perm.append_left chain (List.Perm.append_left _ ih)).trans ?_
        have : (kids.blocks ++ (t1.blocks ++ (sibs.replace p .nil).blocks)).Perm
            (t1.blocks ++ (kids.blocks ++ (sibs.replace p .nil).blocks)) :=
          List.perm_append_comm_assoc _ _ _
        exact (List.Perm.append_left chain this).trans (List.perm_append_comm_assoc _ _ _)

theorem PT.replace_sub : ∀ (t : PT) (p : Nat), t.pools.Nodup → t.replace p (t.sub p) = t
  | .nil, _, _ => rfl
  | .node q chain cln kids sibs, p, hnd => by
    by_cases hq : q = p
    · simp [PT.replace, PT.sub, hq]
    · simp only [PT.pools, List.nodup_cons, List.nodup_append] at hnd
      obtain ⟨_, hk, hs, hdis⟩ := hnd
      simp only [PT.replace, PT.sub, hq, if_false]
      by_cases hpk : p ∈ kids.pools
      · have hps : p ∉ sibs.pools := fun hm => hdis hpk hm
        rw [if_pos hpk, PT.replace_sub kids p hk, PT.replace_of_not_mem sibs p _ hps]
      · rw [if_neg hpk, PT.replace_sub sibs p hs, PT.replace_of_not_mem kids p _ hpk]

theorem PT.sub_node : ∀ (t : PT) (p : Nat), p ∈ t.pools →
    ∃ chain cln kids sibs, t.sub p = .node p chain cln kids sibs
  | .nil, _, h => by simp [PT.pools] at h
  | .node q chain cln kids sibs, p, h => by
    by_cases hq : q = p
    · subst hq
      exact ⟨chain, cln, kids, sibs, by simp [PT.sub]⟩
    · simp only [PT.pools, List.mem_cons, List.mem_append] at h
      simp only [PT.sub, hq, if_false]
      by_cases hpk : p ∈ kids.pools
      · rw [if_pos hpk]; exact PT.sub_node kids p hpk
      · rw [if_neg hpk]
        rcases h with h | h | h
        · exact absurd h.symm hq
        · exact absurd h hpk
        · exact PT.sub_node sibs p h

/-- The part that hangs from `p` is laid out from `p` on, under the parent and after the
sibling that the record of `p` names. -/
theorem Rep.sub {s : State} : ∀ {t : PT} {a par prev : Nat} (p : Nat), Rep s t a par prev →
    p ∈ t.pools → Rep s (t.sub p) p (s.pl p).parent (s.pl p).sub_prev
  | .nil, _, _, _, _, _, h => by simp [PT.pools] at h
  | .node q chain cln kids sibs, a, par, prev, p, hr, h => by
    by_cases hq : q = p
    · subst hq
      simp only [PT.sub, if_true]
      obtain ⟨h1, h2, h3, h4, rest⟩ := hr
      subst h3
      exact ⟨rfl, h2, rfl, rfl, rest⟩
    · simp only [PT.pools, List.mem_cons, List.mem_append] at h
      obtain ⟨_, _, _, _, _, _, _, h8, h9⟩ := hr
      simp only [PT.sub, hq, if_false]
      by_cases hpk : p ∈ kids.pools
      · rw [if_pos hpk]; exact Rep.sub p h8 hpk
      · rw [if_neg hpk]
        rcases h with h | h | h
        · exact absurd h.symm hq
        · exact absurd h hpk
        · exact Rep.sub p h9 h

/-- The links of the pools of a layout lead to pools of the layout. -/
theorem Rep.closed {s : State} : ∀ {t : PT} {a par prev : Nat}, Rep s t a par prev →
    ∀ x ∈ t.pools, ((s.pl x).sub_pools = 0 ∨ (s.pl x).sub_pools ∈ t.pools) ∧
      ((s.pl x).sub_next = 0 ∨ (s.pl x).sub_next ∈ t.pools)
  | .nil, _, _, _, _, x, hx => by simp [PT.pools] at hx
  | .node q chain cln kids sibs, a, par, prev, hr, x, hx => by
    obtain ⟨_, _, _, _, _, _, _, h8, h9⟩ := hr
    simp only [PT.pools, List.mem_cons, List.mem_append] at hx ⊢
    rcases hx with rfl | hx | hx
    · constructor
      · rcases Rep.zero_or_mem h8 with h | h
        · exact Or.inl h
        · exact Or.inr (Or.inr (Or.inl h))
      · rcases Rep.zero_or_mem h9 with h | h
        · exact Or.inl h
        · exact Or.inr (Or.inr (Or.inr h))
    · have := Rep.closed h8 x hx
      constructor
      · rcases this.1 with h | h
        · exact Or.inl h
        · exact Or.inr (Or.inr (Or.inl h))
      · rcases this.2 with h | h
        · exact Or.inl h
        · exact Or.inr (Or.inr (Or.inl h))
    · have := Rep.closed h9 x hx
      constructor
      · rcases this.1 with h | h
        · exact Or.inl h
        · exact Or.inr (Or.inr (Or.inr h))
      · rcases this.2 with h | h
        · exact Or.inl h
        · exact Or.inr (Or.inr (Or.inr h))

/-- A layout that does not hold the pool `p` is untouched by the turning of the links
to `p`. -/
theorem Rep.frame_relink {s s1 : State} {p a1 : Nat} (hp0 : p ≠ 0) (hcl : s1.cl = s.cl)
    {t : PT} {a par prev : Nat} (h : Rep s t a par prev) (hp : p ∉ t.pools)
    (hpl : ∀ x ∈ t.pools, s1.pl x = relink (s.pl x) p a1)
    (hb : ∀ b ∈ t.blocks, s1.nxt b = s.nxt b) : Rep s1 t a par prev := by
  refine Rep.frame ?_ hb hcl h
  intro x hx
  rw [hpl x hx]
  have hc := Rep.closed h x hx
  refine relink_ne _ _ _ ?_ ?_
  · rcases hc.1 with e | e
    · rw [e]; exact fun e2 => hp0 e2.symm
    · exact fun e2 => hp (e2 ▸ e)
  · rcases hc.2 with e | e
    · rw [e]; exact fun e2 => hp0 e2.symm
    · exact fun e2 => hp (e2 ▸ e)

/-- Replacing the part of a layout that hangs from `p`: when the new part `t1` is laid
out from `a1` on in the state `s1`, the links to `p` of the pools outside the part have
been turned to `a1` and nothing else outside has changed, the whole is laid out again. -/
theorem Rep.surgery {s s1 : State} {p a1 : Nat} {t1 : PT} (hp0 : p ≠ 0) (hcl : s1.cl = s.cl)
    (hloc : Rep s1 t1 a1 (s.pl p).parent (s.pl p).sub_prev) :
    ∀ (t : PT) (a par prev : Nat), Rep s t a par prev → t.pools.Nodup → p ∈ t.pools →
      (∀ x ∈ (t.replace p .nil).pools, s1.pl x = relink (s.pl x) p a1) →
      (∀ b ∈ (t.replace p .nil).blocks, s1.nxt b = s.nxt b) →
      Rep s1 (t.replace p t1) (if a = p then a1 else a) par prev
  | .nil, _, _, _, _, _, h, _, _ => by simp [PT.pools] at h
  | .node q chain cln kids sibs, a, par, prev, hr, hnd, h, hpl, hb => by
    obtain ⟨h1, h2, h3, h4, h5, h6, h7, h8, h9⟩ := hr
    by_cases hq : q = p
    · subst hq
      subst h1
      subst h3
      subst h4
      simp only [PT.replace, if_true]
      exact hloc
    · have hap : a ≠ p := by rw [h1]; exact hq
      simp only [PT.pools, List.mem_cons, List.mem_append] at h
      simp only [PT.pools, List.nodup_cons, List.nodup_append] at hnd
      obtain ⟨_, hk, hs, hdis⟩ := hnd
      simp only [PT.replace, hq, if_false, PT.pools, PT.blocks, List.mem_cons,
        List.mem_append] at hpl hb
      have hplq := hpl q (Or.inl rfl)
      simp only [PT.replace, hq, if_false, hap]
      have hcn : s1.cnxt = s.cnxt := by funext x; simp [State.cnxt, hcl]
      have hfields : (s1.pl q).parent = (s.pl q).parent ∧ (s1.pl q).sub_prev = (s.pl q).sub_prev ∧
          (s1.pl q).first = (s.pl q).first ∧ (s1.pl q).last = (s.pl q).last ∧
          (s1.pl q).cleanups = (s.pl q).cleanups := by
        rw [hplq]; exact ⟨rfl, rfl, rfl, rfl, rfl⟩
      obtain ⟨f1, f2, f3, f4, f5⟩ := hfields
      have hsp : (s1.pl q).sub_pools
          = if (s.pl q).sub_pools = p then a1 else (s.pl q).sub_pools := by rw [hplq]; rfl
      have hsn : (s1.pl q).sub_next
          = if (s.pl q).sub_next = p then a1 else (s.pl q).sub_next := by rw [hplq]; rfl
      refine ⟨h1, h2, by rw [f1]; exact h3, by rw [f2]; exact h4, ?_, by rw [f4]; exact h6, ?_,
        ?_, ?_⟩
      · rw [f3]
        exact Chain.congr (fun x hx => (hb x (Or.inl hx)).symm) h5
      · rw [f5, hcn]; exact h7
      · rw [hsp]
        by_cases hpk : p ∈ kids.pools
        · exact Rep.surgery hp0 hcl hloc kids _ q 0 h8 hk hpk
            (fun x hx => hpl x (Or.inr (Or.inl hx))) (fun b hb2 => hb b (Or.inr (Or.inl hb2)))
        · have hne : (s.pl q).sub_pools ≠ p := by
            rcases Rep.zero_or_mem h8 with e | e
            · rw [e]; exact fun e2 => hp0 e2.symm
            · exact fun e2 => hpk (e2 ▸ e)
          rw [if_neg hne, PT.replace_of_not_mem kids p t1 hpk]
          rw [PT.replace_of_not_mem kids p .nil hpk] at hpl hb
          exact Rep.frame_relink hp0 hcl h8 hpk (fun x hx => hpl x (Or.inr (Or.inl hx)))
            (fun b hb2 => hb b (Or.inr (Or.inl hb2)))
      · rw [hsn]
        by_cases hps : p ∈ sibs.pools
        · exact Rep.surgery hp0 hcl hloc sibs _ par q h9 hs hps
            (fun x hx => hpl x (Or.inr (Or.inr hx))) (fun b hb2 => hb b (Or.inr (Or.inr hb2)))
        · have hne : (s.pl q).sub_next ≠ p := by
            rcases Rep.zero_or_mem h9 with e | e
            · rw [e]; exact fun e2 => hp0 e2.symm
            · exact fun e2 => hps (e2 ▸ e)
          rw [if_neg hne, PT.replace_of_not_mem sibs p t1 hps]
          rw [PT.replace_of_not_mem sibs p .nil hps] at hpl hb
          exact Rep.frame_relink hp0 hcl h9 hps (fun x hx => hpl x (Or.inr (Or.inr hx)))
            (fun b hb2 => hb b (Or.inr (Or.inr hb2)))

theorem PT.pools_split (t : PT) (p : Nat) (hnd : t.pools.Nodup) (hp : p ∈ t.pools) :
    t.pools.Perm ((t.sub p).pools ++ (t.replace p .nil).pools) := by
  have := PT.replace_pools t p (t.sub p) hnd hp
  rwa [PT.replace_sub t p hnd] at this

theorem PT.blocks_split (t : PT) (p : Nat) (hnd : t.pools.Nodup) (hp : p ∈ t.pools) :
    t.blocks.Perm ((t.sub p).blocks ++ (t.replace p .nil).blocks) := by
  have := PT.replace_blocks t p (t.sub p) hnd hp
  rwa [PT.replace_sub t p hnd] at this

theorem PT.sub_subset : ∀ (t : PT) (p x : Nat), x ∈ (t.sub p).pools → x ∈ t.pools
  | .nil, _, _, h => by simp [PT.sub, PT.pools] at h
  | .node q chain cln kids sibs, p, x, h => by
    by_cases hq : q = p
    · simpa [PT.sub, hq] using h
    · simp only [PT.sub, hq, if_false] at h
      simp only [PT.pools, List.mem_cons, List.mem_append]
      by_cases hpk : p ∈ kids.pools
      · rw [if_pos hpk] at h
        exact Or.inr (Or.inl (PT.sub_subset kids p x h))
      · rw [if_neg hpk] at h
        exact Or.inr (Or.inr (PT.sub_subset sibs p x h))

/-- The first pool of a layout is not in the part that hangs from another pool. -/
theorem PT.head_not_mem_sub {s : State} {t : PT} {a par prev p : Nat}
    (h : Rep s t a par prev) (hnd : t.pools.Nodup) (hap : a ≠ p) : a ∉ (t.sub p).pools := by
  cases t with
  | nil => simp [PT.sub, PT.pools]
  | node q chain cln kids sibs =>
    have hq : a = q := h.1
    subst hq
    simp only [PT.pools, List.nodup_cons, List.mem_append, not_or] at hnd
    simp only [PT.sub, hap, if_false]
    by_cases hpk : p ∈ kids.pools
    · rw [if_pos hpk]
      exact fun hm => hnd.1.1 (PT.sub_subset kids p a hm)
    · rw [if_neg hpk]
      exact fun hm => hnd.1.2 (PT.sub_subset sibs p a hm)

/-- What lies outside the part that hangs from a pool `p` of a well-formed state. -/
theorem Heap.outer {c : Cfg} {s : State} {t : PT} {L : List Nat} {r : Nat}
    (h : Heap c s t L r) {p : Nat} (hp : p ∈ t.pools) :
    (∀ b ∈ (t.replace p .nil).blocks, b ∈ t.blocks ∧ b ∉ (t.sub p).blocks ∧ b ∉ L ∧ b < s.brk) ∧
    (∀ x ∈ (t.replace p .nil).pools, x ∈ t.pools ∧ x ∉ (t.sub p).pools) ∧
    (t.replace p .nil).blocks.Nodup ∧ (t.replace p .nil).pools.Nodup ∧
    ((t.sub p).blocks ++ L).Nodup ∧ (t.sub p).pools.Nodup ∧
    (∀ b ∈ (t.sub p).blocks, b ∈ t.blocks) ∧ (∀ x ∈ (t.sub p).pools, x ∈ t.pools) := by
  have hb := PT.blocks_split t p h.nodup_pools hp
  have hq := PT.pools_split t p h.nodup_pools hp
  have hnb : ((t.sub p).blocks ++ (t.replace p .nil).blocks).Nodup :=
    (hb.nodup_iff).mp (List.nodup_append.mp h.nodup_blocks).1
  have hnq : ((t.sub p).pools ++ (t.replace p .nil).pools).Nodup :=
    (hq.nodup_iff).mp h.nodup_pools
  have hbL := (List.nodup_append.mp h.nodup_blocks)
  refine ⟨?_, ?_, (List.nodup_append.mp hnb).2.1, (List.nodup_append.mp hnq).2.1, ?_,
    (List.nodup_append.mp hnq).1, ?_, ?_⟩
  · intro b hbm
    have hbt : b ∈ t.blocks := hb.mem_iff.mpr (List.mem_append_right _ hbm)
    exact ⟨hbt, fun hm => (List.nodup_append.mp hnb).2.2 hm hbm, fun hm => hbL.2.2 hbt hm,
      h.below b (List.mem_append_left _ hbt)⟩
  · intro x hxm
    exact ⟨hq.mem_iff.mpr (List.mem_append_right _ hxm),
      fun hm => (List.nodup_append.mp hnq).2.2 hm hxm⟩
  · refine List.nodup_append.mpr ⟨(List.nodup_append.mp hnb).1, hbL.2.1, ?_⟩
    intro b hb1 hb2
    exact hbL.2.2 (hb.mem_iff.mpr (List.mem_append_left _ hb1)) hb2
  · intro b hbm
    exact hb.mem_iff.mpr (List.mem_append_left _ hbm)
  · intro x hxm
    exact hq.mem_iff.mpr (List.mem_append_left _ hxm)

/-- A well-formed state after the part that hangs from a pool `p` has been replaced. -/
theorem Heap.graft {c : Cfg} {s s1 : State} {t t1 : PT} {L L1 : List Nat} {r p a1 : Nat}
    (h : Heap c s t L r) (hp : p ∈ t.pools) (hcl : s1.cl = s.cl)
    (hloc : Rep s1 t1 a1 (s.pl p).parent (s.pl p).sub_prev)
    (hpl : ∀ x ∈ (t.replace p .nil).pools, s1.pl x = relink (s.pl x) p a1)
    (hnx : ∀ b ∈ (t.replace p .nil).blocks, s1.nxt b = s.nxt b)
    (hfree : Chain s1.nxt s1.block_freelist L1)
    (hndb : (t1.blocks ++ L1).Nodup)
    (hdisb : ∀ b ∈ t1.blocks ++ L1, b ∉ (t.replace p .nil).blocks)
    (hndp : t1.pools.Nodup) (hdisp : ∀ x ∈ t1.pools, x ∉ (t.replace p .nil).pools)
    (hempty : ∀ x ∈ L1, (s1.blk x).first_avail = x + c.BLOCK_HDR_SZ)
    (hbelow : ∀ x ∈ t1.blocks ++ L1, x < s1.brk) (hbrk : s.brk ≤ s1.brk)
    (hhome : ∀ x ∈ t1.pools, (s1.pl x).first + c.BLOCK_HDR_SZ = x)
    (halone : r = p → a1 ≠ 0 → (s1.pl a1).sub_next = 0) :
    Heap c s1 (t.replace p t1) L1 (if r = p then a1 else r) := by
  have hp0 : p ≠ 0 := fun e => Rep.pools_ne_zero h.rep (e ▸ hp)
  obtain ⟨o1, o2, o3, o4, _, _, _, _⟩ := h.outer hp
  have hpb := PT.replace_blocks t p t1 h.nodup_pools hp
  have hpp := PT.replace_pools t p t1 h.nodup_pools hp
  refine
    { rep := Rep.surgery hp0 hcl hloc t r 0 0 h.rep h.nodup_pools hp hpl hnx
      free := hfree
      nodup_blocks := ?_
      nodup_pools := ?_
      empty := hempty
      below := ?_
      home := ?_
      alone := ?_
      brk_pos := Nat.lt_of_lt_of_le h.brk_pos hbrk }
  · have hperm : ((t.replace p t1).blocks ++ L1).Perm
        ((t1.blocks ++ L1) ++ (t.replace p .nil).blocks) := by
      refine (List.Perm.append_right L1 hpb).trans ?_
      rw [List.append_assoc, List.append_assoc]
      exact List.Perm.append_left _ List.perm_append_comm
    refine hperm.nodup_iff.mpr (List.nodup_append.mpr ⟨hndb, o3, ?_⟩)
    intro b hb1 hb2
    exact hdisb b hb1 hb2
  · refine hpp.nodup_iff.mpr (List.nodup_append.mpr ⟨hndp, o4, ?_⟩)
    intro x hx1 hx2
    exact hdisp x hx1 hx2
  · intro x hx
    rcases List.mem_append.mp hx with hx | hx
    · rcases List.mem_append.mp (hpb.mem_iff.mp hx) with hx | hx
      · exact hbelow x (List.mem_append_left _ hx)
      · have := (o1 x hx).2.2.2; omega
    · exact hbelow x (List.mem_append_right _ hx)
  · intro x hx
    rcases List.mem_append.mp (hpp.mem_iff.mp hx) with hx | hx
    · exact hhome x hx
    · rw [hpl x hx]
      exact h.home x (o2 x hx).1
  · by_cases hrp : r = p
    · rw [if_pos hrp]
      exact halone hrp
    · rw [if_neg hrp]
      intro hr0
      have hrt : r ∈ t.pools := Rep.first_mem h.rep hr0
      have hrs : r ∉ (t.sub p).pools := PT.head_not_mem_sub h.rep h.nodup_pools hrp
      have hro : r ∈ (t.replace p .nil).pools := by
        rcases List.mem_append.mp ((PT.pools_split t p h.nodup_pools hp).mem_iff.mp hrt) with
          hm | hm
        · exact absurd hm hrs
        · exact hm
      rw [hpl r hro]
      show (if (s.pl r).sub_next = p then a1 else (s.pl r).sub_next) = 0
      rw [h.alone hr0, if_neg (fun e => hp0 e.symm)]

/-- The block that `new_block(n)` returns for `n > 0` and the state it leaves do not
depend on the fuel, once there is enough of it. -/
theorem new_block_pos_fixed (c : Cfg) (s : State) (n : Nat) (hn : 0 < n) (L : List Nat)
    (hc : Chain s.nxt s.block_freelist L) :
    ∃ b s1, NewBlock c s L (block_size c n) b s1 ∧
      ∀ fuel, L.length < fuel → new_block c fuel s (n : Int) = .ok (b, s1) := by
  have hR := round_min_size_pos c n hn
  have h := fun fuel hf =>
    new_block_scan_eq c (round_min_size c n) s L fuel none s.block_freelist hc hf
  cases hs : scan_ptr s (round_min_size c n) none L with
  | none =>
    have hnone := scan_ptr_none s _ L none hs
    rw [hR] at hnone
    refine ⟨s.brk, fresh_block c s (block_size c n), Or.inr ⟨hnone, rfl, rfl⟩, ?_⟩
    intro fuel hf
    have := h fuel hf
    rw [hs] at this
    rw [new_block, this, hR, malloc_block_eq]
    rfl
  | some r =>
    obtain ⟨lp, b⟩ := r
    obtain ⟨L1, L2, h1, h2, h3, h4⟩ := scan_ptr_some s _ L none lp b hs
    rw [hR] at h2 h3
    refine ⟨b, take_free s (lastptr_after L1) b, Or.inl ⟨L1, L2, h1, h2, h3, rfl⟩, ?_⟩
    intro fuel hf
    have := h fuel hf
    rw [hs] at this
    rw [new_block, this, h4]
    rfl

/-- The slow path of `palloc`, with a result that does not depend on the fuel. -/
theorem palloc_slow_fixed (c : Cfg) (s : State) (p : Nat) (reqsize : Int)
    (L C : List Nat) (hK : 0 < c.CLICK_SZ) (hreq : 0 < reqsize)
    (hfree : Chain s.nxt s.block_freelist L)
    (hempty : ∀ x ∈ L, (s.blk x).first_avail = x + c.BLOCK_HDR_SZ)
    (hLbrk : ∀ x ∈ L, x < s.brk)
    (hchain : Chain s.nxt (s.pl p).first C) (hlast : C.getLast? = some (s.pl p).last)
    (hsep : ∀ x ∈ C, x ∉ L ∧ x < s.brk)
    (hroom : ¬ (s.blk (s.pl p).last).first_avail + click_size c reqsize
      ≤ (s.blk (s.pl p).last).endp) :
    ∃ b s1, NewBlock c s L (block_size c (click_size c reqsize)) b s1 ∧
      Got c s s1 L (block_size c (click_size c reqsize)) b ∧
      (∀ fuel, L.length < fuel → palloc c fuel s p reqsize
        = .ok (b + c.BLOCK_HDR_SZ, link_block s1 p b (click_size c reqsize))) ∧
      b ∉ C ∧
      Chain (link_block s1 p b (click_size c reqsize)).nxt
        ((link_block s1 p b (click_size c reqsize)).pl p).first (C ++ [b]) := by
  obtain ⟨b, s1, hNB, hnb⟩ :=
    new_block_pos_fixed c s (click_size c reqsize) (click_size_pos c reqsize hK) L hfree
  obtain ⟨b2, s2, hnb2, g, hp, hbC, hch, _⟩ :=
    palloc_slow_spec c s p reqsize (L.length + 1) L C hK hreq hfree (by omega) hempty hLbrk
      hchain hlast hsep hroom
  rw [hnb _ (by omega)] at hnb2
  injection hnb2 with hnb2
  injection hnb2 with e1 e2
  subst e1; subst e2
  refine ⟨b, s1, hNB, g, ?_, hbC, hch⟩
  intro fuel hf
  have h1 := palloc_slow c fuel s p reqsize hreq hroom b s1 (hnb fuel hf)
  have h2 := palloc_slow c (L.length + 1) s p reqsize hreq hroom b s1 (hnb _ (by omega))
  rw [h1, ← h2, hp]

theorem Rep.node_of_mem {s : State} {t : PT} {a par prev p : Nat} (h : Rep s t a par prev)
    (hp : p ∈ t.pools) :
    ∃ chain cln kids sibs, t.sub p = .node p chain cln kids sibs ∧
      Rep s (.node p chain cln kids sibs) p (s.pl p).parent (s.pl p).sub_prev := by
  obtain ⟨chain, cln, kids, sibs, e⟩ := PT.sub_node t p hp
  have := Rep.sub p h hp
  rw [e] at this
  exact ⟨chain, cln, kids, sibs, e, this⟩

/-- A state that differs from a well-formed one in no list and no pool record is well
formed, with the same lists. -/
theorem Heap.carry {c : Cfg} {s s1 : State} {t : PT} {L : List Nat} {r : Nat}
    (h : Heap c s t L r) (hpl : s1.pl = s.pl) (hnx : s1.nxt = s.nxt) (hcl : s1.cl = s.cl)
    (hfl : s1.block_freelist = s.block_freelist) (hbrk : s.brk ≤ s1.brk)
    (hempty : ∀ x ∈ L, (s1.blk x).first_avail = (s.blk x).first_avail) : Heap c s1 t L r :=
  { rep := Rep.frame (fun x _ => by rw [hpl]) (fun b _ => by rw [hnx]) hcl h.rep
    free := by rw [hnx, hfl]; exact h.free
    nodup_blocks := h.nodup_blocks
    nodup_pools := h.nodup_pools
    empty := fun x hx => by rw [hempty x hx]; exact h.empty x hx
    below := fun x hx => Nat.lt_of_lt_of_le (h.below x hx) hbrk
    home := fun x hx => by rw [hpl]; exact h.home x hx
    alone := fun hr => by rw [hpl]; exact h.alone hr
    brk_pos := Nat.lt_of_lt_of_le h.brk_pos hbrk }

/-- The fast path of `palloc` on a pool of a well-formed state. -/
theorem Heap.alloc_fast {c : Cfg} {s : State} {t : PT} {L : List Nat} {r p : Nat}
    (h : Heap c s t L r) (hp : p ∈ t.pools) (v : Nat) :
    Heap c (s.set_first_avail (s.pl p).last v) t L r := by
  obtain ⟨chain, cln, kids, sibs, e, hr⟩ := h.rep.node_of_mem hp
  obtain ⟨_, _, _, _, h5, h6, _⟩ := hr
  have hlast : (s.pl p).last ∈ chain := List.mem_of_getLast?_eq_some h6
  have hlt : (s.pl p).last ∈ t.blocks := by
    have := (h.outer hp).2.2.2.2.2.2.1 (s.pl p).last
    rw [e] at this
    exact this (by simp [PT.blocks, hlast])
  refine h.carry rfl (nxt_set_first_avail _ _ _) rfl rfl (le_refl _) ?_
  intro x hx
  have hne : x ≠ (s.pl p).last := fun e2 =>
    (List.nodup_append.mp h.nodup_blocks).2.2 hlt (e2 ▸ hx)
  simp [upd_ne _ _ hne]

/-- The slow path of `palloc` on a pool of a well-formed state: the block that
`new_block` yields is put at the end of the chain of the pool. -/
theorem Heap.alloc_slow {c : Cfg} {s : State} {t : PT} {L : List Nat} {r p : Nat}
    (h : Heap c s t L r) (hp : p ∈ t.pools) (hK : 0 < c.CLICK_SZ) (hB : 0 < c.BLOCK_MINFREE)
    (n : Int) (hn : 0 < n)
    {chain cln : List Nat} {kids sibs : PT} (e : t.sub p = .node p chain cln kids sibs)
    (hroom : ¬ (s.blk (s.pl p).last).first_avail + click_size c n ≤ (s.blk (s.pl p).last).endp) :
    ∃ b s0, NewBlock c s L (block_size c (click_size c n)) b s0 ∧
      Got c s s0 L (block_size c (click_size c n)) b ∧
      (∀ fuel, L.length < fuel → palloc c fuel s p n
        = .ok (b + c.BLOCK_HDR_SZ, link_block s0 p b (click_size c n))) ∧
      Heap c (link_block s0 p b (click_size c n))
        (t.replace p (.node p (chain ++ [b]) cln kids sibs)) (L.erase b) r := by
  have hrs := Rep.sub p h.rep hp
  rw [e] at hrs
  obtain ⟨_, hp0, _, _, h5, h6, h7, h8, h9⟩ := hrs
  obtain ⟨o1, o2, o3, o4, o5, o6, o7, o8⟩ := h.outer hp
  rw [e] at o1 o2 o5 o6 o7 o8
  have hbL := List.nodup_append.mp h.nodup_blocks
  have hLbrk : ∀ x ∈ L, x < s.brk := fun x hx => h.below x (List.mem_append_right _ hx)
  have hsub_lt : ∀ x ∈ (PT.node p chain cln kids sibs).blocks, x ∉ L ∧ x < s.brk := fun x hx =>
    ⟨fun hm => hbL.2.2 (o7 x hx) hm, h.below x (List.mem_append_left _ (o7 x hx))⟩
  have hsep : ∀ x ∈ chain, x ∉ L ∧ x < s.brk := fun x hx =>
    hsub_lt x (by simp [PT.blocks, hx])
  obtain ⟨b, s0, hNB, g, hpa, hbC, hch⟩ :=
    palloc_slow_fixed c s p n L chain hK hn h.free h.empty hLbrk h5 h6 hsep hroom
  have hlastC : (s.pl p).last ∈ chain := List.mem_of_getLast?_eq_some h6
  have hbl : b ≠ (s0.pl p).last := by
    rw [g.pl_eq]; exact fun e2 => hbC (e2 ▸ hlastC)
  obtain ⟨fE, fA, fB, fK, fF⟩ := link_block_facts s0 p b (click_size c n) hbl
  have hNod : L.Nodup := hbL.2.1
  have hbE : b ∉ L.erase b := hNod.not_mem_erase
  have hborigin : b ∈ L ∨ b = s.brk := by
    rcases g.origin with ho | ho
    · exact Or.inl ho.1
    · exact Or.inr ho.1
  have hbrk : s.brk ≤ s0.brk := by
    rcases g.origin with ho | ho <;> omega
  have hbt : b ∉ t.blocks := by
    intro hm
    rcases hborigin with ho | ho
    · exact hbL.2.2 hm ho
    · have := h.below b (List.mem_append_left _ hm); omega
  -- blocks that are neither on the free list, nor new, nor the old tail are untouched
  have hkeep : ∀ x ∈ t.blocks, x ≠ (s.pl p).last →
      (link_block s0 p b (click_size c n)).blk x = s.blk x := by
    intro x hx hxl
    have hxb : x ≠ b := fun e2 => hbt (e2 ▸ hx)
    rw [fB x hxb (by rw [g.pl_eq]; exact hxl)]
    exact g.frame x (fun hm => hbL.2.2 hx hm)
      (by have := h.below x (List.mem_append_left _ hx); omega)
  have hplp : (link_block s0 p b (click_size c n)).pl
      = upd s.pl p { s.pl p with last := b } := by
    rw [link_block_pl, g.pl_eq]
  have hplx : ∀ x, x ≠ p → (link_block s0 p b (click_size c n)).pl x = s.pl x := fun x hx => by
    rw [hplp, upd_ne _ _ hx]
  have hplpp : (link_block s0 p b (click_size c n)).pl p = { s.pl p with last := b } := by
    rw [hplp, upd_same]
  have hcl : (link_block s0 p b (click_size c n)).cl = s.cl := g.cl_eq
  have hcn : (link_block s0 p b (click_size c n)).cnxt = s.cnxt := by
    funext x; simp [State.cnxt, hcl]
  have hnd_sub := o6
  simp only [PT.pools, List.nodup_cons, List.mem_append, not_or] at hnd_sub
  have hnd_blk := o5
  simp only [PT.blocks] at hnd_blk
  have hchain_nd := Chain.nodup h5
  -- the blocks of the descendants and of the later siblings are not on the chain
  have hnotchain : ∀ x ∈ kids.blocks ++ sibs.blocks, x ∉ chain := by
    intro x hx hxc
    have := (List.nodup_append.mp (List.nodup_append.mp hnd_blk).1).2.2
    exact this hxc hx
  have hrest : ∀ (u : PT) (a par prev : Nat), (∀ x ∈ u.pools, x ≠ p) →
      (∀ x ∈ u.blocks, x ∈ t.blocks ∧ x ∉ chain) → Rep s u a par prev →
      Rep (link_block s0 p b (click_size c n)) u a par prev := by
    intro u a par prev hu1 hu2 hu
    refine Rep.frame (fun x hx => hplx x (hu1 x hx)) ?_ hcl hu
    intro x hx
    show ((link_block s0 p b (click_size c n)).blk x).next = (s.blk x).next
    rw [hkeep x (hu2 x hx).1 (fun e2 => (hu2 x hx).2 (e2 ▸ hlastC))]
  have hloc : Rep (link_block s0 p b (click_size c n)) (.node p (chain ++ [b]) cln kids sibs) p
      (s.pl p).parent (s.pl p).sub_prev := by
    refine ⟨rfl, hp0, by rw [hplpp], by rw [hplpp], hch, ?_, ?_, ?_, ?_⟩
    · rw [hplpp]; simp
    · rw [hplpp, hcn]; exact h7
    · rw [hplpp]
      refine hrest kids _ p 0 (fun x hx e2 => hnd_sub.1.1 (e2 ▸ hx)) ?_ h8
      intro x hx
      exact ⟨o7 x (by simp [PT.blocks, hx]), hnotchain x (List.mem_append_left _ hx)⟩
    · rw [hplpp]
      refine hrest sibs _ _ p (fun x hx e2 => hnd_sub.1.2 (e2 ▸ hx)) ?_ h9
      intro x hx
      exact ⟨o7 x (by simp [PT.blocks, hx]), hnotchain x (List.mem_append_right _ hx)⟩
  have hsurg := @Heap.graft c s (link_block s0 p b (click_size c n)) t
    (.node p (chain ++ [b]) cln kids sibs) L (L.erase b) r p p h hp hcl hloc ?_ ?_ ?_ ?_ ?_ ?_ ?_
    ?_ ?_ ?_ ?_ ?_
  · refine ⟨b, s0, hNB, g, hpa, ?_⟩
    have : (if r = p then p else r) = r := by split <;> simp_all
    rw [this] at hsurg
    exact hsurg
  · intro x hx
    rw [relink_self]
    exact hplx x (fun e2 => (o2 x hx).2 (by rw [e2]; simp [PT.pools]))
  · intro x hx
    show ((link_block s0 p b (click_size c n)).blk x).next = (s.blk x).next
    rw [hkeep x (o1 x hx).1 (fun e2 => (o1 x hx).2.1 (by rw [e2]; simp [PT.blocks, hlastC]))]
  · rw [fF]
    refine Chain.congr ?_ g.free
    intro x hx
    have hxL : x ∈ L := List.mem_of_mem_erase hx
    have hxb : x ≠ b := fun e2 => hbE (e2 ▸ hx)
    have hxl : x ≠ (s0.pl p).last := by
      rw [g.pl_eq]; exact fun e2 => (hsep _ hlastC).1 (e2 ▸ hxL)
    show (s0.blk x).next = ((link_block s0 p b (click_size c n)).blk x).next
    rw [fB x hxb hxl]
  · -- no block twice
    have hsl : ((PT.node p chain cln kids sibs).blocks ++ L.erase b).Sublist
        ((PT.node p chain cln kids sibs).blocks ++ L) :=
      List.Sublist.append_left (List.erase_sublist b L) _
    have hnd1 := o5.sublist hsl
    have hperm : ((PT.node p (chain ++ [b]) cln kids sibs).blocks ++ L.erase b).Perm
        (b :: ((PT.node p chain cln kids sibs).blocks ++ L.erase b)) := by
      simp only [PT.blocks, List.append_assoc]
      exact List.perm_middle
    refine hperm.nodup_iff.mpr (List.nodup_cons.mpr ⟨?_, hnd1⟩)
    intro hm
    rcases List.mem_append.mp hm with hm | hm
    · exact hbt (o7 b hm)
    · exact hbE hm
  · intro x hx hxo
    have hx2 : x = b ∨ x ∈ (PT.node p chain cln kids sibs).blocks ∨ x ∈ L := by
      simp only [PT.blocks, List.mem_append, List.mem_singleton] at hx ⊢
      rcases hx with ((hx | hx) | hx | hx) | hx
      · exact Or.inr (Or.inl (Or.inl hx))
      · exact Or.inl hx
      · exact Or.inr (Or.inl (Or.inr (Or.inl hx)))
      · exact Or.inr (Or.inl (Or.inr (Or.inr hx)))
      · exact Or.inr (Or.inr (List.mem_of_mem_erase hx))
    rcases hx2 with hx2 | hx2 | hx2
    · exact hbt (hx2 ▸ (o1 x hxo).1)
    · exact (o1 x hxo).2.1 hx2
    · exact (o1 x hxo).2.2.1 hx2
  · simpa [PT.pools] using o6
  · intro x hx hxo
    exact (o2 x hxo).2 (by simpa [PT.pools] using hx)
  · intro x hx
    have hxL : x ∈ L := List.mem_of_mem_erase hx
    have hxb : x ≠ b := fun e2 => hbE (e2 ▸ hx)
    rw [fA x hxb, g.first_avail_eq x (by have := hLbrk x hxL; omega)]
    exact h.empty x hxL
  · intro x hx
    rw [fK]
    have hx2 : x = b ∨ x ∈ (PT.node p chain cln kids sibs).blocks ∨ x ∈ L := by
      simp only [PT.blocks, List.mem_append, List.mem_singleton] at hx ⊢
      rcases hx with ((hx | hx) | hx | hx) | hx
      · exact Or.inr (Or.inl (Or.inl hx))
      · exact Or.inl hx
      · exact Or.inr (Or.inl (Or.inr (Or.inl hx)))
      · exact Or.inr (Or.inl (Or.inr (Or.inr hx)))
      · exact Or.inr (Or.inr (List.mem_of_mem_erase hx))
    rcases hx2 with hx2 | hx2 | hx2
    · subst hx2
      rcases g.origin with ho | ho
      · have := hLbrk x ho.1
        have h2 := ho.2.1
        omega
      · have h1 := ho.1
        have h2 := ho.2.1
        have h3 : click_size c n ≤ block_size c (click_size c n) :=
          round_up_ge c.BLOCK_MINFREE (click_size c n) hB
        have := click_size_pos c n hK
        omega
    · have := (hsub_lt x hx2).2; omega
    · have := hLbrk x hx2; omega
  · rw [fK]; exact hbrk
  · intro x hx
    have hxt : x ∈ t.pools := o8 x (by simpa [PT.pools] using hx)
    by_cases hxp : x = p
    · subst hxp
      rw [hplpp]
      exact h.home x hxt
    · rw [hplx x hxp]
      exact h.home x hxt
  · intro hrp _
    rw [hplpp]
    show (s.pl p).sub_next = 0
    rw [← hrp]
    exact h.alone (hrp ▸ hp0)

/-- The call `make_sub_pool(p)` on a pool of a well-formed state: the new pool is put at
the head of the sub-pools of `p`, in a block of its own. -/
theorem Heap.make {c : Cfg} {s : State} {t : PT} {L : List Nat} {r p : Nat}
    (h : Heap c s t L r) (hp : p ∈ t.pools) (hB : 1 < c.BLOCK_MINFREE)
    {chain cln : List Nat} {kids sibs : PT} (e : t.sub p = .node p chain cln kids sibs) :
    ∃ b s0, NewBlock c s L c.BLOCK_MINFREE b s0 ∧ Got c s s0 L c.BLOCK_MINFREE b ∧
      (∀ fuel, L.length < fuel →
        make_sub_pool c fuel s p = .ok (b + c.BLOCK_HDR_SZ, link_pool c s0 p b)) ∧
      b + c.BLOCK_HDR_SZ ∉ t.pools ∧ b ∉ t.blocks ∧
      Heap c (link_pool c s0 p b)
        (t.replace p (.node p chain cln (.node (b + c.BLOCK_HDR_SZ) [b] [] .nil kids) sibs))
        (L.erase b) r := by
  have hrs := Rep.sub p h.rep hp
  rw [e] at hrs
  obtain ⟨_, hp0, _, _, h5, h6, h7, h8, h9⟩ := hrs
  obtain ⟨o1, o2, o3, o4, o5, o6, o7, o8⟩ := h.outer hp
  rw [e] at o1 o2 o5 o6 o7 o8
  have hbL := List.nodup_append.mp h.nodup_blocks
  have hLbrk : ∀ x ∈ L, x < s.brk := fun x hx => h.below x (List.mem_append_right _ hx)
  obtain ⟨b, s0, hNB, hnb⟩ := new_block_zero_fixed c hB s L h.free
  have g := hNB.got h.free h.empty hLbrk h.brk_pos
  have hNod : L.Nodup := hbL.2.1
  have hbE : b ∉ L.erase b := hNod.not_mem_erase
  have hbrk : s.brk ≤ s0.brk := by
    rcases g.origin with ho | ho <;> omega
  have hbt : b ∉ t.blocks := by
    intro hm
    rcases g.origin with ho | ho
    · exact hbL.2.2 hm ho.1
    · have := h.below b (List.mem_append_left _ hm); omega
  have hnp : (s0.blk b).first_avail = b + c.BLOCK_HDR_SZ := g.avail_eq
  have hnpt : b + c.BLOCK_HDR_SZ ∉ t.pools := by
    intro hm
    have h1 := h.home _ hm
    have h2 := Rep.first_blocks h.rep _ hm
    have : (s.pl (b + c.BLOCK_HDR_SZ)).first = b := by omega
    rw [this] at h2
    exact hbt h2
  have hnp0 : b + c.BLOCK_HDR_SZ ≠ 0 := by have := g.ne_zero; omega
  have hnd_sub := o6
  simp only [PT.pools, List.nodup_cons, List.mem_append, not_or, List.nodup_append] at hnd_sub
  obtain ⟨⟨hpk, hps⟩, hkn, hsn, hks⟩ := hnd_sub
  -- the head of the sub-pools of p
  have hhead : (s.pl p).sub_pools = 0 ∨ (s.pl p).sub_pools ∈ kids.pools := Rep.zero_or_mem h8
  have hhn : (s0.pl p).sub_pools ≠ (s0.blk b).first_avail := by
    rw [g.pl_eq, hnp]
    rcases hhead with e2 | e2
    · rw [e2]; exact fun e3 => hnp0 e3.symm
    · exact fun e3 => hnpt (o8 _ (by rw [← e3]; simp [PT.pools, e2]))
  have hhq : (s0.pl p).sub_pools ≠ p := by
    rw [g.pl_eq]
    rcases hhead with e2 | e2
    · rw [e2]; exact fun e3 => hp0 e3.symm
    · exact fun e3 => hpk (e3 ▸ e2)
  have hqn : p ≠ (s0.blk b).first_avail := by
    rw [hnp]; exact fun e2 => hnpt (e2 ▸ hp)
  obtain ⟨l1, l2, l3, l4, l5, l6, _, l8, _⟩ := link_pool_spec c s0 p b hp0 hqn hhn hhq
  rw [hnp, g.pl_eq] at l1 l2 l3 l4
  rw [hnp] at l5
  have hcl : (link_pool c s0 p b).cl = s.cl := by rw [l6, g.cl_eq]
  have hcn : (link_pool c s0 p b).cnxt = s.cnxt := by funext x; simp [State.cnxt, hcl]
  have hnx0 : (link_pool c s0 p b).nxt = s0.nxt := by
    funext x
    show ((link_pool c s0 p b).blk x).next = (s0.blk x).next
    rw [l5, upd_apply]
    split
    · rename_i e2; subst e2; rfl
    · rfl
  have hnxt : ∀ x ∈ t.blocks, (link_pool c s0 p b).nxt x = s.nxt x := by
    intro x hx
    rw [hnx0]
    show (s0.blk x).next = (s.blk x).next
    rw [g.frame x (fun hm => hbL.2.2 hx hm)
      (by have := h.below x (List.mem_append_left _ hx); omega)]
  have hplx : ∀ x ∈ t.pools, x ≠ p → x ≠ (s.pl p).sub_pools →
      (link_pool c s0 p b).pl x = s.pl x := by
    intro x hx hxp hxh
    exact l4 x (fun e2 => hnpt (e2 ▸ hx)) hxp (Or.inl hxh)
  have hrest : ∀ (u : PT) (a par prev : Nat), (∀ x ∈ u.pools, x ∈ t.pools ∧ x ≠ p ∧
      x ≠ (s.pl p).sub_pools) → (∀ x ∈ u.blocks, x ∈ t.blocks) → Rep s u a par prev →
      Rep (link_pool c s0 p b) u a par prev := by
    intro u a par prev hu1 hu2 hu
    exact Rep.frame (fun x hx => hplx x (hu1 x hx).1 (hu1 x hx).2.1 (hu1 x hx).2.2)
      (fun x hx => hnxt x (hu2 x hx)) hcl hu
  have hkids : Rep (link_pool c s0 p b) kids (s.pl p).sub_pools p (b + c.BLOCK_HDR_SZ) := by
    refine Rep.reprev ?_ ?_ hkn ?_ hcl h8
    · intro k ch2 cl2 k2 s2 ek
      have hk : (s.pl p).sub_pools = k := by rw [ek] at h8; exact h8.1
      have hk0 : k ≠ 0 := by rw [ek] at h8; exact h8.2.1
      rw [← hk]
      exact l3 (by rw [hk]; exact hk0)
    · intro x hx hxh
      exact hplx x (o8 x (by simp [PT.pools, hx])) (fun e2 => hpk (e2 ▸ hx)) hxh
    · intro x hx
      exact hnxt x (o7 x (by simp [PT.blocks, hx]))
  have hloc : Rep (link_pool c s0 p b)
      (.node p chain cln (.node (b + c.BLOCK_HDR_SZ) [b] [] .nil kids) sibs) p
      (s.pl p).parent (s.pl p).sub_prev := by
    refine ⟨rfl, hp0, by rw [l2], by rw [l2], ?_, by rw [l2]; exact h6, ?_, ?_, ?_⟩
    · rw [l2]
      exact Chain.congr (fun x hx => (hnxt x (o7 x (by simp [PT.blocks, hx]))).symm) h5
    · rw [l2, hcn]; exact h7
    · rw [l2]
      refine ⟨rfl, hnp0, by rw [l1], by rw [l1], ?_, by rw [l1]; rfl, ?_, ?_, ?_⟩
      · rw [l1]
        refine ⟨rfl, g.ne_zero, ?_⟩
        rw [hnx0]
        exact g.next_eq
      · rw [l1]; rfl
      · rw [l1]; rfl
      · rw [l1]; exact hkids
    · rw [l2]
      refine hrest sibs _ _ p ?_ ?_ h9
      · intro x hx
        refine ⟨o8 x (by simp [PT.pools, hx]), fun e2 => hps (e2 ▸ hx), ?_⟩
        rcases hhead with e2 | e2
        · rw [e2]; exact fun e3 => Rep.pools_ne_zero h9 (e3 ▸ hx)
        · exact fun e3 => hks e2 (e3 ▸ hx)
      · intro x hx
        exact o7 x (by simp [PT.blocks, hx])
  have hsurg := @Heap.graft c s (link_pool c s0 p b) t
    (.node p chain cln (.node (b + c.BLOCK_HDR_SZ) [b] [] .nil kids) sibs) L (L.erase b) r p p
    h hp hcl hloc ?_ ?_ ?_ ?_ ?_ ?_ ?_ ?_ ?_ ?_ ?_ ?_
  · refine ⟨b, s0, hNB, g, ?_, hnpt, hbt, ?_⟩
    · intro fuel hf
      have := make_sub_pool_eq c fuel s p b s0 (hnb fuel hf)
      rw [hnp] at this
      exact this
    · have : (if r = p then p else r) = r := by split <;> simp_all
      rw [this] at hsurg
      exact hsurg
  · intro x hx
    rw [relink_self]
    refine hplx x (o2 x hx).1 (fun e2 => (o2 x hx).2 (by rw [e2]; simp [PT.pools])) ?_
    rcases hhead with e2 | e2
    · rw [e2]; exact fun e3 => Rep.pools_ne_zero h.rep (e3 ▸ (o2 x hx).1)
    · exact fun e3 => (o2 x hx).2 (by rw [e3]; simp [PT.pools, e2])
  · intro x hx
    exact hnxt x (o1 x hx).1
  · rw [l8, hnx0]
    exact g.free
  · have hsl : ((PT.node p chain cln kids sibs).blocks ++ L.erase b).Sublist
        ((PT.node p chain cln kids sibs).blocks ++ L) :=
      List.Sublist.append_left (List.erase_sublist b L) _
    have hnd1 := o5.sublist hsl
    have hperm : ((PT.node p chain cln (.node (b + c.BLOCK_HDR_SZ) [b] [] .nil kids)
        sibs).blocks ++ L.erase b).Perm
        (b :: ((PT.node p chain cln kids sibs).blocks ++ L.erase b)) := by
      simp only [PT.blocks, List.append_assoc, List.nil_append, List.singleton_append]
      exact List.perm_middle
    refine hperm.nodup_iff.mpr (List.nodup_cons.mpr ⟨?_, hnd1⟩)
    intro hm
    rcases List.mem_append.mp hm with hm | hm
    · exact hbt (o7 b hm)
    · exact hbE hm
  · intro x hx hxo
    have hx2 : x = b ∨ x ∈ (PT.node p chain cln kids sibs).blocks ∨ x ∈ L := by
      simp only [PT.blocks, List.mem_append, List.mem_singleton, List.nil_append,
        List.not_mem_nil, false_or] at hx ⊢
      rcases hx with (hx | (hx | hx) | hx) | hx
      · exact Or.inr (Or.inl (Or.inl hx))
      · exact Or.inl hx
      · exact Or.inr (Or.inl (Or.inr (Or.inl hx)))
      · exact Or.inr (Or.inl (Or.inr (Or.inr hx)))
      · exact Or.inr (Or.inr (List.mem_of_mem_erase hx))
    rcases hx2 with hx2 | hx2 | hx2
    · exact hbt (hx2 ▸ (o1 x hxo).1)
    · exact (o1 x hxo).2.1 hx2
    · exact (o1 x hxo).2.2.1 hx2
  · have hperm : (PT.node p chain cln (.node (b + c.BLOCK_HDR_SZ) [b] [] .nil kids) sibs).pools.Perm
        ((b + c.BLOCK_HDR_SZ) :: (PT.node p chain cln kids sibs).pools) := by
      simp only [PT.pools, List.nil_append, List.cons_append]
      exact List.Perm.swap _ _ _
    refine hperm.nodup_iff.mpr (List.nodup_cons.mpr ⟨fun hm => hnpt (o8 _ hm), o6⟩)
  · intro x hx hxo
    simp only [PT.pools, List.nil_append, List.cons_append, List.mem_cons, List.mem_append] at hx
    rcases hx with hx | hx | hx | hx
    · exact (o2 x hxo).2 (by rw [hx]; simp [PT.pools])
    · exact hnpt (hx ▸ (o2 x hxo).1)
    · exact (o2 x hxo).2 (by simp [PT.pools, hx])
    · exact (o2 x hxo).2 (by simp [PT.pools, hx])
  · intro x hx
    have hxL : x ∈ L := List.mem_of_mem_erase hx
    have hxb : x ≠ b := fun e2 => hbE (e2 ▸ hx)
    rw [l5, upd_ne _ _ hxb, g.first_avail_eq x (by have := hLbrk x hxL; omega)]
    exact h.empty x hxL
  · intro x hx
    have hk : (link_pool c s0 p b).brk = s0.brk := (link_pool_geom c s0 p b).2.1
    rw [hk]
    have hx2 : x = b ∨ x ∈ (PT.node p chain cln kids sibs).blocks ∨ x ∈ L := by
      simp only [PT.blocks, List.mem_append, List.mem_singleton, List.nil_append,
        List.not_mem_nil, false_or] at hx ⊢
      rcases hx with (hx | (hx | hx) | hx) | hx
      · exact Or.inr (Or.inl (Or.inl hx))
      · exact Or.inl hx
      · exact Or.inr (Or.inl (Or.inr (Or.inl hx)))
      · exact Or.inr (Or.inl (Or.inr (Or.inr hx)))
      · exact Or.inr (Or.inr (List.mem_of_mem_erase hx))
    rcases hx2 with hx2 | hx2 | hx2
    · subst hx2
      rcases g.origin with ho | ho
      · have := hLbrk x ho.1
        have h2 := ho.2.1
        omega
      · have h1 := ho.1
        have h2 := ho.2.1
        omega
    · have := h.below x (List.mem_append_left _ (o7 x hx2)); omega
    · have := hLbrk x hx2; omega
  · rw [(link_pool_geom c s0 p b).2.1]; exact hbrk
  · intro x hx
    simp only [PT.pools, List.nil_append, List.cons_append, List.mem_cons, List.mem_append] at hx
    have hcase : x = b + c.BLOCK_HDR_SZ ∨ x ∈ (PT.node p chain cln kids sibs).pools := by
      rcases hx with hx | hx | hx | hx
      · exact Or.inr (by rw [hx]; simp [PT.pools])
      · exact Or.inl hx
      · exact Or.inr (by simp [PT.pools, hx])
      · exact Or.inr (by simp [PT.pools, hx])
    rcases hcase with hx2 | hx2
    · rw [hx2, l1]
    · have hxt := o8 x hx2
      by_cases hxp : x = p
      · rw [hxp, l2]; exact h.home p hp
      · by_cases hxh : x = (s.pl p).sub_pools
        · have hh0 : (s.pl p).sub_pools ≠ 0 := by
            rw [← hxh]; exact fun e2 => Rep.pools_ne_zero h.rep (e2 ▸ hxt)
          rw [hxh, l3 hh0]
          exact h.home _ (hxh ▸ hxt)
        · rw [hplx x hxt hxp hxh]
          exact h.home x hxt
  · intro hrp _
    rw [l2]
    show (s.pl p).sub_next = 0
    rw [← hrp]
    exact h.alone (hrp ▸ hp0)

theorem root_unchanged (r p : Nat) : (if r = p then p else r) = r := by
  split
  · rename_i h; exact h.symm
  · rfl

/-- A pool of a well-formed state owns its chain and its descendants. -/
theorem Heap.owns {c : Cfg} {s : State} {t : PT} {L : List Nat} {r p : Nat}
    (h : Heap c s t L r) (hp : p ∈ t.pools)
    {chain cln : List Nat} {kids sibs : PT} (e : t.sub p = .node p chain cln kids sibs) :
    Owns s p chain cln kids L := by
  have hrs := Rep.sub p h.rep hp
  rw [e] at hrs
  obtain ⟨_, hp0, _, _, h5, h6, h7, h8, h9⟩ := hrs
  obtain ⟨o1, o2, o3, o4, o5, o6, o7, o8⟩ := h.outer hp
  rw [e] at o5 o6
  refine ⟨hp0, h5, h6, h7, h8, h.free, ?_, ?_⟩
  · simp only [PT.blocks, List.append_assoc] at o5
    have hsl : (chain ++ (kids.blocks ++ L)).Sublist (chain ++ (kids.blocks ++ (sibs.blocks ++ L))) :=
      List.Sublist.append_left (List.Sublist.append_left (List.sublist_append_right _ _) _) _
    exact o5.sublist hsl
  · simp only [PT.pools] at o6
    have hsl : (p :: kids.pools).Sublist (p :: (kids.pools ++ sibs.pools)) :=
      List.Sublist.cons₂ p (List.sublist_append_left _ _)
    exact o6.sublist hsl

/-- The call `clear_pool(p)` on a pool of a well-formed state: the pool keeps its first
block and loses its sub-pools; the other blocks go to the free list. -/
theorem Heap.clear {c : Cfg} {s : State} {t : PT} {L : List Nat} {r p : Nat}
    (h : Heap c s t L r) (hp : p ∈ t.pools)
    {chain cln : List Nat} {kids sibs : PT} (e : t.sub p = .node p chain cln kids sibs) :
    ∃ N s1, (∀ fuel, N ≤ fuel → clear_pool c fuel s p = .ok s1) ∧
      Cleared c s s1 p chain cln kids L ∧
      Heap c s1 (t.replace p (.node p [(s.pl p).first] [] .nil sibs))
        (chain.tail ++ kids.freed L) r := by
  have ho := h.owns hp e
  obtain ⟨N, s1, hrun, hC⟩ := clear_pool_spec c s p chain cln kids L ho
  have hrs := Rep.sub p h.rep hp
  rw [e] at hrs
  obtain ⟨_, hp0, _, _, h5, h6, h7, h8, h9⟩ := hrs
  obtain ⟨o1, o2, o3, o4, o5, o6, o7, o8⟩ := h.outer hp
  rw [e] at o1 o2 o5 o6 o7 o8
  have hne : chain ≠ [] := by
    intro e2; rw [e2] at h6; simp at h6
  obtain ⟨hct, hf0, hctl⟩ := chain_head_tail h5 hne
  have hnd_sub := o6
  simp only [PT.pools, List.nodup_cons, List.mem_append, not_or, List.nodup_append] at hnd_sub
  obtain ⟨⟨hpk, hps⟩, hkn, hsn, hks⟩ := hnd_sub
  have hnd_blk := o5
  simp only [PT.blocks, List.append_assoc] at hnd_blk
  have hcl : s1.cl = s.cl := hC.kept.1
  have hbrk : s1.brk = s.brk := hC.kept.2.2.2.1
  have hcn : s1.cnxt = s.cnxt := by funext x; simp [State.cnxt, hcl]
  have hfreed := PT.freed_perm kids L
  -- the blocks of the later siblings are neither on the chain nor below p
  have hsibs_blk : ∀ x ∈ sibs.blocks, x ∉ chain ++ kids.blocks := by
    intro x hx hm
    have h1 := List.nodup_append.mp hnd_blk
    rcases List.mem_append.mp hm with hm | hm
    · exact h1.2.2 hm (by simp [hx])
    · have h2 := List.nodup_append.mp h1.2.1
      exact h2.2.2 hm (by simp [hx])
  have hloc : Rep s1 (.node p [(s.pl p).first] [] .nil sibs) p (s.pl p).parent
      (s.pl p).sub_prev := by
    refine ⟨rfl, hp0, by rw [hC.p_eq], by rw [hC.p_eq], ?_, by rw [hC.p_eq]; rfl, ?_, ?_, ?_⟩
    · rw [hC.p_eq]
      refine ⟨rfl, hf0, ?_⟩
      show (s1.blk (s.pl p).first).next = 0
      rw [hC.first_blk]
    · rw [hC.p_eq]; rfl
    · rw [hC.p_eq]; rfl
    · rw [hC.p_eq]
      refine Rep.frame ?_ ?_ hcl h9
      · intro x hx
        exact hC.pl_frame x (fun hm => hks hm hx) (fun e2 => hps (e2 ▸ hx))
      · intro x hx
        show (s1.blk x).next = (s.blk x).next
        rw [hC.blk_frame x (hsibs_blk x hx)]
  have hsurg := @Heap.graft c s s1 t (.node p [(s.pl p).first] [] .nil sibs) L
    (chain.tail ++ kids.freed L) r p p h hp hcl hloc ?_ ?_ hC.free ?_ ?_ ?_ ?_ ?_ ?_ ?_ ?_ ?_
  · refine ⟨N, s1, hrun, hC, ?_⟩
    rw [root_unchanged] at hsurg
    exact hsurg
  · intro x hx
    rw [relink_self]
    exact hC.pl_frame x (fun hm => (o2 x hx).2 (by simp [PT.pools, hm]))
      (fun e2 => (o2 x hx).2 (by rw [e2]; simp [PT.pools]))
  · intro x hx
    show (s1.blk x).next = (s.blk x).next
    rw [hC.blk_frame x (fun hm => (o1 x hx).2.1 (by
      simp only [PT.blocks, List.mem_append] at hm ⊢
      rcases hm with hm | hm
      · exact Or.inl hm
      · exact Or.inr (Or.inl hm)))]
  · -- no block twice
    have hperm : ((PT.node p [(s.pl p).first] [] .nil sibs).blocks
        ++ (chain.tail ++ kids.freed L)).Perm (chain ++ (kids.blocks ++ (sibs.blocks ++ L))) := by
      simp only [PT.blocks, List.nil_append, List.singleton_append, List.cons_append]
      rw [hct]
      simp only [List.tail_cons, List.cons_append]
      refine List.Perm.cons _ ?_
      have h1 : (sibs.blocks ++ (chain.tail ++ kids.freed L)).Perm
          (sibs.blocks ++ (chain.tail ++ (kids.blocks ++ L))) :=
        List.Perm.append_left _ (List.Perm.append_left _ hfreed)
      refine h1.trans ?_
      refine (List.perm_append_comm_assoc _ _ _).trans (List.Perm.append_left _ ?_)
      exact List.perm_append_comm_assoc _ _ _
    exact hperm.nodup_iff.mpr hnd_blk
  · intro x hx hxo
    have hx2 : x ∈ (PT.node p chain cln kids sibs).blocks ∨ x ∈ L := by
      simp only [PT.blocks, List.mem_append, List.mem_singleton, List.nil_append,
        List.not_mem_nil, false_or] at hx ⊢
      rcases hx with (hx | hx) | hx | hx
      · left; left; rw [hx, hct]; simp
      · left; right; right; exact hx
      · left; left; exact List.mem_of_mem_tail hx
      · rcases List.mem_append.mp (hfreed.mem_iff.mp hx) with hx | hx
        · left; right; left; exact hx
        · right; exact hx
    rcases hx2 with hx2 | hx2
    · exact (o1 x hxo).2.1 hx2
    · exact (o1 x hxo).2.2.1 hx2
  · simp only [PT.pools, List.nil_append]
    exact List.nodup_cons.mpr ⟨hps, hsn⟩
  · intro x hx hxo
    simp only [PT.pools, List.nil_append, List.mem_cons] at hx
    rcases hx with hx | hx
    · exact (o2 x hxo).2 (by rw [hx]; simp [PT.pools])
    · exact (o2 x hxo).2 (by simp [PT.pools, hx])
  · intro x hx
    rcases List.mem_append.mp hx with hx | hx
    · exact (hC.reset x (List.mem_append_left _ hx)).1
    · rcases List.mem_append.mp (hfreed.mem_iff.mp hx) with hx | hx
      · exact (hC.reset x (List.mem_append_right _ hx)).1
      · have hn : x ∉ chain ++ kids.blocks := by
          intro hm
          have hxt : x ∈ t.blocks := o7 x (by
            simp only [PT.blocks, List.mem_append] at hm ⊢
            rcases hm with hm | hm
            · exact Or.inl hm
            · exact Or.inr (Or.inl hm))
          exact (List.nodup_append.mp h.nodup_blocks).2.2 hxt hx
        rw [hC.blk_frame x hn]
        exact h.empty x hx
  · intro x hx
    rw [hbrk]
    have hx2 : x ∈ (PT.node p chain cln kids sibs).blocks ∨ x ∈ L := by
      simp only [PT.blocks, List.mem_append, List.mem_singleton, List.nil_append,
        List.not_mem_nil, false_or] at hx ⊢
      rcases hx with (hx | hx) | hx | hx
      · left; left; rw [hx, hct]; simp
      · left; right; right; exact hx
      · left; left; exact List.mem_of_mem_tail hx
      · rcases List.mem_append.mp (hfreed.mem_iff.mp hx) with hx | hx
        · left; right; left; exact hx
        · right; exact hx
    rcases hx2 with hx2 | hx2
    · exact h.below x (List.mem_append_left _ (o7 x hx2))
    · exact h.below x (List.mem_append_right _ hx2)
  · rw [hbrk]
  · intro x hx
    simp only [PT.pools, List.nil_append, List.mem_cons] at hx
    rcases hx with hx | hx
    · rw [hx, hC.p_eq]
      exact h.home p hp
    · rw [hC.pl_frame x (fun hm => hks hm hx) (fun e2 => hps (e2 ▸ hx))]
      exact h.home x (o8 x (by simp [PT.pools, hx]))
  · intro hrp _
    rw [hC.p_eq]
    show (s.pl p).sub_next = 0
    rw [← hrp]
    exact h.alone (hrp ▸ hp0)

/-- The pool records after `destroy_pool` has unlinked `p` from its parent and from its
neighbours, these being three different pools, none of them `p`. -/
theorem unlink_pool_spec (s : State) (p : Nat) (hpar0 : (s.pl p).parent ≠ 0)
    (h1 : p ≠ (s.pl p).parent) (h2 : p ≠ (s.pl p).sub_prev) (h3 : p ≠ (s.pl p).sub_next)
    (h4 : (s.pl p).sub_prev ≠ (s.pl p).parent) (h5 : (s.pl p).sub_next ≠ (s.pl p).parent)
    (h6 : (s.pl p).sub_next ≠ 0 → (s.pl p).sub_next ≠ (s.pl p).sub_prev) :
    ∃ P, unlink_pool s p = { s with pl := P } ∧ P p = s.pl p ∧
      (P (s.pl p).parent = if (s.pl (s.pl p).parent).sub_pools = p
        then { s.pl (s.pl p).parent with sub_pools := (s.pl p).sub_next }
        else s.pl (s.pl p).parent) ∧
      ((s.pl p).sub_prev ≠ 0 → P (s.pl p).sub_prev
        = { s.pl (s.pl p).sub_prev with sub_next := (s.pl p).sub_next }) ∧
      ((s.pl p).sub_next ≠ 0 → P (s.pl p).sub_next
        = { s.pl (s.pl p).sub_next with sub_prev := (s.pl p).sub_prev }) ∧
      (∀ x, x ≠ (s.pl p).parent → ((s.pl p).sub_prev ≠ 0 → x ≠ (s.pl p).sub_prev) →
        ((s.pl p).sub_next ≠ 0 → x ≠ (s.pl p).sub_next) → P x = s.pl x) := by
  have h4s := Ne.symm h4
  have h5s := Ne.symm h5
  refine ⟨(unlink_pool s p).pl, ?_, ?_, ?_, ?_, ?_, ?_⟩
  · by_cases hc1 : (s.pl (s.pl p).parent).sub_pools = p <;>
    by_cases hc2 : (s.pl p).sub_prev = 0 <;>
    by_cases hc3 : (s.pl p).sub_next = 0 <;>
    simp [unlink_pool, hpar0, hc1, hc2, hc3, upd_ne _ _ h1, upd_ne _ _ h2, upd_ne _ _ h3]
  · by_cases hc1 : (s.pl (s.pl p).parent).sub_pools = p <;>
    by_cases hc2 : (s.pl p).sub_prev = 0 <;>
    by_cases hc3 : (s.pl p).sub_next = 0 <;>
    simp [unlink_pool, hpar0, hc1, hc2, hc3, upd_ne _ _ h1, upd_ne _ _ h2, upd_ne _ _ h3]
  · by_cases hc1 : (s.pl (s.pl p).parent).sub_pools = p <;>
    by_cases hc2 : (s.pl p).sub_prev = 0 <;>
    by_cases hc3 : (s.pl p).sub_next = 0 <;>
    simp [unlink_pool, hpar0, hc1, hc2, hc3, upd_ne _ _ h1, upd_ne _ _ h2, upd_ne _ _ h3,
      upd_ne _ _ h4s, upd_ne _ _ h5s]
  · intro hc2
    have hc2' : ¬ (s.pl p).sub_prev = 0 := hc2
    by_cases hc1 : (s.pl (s.pl p).parent).sub_pools = p <;>
    by_cases hc3 : (s.pl p).sub_next = 0
    · simp [unlink_pool, hpar0, hc1, hc2', hc3, upd_ne _ _ h1, upd_ne _ _ h2, upd_ne _ _ h3,
        upd_ne _ _ h4]
    · have h6b := Ne.symm (h6 hc3)
      simp [unlink_pool, hpar0, hc1, hc2', hc3, upd_ne _ _ h1, upd_ne _ _ h2, upd_ne _ _ h3,
        upd_ne _ _ h4, upd_ne _ _ h6b]
    · simp [unlink_pool, hpar0, hc1, hc2', hc3, upd_ne _ _ h1, upd_ne _ _ h2, upd_ne _ _ h3,
        upd_ne _ _ h4]
    · have h6b := Ne.symm (h6 hc3)
      simp [unlink_pool, hpar0, hc1, hc2', hc3, upd_ne _ _ h1, upd_ne _ _ h2, upd_ne _ _ h3,
        upd_ne _ _ h4, upd_ne _ _ h6b]
  · intro hc3
    have hc3' : ¬ (s.pl p).sub_next = 0 := hc3
    have h6b := h6 hc3
    by_cases hc1 : (s.pl (s.pl p).parent).sub_pools = p <;>
    by_cases hc2 : (s.pl p).sub_prev = 0 <;>
    simp [unlink_pool, hpar0, hc1, hc2, hc3', upd_ne _ _ h1, upd_ne _ _ h2, upd_ne _ _ h3,
      upd_ne _ _ h5, upd_ne _ _ h6b]
  · intro y y1 y2 y3
    by_cases hc1 : (s.pl (s.pl p).parent).sub_pools = p <;>
    by_cases hc2 : (s.pl p).sub_prev = 0 <;>
    by_cases hc3 : (s.pl p).sub_next = 0
    · simp [unlink_pool, hpar0, hc1, hc2, hc3, upd_ne _ _ h1, upd_ne _ _ y1]
    · simp [unlink_pool, hpar0, hc1, hc2, hc3, upd_ne _ _ h1, upd_ne _ _ h2, upd_ne _ _ h3,
        upd_ne _ _ y1, upd_ne _ _ (y3 hc3)]
    · simp [unlink_pool, hpar0, hc1, hc2, hc3, upd_ne _ _ h1, upd_ne _ _ h2, upd_ne _ _ h3,
        upd_ne _ _ y1, upd_ne _ _ (y2 hc2)]
    · simp [unlink_pool, hpar0, hc1, hc2, hc3, upd_ne _ _ h1, upd_ne _ _ h2, upd_ne _ _ h3,
        upd_ne _ _ y1, upd_ne _ _ (y2 hc2), upd_ne _ _ (y3 hc3)]
    · simp [unlink_pool, hpar0, hc1, hc2, hc3, upd_ne _ _ h1]
    · simp [unlink_pool, hpar0, hc1, hc2, hc3, upd_ne _ _ h1, upd_ne _ _ h2, upd_ne _ _ h3,
        upd_ne _ _ (y3 hc3)]
    · simp [unlink_pool, hpar0, hc1, hc2, hc3, upd_ne _ _ h1, upd_ne _ _ h2, upd_ne _ _ h3,
        upd_ne _ _ (y2 hc2)]
    · simp [unlink_pool, hpar0, hc1, hc2, hc3, upd_ne _ _ h1, upd_ne _ _ h2, upd_ne _ _ h3,
        upd_ne _ _ (y2 hc2), upd_ne _ _ (y3 hc3)]

theorem Rep.eq_nil {s : State} {t : PT} {par prev : Nat} (h : Rep s t 0 par prev) : t = .nil := by
  cases t with
  | nil => rfl
  | node q chain cln kids sibs =>
    obtain ⟨h1, h2, _⟩ := h
    exact absurd h1.symm h2

/-- A pool of a layout whose `sub_pools` or `sub_next` is `p` is the parent of `p`, `p`
being the first of its sub-pools, or the sibling before `p`. -/
theorem Rep.pointer {s : State} {t : PT} {a par prev x p : Nat} (h : Rep s t a par prev)
    (hx : x ∈ t.pools) (hp0 : p ≠ 0) :
    ((s.pl x).sub_pools = p → (s.pl p).parent = x ∧ (s.pl p).sub_prev = 0) ∧
    ((s.pl x).sub_next = p → (s.pl p).sub_prev = x) := by
  obtain ⟨chain, cln, kids, sibs, _, hr⟩ := h.node_of_mem hx
  obtain ⟨_, _, _, _, _, _, _, h8, h9⟩ := hr
  constructor
  · intro e
    rw [e] at h8
    cases kids with
    | nil => exact absurd h8 hp0
    | node k c1 c2 k1 k2 =>
      obtain ⟨e1, _, e3, e4, _⟩ := h8
      subst e1
      exact ⟨e3, e4⟩
  · intro e
    rw [e] at h9
    cases sibs with
    | nil => exact absurd h9 hp0
    | node k c1 c2 k1 k2 =>
      obtain ⟨e1, _, _, e4, _⟩ := h9
      subst e1
      exact e4

/-- Where a pool `p` of a list of siblings hangs: its parent, and the sibling before it
or, when it is the first sub-pool, the `sub_pools` of its parent. -/
theorem Rep.locate {s : State} {p : Nat} : ∀ {t : PT} {a par0 prev0 : Nat},
    Rep s t a par0 prev0 → t.pools.Nodup → par0 ≠ 0 → par0 ∉ t.pools →
    (prev0 = 0 → (s.pl par0).sub_pools = a) →
    (prev0 ≠ 0 → (s.pl par0).sub_pools ∉ t.pools ∧ (s.pl prev0).sub_next = a ∧
      prev0 ≠ par0 ∧ prev0 ∉ t.pools) →
    p ∈ t.pools →
    (s.pl p).parent ≠ 0 ∧ (s.pl p).parent ∉ (t.sub p).pools ∧
    ((s.pl p).parent = par0 ∨ (s.pl p).parent ∈ t.pools) ∧
    ((s.pl p).sub_prev = 0 → (s.pl (s.pl p).parent).sub_pools = p) ∧
    ((s.pl p).sub_prev ≠ 0 → (s.pl (s.pl p).parent).sub_pools ≠ p ∧
      (s.pl (s.pl p).sub_prev).sub_next = p ∧ (s.pl p).sub_prev ≠ (s.pl p).parent ∧
      (s.pl p).sub_prev ∉ (t.sub p).pools ∧
      ((s.pl p).sub_prev = prev0 ∨ (s.pl p).sub_prev ∈ t.pools))
  | .nil, _, _, _, _, _, _, _, _, _, hp => by simp [PT.pools] at hp
  | .node q chain cln kids sibs, a, par0, prev0, hr, hnd, hpar0, hparn, hz, hnz, hp => by
    obtain ⟨h1, h2, h3, h4, h5, h6, h7, h8, h9⟩ := hr
    subst h1
    have hnd2 := hnd
    simp only [PT.pools, List.nodup_cons, List.mem_append, not_or, List.nodup_append] at hnd2
    obtain ⟨⟨hqk, hqs⟩, hkn, hsn, hks⟩ := hnd2
    by_cases hq : a = p
    · subst hq
      have hsub : (PT.node a chain cln kids sibs).sub a = .node a chain cln kids sibs := by
        simp [PT.sub]
      rw [hsub, h3, h4]
      refine ⟨hpar0, hparn, Or.inl rfl, hz, ?_⟩
      intro hne
      obtain ⟨n1, n2, n3, n4⟩ := hnz hne
      exact ⟨fun e => n1 (by rw [e]; simp [PT.pools]), n2, n3, n4, Or.inl rfl⟩
    · simp only [PT.pools, List.mem_cons, List.mem_append] at hp hparn
      have hparn2 : par0 ∉ kids.pools ∧ par0 ∉ sibs.pools := by
        constructor
        · exact fun hm => hparn (Or.inr (Or.inl hm))
        · exact fun hm => hparn (Or.inr (Or.inr hm))
      by_cases hpk : p ∈ kids.pools
      · have hsub : (PT.node a chain cln kids sibs).sub p = kids.sub p := by
          simp [PT.sub, hq, hpk]
        rw [hsub]
        obtain ⟨r1, r2, r3, r4, r5⟩ := Rep.locate h8 hkn h2 hqk (fun _ => rfl)
          (fun h0 => absurd rfl h0) hpk
        refine ⟨r1, r2, Or.inr ?_, r4, ?_⟩
        · simp only [PT.pools, List.mem_cons, List.mem_append]
          rcases r3 with e | e
          · exact Or.inl e
          · exact Or.inr (Or.inl e)
        · intro hne
          obtain ⟨n1, n2, n3, n4, n5⟩ := r5 hne
          refine ⟨n1, n2, n3, n4, Or.inr ?_⟩
          simp only [PT.pools, List.mem_cons, List.mem_append]
          rcases n5 with e | e
          · exact absurd e hne
          · exact Or.inr (Or.inl e)
      · have hps : p ∈ sibs.pools := by
          rcases hp with e | e | e
          · exact absurd e.symm hq
          · exact absurd e hpk
          · exact e
        have hsub : (PT.node a chain cln kids sibs).sub p = sibs.sub p := by
          simp [PT.sub, hq, hpk]
        rw [hsub]
        have hq0 : a ≠ par0 := fun e => hparn (Or.inl e.symm)
        have hsp : (s.pl par0).sub_pools ∉ sibs.pools := by
          by_cases hp0 : prev0 = 0
          · rw [hz hp0]; exact hqs
          · exact fun hm => (hnz hp0).1 (by
              simp only [PT.pools, List.mem_cons, List.mem_append]
              exact Or.inr (Or.inr hm))
        obtain ⟨r1, r2, r3, r4, r5⟩ := Rep.locate h9 hsn hpar0 hparn2.2
          (fun h0 => absurd h0 h2) (fun _ => ⟨hsp, rfl, hq0, hqs⟩) hps
        refine ⟨r1, r2, ?_, r4, ?_⟩
        · rcases r3 with e | e
          · exact Or.inl e
          · right
            simp only [PT.pools, List.mem_cons, List.mem_append]
            exact Or.inr (Or.inr e)
        · intro hne
          obtain ⟨n1, n2, n3, n4, n5⟩ := r5 hne
          refine ⟨n1, n2, n3, n4, Or.inr ?_⟩
          simp only [PT.pools, List.mem_cons, List.mem_append]
          rcases n5 with e | e
          · exact Or.inl e
          · exact Or.inr (Or.inr e)

theorem relink_sub_pools (r : pool) (p a1 : Nat) (h1 : r.sub_pools = p) (h2 : r.sub_next ≠ p) :
    relink r p a1 = { r with sub_pools := a1 } := by
  cases r
  simp only [relink] at *
  simp [h1, h2]

theorem relink_sub_next (r : pool) (p a1 : Nat) (h1 : r.sub_pools ≠ p) (h2 : r.sub_next = p) :
    relink r p a1 = { r with sub_next := a1 } := by
  cases r
  simp only [relink] at *
  simp [h1, h2]

/-- The unlinking of a pool `p` of a well-formed state, at the head of `destroy_pool`: the
links to `p` of the pools outside the part that hangs from `p` are turned to the sibling
after `p`, and the later siblings are laid out from that sibling on, after the sibling
that was before `p`. -/
theorem Heap.detach {c : Cfg} {s : State} {t : PT} {L : List Nat} {r p : Nat}
    (h : Heap c s t L r) (hp : p ∈ t.pools)
    {chain cln : List Nat} {kids sibs : PT} (e : t.sub p = .node p chain cln kids sibs) :
    ∃ P, unlink_pool s p = { s with pl := P } ∧ P p = s.pl p ∧
      (∀ x ∈ kids.pools, P x = s.pl x) ∧
      (∀ x ∈ (t.replace p .nil).pools, P x = relink (s.pl x) p (s.pl p).sub_next) ∧
      Rep { s with pl := P } sibs (s.pl p).sub_next (s.pl p).parent (s.pl p).sub_prev ∧
      (∀ x ∈ sibs.pools, (P x).first = (s.pl x).first) ∧
      (s.pl p).parent ∉ p :: kids.pools ∧ (s.pl p).sub_prev ∉ p :: kids.pools ∧
      (s.pl p).sub_next ∉ p :: kids.pools ∧ (r = p → (s.pl p).sub_next = 0) := by
  have hrs := Rep.sub p h.rep hp
  rw [e] at hrs
  obtain ⟨_, hp0, _, _, h5, h6, h7, h8, h9⟩ := hrs
  obtain ⟨o1, o2, o3, o4, o5, o6, o7, o8⟩ := h.outer hp
  rw [e] at o1 o2 o5 o6 o7 o8
  have hnd_sub := o6
  simp only [PT.pools, List.nodup_cons, List.mem_append, not_or, List.nodup_append] at hnd_sub
  obtain ⟨⟨hpk, hps⟩, hkn, hsn, hks⟩ := hnd_sub
  have h0t : 0 ∉ t.pools := Rep.pools_ne_zero h.rep
  have hnx : (s.pl p).sub_next = 0 ∨ (s.pl p).sub_next ∈ sibs.pools := Rep.zero_or_mem h9
  have hnx_sub : (s.pl p).sub_next ≠ 0 →
      (s.pl p).sub_next ∈ (PT.node p chain cln kids sibs).pools := by
    intro h1
    rcases hnx with e2 | e2
    · exact absurd e2 h1
    · simp [PT.pools, e2]
  have hnxp : (s.pl p).sub_next ∉ p :: kids.pools := by
    intro hm
    rcases hnx with e2 | e2
    · rw [e2] at hm
      exact h0t (o8 0 (by
        simp only [PT.pools, List.mem_cons, List.mem_append] at hm ⊢
        rcases hm with hm | hm
        · exact Or.inl hm
        · exact Or.inr (Or.inl hm)))
    · simp only [List.mem_cons] at hm
      rcases hm with hm | hm
      · exact hps (hm ▸ e2)
      · exact hks hm e2
  by_cases hrp : r = p
  · -- the root: nothing is unlinked
    subst hrp
    have hrt := h.rep
    have hsubt : t.sub r = t := by
      cases t with
      | nil => simp [PT.pools] at hp
      | node q c1 c2 k1 k2 =>
        have : r = q := hrt.1
        subst this
        simp [PT.sub]
    have hpar : (s.pl r).parent = 0 := by
      cases t with
      | nil => simp [PT.pools] at hp
      | node q c1 c2 k1 k2 =>
        have : r = q := hrt.1
        subst this
        exact hrt.2.2.1
    have hprev : (s.pl r).sub_prev = 0 := by
      cases t with
      | nil => simp [PT.pools] at hp
      | node q c1 c2 k1 k2 =>
        have : r = q := hrt.1
        subst this
        exact hrt.2.2.2.1
    have hnext := h.alone hp0
    have hun : unlink_pool s r = { s with pl := s.pl } := by
      simp [unlink_pool, hpar]
    refine ⟨s.pl, hun, rfl, fun _ _ => rfl, ?_, ?_, fun _ _ => rfl, ?_, ?_, hnxp, fun _ => hnext⟩
    · intro x hx
      have := (o2 x hx)
      rw [← e, hsubt] at this
      exact absurd this.1 this.2
    · rw [hnext] at h9
      have := Rep.eq_nil h9
      subst this
      rw [hnext]
      exact rfl
    · rw [hpar]
      intro hm
      exact h0t (o8 0 (by
        simp only [PT.pools, List.mem_cons, List.mem_append] at hm ⊢
        rcases hm with hm | hm
        · exact Or.inl hm
        · exact Or.inr (Or.inl hm)))
    · rw [hprev]
      intro hm
      exact h0t (o8 0 (by
        simp only [PT.pools, List.mem_cons, List.mem_append] at hm ⊢
        rcases hm with hm | hm
        · exact Or.inl hm
        · exact Or.inr (Or.inl hm)))
  · -- a pool below the root
    have hr0 : r ≠ 0 := by
      intro e2
      have := h.rep
      rw [e2] at this
      have := Rep.eq_nil this
      rw [this] at hp
      simp [PT.pools] at hp
    obtain ⟨kr, hloc, hsubk, hkr⟩ : ∃ kr : PT, (p ∈ kr.pools ∧ Rep s kr (s.pl r).sub_pools r 0 ∧
        kr.pools.Nodup ∧ r ∉ kr.pools) ∧ kr.sub p = t.sub p ∧ (∀ x ∈ kr.pools, x ∈ t.pools) := by
      have hrt := h.rep
      have hndt := h.nodup_pools
      have halone := h.alone hr0
      cases t with
      | nil => simp [PT.pools] at hp
      | node q c1 c2 k1 k2 =>
        obtain ⟨e1, _, _, _, _, _, _, g8, g9⟩ := hrt
        subst e1
        rw [halone] at g9
        have := Rep.eq_nil g9
        subst this
        simp only [PT.pools, List.append_nil, List.nodup_cons] at hndt hp
        simp only [List.mem_cons] at hp
        have hpk1 : p ∈ k1.pools := by
          rcases hp with e2 | e2
          · exact absurd e2.symm hrp
          · exact e2
        refine ⟨k1, ⟨hpk1, g8, hndt.2, hndt.1⟩, by simp [PT.sub, hrp, hpk1], ?_⟩
        intro x hx
        simp [PT.pools, hx]
    obtain ⟨hpk1, hrk, hndk, hrnk⟩ := hloc
    obtain ⟨q1, q2, q3, q4, q5⟩ := @Rep.locate s p kr _ r 0 hrk hndk hr0 hrnk (fun _ => rfl)
      (fun h0 => absurd rfl h0) hpk1
    rw [hsubk, e] at q2 q5
    have hpart : (s.pl p).parent ∈ t.pools := by
      rcases q3 with e2 | e2
      · rw [e2]; exact Rep.first_mem h.rep hr0
      · exact hkr _ e2
    have hpp : p ≠ (s.pl p).parent := fun e2 => q2 (by rw [← e2]; simp [PT.pools])
    have hprev_cases : (s.pl p).sub_prev = 0 ∨ ((s.pl p).sub_prev ≠ 0 ∧
        (s.pl (s.pl p).parent).sub_pools ≠ p ∧ (s.pl (s.pl p).sub_prev).sub_next = p ∧
        (s.pl p).sub_prev ≠ (s.pl p).parent ∧
        (s.pl p).sub_prev ∉ (PT.node p chain cln kids sibs).pools ∧
        (s.pl p).sub_prev ∈ t.pools) := by
      by_cases h0 : (s.pl p).sub_prev = 0
      · exact Or.inl h0
      · obtain ⟨n1, n2, n3, n4, n5⟩ := q5 h0
        refine Or.inr ⟨h0, n1, n2, n3, n4, ?_⟩
        rcases n5 with e2 | e2
        · exact absurd e2 h0
        · exact hkr _ e2
    have h2 : p ≠ (s.pl p).sub_prev := by
      rcases hprev_cases with e2 | e2
      · rw [e2]; exact hp0
      · exact fun e3 => e2.2.2.2.2.1 (by rw [← e3]; simp [PT.pools])
    have h3 : p ≠ (s.pl p).sub_next := by
      rcases hnx with e2 | e2
      · rw [e2]; exact hp0
      · exact fun e3 => hps (e3 ▸ e2)
    have h4 : (s.pl p).sub_prev ≠ (s.pl p).parent := by
      rcases hprev_cases with e2 | e2
      · rw [e2]; exact Ne.symm q1
      · exact e2.2.2.2.1
    have h5 : (s.pl p).sub_next ≠ (s.pl p).parent := by
      rcases hnx with e2 | e2
      · rw [e2]; exact Ne.symm q1
      · exact fun e3 => q2 (by rw [← e3]; simp [PT.pools, e2])
    have h6 : (s.pl p).sub_next ≠ 0 → (s.pl p).sub_next ≠ (s.pl p).sub_prev := by
      intro hn0
      rcases hprev_cases with e2 | e2
      · rw [e2]; exact hn0
      · exact fun e3 => e2.2.2.2.2.1 (by rw [← e3]; exact hnx_sub hn0)
    obtain ⟨P, u1, u2, u3, u4, u5, u6⟩ := unlink_pool_spec s p q1 hpp h2 h3 h4 h5 h6
    -- pools of the part that hangs from p, other than the sibling after p, are untouched
    have hin : ∀ x ∈ (PT.node p chain cln kids sibs).pools, x ≠ (s.pl p).sub_next →
        P x = s.pl x := by
      intro x hx hxn
      refine u6 x (fun e2 => q2 (e2 ▸ hx)) ?_ (fun _ => hxn)
      intro hpn
      rcases hprev_cases with e2 | e2
      · exact absurd e2 hpn
      · exact fun e3 => e2.2.2.2.2.1 (e3 ▸ hx)
    refine ⟨P, u1, u2, ?_, ?_, ?_, ?_, ?_, ?_, hnxp, fun e2 => absurd e2 hrp⟩
    · intro x hx
      refine hin x (by simp [PT.pools, hx]) ?_
      intro e2
      exact hnxp (by rw [← e2]; simp [hx])
    · intro x hx
      obtain ⟨hxt, hxs⟩ := o2 x hx
      have hx0 : x ≠ 0 := fun e2 => h0t (e2 ▸ hxt)
      have hptr := @Rep.pointer s t r 0 0 x p h.rep hxt hp0
      by_cases hxpar : x = (s.pl p).parent
      · subst hxpar
        rw [u3]
        have hsn : (s.pl (s.pl p).parent).sub_next ≠ p := fun e2 => h4 (hptr.2 e2)
        by_cases hc : (s.pl (s.pl p).parent).sub_pools = p
        · rw [if_pos hc, relink_sub_pools _ _ _ hc hsn]
        · rw [if_neg hc, relink_ne _ _ _ hc hsn]
      · by_cases hxprev : x = (s.pl p).sub_prev
        · subst hxprev
          have hsp : (s.pl (s.pl p).sub_prev).sub_pools ≠ p := fun e2 => hx0 (hptr.1 e2).2
          rcases hprev_cases with e2 | e2
          · exact absurd e2 hx0
          · rw [u4 e2.1, relink_sub_next _ _ _ hsp e2.2.2.1]
        · have hxn : (s.pl p).sub_next ≠ 0 → x ≠ (s.pl p).sub_next :=
            fun hn0 e3 => hxs (e3 ▸ hnx_sub hn0)
          rw [u6 x hxpar (fun _ => hxprev) hxn]
          refine (relink_ne _ _ _ ?_ ?_).symm
          · exact fun e2 => hxpar (hptr.1 e2).1.symm
          · exact fun e2 => hxprev (hptr.2 e2).symm
    · rcases hnx with e2 | e2
      · rw [e2] at h9 ⊢
        have := Rep.eq_nil h9
        subst this
        exact rfl
      · have hn0 : (s.pl p).sub_next ≠ 0 := fun e3 =>
          h0t (o8 0 (by simp [PT.pools, ← e3, e2]))
        refine @Rep.reprev s { s with pl := P } sibs _ _ p _ ?_ ?_ hsn (fun _ _ => rfl) rfl h9
        · intro k c1 c2 k1 k2 ek
          have hk : (s.pl p).sub_next = k := by rw [ek] at h9; exact h9.1
          rw [← hk]
          exact u5 hn0
        · intro x hx hxn
          exact hin x (by simp [PT.pools, hx]) hxn
    · intro x hx
      by_cases hxn : x = (s.pl p).sub_next
      · have hn0 : (s.pl p).sub_next ≠ 0 := fun e3 =>
          h0t (o8 0 (by simp [PT.pools, ← e3, ← hxn, hx]))
        rw [hxn, u5 hn0]
      · rw [hin x (by simp [PT.pools, hx]) hxn]
    · intro hm
      exact q2 (by
        simp only [PT.pools, List.mem_cons, List.mem_append] at hm ⊢
        rcases hm with hm | hm
        · exact Or.inl hm
        · exact Or.inr (Or.inl hm))
    · intro hm
      rcases hprev_cases with e2 | e2
      · rw [e2] at hm
        exact h0t (o8 0 (by
          simp only [PT.pools, List.mem_cons, List.mem_append] at hm ⊢
          rcases hm with hm | hm
          · exact Or.inl hm
          · exact Or.inr (Or.inl hm)))
      · exact e2.2.2.2.2.1 (by
          simp only [PT.pools, List.mem_cons, List.mem_append] at hm ⊢
          rcases hm with hm | hm
          · exact Or.inl hm
          · exact Or.inr (Or.inl hm))

/-- The call `destroy_pool(p)` on a pool of a well-formed state: the pool and its
descendants leave the layout, its later siblings take its place, and all the blocks go to
the free list, the chain of `p` first. -/
theorem Heap.destroy {c : Cfg} {s : State} {t : PT} {L : List Nat} {r p : Nat}
    (h : Heap c s t L r) (hp : p ∈ t.pools)
    {chain cln : List Nat} {kids sibs : PT} (e : t.sub p = .node p chain cln kids sibs) :
    ∃ N s1, (∀ fuel, N ≤ fuel → destroy_pool c fuel s p = .ok s1) ∧
      Gone c (unlink_pool s p) s1 p chain cln kids L ∧
      Heap c s1 (t.replace p sibs) (chain ++ kids.freed L)
        (if r = p then (s.pl p).sub_next else r) := by
  have ho := h.owns hp e
  obtain ⟨P, u1, u2, u3, u4, u5, u6, u7, u8, u9, u10⟩ := h.detach hp e
  obtain ⟨hou, _, _⟩ := ho.unlink u7 u8 u9
  obtain ⟨N, s1, hrun, hG⟩ := destroy_pool_spec c s p chain cln kids L hou
  have hrs := Rep.sub p h.rep hp
  rw [e] at hrs
  obtain ⟨_, hp0, _, _, h5, h6, h7, h8, h9⟩ := hrs
  obtain ⟨o1, o2, o3, o4, o5, o6, o7, o8⟩ := h.outer hp
  rw [e] at o1 o2 o5 o6 o7 o8
  have hnd_sub := o6
  simp only [PT.pools, List.nodup_cons, List.mem_append, not_or, List.nodup_append] at hnd_sub
  obtain ⟨⟨hpk, hps⟩, hkn, hsn, hks⟩ := hnd_sub
  have hnd_blk := o5
  simp only [PT.blocks, List.append_assoc] at hnd_blk
  have hsu_blk : (unlink_pool s p).blk = s.blk := by rw [u1]
  have hsu_pl : (unlink_pool s p).pl = P := by rw [u1]
  have hsu_cl : (unlink_pool s p).cl = s.cl := by rw [u1]
  have hsu_brk : (unlink_pool s p).brk = s.brk := by rw [u1]
  have hcl : s1.cl = s.cl := by rw [hG.kept.1, hsu_cl]
  have hbrk : s1.brk = s.brk := by rw [hG.kept.2.2.2.1, hsu_brk]
  have hfreed := PT.freed_perm kids L
  have hsibs_blk : ∀ x ∈ sibs.blocks, x ∉ chain ++ kids.blocks := by
    intro x hx hm
    have h1 := List.nodup_append.mp hnd_blk
    rcases List.mem_append.mp hm with hm | hm
    · exact h1.2.2 hm (by simp [hx])
    · have h2 := List.nodup_append.mp h1.2.1
      exact h2.2.2 hm (by simp [hx])
  have hloc : Rep s1 sibs (s.pl p).sub_next (s.pl p).parent (s.pl p).sub_prev := by
    have h0 : Rep (unlink_pool s p) sibs (s.pl p).sub_next (s.pl p).parent (s.pl p).sub_prev := by
      rw [u1]; exact u5
    refine Rep.frame ?_ ?_ hG.kept.1 h0
    · intro x hx
      exact hG.pl_frame x (fun hm => hks hm hx) (fun e2 => hps (e2 ▸ hx))
    · intro x hx
      show (s1.blk x).next = ((unlink_pool s p).blk x).next
      rw [hG.blk_frame x (hsibs_blk x hx)]
  have hmemb : ∀ x ∈ sibs.blocks ++ (chain ++ kids.freed L),
      x ∈ (PT.node p chain cln kids sibs).blocks ∨ x ∈ L := by
    intro x hx
    simp only [PT.blocks, List.mem_append] at hx ⊢
    rcases hx with hx | hx | hx
    · left; right; right; exact hx
    · left; left; exact hx
    · rcases List.mem_append.mp (hfreed.mem_iff.mp hx) with hx | hx
      · left; right; left; exact hx
      · right; exact hx
  have hsurg := @Heap.graft c s s1 t sibs L (chain ++ kids.freed L) r p (s.pl p).sub_next
    h hp hcl hloc ?_ ?_ hG.free ?_ ?_ hsn ?_ ?_ ?_ ?_ ?_ ?_
  · exact ⟨N, s1, hrun, hG, hsurg⟩
  · intro x hx
    rw [hG.pl_frame x (fun hm => (o2 x hx).2 (by simp [PT.pools, hm]))
      (fun e2 => (o2 x hx).2 (by rw [e2]; simp [PT.pools])), hsu_pl]
    exact u4 x hx
  · intro x hx
    show (s1.blk x).next = (s.blk x).next
    rw [hG.blk_frame x (fun hm => (o1 x hx).2.1 (by
      simp only [PT.blocks, List.mem_append] at hm ⊢
      rcases hm with hm | hm
      · exact Or.inl hm
      · exact Or.inr (Or.inl hm))), hsu_blk]
  · have hperm : (sibs.blocks ++ (chain ++ kids.freed L)).Perm
        (chain ++ (kids.blocks ++ (sibs.blocks ++ L))) := by
      have h1 : (sibs.blocks ++ (chain ++ kids.freed L)).Perm
          (sibs.blocks ++ (chain ++ (kids.blocks ++ L))) :=
        List.Perm.append_left _ (List.Perm.append_left _ hfreed)
      refine h1.trans ?_
      refine (List.perm_append_comm_assoc _ _ _).trans (List.Perm.append_left _ ?_)
      exact List.perm_append_comm_assoc _ _ _
    exact hperm.nodup_iff.mpr hnd_blk
  · intro x hx hxo
    rcases hmemb x hx with hx2 | hx2
    · exact (o1 x hxo).2.1 hx2
    · exact (o1 x hxo).2.2.1 hx2
  · intro x hx hxo
    exact (o2 x hxo).2 (by simp [PT.pools, hx])
  · intro x hx
    rcases List.mem_append.mp hx with hx | hx
    · exact (hG.reset x (List.mem_append_left _ hx)).1
    · rcases List.mem_append.mp (hfreed.mem_iff.mp hx) with hx | hx
      · exact (hG.reset x (List.mem_append_right _ hx)).1
      · have hn : x ∉ chain ++ kids.blocks := by
          intro hm
          have hxt : x ∈ t.blocks := o7 x (by
            simp only [PT.blocks, List.mem_append] at hm ⊢
            rcases hm with hm | hm
            · exact Or.inl hm
            · exact Or.inr (Or.inl hm))
          exact (List.nodup_append.mp h.nodup_blocks).2.2 hxt hx
        rw [hG.blk_frame x hn, hsu_blk]
        exact h.empty x hx
  · intro x hx
    rw [hbrk]
    rcases hmemb x hx with hx2 | hx2
    · exact h.below x (List.mem_append_left _ (o7 x hx2))
    · exact h.below x (List.mem_append_right _ hx2)
  · rw [hbrk]
  · intro x hx
    rw [hG.pl_frame x (fun hm => hks hm hx) (fun e2 => hps (e2 ▸ hx)), hsu_pl, u6 x hx]
    exact h.home x (o8 x (by simp [PT.pools, hx]))
  · intro hrp hn0
    exact absurd (u10 hrp) hn0

theorem Returns.agree {α : Type} {f : Nat → Except Fault α} {a b : α}
    (ha : Returns f a) (hb : Returns f b) : a = b := by
  obtain ⟨N1, h1⟩ := ha
  obtain ⟨N2, h2⟩ := hb
  have e1 := h1 (max N1 N2) (le_max_left _ _)
  have e2 := h2 (max N1 N2) (le_max_right _ _)
  rw [e1] at e2
  exact Except.ok.inj e2

theorem Returns.of_lt {α : Type} {f : Nat → Except Fault α} {a : α} {n : Nat}
    (h : ∀ fuel, n < fuel → f fuel = .ok a) : Returns f a :=
  ⟨n + 1, fun fuel hf => h fuel (by omega)⟩

/-- A live pool of a well-formed state is a pool of its layout. -/
theorem Heap.live_mem {c : Cfg} {s : State} {t : PT} {L : List Nat} {r p : Nat}
    (h : Heap c s t L r) (hl : Live s r p) : p ∈ t.pools := by
  induction hl with
  | root hr => exact Rep.first_mem h.rep hr
  | kid _ hne ih => exact (Rep.closed h.rep _ ih).1.resolve_left hne
  | sib _ hne ih => exact (Rep.closed h.rep _ ih).2.resolve_left hne

/-- The state left by `pr_init_pools` in a process without pools is well formed: one
pool, the permanent pool, in a block of its own. -/
theorem Heap.at_boot (c : Cfg) (hB : 1 < c.BLOCK_MINFREE) (s0 : State)
    (hperm : s0.permanent_pool = 0) (hfree : s0.block_freelist = 0) (hbrk : 0 < s0.brk) :
    ∃ s, (∀ fuel, 0 < fuel → pr_init_pools c fuel s0 = .ok s) ∧
      Heap c s (.node s.permanent_pool [s0.brk] [] .nil .nil) [] s.permanent_pool := by
  have hc : Chain s0.nxt s0.block_freelist [] := hfree
  obtain ⟨b, s1, hNB, hnb⟩ := new_block_zero_fixed c hB s0 [] hc
  have g := hNB.got hc (fun x hx => absurd hx (List.not_mem_nil x))
    (fun x hx => absurd hx (List.not_mem_nil x)) hbrk
  have hb : b = s0.brk := by
    rcases g.origin with ho | ho
    · exact absurd ho.1 (List.not_mem_nil b)
    · exact ho.1
  have hbrk1 : s1.brk = s0.brk + (c.BLOCK_MINFREE + c.BLOCK_HDR_SZ) := by
    rcases g.origin with ho | ho
    · exact absurd ho.1 (List.not_mem_nil b)
    · exact ho.2.1
  have hnp := g.avail_eq
  have hfr : s1.block_freelist = 0 := g.free
  refine ⟨{ link_pool c s1 0 b with permanent_pool := b + c.BLOCK_HDR_SZ }, ?_, ?_⟩
  · intro fuel hf
    have := make_sub_pool_eq c fuel s0 0 b s1 (hnb fuel hf)
    rw [pr_init_pools, if_pos hperm, this, hnp]
  · subst hb
    have hpl : (link_pool c s1 0 s0.brk).pl (s0.brk + c.BLOCK_HDR_SZ) =
        { first := s0.brk, last := s0.brk, cleanups := 0, sub_pools := 0, sub_next := 0,
          sub_prev := 0, parent := 0,
          free_first_avail := s0.brk + c.BLOCK_HDR_SZ + POOL_HDR_BYTES c } := by
      simp [link_pool, State.set_pl, State.set_first_avail, hnp, upd]
    have hnx : (link_pool c s1 0 s0.brk).nxt s0.brk = 0 := by
      show ((link_pool c s1 0 s0.brk).blk s0.brk).next = 0
      simp [link_pool, State.set_pl, State.set_first_avail, upd, g.next_eq]
    have hfl : (link_pool c s1 0 s0.brk).block_freelist = 0 := by
      simp [link_pool, State.set_pl, State.set_first_avail, hfr]
    have hbk : (link_pool c s1 0 s0.brk).brk = s1.brk := by
      simp [link_pool, State.set_pl, State.set_first_avail]
    have hb0 : s0.brk ≠ 0 := by omega
    exact
      { rep := by
          refine ⟨rfl, ?_, ?_, ?_, ?_, ?_, ?_, ?_, ?_⟩
          · show s0.brk + c.BLOCK_HDR_SZ ≠ 0
            omega
          · show ((link_pool c s1 0 s0.brk).pl (s0.brk + c.BLOCK_HDR_SZ)).parent = 0
            rw [hpl]
          · show ((link_pool c s1 0 s0.brk).pl (s0.brk + c.BLOCK_HDR_SZ)).sub_prev = 0
            rw [hpl]
          · show Chain (link_pool c s1 0 s0.brk).nxt
              ((link_pool c s1 0 s0.brk).pl (s0.brk + c.BLOCK_HDR_SZ)).first [s0.brk]
            rw [hpl]
            exact ⟨rfl, hb0, hnx⟩
          · show [s0.brk].getLast? =
              some ((link_pool c s1 0 s0.brk).pl (s0.brk + c.BLOCK_HDR_SZ)).last
            rw [hpl]; rfl
          · show Chain (link_pool c s1 0 s0.brk).cnxt
              ((link_pool c s1 0 s0.brk).pl (s0.brk + c.BLOCK_HDR_SZ)).cleanups []
            rw [hpl]; rfl
          · show Rep _ .nil ((link_pool c s1 0 s0.brk).pl (s0.brk + c.BLOCK_HDR_SZ)).sub_pools _ _
            rw [hpl]; rfl
          · show Rep _ .nil ((link_pool c s1 0 s0.brk).pl (s0.brk + c.BLOCK_HDR_SZ)).sub_next _ _
            rw [hpl]; rfl
        free := hfl
        nodup_blocks := by simp [PT.blocks]
        nodup_pools := by simp [PT.pools]
        empty := fun x hx => absurd hx (List.not_mem_nil x)
        below := by
          intro x hx
          simp only [PT.blocks, List.append_nil, List.mem_singleton] at hx
          subst hx
          show s0.brk < (link_pool c s1 0 s0.brk).brk
          rw [hbk, hbrk1]; omega
        home := by
          intro x hx
          simp only [PT.pools, List.append_nil, List.mem_singleton] at hx
          subst hx
          show ((link_pool c s1 0 s0.brk).pl (s0.brk + c.BLOCK_HDR_SZ)).first + _ = _
          rw [hpl]
        alone := by
          intro _
          show ((link_pool c s1 0 s0.brk).pl (s0.brk + c.BLOCK_HDR_SZ)).sub_next = 0
          rw [hpl]
        brk_pos := by
          show 0 < (link_pool c s1 0 s0.brk).brk
          rw [hbk, hbrk1]; omega }

/-- Every reachable state is well formed. -/
theorem Reach.heap {c : Cfg} (hK : 0 < c.CLICK_SZ) (hB : 1 < c.BLOCK_MINFREE) {s : State}
    {r : Nat} (h : Reach c s r) : ∃ t L, Heap c s t L r := by
  induction h with
  | init h1 h2 h3 hret =>
    obtain ⟨s2, hrun, hh⟩ := Heap.at_boot c hB _ h1 h2 h3
    have := Returns.agree hret (Returns.of_lt hrun)
    subst this
    exact ⟨_, _, hh⟩
  | make _ hl hret ih =>
    obtain ⟨t, L, hh⟩ := ih
    have hp := hh.live_mem hl
    obtain ⟨chain, cln, kids, sibs, e, _⟩ := hh.rep.node_of_mem hp
    obtain ⟨b, s0, _, _, hrun, _, _, hh1⟩ := hh.make hp hB e
    have := Returns.agree hret (Returns.of_lt hrun)
    rw [Prod.mk.injEq] at this
    rw [this.2]
    exact ⟨_, _, hh1⟩
  | @alloc s s1 r p x n _ hl hret ih =>
    obtain ⟨t, L, hh⟩ := ih
    have hp := hh.live_mem hl
    by_cases hn : n ≤ 0
    · have := Returns.agree hret ⟨0, fun fuel _ => palloc_nonpos c fuel s p n hn⟩
      rw [Prod.mk.injEq] at this
      rw [this.2]
      exact ⟨_, _, hh⟩
    · have hn1 : 0 < n := by omega
      by_cases hroom : (s.blk (s.pl p).last).first_avail + click_size c n
          ≤ (s.blk (s.pl p).last).endp
      · have := Returns.agree hret ⟨0, fun fuel _ => palloc_fast c fuel s p n hn1 hroom⟩
        rw [Prod.mk.injEq] at this
        rw [this.2]
        exact ⟨_, _, hh.alloc_fast hp _⟩
      · obtain ⟨chain, cln, kids, sibs, e, _⟩ := hh.rep.node_of_mem hp
        obtain ⟨b, s0, _, _, hrun, hh1⟩ := hh.alloc_slow hp hK (by omega) n hn1 e hroom
        have := Returns.agree hret (Returns.of_lt hrun)
        rw [Prod.mk.injEq] at this
        rw [this.2]
        exact ⟨_, _, hh1⟩
  | clear _ hl hret ih =>
    obtain ⟨t, L, hh⟩ := ih
    have hp := hh.live_mem hl
    obtain ⟨chain, cln, kids, sibs, e, _⟩ := hh.rep.node_of_mem hp
    obtain ⟨N, s2, hrun, _, hh1⟩ := hh.clear hp e
    have := Returns.agree hret ⟨N, hrun⟩
    subst this
    exact ⟨_, _, hh1⟩
  | @destroy s s1 r p _ hl hret ih =>
    obtain ⟨t, L, hh⟩ := ih
    have hp := hh.live_mem hl
    obtain ⟨chain, cln, kids, sibs, e, _⟩ := hh.rep.node_of_mem hp
    obtain ⟨N, s2, hrun, _, hh1⟩ := hh.destroy hp e
    have := Returns.agree hret ⟨N, hrun⟩
    subst this
    refine ⟨t.replace p sibs, chain ++ kids.freed L, ?_⟩
    have e2 : (if r = p then (s.pl p).sub_next else r) = (if r = p then 0 else r) := by
      by_cases hrp : r = p
      · rw [if_pos hrp, if_pos hrp]
        subst hrp
        exact hh.alone (Rep.pools_ne_zero hh.rep |> fun h0 => fun e0 => h0 (e0 ▸ hp))
      · rw [if_neg hrp, if_neg hrp]
    rw [← e2]
    exact hh1

theorem PT.chain_of_node {t : PT} {p : Nat} {chain cln : List Nat} {kids sibs : PT}
    (e : t.sub p = .node p chain cln kids sibs) : t.chain_of p = chain := by
  simp [PT.chain_of, e]

theorem PT.chain_of_blocks : ∀ (t : PT) (p b : Nat), b ∈ t.chain_of p → b ∈ t.blocks
  | .nil, _, _, h => by simp [PT.chain_of, PT.sub] at h
  | .node q chain cln kids sibs, p, b, h => by
    simp only [PT.blocks, List.mem_append]
    by_cases hq : q = p
    · simp only [PT.chain_of, PT.sub, hq, if_true] at h
      exact Or.inl h
    · by_cases hpk : p ∈ kids.pools
      · have e : (PT.node q chain cln kids sibs).chain_of p = kids.chain_of p := by
          simp [PT.chain_of, PT.sub, hq, hpk]
        rw [e] at h
        exact Or.inr (Or.inl (PT.chain_of_blocks kids p b h))
      · have e : (PT.node q chain cln kids sibs).chain_of p = sibs.chain_of p := by
          simp [PT.chain_of, PT.sub, hq, hpk]
        rw [e] at h
        exact Or.inr (Or.inr (PT.chain_of_blocks sibs p b h))

/-- The chains of two pools of a layout without repeated blocks share no block. -/
theorem PT.chain_of_disjoint : ∀ (t : PT), t.blocks.Nodup → ∀ (p q : Nat), p ∈ t.pools →
    q ∈ t.pools → p ≠ q → ∀ b ∈ t.chain_of p, b ∉ t.chain_of q
  | .nil, _, _, _, hp, _, _, _, _ => by simp [PT.pools] at hp
  | .node x chain cln kids sibs, hnd, p, q, hp, hq, hpq, b, hb => by
    simp only [PT.blocks, List.nodup_append, List.mem_append] at hnd
    obtain ⟨hc, ⟨hk, hs, hks⟩, hcks⟩ := hnd
    simp only [PT.pools, List.mem_cons, List.mem_append] at hp hq
    have key : ∀ y : Nat, y ≠ x → (PT.node x chain cln kids sibs).chain_of y =
        if y ∈ kids.pools then kids.chain_of y else sibs.chain_of y := by
      intro y hy
      by_cases hyk : y ∈ kids.pools
      · simp [PT.chain_of, PT.sub, Ne.symm hy, hyk]
      · simp [PT.chain_of, PT.sub, Ne.symm hy, hyk]
    have top : (PT.node x chain cln kids sibs).chain_of x = chain := by
      simp [PT.chain_of, PT.sub]
    intro hb2
    by_cases hpx : p = x
    · subst hpx
      rw [top] at hb
      have hb3 := PT.chain_of_blocks _ _ _ hb2
      rw [key q (Ne.symm hpq)] at hb2
      split at hb2
      · exact hcks hb (List.mem_append_left _ (PT.chain_of_blocks _ _ _ hb2))
      · exact hcks hb (List.mem_append_right _ (PT.chain_of_blocks _ _ _ hb2))
    · by_cases hqx : q = x
      · subst hqx
        rw [top] at hb2
        rw [key p hpx] at hb
        split at hb
        · exact hcks hb2 (List.mem_append_left _ (PT.chain_of_blocks _ _ _ hb))
        · exact hcks hb2 (List.mem_append_right _ (PT.chain_of_blocks _ _ _ hb))
      · rw [key p hpx] at hb
        rw [key q hqx] at hb2
        have hp2 : p ∈ kids.pools ∨ p ∈ sibs.pools := hp.resolve_left hpx
        have hq2 : q ∈ kids.pools ∨ q ∈ sibs.pools := hq.resolve_left hqx
        by_cases hpk : p ∈ kids.pools
        · rw [if_pos hpk] at hb
          by_cases hqk : q ∈ kids.pools
          · rw [if_pos hqk] at hb2
            exact PT.chain_of_disjoint kids hk p q hpk hqk hpq b hb hb2
          · rw [if_neg hqk] at hb2
            exact hks (PT.chain_of_blocks _ _ _ hb) (PT.chain_of_blocks _ _ _ hb2)
        · rw [if_neg hpk] at hb
          by_cases hqk : q ∈ kids.pools
          · rw [if_pos hqk] at hb2
            exact hks (PT.chain_of_blocks _ _ _ hb2) (PT.chain_of_blocks _ _ _ hb)
          · rw [if_neg hqk] at hb2
            exact PT.chain_of_disjoint sibs hs p q (hp2.resolve_left hpk)
              (hq2.resolve_left hqk) hpq b hb hb2

/-- The chain of a pool of a well-formed state. -/
theorem Heap.chain_at {c : Cfg} {s : State} {t : PT} {L : List Nat} {r p : Nat}
    (h : Heap c s t L r) (hp : p ∈ t.pools) :
    Chain s.nxt (s.pl p).first (t.chain_of p) ∧ (t.chain_of p).getLast? = some (s.pl p).last := by
  obtain ⟨chain, cln, kids, sibs, e, hr⟩ := h.rep.node_of_mem hp
  rw [PT.chain_of_node e]
  exact ⟨hr.2.2.2.2.1, hr.2.2.2.2.2.1⟩

/-- The last node of a chain has no successor. -/
theorem Chain.last_next {nx : Nat → Nat} : ∀ {l : List Nat} {h a : Nat}, Chain nx h l →
    l.getLast? = some a → nx a = 0
  | [], _, _, _, hl => by simp at hl
  | [x], _, a, hc, hl => by
    simp at hl
    subst hl
    exact hc.2.2
  | x :: y :: l, _, a, hc, hl => by
    rw [List.getLast?_cons_cons] at hl
    exact Chain.last_next hc.2.2 hl

theorem PT.tops_subset : ∀ (t : PT) (x : Nat), x ∈ t.tops → x ∈ t.pools
  | .nil, _, h => by simp [PT.tops] at h
  | .node q chain cln kids sibs, x, h => by
    simp only [PT.tops, List.mem_cons] at h
    simp only [PT.pools, List.mem_cons, List.mem_append]
    rcases h with h | h
    · exact Or.inl h
    · exact Or.inr (Or.inr (PT.tops_subset sibs x h))

/-- The part that hangs from a pool, taken in a part that holds the pool. -/
theorem PT.sub_sub : ∀ (t : PT) (p k : Nat), t.pools.Nodup → k ∈ (t.sub p).pools →
    (t.sub p).sub k = t.sub k
  | .nil, _, _, _, h => by simp [PT.sub, PT.pools] at h
  | .node q chain cln kids sibs, p, k, hnd, h => by
    by_cases hq : q = p
    · simp [PT.sub, hq]
    · simp only [PT.pools, List.nodup_cons, List.mem_append, not_or, List.nodup_append] at hnd
      obtain ⟨⟨hqk, hqs⟩, hkn, hsn, hks⟩ := hnd
      by_cases hpk : p ∈ kids.pools
      · have e : (PT.node q chain cln kids sibs).sub p = kids.sub p := by
          simp [PT.sub, hq, hpk]
        rw [e] at h ⊢
        have hk := PT.sub_subset kids p k h
        have hqk2 : q ≠ k := fun e2 => hqk (e2 ▸ hk)
        rw [PT.sub_sub kids p k hkn h]
        simp [PT.sub, hqk2, hk]
      · have e : (PT.node q chain cln kids sibs).sub p = sibs.sub p := by
          simp [PT.sub, hq, hpk]
        rw [e] at h ⊢
        have hk := PT.sub_subset sibs p k h
        have hqk2 : q ≠ k := fun e2 => hqs (e2 ▸ hk)
        have hkk : k ∉ kids.pools := fun hm => hks hm hk
        rw [PT.sub_sub sibs p k hsn h]
        simp [PT.sub, hqk2, hkk]

/-- A replacement below a pool `p` is a replacement in the part that hangs from `p`. -/
theorem PT.replace_inner : ∀ (t : PT) (p k : Nat) (t1 : PT), t.pools.Nodup →
    k ∈ (t.sub p).pools → t.replace k t1 = t.replace p ((t.sub p).replace k t1)
  | .nil, _, _, _, _, h => by simp [PT.sub, PT.pools] at h
  | .node q chain cln kids sibs, p, k, t1, hnd, h => by
    by_cases hq : q = p
    · simp [PT.sub, PT.replace, hq]
    · simp only [PT.pools, List.nodup_cons, List.mem_append, not_or, List.nodup_append] at hnd
      obtain ⟨⟨hqk, hqs⟩, hkn, hsn, hks⟩ := hnd
      by_cases hpk : p ∈ kids.pools
      · have e : (PT.node q chain cln kids sibs).sub p = kids.sub p := by
          simp [PT.sub, hq, hpk]
        rw [e] at h ⊢
        have hk := PT.sub_subset kids p k h
        have hqk2 : q ≠ k := fun e2 => hqk (e2 ▸ hk)
        have hks1 : k ∉ sibs.pools := fun hm => hks hk hm
        have hps1 : p ∉ sibs.pools := fun hm => hks hpk hm
        simp only [PT.replace, hqk2, hq, if_false]
        rw [← PT.replace_inner kids p k t1 hkn h, PT.replace_of_not_mem sibs k t1 hks1,
          PT.replace_of_not_mem sibs p _ hps1]
      · have e : (PT.node q chain cln kids sibs).sub p = sibs.sub p := by
          simp [PT.sub, hq, hpk]
        rw [e] at h ⊢
        have hk := PT.sub_subset sibs p k h
        have hqk2 : q ≠ k := fun e2 => hqs (e2 ▸ hk)
        have hkk : k ∉ kids.pools := fun hm => hks hm hk
        simp only [PT.replace, hqk2, hq, if_false]
        rw [← PT.replace_inner sibs p k t1 hsn h, PT.replace_of_not_mem kids k t1 hkk,
          PT.replace_of_not_mem kids p _ hpk]

/-- The part that hangs from `p` after it has been replaced by a node of `p`. -/
theorem PT.sub_replace_self : ∀ (t : PT) (p : Nat) (ch cl : List Nat) (ks sb : PT),
    t.pools.Nodup → p ∈ t.pools →
    (t.replace p (.node p ch cl ks sb)).sub p = .node p ch cl ks sb
  | .nil, _, _, _, _, _, _, h => by simp [PT.pools] at h
  | .node q chain cln kids sibs, p, ch, cl, ks, sb, hnd, h => by
    by_cases hq : q = p
    · simp [PT.sub, PT.replace, hq]
    · have hnd0 := hnd
      simp only [PT.pools, List.nodup_cons, List.mem_append, not_or, List.nodup_append] at hnd
      obtain ⟨⟨hqk, hqs⟩, hkn, hsn, hks⟩ := hnd
      simp only [PT.pools, List.mem_cons, List.mem_append] at h
      have h2 : p ∈ kids.pools ∨ p ∈ sibs.pools := h.resolve_left (fun e => hq e.symm)
      simp only [PT.replace, hq, if_false, PT.sub]
      by_cases hpk : p ∈ kids.pools
      · have hm : p ∈ (kids.replace p (.node p ch cl ks sb)).pools := by
          refine (PT.replace_pools kids p _ hkn hpk).mem_iff.mpr ?_
          simp [PT.pools]
        rw [if_pos hm]
        exact PT.sub_replace_self kids p ch cl ks sb hkn hpk
      · rw [PT.replace_of_not_mem kids p _ hpk, if_neg hpk]
        exact PT.sub_replace_self sibs p ch cl ks sb hsn (h2.resolve_left hpk)

/-- The siblings left when one of them is replaced by its later siblings. -/
theorem PT.tops_replace : ∀ (t : PT) (k : Nat) (c1 c2 : List Nat) (kk sk : PT),
    t.pools.Nodup → k ∈ t.tops → t.sub k = .node k c1 c2 kk sk →
    (t.replace k sk).tops = t.tops.erase k
  | .nil, _, _, _, _, _, _, h, _ => by simp [PT.tops] at h
  | .node q chain cln kids sibs, k, c1, c2, kk, sk, hnd, h, e => by
    by_cases hq : q = k
    · simp only [PT.sub, hq, if_true] at e
      simp only [PT.replace, hq, if_true, PT.tops]
      injection e with _ _ _ _ e5
      subst e5
      simp
    · simp only [PT.pools, List.nodup_cons, List.mem_append, not_or, List.nodup_append] at hnd
      obtain ⟨⟨hqk, hqs⟩, hkn, hsn, hks⟩ := hnd
      simp only [PT.tops, List.mem_cons] at h
      have h2 : k ∈ sibs.tops := h.resolve_left (fun e2 => hq e2.symm)
      have hkp := PT.tops_subset sibs k h2
      have hkk : k ∉ kids.pools := fun hm => hks hm hkp
      simp only [PT.sub, hq, if_false, hkk] at e
      simp only [PT.replace, hq, if_false, PT.tops]
      rw [PT.tops_replace sibs k c1 c2 kk sk hsn h2 e, List.erase_cons_tail]
      simpa using hq

/-- The sub-pools of a list of siblings are linked by `sub_next` and have the parent of
the list. -/
theorem Rep.tops {s : State} : ∀ {t : PT} {a par prev : Nat}, Rep s t a par prev →
    Chain s.snxt a t.tops ∧ ∀ k ∈ t.tops, (s.pl k).parent = par
  | .nil, _, _, _, h => ⟨h, fun k hk => by simp [PT.tops] at hk⟩
  | .node q chain cln kids sibs, a, par, prev, h => by
    obtain ⟨h1, h2, h3, _, _, _, _, _, h9⟩ := h
    obtain ⟨i1, i2⟩ := Rep.tops h9
    refine ⟨⟨h1, h2, i1⟩, ?_⟩
    intro k hk
    simp only [PT.tops, List.mem_cons] at hk
    rcases hk with hk | hk
    · rw [hk]; exact h3
    · exact i2 k hk

/-- A node of a chain other than its head has a node before it. -/
theorem Chain.pred {nx : Nat → Nat} : ∀ {l : List Nat} {h k : Nat}, Chain nx h l → k ∈ l →
    k ≠ h → ∃ x ∈ l, nx x = k
  | [], _, _, _, hk, _ => by simp at hk
  | a :: l, h, k, hc, hk, hne => by
    obtain ⟨h1, h2, h3⟩ := hc
    simp only [List.mem_cons] at hk
    have hkl : k ∈ l := hk.resolve_left (fun e => hne (e.trans h1.symm))
    by_cases e : k = nx a
    · exact ⟨a, List.mem_cons_self _ _, e.symm⟩
    · obtain ⟨x, hx, hx2⟩ := Chain.pred h3 hkl e
      exact ⟨x, List.mem_cons_of_mem _ hx, hx2⟩

/-- The sub-pools of a pool of a well-formed state are linked by `sub_next` from its
`sub_pools` on, in the order of the layout. -/
theorem Heap.sub_list {c : Cfg} {s : State} {t : PT} {L : List Nat} {r p : Nat}
    (h : Heap c s t L r) (hp : p ∈ t.pools)
    {chain cln : List Nat} {kids sibs : PT} (e : t.sub p = .node p chain cln kids sibs) :
    Chain s.snxt (s.pl p).sub_pools kids.tops ∧ (∀ k ∈ kids.tops, (s.pl k).parent = p) ∧
      (∀ k ∈ kids.tops, k ∈ t.pools ∧ k ≠ 0 ∧ k ≠ p ∧ k ∈ kids.pools) := by
  have hrs := Rep.sub p h.rep hp
  rw [e] at hrs
  obtain ⟨_, hp0, _, _, _, _, _, h8, _⟩ := hrs
  obtain ⟨_, _, _, _, _, o6, _, o8⟩ := h.outer hp
  rw [e] at o6 o8
  obtain ⟨i1, i2⟩ := Rep.tops h8
  refine ⟨i1, i2, ?_⟩
  intro k hk
  have hkk := PT.tops_subset kids k hk
  have hkt : k ∈ t.pools := o8 k (by simp [PT.pools, hkk])
  refine ⟨hkt, fun e0 => Rep.pools_ne_zero h.rep (e0 ▸ hkt), ?_, hkk⟩
  intro e2
  simp only [PT.pools, List.nodup_cons, List.mem_append, not_or] at o6
  exact o6.1.1 (e2 ▸ hkk)

/-- C19. In every state that is reached from `pr_init_pools` by calls of `make_sub_pool`,
`palloc`, `clear_pool` and `destroy_pool` on live pools, the free list is a list `L`
without a repeated block, and every live pool `p` has a chain `C` from `p->first` without a
repeated block, which shares no block with the free list nor with the chain of another
live pool; `p->first` is not null, `p->last` is on the chain and has a null `next`; and
the calls `clear_pool(p)` and `destroy_pool(p)` return: they do not end in the `exit` of
`chk_on_blk_list`. -/
theorem block_ownership_invariant (c : Cfg) (hK : 0 < c.CLICK_SZ) (hB : 1 < c.BLOCK_MINFREE)
    (s : State) (r : Nat) (hreach : Reach c s r) :
    ∃ L, Chain s.nxt s.block_freelist L ∧ L.Nodup ∧
      ∀ p, Live s r p →
        ∃ C, Chain s.nxt (s.pl p).first C ∧ C.Nodup ∧ (∀ b ∈ C, b ∉ L) ∧
          (∀ q C2, Live s r q → q ≠ p → Chain s.nxt (s.pl q).first C2 → ∀ b ∈ C, b ∉ C2) ∧
          (s.pl p).first ≠ 0 ∧ (s.pl p).last ∈ C ∧ (s.blk (s.pl p).last).next = 0 ∧
          (∃ s1, Returns (fun fuel => clear_pool c fuel s p) s1) ∧
          (∃ s1, Returns (fun fuel => destroy_pool c fuel s p) s1) := by
  obtain ⟨t, L, hh⟩ := hreach.heap hK hB
  have hnd := List.nodup_append.mp hh.nodup_blocks
  refine ⟨L, hh.free, hnd.2.1, ?_⟩
  intro p hl
  have hp := hh.live_mem hl
  obtain ⟨hc, hlast⟩ := hh.chain_at hp
  obtain ⟨chain, cln, kids, sibs, e, _⟩ := hh.rep.node_of_mem hp
  have hmem : (s.pl p).last ∈ t.chain_of p := List.mem_of_getLast?_eq_some hlast
  refine ⟨t.chain_of p, hc, Chain.nodup hc, ?_, ?_, ?_, hmem, Chain.last_next hc hlast, ?_, ?_⟩
  · intro b hb hbL
    exact hnd.2.2 (PT.chain_of_blocks t p b hb) hbL
  · intro q C2 hq hqp hc2 b hb hb2
    have hq2 := hh.live_mem hq
    have := Chain.unique hc2 (hh.chain_at hq2).1
    subst this
    exact PT.chain_of_disjoint t hnd.1 p q hp hq2 (Ne.symm hqp) b hb hb2
  · intro e0
    cases hC : t.chain_of p with
    | nil => rw [hC] at hmem; simp at hmem
    | cons a l =>
      rw [hC] at hc
      exact hc.2.1 (hc.1.symm.trans e0)
  · obtain ⟨N, s1, hrun, _⟩ := hh.clear hp e
    exact ⟨s1, N, hrun⟩
  · obtain ⟨N, s1, hrun, _⟩ := hh.destroy hp e
    exact ⟨s1, N, hrun⟩

/-- C18. In every state that is reached from `pr_init_pools` by calls of `make_sub_pool`,
`palloc`, `clear_pool` and `destroy_pool` on live pools, every live pool `p` has a list
`K` of sub-pools, linked by `sub_next` from `p->sub_pools` on, in which no pool occurs
twice; every pool `k` of the list has `p` as its parent, has a null `sub_prev` exactly when
it is `p->sub_pools`, and is the `sub_prev` of its `sub_next` and the `sub_next` of its
`sub_prev`; `make_sub_pool(p)` returns and leaves the list `np :: K`, `np` being the new
pool; and `destroy_pool(k)` returns and leaves the list `K` without `k`, in the same
order. -/
theorem pool_tree_invariant (c : Cfg) (hK : 0 < c.CLICK_SZ) (hB : 1 < c.BLOCK_MINFREE)
    (s : State) (r p : Nat) (hreach : Reach c s r) (hlive : Live s r p) :
    ∃ K, Chain s.snxt (s.pl p).sub_pools K ∧ K.Nodup ∧
      (∀ k ∈ K, (s.pl k).parent = p ∧ ((s.pl k).sub_prev = 0 ↔ (s.pl p).sub_pools = k) ∧
        ((s.pl k).sub_next ≠ 0 → (s.pl (s.pl k).sub_next).sub_prev = k) ∧
        ((s.pl k).sub_prev ≠ 0 → (s.pl (s.pl k).sub_prev).sub_next = k)) ∧
      (∃ np s1, Returns (fun fuel => make_sub_pool c fuel s p) (np, s1) ∧ np ∉ K ∧
        Chain s1.snxt (s1.pl p).sub_pools (np :: K)) ∧
      (∀ k ∈ K, ∃ s1, Returns (fun fuel => destroy_pool c fuel s k) s1 ∧
        Chain s1.snxt (s1.pl p).sub_pools (K.erase k)) := by
  obtain ⟨t, L, hh⟩ := hreach.heap hK hB
  have hp := hh.live_mem hlive
  obtain ⟨chain, cln, kids, sibs, e, _⟩ := hh.rep.node_of_mem hp
  obtain ⟨hc, hpar, hmem⟩ := hh.sub_list hp e
  have hpred : ∀ k ∈ kids.tops, (s.pl p).sub_pools ≠ k →
      ∃ x, x ≠ 0 ∧ (s.pl x).sub_next = k ∧ (s.pl k).sub_prev = x := by
    intro k hk hne
    obtain ⟨x, hx, hx2⟩ := Chain.pred hc hk (Ne.symm hne)
    exact ⟨x, (hmem x hx).2.1, hx2,
      (Rep.pointer hh.rep (hmem x hx).1 (hmem k hk).2.1).2 hx2⟩
  have hhead : ∀ k ∈ kids.tops, (s.pl p).sub_pools = k → (s.pl k).sub_prev = 0 := by
    intro k hk e2
    exact ((Rep.pointer hh.rep hp (hmem k hk).2.1).1 e2).2
  refine ⟨kids.tops, hc, Chain.nodup hc, ?_, ?_, ?_⟩
  · intro k hk
    refine ⟨hpar k hk, ⟨?_, hhead k hk⟩, ?_, ?_⟩
    · intro h0
      by_contra hne
      obtain ⟨x, hx0, _, hx2⟩ := hpred k hk hne
      exact hx0 (hx2.symm.trans h0)
    · intro hne
      exact (Rep.pointer hh.rep (hmem k hk).1 hne).2 rfl
    · intro hne
      have hne2 : (s.pl p).sub_pools ≠ k := fun e2 => hne (hhead k hk e2)
      obtain ⟨x, _, hx1, hx2⟩ := hpred k hk hne2
      rw [hx2]
      exact hx1
  · obtain ⟨b, s0, _, _, hrun, hnpt, _, hh1⟩ := hh.make hp hB e
    have hsub := PT.sub_replace_self t p chain cln
      (.node (b + c.BLOCK_HDR_SZ) [b] [] .nil kids) sibs hh.nodup_pools hp
    have hp1 : p ∈ (t.replace p (.node p chain cln
        (.node (b + c.BLOCK_HDR_SZ) [b] [] .nil kids) sibs)).pools := by
      refine (PT.replace_pools t p _ hh.nodup_pools hp).mem_iff.mpr ?_
      simp [PT.pools]
    refine ⟨b + c.BLOCK_HDR_SZ, link_pool c s0 p b, Returns.of_lt hrun, ?_, ?_⟩
    · exact fun hm => hnpt (hmem _ hm).1
    · exact (hh1.sub_list hp1 hsub).1
  · intro k hk
    obtain ⟨hkt, hk0, hkp, hkk⟩ := hmem k hk
    have hks : k ∈ (t.sub p).pools := by rw [e]; simp [PT.pools, hkk]
    have hsk : t.sub k = kids.sub k := by
      rw [← PT.sub_sub t p k hh.nodup_pools hks, e]
      simp [PT.sub, Ne.symm hkp, hkk]
    obtain ⟨c1, c2, kk, sk, ek⟩ := PT.sub_node kids k hkk
    have ek2 : t.sub k = .node k c1 c2 kk sk := hsk.trans ek
    obtain ⟨N, s1, hrun, _, hh1⟩ := hh.destroy hkt ek2
    obtain ⟨_, _, _, _, _, o6, _, _⟩ := hh.outer hp
    rw [e] at o6
    have o6' := o6
    simp only [PT.pools, List.nodup_cons, List.mem_append, not_or, List.nodup_append] at o6
    obtain ⟨⟨_, _⟩, hkn, _, hks2⟩ := o6
    have hksib : k ∉ sibs.pools := fun hm => hks2 hkk hm
    have hrep : t.replace k sk = t.replace p (.node p chain cln (kids.replace k sk) sibs) := by
      rw [PT.replace_inner t p k sk hh.nodup_pools hks, e]
      simp only [PT.replace, Ne.symm hkp, if_false]
      rw [PT.replace_of_not_mem sibs k sk hksib]
    rw [hrep] at hh1
    have hsub := PT.sub_replace_self t p chain cln (kids.replace k sk) sibs hh.nodup_pools hp
    have hp1 : p ∈ (t.replace p (.node p chain cln (kids.replace k sk) sibs)).pools := by
      refine (PT.replace_pools t p _ hh.nodup_pools hp).mem_iff.mpr ?_
      simp [PT.pools]
    refine ⟨s1, ⟨N, hrun⟩, ?_⟩
    have := (hh1.sub_list hp1 hsub).1
    rw [PT.tops_replace kids k c1 c2 kk sk hkn hk ek] at this
    exact this

theorem world_heap : Heap lp64 world (.node 4120 [4096] [] .nil .nil) [] 4120 := by
  obtain ⟨s, hrun, hh⟩ := Heap.at_boot lp64 (by decide) boot rfl rfl (by decide)
  have e : world = s := by
    show state_of (pr_init_pools lp64 1 boot) = s
    rw [hrun 1 (by decide)]
    rfl
  rw [← e] at hh
  have e2 : world.permanent_pool = 4120 := by decide
  have e3 : boot.brk = 4096 := rfl
  rw [e2, e3] at hh
  exact hh

theorem world_reach : Reach lp64 world 4120 := by
  obtain ⟨s, hrun, _⟩ := Heap.at_boot lp64 (by decide) boot rfl rfl (by decide)
  have e : world = s := by
    show state_of (pr_init_pools lp64 1 boot) = s
    rw [hrun 1 (by decide)]
    rfl
  have h := @Reach.init lp64 boot s rfl rfl (by decide) (Returns.of_lt hrun)
  rw [← e] at h
  exact h

theorem hamlet_reach : Reach lp64 hamlet 4120 := by
  have hp : (4120 : Nat) ∈ (PT.node 4120 [4096] [] .nil .nil).pools := by simp [PT.pools]
  obtain ⟨b, s0, _, _, hrun, _⟩ := world_heap.make hp (by decide) rfl
  have e : hamlet = link_pool lp64 s0 4120 b := by
    show state_of2 (make_sub_pool lp64 1 world 4120) = _
    rw [hrun 1 (by decide)]
    rfl
  have h := @Reach.make lp64 world _ 4120 4120 _ world_reach (Live.root (by decide))
    (Returns.of_lt hrun)
  rw [← e] at h
  exact h

/-- C19, at an instance: the state `hamlet`, with the permanent pool and one sub-pool. -/
theorem block_ownership_invariant_witness :
    Reach lp64 hamlet 4120 ∧
    ∃ L, Chain hamlet.nxt hamlet.block_freelist L ∧ L.Nodup ∧
      ∀ p, Live hamlet 4120 p →
        ∃ C, Chain hamlet.nxt (hamlet.pl p).first C ∧ C.Nodup ∧ (∀ b ∈ C, b ∉ L) ∧
          (∀ q C2, Live hamlet 4120 q → q ≠ p → Chain hamlet.nxt (hamlet.pl q).first C2 →
            ∀ b ∈ C, b ∉ C2) ∧
          (hamlet.pl p).first ≠ 0 ∧ (hamlet.pl p).last ∈ C ∧
          (hamlet.blk (hamlet.pl p).last).next = 0 ∧
          (∃ s1, Returns (fun fuel => clear_pool lp64 fuel hamlet p) s1) ∧
          (∃ s1, Returns (fun fuel => destroy_pool lp64 fuel hamlet p) s1) :=
  ⟨hamlet_reach,
    block_ownership_invariant lp64 (by decide) (by decide) hamlet 4120 hamlet_reach⟩

/-- C18, at an instance: the permanent pool of the state `hamlet`, which has one
sub-pool. -/
theorem pool_tree_invariant_witness :
    Reach lp64 hamlet 4120 ∧ Live hamlet 4120 4120 ∧
    ∃ K, Chain hamlet.snxt (hamlet.pl 4120).sub_pools K ∧ K.Nodup ∧
      (∀ k ∈ K, (hamlet.pl k).parent = 4120 ∧
        ((hamlet.pl k).sub_prev = 0 ↔ (hamlet.pl 4120).sub_pools = k) ∧
        ((hamlet.pl k).sub_next ≠ 0 → (hamlet.pl (hamlet.pl k).sub_next).sub_prev = k) ∧
        ((hamlet.pl k).sub_prev ≠ 0 → (hamlet.pl (hamlet.pl k).sub_prev).sub_next = k)) ∧
      (∃ np s1, Returns (fun fuel => make_sub_pool lp64 fuel hamlet 4120) (np, s1) ∧ np ∉ K ∧
        Chain s1.snxt (s1.pl 4120).sub_pools (np :: K)) ∧
      (∀ k ∈ K, ∃ s1, Returns (fun fuel => destroy_pool lp64 fuel hamlet k) s1 ∧
        Chain s1.snxt (s1.pl 4120).sub_pools (K.erase k)) :=
  ⟨hamlet_reach, Live.root (by decide),
    pool_tree_invariant lp64 (by decide) (by decide) hamlet 4120 4120 hamlet_reach
      (Live.root (by decide))⟩

/-- The block that `new_block` returns when the head of the free list has room. -/
theorem NewBlock.head {c : Cfg} {s s1 : State} {a b R : Nat} {L : List Nat}
    (h : NewBlock c s (a :: L) R b s1) (hfit : (R : Int) ≤ s.room a) : b = a := by
  rcases h with ⟨L1, L2, h1, h2, _, _⟩ | ⟨h1, _, _⟩
  · cases L1 with
    | nil =>
      simp only [List.nil_append, List.cons.injEq] at h1
      exact h1.1.symm
    | cons x L1 =>
      simp only [List.cons_append, List.cons.injEq] at h1
      exact absurd hfit (h1.1 ▸ h2 x (List.mem_cons_self _ _))
  · exact absurd hfit (h1 a (List.mem_cons_self _ _))

theorem PT.mem_replace (t : PT) (p : Nat) (t1 : PT) (hnd : t.pools.Nodup) (hp : p ∈ t.pools)
    (x : Nat) : x ∈ (t.replace p t1).pools ↔ x ∈ t1.pools ∨ x ∈ (t.replace p .nil).pools := by
  rw [(PT.replace_pools t p t1 hnd hp).mem_iff, List.mem_append]

theorem PT.mem_split (t : PT) (p : Nat) (hnd : t.pools.Nodup) (hp : p ∈ t.pools)
    (x : Nat) : x ∈ t.pools ↔ x ∈ (t.sub p).pools ∨ x ∈ (t.replace p .nil).pools := by
  rw [(PT.pools_split t p hnd hp).mem_iff, List.mem_append]

theorem link_pool_stats (c : Cfg) (s1 : State) (q b : Nat) :
    (link_pool c s1 q b).stat_malloc = s1.stat_malloc ∧
    (link_pool c s1 q b).stat_freehit = s1.stat_freehit := by
  unfold link_pool
  by_cases hq : q = 0
  · simp [hq, State.set_pl, State.set_first_avail]
  · simp only [ne_eq, hq, not_false_eq_true, if_true]
    constructor <;> (split <;> rfl)

theorem link_block_stats (s1 : State) (p b size : Nat) :
    (link_block s1 p b size).stat_malloc = s1.stat_malloc ∧
    (link_block s1 p b size).stat_freehit = s1.stat_freehit := by
  simp [link_block, State.set_pl, State.set_first_avail, State.set_next]

/-- The call `make_sub_pool(p)` on a pool of a well-formed state, with what the new
pool looks like: it has one block, the one that `new_block` returned, with the pool header
carved from it. -/
theorem Heap.fresh_pool {c : Cfg} {s : State} {t : PT} {L : List Nat} {r p : Nat}
    (h : Heap c s t L r) (hp : p ∈ t.pools) (hB : 1 < c.BLOCK_MINFREE) :
    ∃ b s0 t1 kids, NewBlock c s L c.BLOCK_MINFREE b s0 ∧ Got c s s0 L c.BLOCK_MINFREE b ∧
      (∀ fuel, L.length < fuel →
        make_sub_pool c fuel s p = .ok (b + c.BLOCK_HDR_SZ, link_pool c s0 p b)) ∧
      b + c.BLOCK_HDR_SZ ∉ t.pools ∧ b ∉ t.blocks ∧
      Heap c (link_pool c s0 p b) t1 (L.erase b) r ∧
      (∀ x, x ∈ t1.pools ↔ x = b + c.BLOCK_HDR_SZ ∨ x ∈ t.pools) ∧
      t1.sub (b + c.BLOCK_HDR_SZ) = .node (b + c.BLOCK_HDR_SZ) [b] [] .nil kids ∧
      ((link_pool c s0 p b).pl (b + c.BLOCK_HDR_SZ)).last = b ∧
      ((link_pool c s0 p b).blk b).first_avail = b + c.BLOCK_HDR_SZ + POOL_HDR_BYTES c ∧
      (∀ x, ((link_pool c s0 p b).blk x).endp = (s0.blk x).endp) := by
  obtain ⟨chain, cln, kids, sibs, e, _⟩ := h.rep.node_of_mem hp
  obtain ⟨b, s0, hNB, g, hrun, hnpt, hbt, hh1⟩ := h.make hp hB e
  obtain ⟨l1, _, _, _, l5⟩ := link_pool_geom c s0 p b
  have hsub := PT.sub_replace_self t p chain cln
    (.node (b + c.BLOCK_HDR_SZ) [b] [] .nil kids) sibs h.nodup_pools hp
  have hpne : p ≠ b + c.BLOCK_HDR_SZ := fun e2 => hnpt (e2 ▸ hp)
  have hmem : ∀ x, x ∈ (t.replace p (.node p chain cln
      (.node (b + c.BLOCK_HDR_SZ) [b] [] .nil kids) sibs)).pools ↔
      x = b + c.BLOCK_HDR_SZ ∨ x ∈ t.pools := by
    intro x
    rw [PT.mem_replace t p _ h.nodup_pools hp, PT.mem_split t p h.nodup_pools hp, e]
    simp only [PT.pools, List.mem_cons, List.mem_append, List.nil_append, List.not_mem_nil,
      false_or, or_false]
    tauto
  refine ⟨b, s0, _, kids, hNB, g, hrun, hnpt, hbt, hh1, hmem, ?_, ?_, ?_, ?_⟩
  · have hin : b + c.BLOCK_HDR_SZ ∈ ((t.replace p (.node p chain cln
        (.node (b + c.BLOCK_HDR_SZ) [b] [] .nil kids) sibs)).sub p).pools := by
      rw [hsub]; simp [PT.pools]
    rw [← PT.sub_sub _ p _ hh1.nodup_pools hin, hsub]
    simp [PT.sub, hpne, PT.pools]
  · have := l5
    rw [g.avail_eq] at this
    exact this
  · rw [l1, upd_same]
    show (s0.blk b).first_avail + POOL_HDR_BYTES c = _
    rw [g.avail_eq]
  · intro x
    rw [l1, upd_apply]
    split
    · rename_i e2; subst e2; rfl
    · rfl

/-- The pools of a layout in which the chain of a pool has been replaced. -/
theorem PT.mem_rechain (t : PT) (p : Nat) (hnd : t.pools.Nodup) (hp : p ∈ t.pools)
    {chain cln : List Nat} {kids sibs : PT} (e : t.sub p = .node p chain cln kids sibs)
    (chain1 : List Nat) (x : Nat) :
    x ∈ (t.replace p (.node p chain1 cln kids sibs)).pools ↔ x ∈ t.pools := by
  rw [PT.mem_replace t p _ hnd hp, PT.mem_split t p hnd hp, e]
  simp only [PT.pools]

/-- A run of `palloc` calls on a pool of a well-formed state returns and leaves a
well-formed state; its course is recorded as a `Play`. -/
theorem Heap.play {c : Cfg} (hK : 0 < c.CLICK_SZ) (hB : 0 < c.BLOCK_MINFREE) {r A : Nat} :
    ∀ (sizes : List Int), (∀ n ∈ sizes, 0 < n) →
    ∀ {s : State} {t : PT} {L chain cln : List Nat} {kids sibs : PT},
    Heap c s t L r → A ∈ t.pools → t.sub A = .node A chain cln kids sibs →
    ∃ D ptrs s1 t1 L1,
      Play c (s.blk (s.pl A).last).first_avail (s.blk (s.pl A).last).endp sizes D ptrs ∧
      (∀ fuel, L.length < fuel → pallocs c fuel s A sizes = .ok (ptrs, s1)) ∧
      Heap c s1 t1 L1 r ∧ (∀ x, x ∈ t1.pools ↔ x ∈ t.pools) ∧
      t1.sub A = .node A (chain ++ D.map Prod.fst) cln kids sibs ∧
      (∀ d ∈ D, (s1.blk d.1).endp = d.2) ∧ (∀ x ∈ chain, (s1.blk x).endp = (s.blk x).endp)
  | [], _, s, t, L, chain, cln, kids, sibs, hh, hA, e =>
    ⟨[], [], s, t, L, Play.done _ _, fun _ _ => rfl, hh, fun _ => Iff.rfl, by simpa using e,
      fun d hd => absurd hd (List.not_mem_nil d), fun _ _ => rfl⟩
  | n :: rest, hpos, s, t, L, chain, cln, kids, sibs, hh, hA, e => by
    have hn : 0 < n := hpos n (List.mem_cons_self _ _)
    have hrest : ∀ m ∈ rest, 0 < m := fun m hm => hpos m (List.mem_cons_of_mem _ hm)
    by_cases hroom : (s.blk (s.pl A).last).first_avail + click_size c n
        ≤ (s.blk (s.pl A).last).endp
    · -- served from the last block
      have hh1 := hh.alloc_fast hA ((s.blk (s.pl A).last).first_avail + click_size c n)
      obtain ⟨D, ptrs, s1, t1, L1, hplay, hrun, hh2, hmem, hsub, hD, hch⟩ :=
        Heap.play hK hB rest hrest hh1 hA e
      have hl : ((s.set_first_avail (s.pl A).last
          ((s.blk (s.pl A).last).first_avail + click_size c n)).pl A).last = (s.pl A).last := rfl
      rw [hl] at hplay
      have ha : ((s.set_first_avail (s.pl A).last
          ((s.blk (s.pl A).last).first_avail + click_size c n)).blk (s.pl A).last).first_avail
          = (s.blk (s.pl A).last).first_avail + click_size c n := by
        simp [set_first_avail_eq, upd_same]
      rw [ha, endp_set_first_avail] at hplay
      refine ⟨D, _ :: ptrs, s1, t1, L1, Play.fast hroom hplay, ?_, hh2, hmem, hsub, hD, ?_⟩
      · intro fuel hf
        simp only [pallocs, palloc_fast c fuel s A n hn hroom, hrun fuel hf]
      · intro x hx
        rw [hch x hx, endp_set_first_avail]
    · -- a block is asked for
      obtain ⟨b, s0, _, g, hrun0, hh1⟩ := hh.alloc_slow hA hK hB n hn e hroom
      have hrs := Rep.sub A hh.rep hA
      rw [e] at hrs
      obtain ⟨_, _, _, _, _, h6, _⟩ := hrs
      have hlastC : (s.pl A).last ∈ chain := List.mem_of_getLast?_eq_some h6
      have hsubb := (hh.outer hA).2.2.2.2.2.2.1
      rw [e] at hsubb
      have hchain_t : ∀ x ∈ chain, x ∈ t.blocks := fun x hx => hsubb x (by simp [PT.blocks, hx])
      have hbL := List.nodup_append.mp hh.nodup_blocks
      have hbt : b ∉ t.blocks := by
        intro hm
        rcases g.origin with ho | ho
        · exact hbL.2.2 hm ho.1
        · have := hh.below b (List.mem_append_left _ hm); omega
      have hbl : b ≠ (s0.pl A).last := by
        rw [g.pl_eq]
        exact fun e2 => hbt (hchain_t _ (e2 ▸ hlastC))
      have hA1 : A ∈ (t.replace A (.node A (chain ++ [b]) cln kids sibs)).pools :=
        (PT.mem_rechain t A hh.nodup_pools hA e _ A).mpr hA
      have hsub1 := PT.sub_replace_self t A (chain ++ [b]) cln kids sibs hh.nodup_pools hA
      obtain ⟨D, ptrs, s1, t1, L1, hplay, hrun, hh2, hmem, hsub, hD, hch⟩ :=
        Heap.play hK hB rest hrest hh1 hA1 hsub1
      have hl : ((link_block s0 A b (click_size c n)).pl A).last = b := by
        rw [link_block_pl, upd_same]
      obtain ⟨f1, _⟩ := link_block_facts s0 A b (click_size c n) hbl
      have ha : ((link_block s0 A b (click_size c n)).blk b).first_avail =
          b + c.BLOCK_HDR_SZ + click_size c n := by
        rw [link_block_blk s0 A b _ hbl, upd_same]
        show (s0.blk b).first_avail + _ = _
        rw [g.avail_eq]
      rw [hl, ha, f1] at hplay
      refine ⟨(b, (s0.blk b).endp) :: D, _ :: ptrs, s1, t1, L1,
        Play.slow hroom g.room hplay, ?_, hh2, ?_, ?_, ?_, ?_⟩
      · intro fuel hf
        have hf2 : (L.erase b).length < fuel :=
          Nat.lt_of_le_of_lt (List.erase_sublist b L).length_le hf
        simp only [pallocs, hrun0 fuel hf, hrun fuel hf2]
      · intro x
        rw [hmem x, PT.mem_rechain t A hh.nodup_pools hA e]
      · rw [hsub]
        simp
      · intro d hd
        simp only [List.mem_cons] at hd
        rcases hd with hd | hd
        · subst hd
          show (s1.blk b).endp = (s0.blk b).endp
          rw [hch b (by simp), f1]
        · exact hD d hd
      · intro x hx
        rw [hch x (by simp [hx]), f1]
        exact g.endp_eq x (by have := hh.below x (List.mem_append_left _ (hchain_t x hx)); omega)

/-- A run of `palloc` calls whose course is the `Play` of an earlier run, in a
well-formed state whose free list starts with the blocks of that `Play`: every block is
taken from the head of the free list, so that nothing is allotted by `malloc`. -/
theorem Heap.replay {c : Cfg} (hK : 0 < c.CLICK_SZ) (hB : 0 < c.BLOCK_MINFREE) {r A : Nat}
    {a e : Nat} {sizes : List Int} {D : List (Nat × Nat)} {ptrs : List Nat}
    (hplay : Play c a e sizes D ptrs) :
    (∀ n ∈ sizes, 0 < n) →
    ∀ {s : State} {t : PT} {M chain cln : List Nat} {kids sibs : PT},
    Heap c s t (D.map Prod.fst ++ M) r → A ∈ t.pools → t.sub A = .node A chain cln kids sibs →
    (s.blk (s.pl A).last).first_avail = a → (s.blk (s.pl A).last).endp = e →
    (∀ d ∈ D, (s.blk d.1).endp = d.2) →
    ∃ s1 t1, (∀ fuel, (D.map Prod.fst ++ M).length < fuel →
        pallocs c fuel s A sizes = .ok (ptrs, s1)) ∧
      Heap c s1 t1 M r ∧ (∀ x, x ∈ t1.pools ↔ x ∈ t.pools) ∧
      t1.sub A = .node A (chain ++ D.map Prod.fst) cln kids sibs ∧
      s1.stat_malloc = s.stat_malloc ∧ s1.stat_freehit = s.stat_freehit + D.length := by
  induction hplay with
  | done a e =>
    intro _ s t M chain cln kids sibs hh hA hsub _ _ _
    exact ⟨s, t, fun _ _ => rfl, by simpa using hh, fun _ => Iff.rfl, by simpa using hsub,
      rfl, rfl⟩
  | @fast a e n rest D ptrs hroom _ ih =>
    intro hpos s t M chain cln kids sibs hh hA hsub ha he hD
    have hn : 0 < n := hpos n (List.mem_cons_self _ _)
    have hrest : ∀ m ∈ rest, 0 < m := fun m hm => hpos m (List.mem_cons_of_mem _ hm)
    rw [← ha, ← he] at hroom
    have hh1 := hh.alloc_fast hA ((s.blk (s.pl A).last).first_avail + click_size c n)
    have ha1 : ((s.set_first_avail (s.pl A).last
        ((s.blk (s.pl A).last).first_avail + click_size c n)).blk
        ((s.set_first_avail (s.pl A).last
          ((s.blk (s.pl A).last).first_avail + click_size c n)).pl A).last).first_avail
        = a + click_size c n := by
      show ((s.set_first_avail (s.pl A).last _).blk (s.pl A).last).first_avail = _
      simp [set_first_avail_eq, upd_same, ha]
    have he1 : ((s.set_first_avail (s.pl A).last
        ((s.blk (s.pl A).last).first_avail + click_size c n)).blk
        ((s.set_first_avail (s.pl A).last
          ((s.blk (s.pl A).last).first_avail + click_size c n)).pl A).last).endp = e := by
      show ((s.set_first_avail (s.pl A).last _).blk (s.pl A).last).endp = _
      rw [endp_set_first_avail, he]
    obtain ⟨s1, t1, hrun, hh2, hmem, hsub1, hm, hf⟩ := ih hrest hh1 hA hsub ha1 he1
      (fun d hd => by rw [endp_set_first_avail]; exact hD d hd)
    refine ⟨s1, t1, ?_, hh2, hmem, hsub1, hm, hf⟩
    intro fuel hfu
    simp only [pallocs, palloc_fast c fuel s A n hn hroom, hrun fuel hfu]
    rw [ha]
  | @slow a e d ed n rest D ptrs hroom hfit _ ih =>
    intro hpos s t M chain cln kids sibs hh hA hsub ha he hD
    have hn : 0 < n := hpos n (List.mem_cons_self _ _)
    have hrest : ∀ m ∈ rest, 0 < m := fun m hm => hpos m (List.mem_cons_of_mem _ hm)
    rw [← ha, ← he] at hroom
    simp only [List.map_cons, List.cons_append] at hh ⊢
    have hdL : d ∈ d :: (D.map Prod.fst ++ M) := List.mem_cons_self _ _
    have hdbrk : d < s.brk := hh.below d (List.mem_append_right _ hdL)
    have hded : (s.blk d).endp = ed := hD (d, ed) (List.mem_cons_self _ _)
    obtain ⟨b, s0, hNB, g, hrun0, hh1⟩ := hh.alloc_slow hA hK hB n hn hsub hroom
    have hroomd : ((block_size c (click_size c n) : Nat) : Int) ≤ s.room d := by
      unfold State.room
      rw [hded, hh.empty d hdL]
      push_cast
      omega
    have hbd : b = d := hNB.head hroomd
    subst hbd
    rw [List.erase_cons_head] at hh1
    have hstat : s0.stat_malloc = s.stat_malloc ∧ s0.stat_freehit = s.stat_freehit + 1 := by
      rcases g.origin with ho | ho
      · exact ⟨ho.2.2.1, ho.2.2.2⟩
      · omega
    have hrs := Rep.sub A hh.rep hA
    rw [hsub] at hrs
    obtain ⟨_, _, _, _, _, h6, _⟩ := hrs
    have hlastC : (s.pl A).last ∈ chain := List.mem_of_getLast?_eq_some h6
    have hsubb := (hh.outer hA).2.2.2.2.2.2.1
    rw [hsub] at hsubb
    have hbL := List.nodup_append.mp hh.nodup_blocks
    have hbt : b ∉ t.blocks := fun hm => hbL.2.2 hm hdL
    have hbl : b ≠ (s0.pl A).last := by
      rw [g.pl_eq]
      intro e2
      have := hsubb (s.pl A).last (by simp [PT.blocks, hlastC])
      rw [← e2] at this
      exact hbt this
    have hA1 : A ∈ (t.replace A (.node A (chain ++ [b]) cln kids sibs)).pools :=
      (PT.mem_rechain t A hh.nodup_pools hA hsub _ A).mpr hA
    have hsub1 := PT.sub_replace_self t A (chain ++ [b]) cln kids sibs hh.nodup_pools hA
    have hl : ((link_block s0 A b (click_size c n)).pl A).last = b := by
      rw [link_block_pl, upd_same]
    obtain ⟨f1, _⟩ := link_block_facts s0 A b (click_size c n) hbl
    have ha1 : ((link_block s0 A b (click_size c n)).blk
        ((link_block s0 A b (click_size c n)).pl A).last).first_avail =
        b + c.BLOCK_HDR_SZ + click_size c n := by
      rw [hl, link_block_blk s0 A b _ hbl, upd_same]
      show (s0.blk b).first_avail + _ = _
      rw [g.avail_eq]
    have he1 : ((link_block s0 A b (click_size c n)).blk
        ((link_block s0 A b (click_size c n)).pl A).last).endp = ed := by
      rw [hl, f1, g.endp_eq b (by omega), hded]
    obtain ⟨s1, t1, hrun, hh2, hmem, hsub2, hm, hf⟩ := ih hrest hh1 hA1 hsub1 ha1 he1
      (fun d2 hd2 => by
        rw [f1, g.endp_eq d2.1 (by
          have := hh.below d2.1 (List.mem_append_right _ (List.mem_cons_of_mem _
            (List.mem_append_left _ (List.mem_map_of_mem Prod.fst hd2))))
          omega)]
        exact hD d2 (List.mem_cons_of_mem _ hd2))
    obtain ⟨k1, k2⟩ := link_block_stats s0 A b (click_size c n)
    refine ⟨s1, t1, ?_, hh2, ?_, ?_, ?_, ?_⟩
    · intro fuel hfu
      have hfu2 : (D.map Prod.fst ++ M).length < fuel := by
        simp only [List.length_cons] at hfu
        omega
      simp only [pallocs, hrun0 fuel hfu, hrun fuel hfu2]
    · intro x
      rw [hmem x, PT.mem_rechain t A hh.nodup_pools hA hsub]
    · rw [hsub2]
      simp
    · rw [hm, k1, hstat.1]
    · rw [hf, k2, hstat.2, List.length_cons]
      omega

end Pool
